import Mathlib

/-!
# Shashki: a verification development for `main.c`

Shallow embedding of the rules engine of the console checkers program
(`src/main.c`): the logical board `lodic`, the move and capture generators,
the player's capture-chain explorer, promotion, the evaluator, the
computer's move selector, the player's move with its console dialogue, the
end-of-game test and one pass of the game loop with its display refresh,
followed by theorems about them.

Conventions of the embedding.

* `char g[h][w]` is a function `Fin h → Fin w → Char`; the C expression
  `g[y][x]` with `short`/`int` indices is `g.rd y x`, and the assignment
  `g[y][x] = c` is `g.wr y x c`.  Every index the rules engine uses is
  guarded by a bounds test or produced from an on-board cell; a read outside
  the array (undefined behaviour in C) yields `' '` here and a write outside
  is a no-op.  The one write outside that the program makes on ordinary
  boards is `board[0][-1]`, by `light` on the zeroed entries of `off` in the
  plain branch of `player_move`.
* `short` and `int` values are `Int`.  All coordinates stay within `-2 .. 33`
  and the piece counts of a game within `0 .. 12`, where the exact values
  are what the program computes.  Where a statement ranges over all counts
  the arithmetic of the program is explicit: `wrap32` is the value a 32-bit
  `int` holds, `evaluate_board_pc_int32` is the evaluator in that arithmetic,
  and `evaluate_board_pc_int32_eq` shows that it agrees with the exact
  `evaluate_board_pc` used by the search while the counts stay within
  40 000 000; `reverse_graph_koordinaty_short` does the same for the `short`
  results of the coordinate mapping.
* The process-wide variables `is_player_turn`, `player_is_white`,
  `game_state`, `board` and `lodic` are the fields of `Globals`, passed in
  and returned explicitly by every function that touches them.
* Output parameters are passed in with their previous contents and returned,
  so that "is not written" is expressible.  Uninitialised locals that the
  program may read or copy (`best_lodic`, `local_best_lodic`,
  `best_game_state` of `computer_move`) are parameters `junk`, `junk_gs` of
  arbitrary content.
* The two recursive chain functions take a recursion bound as first argument
  and return `none` when it is exhausted; `chainFuel = 65` is shown to
  suffice on every board (`calculate_kill_moves_some`,
  `properLeaves_chainFuel`), and the theorems state that a result is
  returned.
* `player_move` interleaves console input with the game logic.  Its parts
  that change the game state once the choice has been entered are embedded
  as `player_commit_move` and `player_commit_kill`; the whole function is
  `player_move`, over a `Console` that holds the results of its `scanf`
  calls and the lines it prints.  The helpers `light` and `highlight_piece`
  write only the display columns `x - 1` and `x + 1` next to the marker
  column `x = 4 * x_8 + 2` of a cell, which `becameQueen` never reads.
-/

namespace Shashki

/-! ## Data model -/

/-- A character grid `char g[h][w]`, row index first. -/
abbrev Grid (h w : Nat) := Fin h → Fin w → Char

/-- The read `g[y][x]`. -/
def Grid.rd {h w : Nat} (g : Grid h w) (y x : Int) : Char :=
  if hy : 0 ≤ y ∧ y < h then
    if hx : 0 ≤ x ∧ x < w then g ⟨y.toNat, by omega⟩ ⟨x.toNat, by omega⟩ else ' '
  else ' '

/-- The assignment `g[y][x] = c`. -/
def Grid.wr {h w : Nat} (g : Grid h w) (y x : Int) (c : Char) : Grid h w :=
  fun i j => if (i.val : Int) = y ∧ (j.val : Int) = x then c else g i j

/-- Grid given row by row; cells not listed hold `' '`. -/
def Grid.ofRows {h w : Nat} (rows : List (List Char)) : Grid h w :=
  fun i j => (rows.getD i.val []).getD j.val ' '

/-- The logical board `char lodic[8][8]`: `'0'` empty playable cell, `'1'`
computer man, `'2'` player man, `'3'` computer king, `'4'` player king,
`' '` non-playable cell. -/
abbrev Lodic := Grid 8 8

/-- The display grid `char board[BOARD_SIZE][SIZE + 1]`. -/
abbrev Board := Grid 18 36

/-- `struct GameState`. -/
structure GameState where
  count_white : Int
  count_black : Int
  count_white_king : Int
  count_black_king : Int
deriving DecidableEq, Repr

/-- `struct Position`: display coordinates `x`, `y`, logical coordinates
`x_8`, `y_8`. -/
structure Position where
  x : Int
  y : Int
  x_8 : Int
  y_8 : Int
  damka : Bool
deriving DecidableEq, Repr

/-- `struct Valid_Hod`. -/
structure Valid_Hod where
  l_h : Bool
  lh_y : Int
  lh_x : Int
  r_h : Bool
  rh_y : Int
  rh_x : Int
  l_s : Bool
  ls_y : Int
  ls_x : Int
  r_s : Bool
  rs_y : Int
  rs_x : Int
deriving DecidableEq, Repr

/-- `struct Valid_Kill`. -/
structure Valid_Kill where
  kill_l_h : Bool
  kill_lh_y : Int
  kill_lh_x : Int
  kill_r_h : Bool
  kill_rh_y : Int
  kill_rh_x : Int
  kill_l_s : Bool
  kill_ls_y : Int
  kill_ls_x : Int
  kill_r_s : Bool
  kill_rs_y : Int
  kill_rs_x : Int
deriving DecidableEq, Repr

/-- The process-wide variables of `main.c`. -/
structure Globals where
  is_player_turn : Bool
  player_is_white : Bool
  game_state : GameState
  board : Board
  lodic : Lodic

/-- Contents of a `Valid_Kill` local before `get_valid_kill` fills it. -/
def Valid_Kill.fresh : Valid_Kill :=
  ⟨false, 0, 0, false, 0, 0, false, 0, 0, false, 0, 0⟩

/-- Contents of a `Valid_Hod` local before `get_valid_moves` fills it. -/
def Valid_Hod.fresh : Valid_Hod :=
  ⟨false, 0, 0, false, 0, 0, false, 0, 0, false, 0, 0⟩

/-! ## Coordinate mapping -/

/-- `reverse_graph_koordinaty`: logical cell to display cell, returned as
`(x, y)`.  The source takes and stores `short`; these are the exact values,
which are what it stores for `i_x` in `-8192 .. 8191` and `i_y` in
`-16384 .. 16383`, in particular on the board
(`reverse_graph_koordinaty_short`). -/
def reverse_graph_koordinaty (i_x i_y : Int) : Int × Int :=
  ((i_x * 4) + 2, 1 + (i_y * 2))

/-- `reverse_graph_out_koordinaty`: logical cell to algebraic notation,
returned as `(x, y)` (column letter, row digit).  The sums `'A' + i_x` and
`'8' - i_y` are stored into `char` objects, which keeps their low 8 bits. -/
def reverse_graph_out_koordinaty (i_x i_y : Int) : Bool × Char × Char :=
  (true, Char.ofNat ((((('A'.toNat : Nat) : Int) + i_x) % 256).toNat),
    Char.ofNat ((((('8'.toNat : Nat) : Int) - i_y) % 256).toNat))

/-- `koordinaty (x, y, &i_x, &i_y, &i_x_8, &i_y_8)`: algebraic notation to
display and logical coordinates.  The four output parameters are passed in
with their previous contents `out = (i_x, i_y, i_x_8, i_y_8)` and returned
with the result. -/
def koordinaty (x y : Char) (out : Int × Int × Int × Int) : Bool × (Int × Int × Int × Int) :=
  if x < 'A' ∨ x > 'H' ∨ y < '1' ∨ y > '8' then (false, out)
  else
    let in_x : Int := ((x.toNat : Nat) : Int) - (('A'.toNat : Nat) : Int)
    let in_y : Int := ((y.toNat : Nat) : Int) - (('0'.toNat : Nat) : Int)
    let i_x_8 := in_x
    let i_y_8 := 8 - in_y
    (true, ((reverse_graph_koordinaty i_x_8 i_y_8).1, (reverse_graph_koordinaty i_x_8 i_y_8).2,
      i_x_8, i_y_8))

/-- `toupper` of the C library as `player_move` uses it on the column letter
(`x = toupper(x)`), in the "C" locale, which the program never changes: the
letters `'a'`..`'z'` are mapped to `'A'`..`'Z'`, every other character to
itself. -/
def toupper (c : Char) : Char :=
  if 'a' ≤ c ∧ c ≤ 'z' then Char.ofNat (c.toNat - 32) else c

/-! ## Move generator -/

/-- `get_valid_moves (where, motion, lodic)`: returns the count and the
filled `motion`.  The four `if` blocks of the source (left-down, right-down,
left-up, right-up) each test their own destination cell, refuse the step to
a player man `'2'` going down and to a computer man `'1'` going up, and
write only their own flag and coordinates, so the result is assembled field
by field from the four block conditions `c_ls`, `c_rs`, `c_lh`, `c_rh`. -/
def get_valid_moves (pos : Position) (motion : Valid_Hod) (lodic : Lodic) :
    Int × Valid_Hod :=
  let piece := lodic.rd pos.y_8 pos.x_8
  if piece = '1' ∨ piece = '2' ∨ piece = '3' ∨ piece = '4' then
    let c_ls : Bool := ((pos.y_8 + 1 < 8 ∧ pos.x_8 - 1 ≥ 0) ∧
      lodic.rd (pos.y_8 + 1) (pos.x_8 - 1) = '0') ∧ ¬ piece = '2'
    let c_rs : Bool := ((pos.y_8 + 1 < 8 ∧ pos.x_8 + 1 < 8) ∧
      lodic.rd (pos.y_8 + 1) (pos.x_8 + 1) = '0') ∧ ¬ piece = '2'
    let c_lh : Bool := ((pos.y_8 - 1 ≥ 0 ∧ pos.x_8 - 1 ≥ 0) ∧
      lodic.rd (pos.y_8 - 1) (pos.x_8 - 1) = '0') ∧ ¬ piece = '1'
    let c_rh : Bool := ((pos.y_8 - 1 ≥ 0 ∧ pos.x_8 + 1 < 8) ∧
      lodic.rd (pos.y_8 - 1) (pos.x_8 + 1) = '0') ∧ ¬ piece = '1'
    ((if c_ls then 1 else 0) + (if c_rs then 1 else 0) + (if c_lh then 1 else 0) +
        (if c_rh then 1 else 0),
      { l_h := c_lh
        lh_y := if c_lh then pos.y_8 - 1 else motion.lh_y
        lh_x := if c_lh then pos.x_8 - 1 else motion.lh_x
        r_h := c_rh
        rh_y := if c_rh then pos.y_8 - 1 else motion.rh_y
        rh_x := if c_rh then pos.x_8 + 1 else motion.rh_x
        l_s := c_ls
        ls_y := if c_ls then pos.y_8 + 1 else motion.ls_y
        ls_x := if c_ls then pos.x_8 - 1 else motion.ls_x
        r_s := c_rs
        rs_y := if c_rs then pos.y_8 + 1 else motion.rs_y
        rs_x := if c_rs then pos.x_8 + 1 else motion.rs_x })
  else
    (0, { motion with l_h := false, r_h := false, l_s := false, r_s := false })

/-! ## Capture generator -/

/-- The four capture blocks of one turn branch of `get_valid_kill`, for the
enemy markers `man` and `king` that branch tests (`'1'`, `'3'` in the
`is_player_turn` branch, `'2'`, `'4'` in the other); the two branches of the
source are otherwise the same text.  Each block (left-down, right-down,
left-up, right-up) writes only its own flag and landing coordinates, so the
result is assembled field by field from the block conditions. -/
def get_valid_kill_blocks (man king : Char) (pos : Position) (velian : Valid_Kill)
    (lodic : Lodic) : Int × Valid_Kill :=
  let c_ls : Bool := (pos.y_8 + 1 < 8 ∧ pos.x_8 - 1 ≥ 0) ∧
    (lodic.rd (pos.y_8 + 1) (pos.x_8 - 1) = man ∨
      lodic.rd (pos.y_8 + 1) (pos.x_8 - 1) = king) ∧
    (pos.y_8 + 2 < 8 ∧ pos.x_8 - 2 ≥ 0) ∧
    lodic.rd (pos.y_8 + 2) (pos.x_8 - 2) = '0'
  let c_rs : Bool := (pos.y_8 + 1 < 8 ∧ pos.x_8 + 1 < 8) ∧
    (lodic.rd (pos.y_8 + 1) (pos.x_8 + 1) = man ∨
      lodic.rd (pos.y_8 + 1) (pos.x_8 + 1) = king) ∧
    (pos.y_8 + 2 < 8 ∧ pos.x_8 + 2 < 8) ∧
    lodic.rd (pos.y_8 + 2) (pos.x_8 + 2) = '0'
  let c_lh : Bool := (pos.y_8 - 1 ≥ 0 ∧ pos.x_8 - 1 ≥ 0) ∧
    (lodic.rd (pos.y_8 - 1) (pos.x_8 - 1) = man ∨
      lodic.rd (pos.y_8 - 1) (pos.x_8 - 1) = king) ∧
    (pos.y_8 - 2 ≥ 0 ∧ pos.x_8 - 2 ≥ 0) ∧
    lodic.rd (pos.y_8 - 2) (pos.x_8 - 2) = '0'
  let c_rh : Bool := (pos.y_8 - 1 ≥ 0 ∧ pos.x_8 + 1 < 8) ∧
    (lodic.rd (pos.y_8 - 1) (pos.x_8 + 1) = man ∨
      lodic.rd (pos.y_8 - 1) (pos.x_8 + 1) = king) ∧
    (pos.y_8 - 2 ≥ 0 ∧ pos.x_8 + 2 < 8) ∧
    lodic.rd (pos.y_8 - 2) (pos.x_8 + 2) = '0'
  ((if c_ls then 1 else 0) + (if c_rs then 1 else 0) + (if c_lh then 1 else 0) +
      (if c_rh then 1 else 0),
    { kill_l_h := c_lh
      kill_lh_y := if c_lh then pos.y_8 - 2 else velian.kill_lh_y
      kill_lh_x := if c_lh then pos.x_8 - 2 else velian.kill_lh_x
      kill_r_h := c_rh
      kill_rh_y := if c_rh then pos.y_8 - 2 else velian.kill_rh_y
      kill_rh_x := if c_rh then pos.x_8 + 2 else velian.kill_rh_x
      kill_l_s := c_ls
      kill_ls_y := if c_ls then pos.y_8 + 2 else velian.kill_ls_y
      kill_ls_x := if c_ls then pos.x_8 - 2 else velian.kill_ls_x
      kill_r_s := c_rs
      kill_rs_y := if c_rs then pos.y_8 + 2 else velian.kill_rs_y
      kill_rs_x := if c_rs then pos.x_8 + 2 else velian.kill_rs_x })

/-- `get_valid_kill (where, velian, lodic)` under the global
`is_player_turn`: returns the count and the filled `velian`. -/
def get_valid_kill (is_player_turn : Bool) (pos : Position) (velian : Valid_Kill)
    (lodic : Lodic) : Int × Valid_Kill :=
  let piece := lodic.rd pos.y_8 pos.x_8
  if piece = '1' ∨ piece = '2' ∨ piece = '3' ∨ piece = '4' then
    if is_player_turn then get_valid_kill_blocks '1' '3' pos velian lodic
    else get_valid_kill_blocks '2' '4' pos velian lodic
  else
    (0, { velian with
      kill_l_h := false, kill_r_h := false, kill_l_s := false, kill_r_s := false })

/-! ## Promotion -/

/-- `becameQueen (where, lodic)`: reads the globals `player_is_white`,
`is_player_turn` and the display cell `board[where.y][where.x]`; on promotion
writes the display cell, the logical cell of the `lodic` argument and the
global counts.  Returns the globals and the `lodic` argument.  (When the
first test of a colour branch fails or its display cell already shows the
king, control falls through to the second test, as in the source.) -/
def becameQueen (G : Globals) (pos : Position) (lodic : Lodic) : Globals × Lodic :=
  let gs := G.game_state
  if G.player_is_white then
    if (pos.y_8 = 0 ∧ G.is_player_turn = true) ∧ G.board.rd pos.y pos.x ≠ 'W' then
      ({ G with
          board := G.board.wr pos.y pos.x 'W'
          game_state := { gs with
            count_white_king := gs.count_white_king + 1
            count_white := gs.count_white - 1 } },
        lodic.wr pos.y_8 pos.x_8 '4')
    else if (pos.y_8 = 7 ∧ G.is_player_turn = false) ∧ G.board.rd pos.y pos.x ≠ 'B' then
      ({ G with
          board := G.board.wr pos.y pos.x 'B'
          game_state := { gs with
            count_black_king := gs.count_black_king + 1
            count_black := gs.count_black - 1 } },
        lodic.wr pos.y_8 pos.x_8 '3')
    else (G, lodic)
  else
    if (pos.y_8 = 0 ∧ G.is_player_turn = true) ∧ G.board.rd pos.y pos.x ≠ 'B' then
      ({ G with
          board := G.board.wr pos.y pos.x 'B'
          game_state := { gs with
            count_black_king := gs.count_black_king + 1
            count_black := gs.count_black - 1 } },
        lodic.wr pos.y_8 pos.x_8 '4')
    else if (pos.y_8 = 7 ∧ G.is_player_turn = false) ∧ G.board.rd pos.y pos.x ≠ 'W' then
      ({ G with
          board := G.board.wr pos.y pos.x 'W'
          game_state := { gs with
            count_white_king := gs.count_white_king + 1
            count_white := gs.count_white - 1 } },
        lodic.wr pos.y_8 pos.x_8 '3')
    else (G, lodic)

/-! ## Evaluator -/

/-- `evaluate_board_pc (lodic, is_white)`, reading the global `game_state`, in
exact integers.  The program computes in 32-bit `int`
(`evaluate_board_pc_int32`); the two agree while the four counts lie within
40 000 000 (`evaluate_board_pc_int32_eq`), in particular on the counts
`0 .. 12` of a game. -/
def evaluate_board_pc (game_state : GameState) (lodic : Lodic) (is_white : Bool) : Int :=
  let score : Int := 0
  let our_count := if is_white then game_state.count_white else game_state.count_black
  let opponent_count := if is_white then game_state.count_black else game_state.count_white
  let inc := (our_count - opponent_count) * 10
  let score := score + (if inc > 0 then inc else 0)
  let our_count := if is_white then game_state.count_white_king
    else game_state.count_black_king
  let opponent_count := if is_white then game_state.count_black_king
    else game_state.count_white_king
  let inc := (our_count - opponent_count) * 15
  let score := score + (if inc > 0 then inc else 0)
  let score := score + (if lodic.rd 3 4 = '1' then 1 else 0) * 2
  let score := score + (if lodic.rd 3 4 = '1' then 1 else 0) * 2
  let score := score + (if lodic.rd 3 4 = '1' then 1 else 0) * 2
  let score := score + (if lodic.rd 3 4 = '1' then 1 else 0) * 2
  score

/-! ## Capture-chain explorer (player) -/

/-- One filled slot of the three parallel output buffers of
`calculate_kill_moves`: `move_buffer[i]`, `lodic_buffer[i]`,
`game_states[i]`. -/
structure Outcome where
  x_8 : Int
  y_8 : Int
  lodic : Lodic
  game_state : GameState

/-- The body of one direction block of `calculate_kill_moves` up to its
recursive call, for the captured cell `(kx, ky)` and the landing `(nx, ny)`
taken from `vks`: decrements the global count of the captured piece, builds
`new_pos` and `lodic_copy`.  The four blocks of the source differ only in
these cells. -/
def kill_block (G : Globals) (pos : Position) (lodic : Lodic) (ky kx ny nx : Int) :
    Globals × Position × Lodic :=
  let gs := G.game_state
  let piece := lodic.rd ky kx
  let gs1 :=
    if piece = '1' then
      (if ¬ G.player_is_white then { gs with count_white := gs.count_white - 1 }
       else { gs with count_black := gs.count_black - 1 })
    else if piece = '3' then
      (if ¬ G.player_is_white then { gs with count_white_king := gs.count_white_king - 1 }
       else { gs with count_black_king := gs.count_black_king - 1 })
    else gs
  let new_pos : Position :=
    { pos with
      x_8 := nx
      y_8 := ny
      x := (reverse_graph_koordinaty nx ny).1
      y := (reverse_graph_koordinaty nx ny).2 }
  let lodic_copy :=
    ((lodic.wr ky kx '0').wr ny nx (lodic.rd pos.y_8 pos.x_8)).wr pos.y_8 pos.x_8 '0'
  ({ G with game_state := gs1 }, new_pos, lodic_copy)

/-- One direction block of `calculate_kill_moves`: when the flag is set, run
`kill_block`, recurse (`rec`) and restore `game_state = gs_copy`. -/
def kill_branch (rec : Globals → Position → Lodic → List Outcome →
      Option (Globals × List Outcome))
    (flag : Bool) (ky kx ny nx : Int) (pos : Position) (lodic : Lodic)
    (gs_copy : GameState) (st : Globals × List Outcome) :
    Option (Globals × List Outcome) :=
  if flag then
    (rec (kill_block st.1 pos lodic ky kx ny nx).1 (kill_block st.1 pos lodic ky kx ny nx).2.1
        (kill_block st.1 pos lodic ky kx ny nx).2.2 st.2).map
      fun r => ({ r.1 with game_state := gs_copy }, r.2)
  else some st

/-- `calculate_kill_moves (pos, lodic, move_i, move_buffer, lodic_buffer,
game_states)`.  The list is the filled part `[0, *move_i)` of the output
buffers and the function appends to it; the capacity of the caller's arrays
is not part of this function.  The first argument bounds the recursion
depth: the result is `none` only when it is exhausted. -/
def calculate_kill_moves : Nat → Globals → Position → Lodic → List Outcome →
    Option (Globals × List Outcome)
  | 0, _, _, _, _ => none
  | fuel + 1, G, pos, lodic, buf =>
    let vks := (get_valid_kill G.is_player_turn pos Valid_Kill.fresh lodic).2
    let vks_count := (get_valid_kill G.is_player_turn pos Valid_Kill.fresh lodic).1
    if vks_count = 0 then
      some (G, buf ++ [⟨pos.x_8, pos.y_8, lodic, G.game_state⟩])
    else
      let gs_copy := G.game_state
      (((kill_branch (calculate_kill_moves fuel) vks.kill_l_h
            (pos.y_8 - 1) (pos.x_8 - 1) vks.kill_lh_y vks.kill_lh_x pos lodic gs_copy
            (G, buf)).bind
          (kill_branch (calculate_kill_moves fuel) vks.kill_r_h
            (pos.y_8 - 1) (pos.x_8 + 1) vks.kill_rh_y vks.kill_rh_x pos lodic gs_copy)).bind
          (kill_branch (calculate_kill_moves fuel) vks.kill_l_s
            (pos.y_8 + 1) (pos.x_8 - 1) vks.kill_ls_y vks.kill_ls_x pos lodic gs_copy)).bind
          (kill_branch (calculate_kill_moves fuel) vks.kill_r_s
            (pos.y_8 + 1) (pos.x_8 + 1) vks.kill_rs_y vks.kill_rs_x pos lodic gs_copy)

/-- Recursion bound that suffices on every board (a chain removes one of at
most 64 cells' pieces per step). -/
def chainFuel : Nat := 65

/-! ## Best-sequence search (computer) -/

/-- The running best of the search: the `mx_score` argument / return value
and the out-parameters `best_lodic`, `best_game_state`. -/
structure Best where
  mx_score : Int
  best_lodic : Lodic
  best_game_state : GameState

/-- The body of one direction block of `get_best_sequent_kills` up to the
call of `get_valid_kill`: decrements the global count of the captured piece,
builds `new_pos` and `lodic_copy` (the landing cell receives `'1'`) and calls
`becameQueen`. -/
def best_block (G : Globals) (pos : Position) (lodic : Lodic) (ky kx ny nx : Int) :
    Globals × Position × Lodic :=
  let gs := G.game_state
  let piece := lodic.rd ky kx
  let gs1 :=
    if piece = '2' then
      (if G.player_is_white then { gs with count_white := gs.count_white - 1 }
       else { gs with count_black := gs.count_black - 1 })
    else if piece = '4' then
      (if G.player_is_white then { gs with count_white_king := gs.count_white_king - 1 }
       else { gs with count_black_king := gs.count_black_king - 1 })
    else gs
  let new_pos : Position :=
    { pos with
      x_8 := nx
      y_8 := ny
      x := (reverse_graph_koordinaty nx ny).1
      y := (reverse_graph_koordinaty nx ny).2 }
  let lodic_copy := ((lodic.wr ky kx '0').wr pos.y_8 pos.x_8 '0').wr ny nx '1'
  let q := becameQueen { G with game_state := gs1 } new_pos lodic_copy
  (q.1, new_pos, q.2)

/-- One direction block of `get_best_sequent_kills`: when the flag is set,
run `best_block`, compute `new_vks`, recurse (`rec`) and restore
`game_state = game_state_copy`. -/
def best_branch (rec : Globals → Position → Valid_Kill → Int → Best → Lodic →
      Option (Globals × Best))
    (flag : Bool) (ky kx ny nx : Int) (pos : Position) (lodic : Lodic)
    (game_state_copy : GameState) (st : Globals × Best) : Option (Globals × Best) :=
  if flag then
    let s := best_block st.1 pos lodic ky kx ny nx
    let new_vks := (get_valid_kill s.1.is_player_turn s.2.1 Valid_Kill.fresh s.2.2).2
    let new_vks_count := (get_valid_kill s.1.is_player_turn s.2.1 Valid_Kill.fresh s.2.2).1
    (rec s.1 s.2.1 new_vks new_vks_count st.2 s.2.2).map
      fun r => ({ r.1 with game_state := game_state_copy }, r.2)
  else some st

/-- `get_best_sequent_kills (pos, vks, vks_count, mx_score, lodic, best_lodic,
best_game_state)`, the last three bundled in `Best`.  The first argument
bounds the recursion depth. -/
def get_best_sequent_kills : Nat → Globals → Position → Valid_Kill → Int → Best → Lodic →
    Option (Globals × Best)
  | 0, _, _, _, _, _, _ => none
  | fuel + 1, G, pos, vks, vks_count, best, lodic =>
    if vks_count = 0 then
      let new_score := evaluate_board_pc G.game_state lodic (!G.player_is_white)
      if new_score > best.mx_score then
        some (G, { mx_score := new_score, best_lodic := lodic,
                   best_game_state := G.game_state })
      else some (G, best)
    else
      let game_state_copy := G.game_state
      (((best_branch (get_best_sequent_kills fuel) vks.kill_l_h
            (pos.y_8 - 1) (pos.x_8 - 1) vks.kill_lh_y vks.kill_lh_x pos lodic
            game_state_copy (G, best)).bind
          (best_branch (get_best_sequent_kills fuel) vks.kill_r_h
            (pos.y_8 - 1) (pos.x_8 + 1) vks.kill_rh_y vks.kill_rh_x pos lodic
            game_state_copy)).bind
          (best_branch (get_best_sequent_kills fuel) vks.kill_l_s
            (pos.y_8 + 1) (pos.x_8 - 1) vks.kill_ls_y vks.kill_ls_x pos lodic
            game_state_copy)).bind
          (best_branch (get_best_sequent_kills fuel) vks.kill_r_s
            (pos.y_8 + 1) (pos.x_8 + 1) vks.kill_rs_y vks.kill_rs_x pos lodic
            game_state_copy)

/-! ## Move selector (computer) -/

/-- The locals of `computer_move` that live across loop iterations. -/
structure Search where
  mx_score : Int
  best_lodic : Lodic
  best_gs : GameState
  has_to_kill : Bool
  no_moves : Bool

/-- One plain-move block of `computer_move` for the piece on `(x, y)` and the
destination `(nx, ny)` taken from `vhs`: builds `lodic_copy` (the destination
receives `'1'`), calls `becameQueen`, scores the copy, updates the running
best on a strictly greater score and restores `game_state = gs_copy`. -/
def move_block (x y ny nx : Int) (st : Globals × Search) : Globals × Search :=
  let G := st.1
  let S := st.2
  let lodic_copy := (G.lodic.wr y x '0').wr ny nx '1'
  let new_pos : Position :=
    { x := (reverse_graph_koordinaty nx ny).1
      y := (reverse_graph_koordinaty nx ny).2
      x_8 := nx
      y_8 := ny
      damka := false }
  let gs_copy := G.game_state
  let q := becameQueen G new_pos lodic_copy
  let score := evaluate_board_pc q.1.game_state q.2 (!G.player_is_white)
  let S1 :=
    if score > S.mx_score then
      { S with mx_score := score, best_lodic := q.2, best_gs := q.1.game_state,
               no_moves := false }
    else S
  ({ q.1 with game_state := gs_copy }, S1)

/-- The body of the scan loop of `computer_move` for the cell `(x, y)`.
`junk` and `junk_gs` are the indeterminate contents of the uninitialised
locals `local_best_lodic` and `best_game_state`. -/
def computer_move_cell (junk : Lodic) (junk_gs : GameState) (st : Globals × Search)
    (cell : Int × Int) : Option (Globals × Search) :=
  let G := st.1
  let S := st.2
  let y := cell.1
  let x := cell.2
  if G.lodic.rd y x ≠ '1' ∧ G.lodic.rd y x ≠ '3' then some st
  else
    let pos : Position :=
      { x := (reverse_graph_koordinaty x y).1
        y := (reverse_graph_koordinaty x y).2
        x_8 := x
        y_8 := y
        damka := false }
    let vks := (get_valid_kill G.is_player_turn pos Valid_Kill.fresh G.lodic).2
    let vks_count := (get_valid_kill G.is_player_turn pos Valid_Kill.fresh G.lodic).1
    if vks_count > 0 then
      (get_best_sequent_kills chainFuel G pos vks vks_count
          { mx_score := -1, best_lodic := junk, best_game_state := junk_gs } G.lodic).map
        fun r =>
          let new_score := r.2.mx_score
          let S1 :=
            if new_score > S.mx_score ∨ S.has_to_kill = false then
              { S with mx_score := new_score, best_lodic := r.2.best_lodic,
                       best_gs := r.2.best_game_state, no_moves := false }
            else S
          (r.1, { S1 with has_to_kill := true })
    else if S.has_to_kill then some st
    else
      let vhs := (get_valid_moves pos Valid_Hod.fresh G.lodic).2
      let vhs_count := (get_valid_moves pos Valid_Hod.fresh G.lodic).1
      if vhs_count = 0 then some st
      else
        let st1 := if vhs.l_h then move_block x y vhs.lh_y vhs.lh_x st else st
        let st2 := if vhs.r_h then move_block x y vhs.rh_y vhs.rh_x st1 else st1
        let st3 := if vhs.l_s then move_block x y vhs.ls_y vhs.ls_x st2 else st2
        let st4 := if vhs.r_s then move_block x y vhs.rs_y vhs.rs_x st3 else st3
        some st4

/-- The cells `(y, x)` visited by the scan loops
`for (y = 0; y < 8; y++) for (x = y % 2 == 0; x < 8; x += 2)`, in order. -/
def scan_cells : List (Int × Int) :=
  (List.range 8).flatMap fun y =>
    (List.range 4).map fun k => ((y : Int), (if y % 2 = 0 then 1 else 0) + 2 * (k : Int))

/-- The scan loop of `computer_move` over a list of cells. -/
def computer_move_loop (junk : Lodic) (junk_gs : GameState) :
    List (Int × Int) → Globals × Search → Option (Globals × Search)
  | [], st => some st
  | cell :: rest, st =>
    (computer_move_cell junk junk_gs st cell).bind (computer_move_loop junk junk_gs rest)

/-- `computer_move (board)`: returns the `bool` result and the globals after
the call.  `junk` is the indeterminate content of the uninitialised local
arrays (`best_lodic`, `local_best_lodic`), `junk_gs` that of the local
`best_game_state`.  The result is `none` only if a capture search exhausts
`chainFuel`. -/
def computer_move (junk : Lodic) (junk_gs : GameState) (G : Globals) :
    Option (Bool × Globals) :=
  (computer_move_loop junk junk_gs scan_cells
      (G, { mx_score := -1, best_lodic := junk, best_gs := G.game_state,
            has_to_kill := false, no_moves := true })).map
    fun st => (!st.2.no_moves, { st.1 with lodic := st.2.best_lodic, game_state := st.2.best_gs })

/-! ## Committed moves of the player and display refresh -/

/-- `Hod (where, x, y)`: moves the marker of the cell `where` of the global
`lodic` to `(x, y)`; returns the globals and the updated `where`. -/
def Hod (G : Globals) (pos : Position) (x y : Int) : Globals × Position :=
  let bslo := G.lodic.rd pos.y_8 pos.x_8
  let lodic1 := G.lodic.wr pos.y_8 pos.x_8 '0'
  let pos1 : Position := { pos with x_8 := x, y_8 := y }
  ({ G with lodic := lodic1.wr pos1.y_8 pos1.x_8 bslo }, pos1)

/-- The array `output` of `player_move`: the destinations flagged in `motion`,
as pairs `(x, y)`, in the order left-up, right-up, left-down, right-down. -/
def move_outputs (motion : Valid_Hod) : List (Int × Int) :=
  (if motion.l_h then [(motion.lh_x, motion.lh_y)] else []) ++
    (if motion.r_h then [(motion.rh_x, motion.rh_y)] else []) ++
    (if motion.l_s then [(motion.ls_x, motion.ls_y)] else []) ++
    (if motion.r_s then [(motion.rs_x, motion.rs_y)] else [])

/-- The commit of a plain move in `player_move` once the destination
`(hod_x, hod_y)` has been chosen: `Hod`, the display coordinates of the new
`where`, then `becameQueen (where, lodic)` on the global board. -/
def player_commit_move (G : Globals) (pos : Position) (hod_x hod_y : Int) : Globals :=
  let h := Hod G pos hod_x hod_y
  let where1 : Position :=
    { h.2 with
      x := (reverse_graph_koordinaty h.2.x_8 h.2.y_8).1
      y := (reverse_graph_koordinaty h.2.x_8 h.2.y_8).2 }
  let q := becameQueen h.1 where1 h.1.lodic
  { q.1 with lodic := q.2 }

/-- The commit of a capture chain in `player_move` once the outcome `o` of
`calculate_kill_moves` has been chosen: `where` becomes the end cell of the
outcome, the global board and counts are replaced by those of the outcome,
then `becameQueen (where, lodic)` on the global board. -/
def player_commit_kill (G : Globals) (pos : Position) (o : Outcome) : Globals :=
  let where1 : Position :=
    { pos with
      x_8 := o.x_8
      y_8 := o.y_8
      x := (reverse_graph_koordinaty o.x_8 o.y_8).1
      y := (reverse_graph_koordinaty o.x_8 o.y_8).2 }
  let G1 : Globals := { G with lodic := o.lodic, game_state := o.game_state }
  let q := becameQueen G1 where1 G1.lodic
  { q.1 with lodic := q.2 }

/-- The display marker that the refresh loop of `play_game` writes for a
logical marker. -/
def display_marker (player_is_white : Bool) (c : Char) : Char :=
  if player_is_white then
    (if c = '0' then '*' else if c = '1' then '0' else if c = '2' then 'O'
      else if c = '3' then 'B' else if c = '4' then 'W' else ' ')
  else
    (if c = '0' then '*' else if c = '1' then 'O' else if c = '2' then '0'
      else if c = '3' then 'W' else if c = '4' then 'B' else ' ')

/-- The refresh loop of `play_game` after a turn: the display cell of every
logical cell is rewritten from `lodic`. -/
def refresh_board (G : Globals) : Globals :=
  { G with
    board := (List.range 8).foldl (fun b x =>
      (List.range 8).foldl (fun b y =>
        b.wr (reverse_graph_koordinaty x y).2 (reverse_graph_koordinaty x y).1
          (display_marker G.player_is_white (G.lodic.rd y x))) b) G.board }

/-! ## Vocabulary of the statements -/

/-- Cell `(x, y)` lies on the 8x8 board. -/
def onBoard (x y : Int) : Prop := 0 ≤ x ∧ x < 8 ∧ 0 ≤ y ∧ y < 8

instance (x y : Int) : Decidable (onBoard x y) := by unfold onBoard; infer_instance

/-- Marker of a piece. -/
def isPiece (c : Char) : Prop := c = '1' ∨ c = '2' ∨ c = '3' ∨ c = '4'

instance (c : Char) : Decidable (isPiece c) := by unfold isPiece; infer_instance

/-- Marker of a piece of the side that is NOT to move: the computer's `'1'`,
`'3'` on the player's turn, the player's `'2'`, `'4'` otherwise. -/
def isEnemy (is_player_turn : Bool) (c : Char) : Prop :=
  if is_player_turn then c = '1' ∨ c = '3' else c = '2' ∨ c = '4'

instance (t : Bool) (c : Char) : Decidable (isEnemy t c) := by
  unfold isEnemy; infer_instance

/-- Capture from `(x, y)` in direction `(dx, dy)` as the specification words
it: the adjacent cell is on the board and holds an enemy piece, the cell one
step further is on the board and holds `'0'`. -/
def canKill (is_player_turn : Bool) (lodic : Lodic) (x y dx dy : Int) : Prop :=
  onBoard (x + dx) (y + dy) ∧ isEnemy is_player_turn (lodic.rd (y + dy) (x + dx)) ∧
    onBoard (x + 2 * dx) (y + 2 * dy) ∧ lodic.rd (y + 2 * dy) (x + 2 * dx) = '0'

instance (t : Bool) (l : Lodic) (x y dx dy : Int) : Decidable (canKill t l x y dx dy) := by
  unfold canKill; infer_instance

/-- Number of cells of the logical board whose marker satisfies `p`. -/
def countCells (p : Char → Prop) [DecidablePred p] (lodic : Lodic) : Nat :=
  ∑ ij : Fin 8 × Fin 8, if p (lodic ij.1 ij.2) then 1 else 0

/-- Number of enemy pieces on the board (see `isEnemy`). -/
def enemyCount (is_player_turn : Bool) (lodic : Lodic) : Nat :=
  countCells (isEnemy is_player_turn) lodic

/-- The four diagonal directions, in the order in which the capture-chain
functions handle them: left-up, right-up, left-down, right-down. -/
inductive Dir
  | l_h
  | r_h
  | l_s
  | r_s
deriving DecidableEq, Repr

/-- Column offset of a direction. -/
def Dir.dx : Dir → Int
  | .l_h => -1
  | .r_h => 1
  | .l_s => -1
  | .r_s => 1

/-- Row offset of a direction (up is towards row 0). -/
def Dir.dy : Dir → Int
  | .l_h => -1
  | .r_h => -1
  | .l_s => 1
  | .r_s => 1

/-- The flag of a direction in a `Valid_Kill`. -/
def Valid_Kill.flag (v : Valid_Kill) : Dir → Bool
  | .l_h => v.kill_l_h
  | .r_h => v.kill_r_h
  | .l_s => v.kill_l_s
  | .r_s => v.kill_r_s

/-- The landing row of a direction in a `Valid_Kill`. -/
def Valid_Kill.land_y (v : Valid_Kill) : Dir → Int
  | .l_h => v.kill_lh_y
  | .r_h => v.kill_rh_y
  | .l_s => v.kill_ls_y
  | .r_s => v.kill_rs_y

/-- The landing column of a direction in a `Valid_Kill`. -/
def Valid_Kill.land_x (v : Valid_Kill) : Dir → Int
  | .l_h => v.kill_lh_x
  | .r_h => v.kill_rh_x
  | .l_s => v.kill_ls_x
  | .r_s => v.kill_rs_x

/-- Number of flags set in a `Valid_Kill`. -/
def Valid_Kill.flags (v : Valid_Kill) : Int :=
  (if v.kill_l_h then 1 else 0) + (if v.kill_r_h then 1 else 0) +
    (if v.kill_l_s then 1 else 0) + (if v.kill_r_s then 1 else 0)

/-- Number of flags set in a `Valid_Hod`. -/
def Valid_Hod.flags (m : Valid_Hod) : Int :=
  (if m.l_h then 1 else 0) + (if m.r_h then 1 else 0) +
    (if m.l_s then 1 else 0) + (if m.r_s then 1 else 0)


/-- A move from `(x, y)` by one step in direction `(dx, dy)` as the
specification words it: the piece on the cell may step that way (a player
man `'2'` only towards row `y - 1`, a computer man `'1'` only towards row
`y + 1`, kings both ways) and the adjacent cell is on the board and holds
`'0'`. -/
def canStep (lodic : Lodic) (x y dx dy : Int) : Prop :=
  (if dy < 0 then
      (lodic.rd y x = '2' ∨ lodic.rd y x = '3' ∨ lodic.rd y x = '4')
    else (lodic.rd y x = '1' ∨ lodic.rd y x = '3' ∨ lodic.rd y x = '4')) ∧
    onBoard (x + dx) (y + dy) ∧ lodic.rd (y + dy) (x + dx) = '0'

instance (l : Lodic) (x y dx dy : Int) : Decidable (canStep l x y dx dy) := by
  unfold canStep; infer_instance

/-! ## Derived definitions of the statements and proofs -/

/-- State in which `calculate_kill_moves` recurses after the capture in
direction `d` from `pos`: the result of `kill_block` for the adjacent cell
and the cell beyond it. -/
def killStep (G : Globals) (pos : Position) (lodic : Lodic) (d : Dir) :
    Globals × Position × Lodic :=
  kill_block G pos lodic (pos.y_8 + d.dy) (pos.x_8 + d.dx)
    (pos.y_8 + 2 * d.dy) (pos.x_8 + 2 * d.dx)

/-- The outcomes `calculate_kill_moves` appends, as a function of the start
state alone (proved equal to the appended part in `calculate_kill_moves_eq`). -/
def chainNews : Nat → Globals → Position → Lodic → Option (List Outcome)
  | 0, _, _, _ => none
  | fuel + 1, G, pos, lodic =>
    if (get_valid_kill G.is_player_turn pos Valid_Kill.fresh lodic).1 = 0 then
      some [⟨pos.x_8, pos.y_8, lodic, G.game_state⟩]
    else
      let sub : Dir → Option (List Outcome) := fun d =>
        if (get_valid_kill G.is_player_turn pos Valid_Kill.fresh lodic).2.flag d then
          chainNews fuel (killStep G pos lodic d).1 (killStep G pos lodic d).2.1
            (killStep G pos lodic d).2.2
        else some []
      (sub .l_h).bind fun n1 => (sub .r_h).bind fun n2 => (sub .l_s).bind fun n3 =>
        (sub .r_s).bind fun n4 => some (n1 ++ n2 ++ n3 ++ n4)

/-- The outcomes contributed by the block of direction `d` at a node. -/
def subNews (fuel : Nat) (G : Globals) (pos : Position) (lodic : Lodic) (d : Dir) :
    Option (List Outcome) :=
  if (get_valid_kill G.is_player_turn pos Valid_Kill.fresh lodic).2.flag d then
    chainNews fuel (killStep G pos lodic d).1 (killStep G pos lodic d).2.1
      (killStep G pos lodic d).2.2
  else some []

/-- A terminal node of the computer's capture-chain tree: the board and the
counts `get_best_sequent_kills` evaluates there. -/
structure Leaf where
  lodic : Lodic
  game_state : GameState

/-- Score of a terminal node from the perspective `is_white`. -/
def Leaf.score (is_white : Bool) (lf : Leaf) : Int :=
  evaluate_board_pc lf.game_state lf.lodic is_white

/-- The update of the running best at a terminal node: replaced only by a
strictly greater score. -/
def pickBest (is_white : Bool) (best : Best) (lf : Leaf) : Best :=
  if lf.score is_white > best.mx_score then
    { mx_score := lf.score is_white, best_lodic := lf.lodic, best_game_state := lf.game_state }
  else best

/-- One direction block of the traversal `captureLeaves`: like `best_branch`,
with the list of terminal nodes met so far in place of the running best. -/
def leaf_branch (rec : Globals → Position → Valid_Kill → Int → Lodic →
      Option (Globals × List Leaf))
    (flag : Bool) (ky kx ny nx : Int) (pos : Position) (lodic : Lodic)
    (game_state_copy : GameState) (st : Globals × List Leaf) : Option (Globals × List Leaf) :=
  if flag then
    let s := best_block st.1 pos lodic ky kx ny nx
    let new_vks := (get_valid_kill s.1.is_player_turn s.2.1 Valid_Kill.fresh s.2.2).2
    let new_vks_count := (get_valid_kill s.1.is_player_turn s.2.1 Valid_Kill.fresh s.2.2).1
    (rec s.1 s.2.1 new_vks new_vks_count s.2.2).map
      fun r => ({ r.1 with game_state := game_state_copy }, st.2 ++ r.2)
  else some st

/-- The terminal nodes of the capture-chain tree that `get_best_sequent_kills`
walks from `pos` (directions in the order left-up, right-up, left-down,
right-down, depth first), in the order in which they are met, together with
the globals after the walk.  The globals are threaded because `becameQueen`
marks promotions on the display grid, which later nodes read. -/
def captureLeaves : Nat → Globals → Position → Valid_Kill → Int → Lodic →
    Option (Globals × List Leaf)
  | 0, _, _, _, _, _ => none
  | fuel + 1, G, pos, vks, vks_count, lodic =>
    if vks_count = 0 then some (G, [⟨lodic, G.game_state⟩])
    else
      (((leaf_branch (captureLeaves fuel) vks.kill_l_h
            (pos.y_8 - 1) (pos.x_8 - 1) vks.kill_lh_y vks.kill_lh_x pos lodic
            G.game_state (G, [])).bind
          (leaf_branch (captureLeaves fuel) vks.kill_r_h
            (pos.y_8 - 1) (pos.x_8 + 1) vks.kill_rh_y vks.kill_rh_x pos lodic
            G.game_state)).bind
          (leaf_branch (captureLeaves fuel) vks.kill_l_s
            (pos.y_8 + 1) (pos.x_8 - 1) vks.kill_ls_y vks.kill_ls_x pos lodic
            G.game_state)).bind
          (leaf_branch (captureLeaves fuel) vks.kill_r_s
            (pos.y_8 + 1) (pos.x_8 + 1) vks.kill_rs_y vks.kill_rs_x pos lodic
            G.game_state)

/-- State in which `get_best_sequent_kills` recurses after the capture in
direction `d` from `pos`. -/
def bestStep (G : Globals) (pos : Position) (lodic : Lodic) (d : Dir) :
    Globals × Position × Lodic :=
  best_block G pos lodic (pos.y_8 + d.dy) (pos.x_8 + d.dx)
    (pos.y_8 + 2 * d.dy) (pos.x_8 + 2 * d.dx)

/-- The parts of the globals a walk never changes. -/
def sameFlags (G G' : Globals) : Prop :=
  G'.is_player_turn = G.is_player_turn ∧ G'.player_is_white = G.player_is_white ∧
    G'.lodic = G.lodic

/-- The walk from `pos` with the captures that `get_valid_kill` reports
there, as `computer_move` starts it. -/
def properLeaves (fuel : Nat) (G : Globals) (pos : Position) (lodic : Lodic) :
    Option (Globals × List Leaf) :=
  captureLeaves fuel G pos (get_valid_kill G.is_player_turn pos Valid_Kill.fresh lodic).2
    (get_valid_kill G.is_player_turn pos Valid_Kill.fresh lodic).1 lodic

/-- A candidate outcome of the computer's turn: the board and counts the
search evaluates, and whether it ends a capture chain (`capture = true`) or is
a plain move. -/
structure Candidate where
  capture : Bool
  leaf : Leaf

/-- The candidate of one plain-move block of `computer_move` (the copy after
`becameQueen` and the counts at the time it is scored), added to the list,
and the globals after the block. -/
def move_candidate (x y ny nx : Int) (st : Globals × List Candidate) :
    Globals × List Candidate :=
  let G := st.1
  let lodic_copy := (G.lodic.wr y x '0').wr ny nx '1'
  let new_pos : Position :=
    { x := (reverse_graph_koordinaty nx ny).1
      y := (reverse_graph_koordinaty nx ny).2
      x_8 := nx
      y_8 := ny
      damka := false }
  let q := becameQueen G new_pos lodic_copy
  ({ q.1 with game_state := G.game_state },
    st.2 ++ [{ capture := false, leaf := ⟨q.2, q.1.game_state⟩ }])

/-- The candidates the scan of `computer_move` generates at one cell, added
to those generated before: for a computer piece with captures the terminal
nodes of its capture-chain tree; for a computer piece without captures, as
long as no capture candidate has been generated, its plain-move outcomes in
the order left-up, right-up, left-down, right-down. -/
def cell_candidates (st : Globals × List Candidate) (cell : Int × Int) :
    Option (Globals × List Candidate) :=
  let G := st.1
  let y := cell.1
  let x := cell.2
  if G.lodic.rd y x ≠ '1' ∧ G.lodic.rd y x ≠ '3' then some st
  else
    let pos : Position :=
      { x := (reverse_graph_koordinaty x y).1
        y := (reverse_graph_koordinaty x y).2
        x_8 := x
        y_8 := y
        damka := false }
    if (get_valid_kill G.is_player_turn pos Valid_Kill.fresh G.lodic).1 > 0 then
      (properLeaves chainFuel G pos G.lodic).map fun r =>
        (r.1, st.2 ++ r.2.map fun lf => { capture := true, leaf := lf })
    else if st.2.any (fun c => c.capture) then some st
    else
      let vhs := (get_valid_moves pos Valid_Hod.fresh G.lodic).2
      if (get_valid_moves pos Valid_Hod.fresh G.lodic).1 = 0 then some st
      else
        let st1 := if vhs.l_h then move_candidate x y vhs.lh_y vhs.lh_x st else st
        let st2 := if vhs.r_h then move_candidate x y vhs.rh_y vhs.rh_x st1 else st1
        let st3 := if vhs.l_s then move_candidate x y vhs.ls_y vhs.ls_x st2 else st2
        let st4 := if vhs.r_s then move_candidate x y vhs.rs_y vhs.rs_x st3 else st3
        some st4

/-- The candidates generated over a list of cells. -/
def candidates_loop : List (Int × Int) → Globals × List Candidate →
    Option (Globals × List Candidate)
  | [], st => some st
  | cell :: rest, st => (cell_candidates st cell).bind (candidates_loop rest)

/-- All candidate outcomes of a computer turn, in the order of the scan. -/
def computer_candidates (G : Globals) : Option (Globals × List Candidate) :=
  candidates_loop scan_cells (G, [])

/-- The candidates of the applicable kind: the capture candidates when there
is one, otherwise all (plain-move) candidates. -/
def applicable (cands : List Candidate) : List Candidate :=
  if cands.any (fun c => c.capture) then cands.filter (fun c => c.capture) else cands

/-- The locals of `computer_move` after the scan has generated `cands`:
the running best folded over the applicable candidates, scored from the
perspective `w`. -/
def searchOf (w : Bool) (junk : Lodic) (junk_gs gs0 : GameState) (cands : List Candidate) :
    Search :=
  if cands.any (fun c => c.capture) then
    let b := ((cands.filter (fun c => c.capture)).map (fun c => c.leaf)).foldl
      (pickBest w) { mx_score := -1, best_lodic := junk, best_game_state := junk_gs }
    { mx_score := b.mx_score, best_lodic := b.best_lodic, best_gs := b.best_game_state,
      has_to_kill := true, no_moves := false }
  else
    let b := (cands.map (fun c => c.leaf)).foldl
      (pickBest w) { mx_score := -1, best_lodic := junk, best_game_state := gs0 }
    { mx_score := b.mx_score, best_lodic := b.best_lodic, best_gs := b.best_game_state,
      has_to_kill := false, no_moves := cands.isEmpty }

/-! ## Vocabulary of the evaluator and promotion statements -/

/-- The counts struct with the man count of one colour replaced by `n`. -/
def withMen (white : Bool) (n : Int) (gs : GameState) : GameState :=
  if white then { gs with count_white := n } else { gs with count_black := n }

/-- Man count of a colour in the counts struct. -/
def menOf (white : Bool) (gs : GameState) : Int :=
  if white then gs.count_white else gs.count_black

/-- King count of a colour in the counts struct. -/
def kingsOf (white : Bool) (gs : GameState) : Int :=
  if white then gs.count_white_king else gs.count_black_king

/-- The first material term of `evaluate_board_pc` (men, weight 10): the
value added to `score` by its first `score += inc > 0 ? inc : 0`. -/
def men_term (game_state : GameState) (is_white : Bool) : Int :=
  let our_count := if is_white then game_state.count_white else game_state.count_black
  let opponent_count := if is_white then game_state.count_black else game_state.count_white
  let inc := (our_count - opponent_count) * 10
  if inc > 0 then inc else 0

/-- The second material term of `evaluate_board_pc` (kings, weight 15). -/
def king_term (game_state : GameState) (is_white : Bool) : Int :=
  let our_count := if is_white then game_state.count_white_king
    else game_state.count_black_king
  let opponent_count := if is_white then game_state.count_black_king
    else game_state.count_white_king
  let inc := (our_count - opponent_count) * 15
  if inc > 0 then inc else 0

/-- The positional part of `evaluate_board_pc`: its four additions of
`(lodic[3][4] == '1') * 2`. -/
def bonus_term (lodic : Lodic) : Int :=
  (if lodic.rd 3 4 = '1' then 1 else 0) * 2 + (if lodic.rd 3 4 = '1' then 1 else 0) * 2 +
    (if lodic.rd 3 4 = '1' then 1 else 0) * 2 + (if lodic.rd 3 4 = '1' then 1 else 0) * 2

/-- The display cell `(x, y)` exists in `char board[18][36]`. -/
def inDisplay (x y : Int) : Prop := 0 ≤ x ∧ x < 36 ∧ 0 ≤ y ∧ y < 18

instance (x y : Int) : Decidable (inDisplay x y) := by unfold inDisplay; infer_instance

/-- The side to move plays white: the player when `player_is_white`, the
computer otherwise. -/
def moverWhite (G : Globals) : Bool := G.is_player_turn == G.player_is_white

/-- Far rank of the side to move: row 0 for the player, row 7 for the
computer. -/
def farRank (is_player_turn : Bool) : Int := if is_player_turn then 0 else 7

/-- Man marker of the side to move. -/
def moverMan (is_player_turn : Bool) : Char := if is_player_turn then '2' else '1'

/-- King marker of the side to move. -/
def moverKing (is_player_turn : Bool) : Char := if is_player_turn then '4' else '3'

/-- King marker of a colour on the display grid. -/
def kingShown (white : Bool) : Char := if white then 'W' else 'B'

/-- The counts after a promotion of the given colour: its king count
incremented and its man count decremented. -/
def promoteCounts (white : Bool) (gs : GameState) : GameState :=
  if white then
    { gs with count_white_king := gs.count_white_king + 1, count_white := gs.count_white - 1 }
  else
    { gs with count_black_king := gs.count_black_king + 1, count_black := gs.count_black - 1 }

/-- The display grid agrees with the logical board: the display cell of
every logical cell shows the marker `play_game` draws for it. -/
def displayAgrees (G : Globals) : Prop :=
  ∀ x y : Fin 8,
    G.board.rd (reverse_graph_koordinaty x y).2 (reverse_graph_koordinaty x y).1 =
      display_marker G.player_is_white (G.lodic y x)

instance (G : Globals) : Decidable (displayAgrees G) := by unfold displayAgrees; infer_instance

/-- Marker of a computer piece: man `'1'` or king `'3'`. -/
def computerPiece (c : Char) : Prop := c = '1' ∨ c = '3'

instance (c : Char) : Decidable (computerPiece c) := by unfold computerPiece; infer_instance

/-- Marker of a player piece: man `'2'` or king `'4'`. -/
def playerPiece (c : Char) : Prop := c = '2' ∨ c = '4'

instance (c : Char) : Decidable (playerPiece c) := by unfold playerPiece; infer_instance

/-- Per-side census of a board against a counts struct: the number of
computer pieces on the board is the men count plus the king count of the
computer's colour (black when the player is white), and likewise for the
player's pieces and colour. -/
def sideCensusAt (player_is_white : Bool) (gs : GameState) (lodic : Lodic) : Prop :=
  (countCells computerPiece lodic : Int) =
      menOf (!player_is_white) gs + kingsOf (!player_is_white) gs ∧
    (countCells playerPiece lodic : Int) =
      menOf player_is_white gs + kingsOf player_is_white gs

instance (w : Bool) (gs : GameState) (l : Lodic) : Decidable (sideCensusAt w gs l) := by
  unfold sideCensusAt; infer_instance

/-- Per-side census of the global board against the global counts. -/
def sideCensus (G : Globals) : Prop := sideCensusAt G.player_is_white G.game_state G.lodic

instance (G : Globals) : Decidable (sideCensus G) := by unfold sideCensus; infer_instance

/-- Per-rank census of the global board against the global counts: each of
the four counts is the number of cells holding the corresponding marker
(`'1'`, `'3'` men and kings of the computer's colour, `'2'`, `'4'` men and
kings of the player's colour). -/
def rankCensus (G : Globals) : Prop :=
  (countCells (fun c => c = '1') G.lodic : Int) = menOf (!G.player_is_white) G.game_state ∧
    (countCells (fun c => c = '3') G.lodic : Int) =
      kingsOf (!G.player_is_white) G.game_state ∧
    (countCells (fun c => c = '2') G.lodic : Int) = menOf G.player_is_white G.game_state ∧
    (countCells (fun c => c = '4') G.lodic : Int) = kingsOf G.player_is_white G.game_state

instance (G : Globals) : Decidable (rankCensus G) := by unfold rankCensus; infer_instance

/-! ## Example states -/

/-- A position with display coordinates computed as the program does. -/
def posAt (x_8 y_8 : Int) : Position :=
  { x := (reverse_graph_koordinaty x_8 y_8).1
    y := (reverse_graph_koordinaty x_8 y_8).2
    x_8 := x_8
    y_8 := y_8
    damka := false }

/-- The initial logical board of the program. -/
def lodicStart : Lodic := Grid.ofRows [
  " 1 1 1 1".toList,
  "1 1 1 1 ".toList,
  " 1 1 1 1".toList,
  "0 0 0 0 ".toList,
  " 0 0 0 0".toList,
  "2 2 2 2 ".toList,
  " 2 2 2 2".toList,
  "2 2 2 2 ".toList]

/-- A display grid showing only empty cells. -/
def boardBlank : Board := fun _ _ => '*'

/-- Player man on C3 `(2, 5)`, computer man on D4 `(3, 4)`, E5 `(4, 3)` empty. -/
def lodicSingle : Lodic := Grid.ofRows [
  " 0 0 0 0".toList,
  "0 0 0 0 ".toList,
  " 0 0 0 0".toList,
  "0 0 0 0 ".toList,
  " 0 1 0 0".toList,
  "0 2 0 0 ".toList,
  " 0 0 0 0".toList,
  "0 0 0 0 ".toList]

/-- Player (white) to move on `lodicSingle`. -/
def stateSingle : Globals :=
  { is_player_turn := true, player_is_white := true
    game_state := ⟨1, 1, 0, 0⟩, board := boardBlank, lodic := lodicSingle }

/-- Player man on C3 `(2, 5)`, computer men on D4 `(3, 4)` and D6 `(3, 2)`:
after the capture of D4 the man stands on E5 `(4, 3)` next to D6 with C7
`(2, 1)` empty. -/
def lodicDouble : Lodic := Grid.ofRows [
  " 0 0 0 0".toList,
  "0 0 0 0 ".toList,
  " 0 1 0 0".toList,
  "0 0 0 0 ".toList,
  " 0 1 0 0".toList,
  "0 2 0 0 ".toList,
  " 0 0 0 0".toList,
  "0 0 0 0 ".toList]

/-- Player (white) to move on `lodicDouble`. -/
def stateDouble : Globals :=
  { is_player_turn := true, player_is_white := true
    game_state := ⟨1, 2, 0, 0⟩, board := boardBlank, lodic := lodicDouble }

/-- Player man on E3 `(4, 5)` between computer men on D4 `(3, 4)` and F4
`(5, 4)`, both capturable. -/
def lodicFork : Lodic := Grid.ofRows [
  " 0 0 0 0".toList,
  "0 0 0 0 ".toList,
  " 0 0 0 0".toList,
  "0 0 0 0 ".toList,
  " 0 1 1 0".toList,
  "0 0 2 0 ".toList,
  " 0 0 0 0".toList,
  "0 0 0 0 ".toList]

/-- Player (white) to move on `lodicFork`. -/
def stateFork : Globals :=
  { is_player_turn := true, player_is_white := true
    game_state := ⟨1, 2, 0, 0⟩, board := boardBlank, lodic := lodicFork }

/-- Some content of an uninitialised board array. -/
def junkLodic : Lodic := fun _ _ => '?'
/-- Some content of an uninitialised counts struct. -/
def junkCounts : GameState := ⟨0, 0, 0, 0⟩
/-- Computer man on D6 `(3, 2)`, player men on E5 `(4, 3)` and E3 `(4, 5)`:
the computer man captures E5 landing on F4 `(5, 4)` and then E3 landing on
D2 `(3, 6)`. -/
def lodicComp : Lodic := Grid.ofRows [
  " 0 0 0 0".toList,
  "0 0 0 0 ".toList,
  " 0 1 0 0".toList,
  "0 0 2 0 ".toList,
  " 0 0 0 0".toList,
  "0 0 2 0 ".toList,
  " 0 0 0 0".toList,
  "0 0 0 0 ".toList]

/-- Computer (black) to move on `lodicComp`. -/
def stateComp : Globals :=
  { is_player_turn := false, player_is_white := true
    game_state := ⟨2, 1, 0, 0⟩, board := boardBlank, lodic := lodicComp }


/-- A state with the display grid drawn from the logical board. -/
def stateOf (is_player_turn player_is_white : Bool) (game_state : GameState) (lodic : Lodic) :
    Globals :=
  refresh_board
    { is_player_turn := is_player_turn, player_is_white := player_is_white
      game_state := game_state, board := boardBlank, lodic := lodic }

/-- Computer man on C1 `(2, 7)`, the far rank of the computer. -/
def lodicFar : Lodic := Grid.ofRows [
  " 0 0 0 0".toList,
  "0 0 0 0 ".toList,
  " 0 0 0 0".toList,
  "0 0 0 0 ".toList,
  " 0 0 0 0".toList,
  "0 2 0 0 ".toList,
  " 0 0 0 0".toList,
  "0 1 0 0 ".toList]

/-- Computer (black) to move with the man of `lodicFar` just landed on C1:
the display grid still shows the cell empty. -/
def stateFar : Globals :=
  { is_player_turn := false, player_is_white := true
    game_state := ⟨1, 1, 0, 0⟩, board := boardBlank, lodic := lodicFar }

/-- Player king on C7 `(2, 1)`, player man on D2 `(3, 6)`, computer man on
H4 `(7, 4)`. -/
def lodicCrown : Lodic := Grid.ofRows [
  " 0 0 0 0".toList,
  "0 4 0 0 ".toList,
  " 0 0 0 0".toList,
  "0 0 0 0 ".toList,
  " 0 0 0 1".toList,
  "0 0 0 0 ".toList,
  " 0 2 0 0".toList,
  "0 0 0 0 ".toList]

/-- Player (white) to move on `lodicCrown`, display drawn from the board. -/
def stateCrown : Globals := stateOf true true ⟨1, 1, 1, 0⟩ lodicCrown

/-- Player man on B6 `(1, 2)`, computer men on C7 `(2, 1)` and E7 `(4, 1)`:
the man captures C7 landing on D8 `(3, 0)`, row 0, and from there captures E7
landing on F6 `(5, 2)`. -/
def lodicPass : Lodic := Grid.ofRows [
  " 0 0 0 0".toList,
  "0 1 1 0 ".toList,
  " 2 0 0 0".toList,
  "0 0 0 0 ".toList,
  " 0 0 0 0".toList,
  "0 0 0 0 ".toList,
  " 0 0 0 0".toList,
  "0 0 0 0 ".toList]

/-- Player (white) to move on `lodicPass`, display drawn from the board. -/
def statePass : Globals := stateOf true true ⟨1, 2, 0, 0⟩ lodicPass

/-- Computer king on C5 `(2, 3)`, player man on B2 `(1, 6)`. -/
def lodicKing : Lodic := Grid.ofRows [
  " 0 0 0 0".toList,
  "0 0 0 0 ".toList,
  " 0 0 0 0".toList,
  "0 3 0 0 ".toList,
  " 0 0 0 0".toList,
  "0 0 0 0 ".toList,
  " 2 0 0 0".toList,
  "0 0 0 0 ".toList]

/-- Computer (black) to move on `lodicKing`, display drawn from the board. -/
def stateKing : Globals := stateOf false true ⟨1, 0, 0, 1⟩ lodicKing

/-- Computer men on B2 `(1, 6)` and D2 `(3, 6)`, both able to step to C1
`(2, 7)`; player king on G7 `(6, 1)`. -/
def lodicLast : Lodic := Grid.ofRows [
  " 0 0 0 0".toList,
  "0 0 0 4 ".toList,
  " 0 0 0 0".toList,
  "0 0 0 0 ".toList,
  " 0 0 0 0".toList,
  "0 0 0 0 ".toList,
  " 1 1 0 0".toList,
  "0 0 0 0 ".toList]

/-- Computer (black) to move on `lodicLast`, display drawn from the board. -/
def stateLast : Globals := stateOf false true ⟨0, 2, 1, 0⟩ lodicLast

/-! ## Vocabulary of the move selector statements -/

/-- The flag of a direction in a `Valid_Hod`. -/
def Valid_Hod.flag (m : Valid_Hod) : Dir → Bool
  | .l_h => m.l_h
  | .r_h => m.r_h
  | .l_s => m.l_s
  | .r_s => m.r_s

/-- The destination row of a direction in a `Valid_Hod`. -/
def Valid_Hod.dest_y (m : Valid_Hod) : Dir → Int
  | .l_h => m.lh_y
  | .r_h => m.rh_y
  | .l_s => m.ls_y
  | .r_s => m.rs_y

/-- The destination column of a direction in a `Valid_Hod`. -/
def Valid_Hod.dest_x (m : Valid_Hod) : Dir → Int
  | .l_h => m.lh_x
  | .r_h => m.rh_x
  | .l_s => m.ls_x
  | .r_s => m.rs_x

/-- The outcome that a plain-move block of `computer_move` scores for the
piece on `(x, y)` and the destination `(nx, ny)`: the copy after
`becameQueen` and the counts at that time. -/
def moveLeaf (G : Globals) (x y ny nx : Int) : Leaf :=
  let lodic_copy := (G.lodic.wr y x '0').wr ny nx '1'
  let q := becameQueen G (posAt nx ny) lodic_copy
  ⟨q.2, q.1.game_state⟩

/-- A computer piece stands on the cell `(y, x)` and has an action: a capture
according to `get_valid_kill` or a plain move according to
`get_valid_moves`. -/
def hasAction (G : Globals) (cell : Int × Int) : Prop :=
  (G.lodic.rd cell.1 cell.2 = '1' ∨ G.lodic.rd cell.1 cell.2 = '3') ∧
    ((get_valid_kill G.is_player_turn (posAt cell.2 cell.1) Valid_Kill.fresh G.lodic).1 ≠ 0 ∨
      (get_valid_moves (posAt cell.2 cell.1) Valid_Hod.fresh G.lodic).1 ≠ 0)

instance (G : Globals) (cell : Int × Int) : Decidable (hasAction G cell) := by
  unfold hasAction; infer_instance

/-- The four plain-move blocks of `computer_move` for the piece on `(x, y)`,
in the order left-up, right-up, left-down, right-down, on the candidate
list. -/
def plain_candidates (x y : Int) (vhs : Valid_Hod) (st : Globals × List Candidate) :
    Globals × List Candidate :=
  let st1 := if vhs.l_h then move_candidate x y vhs.lh_y vhs.lh_x st else st
  let st2 := if vhs.r_h then move_candidate x y vhs.rh_y vhs.rh_x st1 else st1
  let st3 := if vhs.l_s then move_candidate x y vhs.ls_y vhs.ls_x st2 else st2
  let st4 := if vhs.r_s then move_candidate x y vhs.rs_y vhs.rs_x st3 else st3
  st4

/-- Marker of a piece of the side to move: a player piece on the player's
turn, a computer piece otherwise. -/
def moverPiece (is_player_turn : Bool) (c : Char) : Prop :=
  if is_player_turn then playerPiece c else computerPiece c


instance (t : Bool) (c : Char) : Decidable (moverPiece t c) := by
  unfold moverPiece; infer_instance

/-- The initial value `{12, 12, 0, 0}` of the global `game_state`. -/
def game_state_init : GameState := ⟨12, 12, 0, 0⟩

/-- Every piece on the board stands on a playable cell: column + row odd. -/
def allPlayable (lodic : Lodic) : Prop :=
  ∀ i j : Fin 8, isPiece (lodic i j) → (j.val + i.val) % 2 = 1

instance (lodic : Lodic) : Decidable (allPlayable lodic) := by
  unfold allPlayable; infer_instance

/-- The direction opposite to `d`. -/
def Dir.opp : Dir → Dir
  | .l_h => .r_s
  | .r_h => .l_s
  | .l_s => .r_h
  | .r_s => .l_h

/-- Player man on C5 `(2, 3)` in the middle of nine computer men on B6, D6,
F6, B4, D4, F4, B2, D2, F2, every cell two steps apart empty: the captures
form two squares of four sharing the man over D4. -/
def lodicNet : Lodic := Grid.ofRows [
  " 0 0 0 0".toList,
  "0 0 0 0 ".toList,
  " 1 1 1 0".toList,
  "0 2 0 0 ".toList,
  " 1 1 1 0".toList,
  "0 0 0 0 ".toList,
  " 1 1 1 0".toList,
  "0 0 0 0 ".toList]

/-- Player (white) to move on `lodicNet`, display drawn from the board. -/
def stateNet : Globals := stateOf true true ⟨1, 9, 0, 0⟩ lodicNet

/-- Computer king on D6 `(3, 2)` next to the player man on E5 `(4, 3)` with
F4 `(5, 4)` empty. -/
def lodicKingTake : Lodic := Grid.ofRows [
  " 0 0 0 0".toList,
  "0 0 0 0 ".toList,
  " 0 3 0 0".toList,
  "0 0 2 0 ".toList,
  " 0 0 0 0".toList,
  "0 0 0 0 ".toList,
  " 0 0 0 0".toList,
  "0 0 0 0 ".toList]

/-- Computer (black) to move on `lodicKingTake`, display drawn from the
board. -/
def stateKingTake : Globals := stateOf false true ⟨1, 0, 0, 1⟩ lodicKingTake

/-! ## Console, the player's move and the game loop -/

/-- A line written to the console, identified by the statement that prints
it: `turn` by `print_turn`, `black_won` and `white_won` by `check_game_over`,
the others by `player_move`; `board_drawn` stands for one call of
`print_board`.  The texts and the drawn grid are not reproduced. -/
inductive Msg
  | turn (is_player_turn : Bool)
  | black_won
  | white_won
  | your_move
  | input_error
  | bad_coordinates
  | not_your_piece
  | must_capture
  | board_drawn
  | can_move_to
  | option (kol : Int) (x y : Char)
  | ask_number
  | number_error
  | cannot_move
deriving DecidableEq, Repr

/-- The console as `player_move` uses it.  `pairs` holds the results of its
successive calls `scanf (" %c%c", &x, &y)`, an entry `none` being a call that
does not return 2; `numbers` holds the results of its successive calls
`scanf ("%d", &vsbor)`, an entry `none` being a call that converts nothing
and leaves `vsbor` as it was; `out` is the list of lines printed so far.  A
call that finds its list empty never returns. -/
structure Console where
  pairs : List (Option (Char × Char))
  numbers : List (Option Int)
  out : List Msg
deriving DecidableEq, Repr

/-- `check_game_over ()`, reading the global `game_state`: the result and the
line it prints. -/
def check_game_over (game_state : GameState) : Bool × List Msg :=
  if game_state.count_white + game_state.count_white_king = 0 then (true, [Msg.black_won])
  else if game_state.count_black + game_state.count_black_king = 0 then
    (true, [Msg.white_won])
  else (false, [])

/-- `switch_turn ()`. -/
def switch_turn (G : Globals) : Globals :=
  { G with is_player_turn := !G.is_player_turn }

/-- `light (board, x, y, not_chose)`. -/
def light (board : Board) (x y : Int) (not_chose : Bool) : Board :=
  if not_chose then (board.wr y (x - 1) '(').wr y (x + 1) ')'
  else (board.wr y (x - 1) ' ').wr y (x + 1) ' '

/-- `highlight_piece (x, y, board)`: the grid after the call.  The marks `'#'`
are written, the grid is printed (one `board_drawn` line, added by the
caller) and the marks are blanked; `SIZE` is 35. -/
def highlight_piece (x y : Int) (board : Board) : Board :=
  let b1 := if x > 1 then board.wr y (x - 1) '#' else board
  let b2 := if x < 35 - 2 then b1.wr y (x + 1) '#' else b1
  let b3 := if x > 1 then b2.wr y (x - 1) ' ' else b2
  if x < 35 - 2 then b3.wr y (x + 1) ' ' else b3

/-- The body of the scan loop at the head of `player_move` for the cell
`(y, x)`, on the state `(motion, no_moves, can_kill)`: `motion` is the
function-wide `Valid_Hod`, the list is the filled part
`[0, can_kill_i)` of `can_kill` as pairs `(x, y)`. -/
def player_scan_cell (G : Globals) (st : Valid_Hod × Bool × List (Int × Int))
    (cell : Int × Int) : Valid_Hod × Bool × List (Int × Int) :=
  let y := cell.1
  let x := cell.2
  if G.lodic.rd y x ≠ '2' ∧ G.lodic.rd y x ≠ '4' then st
  else
    let pos : Position :=
      { x := (reverse_graph_koordinaty x y).1
        y := (reverse_graph_koordinaty x y).2
        x_8 := x
        y_8 := y
        damka := false }
    let vks_count := (get_valid_kill G.is_player_turn pos Valid_Kill.fresh G.lodic).1
    let vhs_count := (get_valid_moves pos st.1 G.lodic).1
    let motion := (get_valid_moves pos st.1 G.lodic).2
    let no_moves := if vhs_count > 0 then false else st.2.1
    if vks_count > 0 then (motion, false, st.2.2 ++ [(x, y)])
    else (motion, no_moves, st.2.2)

/-- The loop `while (true)` of `player_move` that reads the number of the
chosen option into `vsbor` and accepts it when `1 <= vsbor <= hi` (`hi` is
`move_i` for a capture and `kol - 1` for a plain move): returns `vsbor`, the
results not yet consumed and the lines printed. -/
def read_vsbor (hi : Int) : Int → List (Option Int) → List Msg →
    Option (Int × List (Option Int) × List Msg)
  | _, [], _ => none
  | vsbor, s :: rest, out =>
    if s.getD vsbor < 1 ∨ s.getD vsbor > hi then
      read_vsbor hi (s.getD vsbor) rest (out ++ [Msg.ask_number, Msg.number_error])
    else some (s.getD vsbor, rest, out ++ [Msg.ask_number])
/-- The capture branch of `player_move` (`killer_i != -1`) for the validated
selection `wh` and the entry `killer` of `can_kill` it matched: the chains are
enumerated, their end cells marked and listed, the number of one of them is
read, and `where`, the global board and the counts are replaced by those of
the chosen outcome before `becameQueen`.  The list of outcomes is the filled
part of the arrays `available_kills`, `lodic_buffer` and `game_states`, which
hold 10 entries: when `calculate_kill_moves` records more than 10 outcomes
the program writes past them and has no defined result (`none`). -/
def player_move_kill (G : Globals) (wh : Position) (killer : Int × Int)
    (con : Console) : Option (Bool × Globals × Console) :=
  let pos : Position :=
    { x := (reverse_graph_koordinaty killer.1 killer.2).1
      y := (reverse_graph_koordinaty killer.1 killer.2).2
      x_8 := killer.1
      y_8 := killer.2
      damka := false }
  (calculate_kill_moves chainFuel G pos G.lodic []).bind fun r =>
    if r.2.length > 10 then none else
    let move_i : Int := r.2.length
    let b1 := r.2.foldl (fun b o =>
      light b (reverse_graph_koordinaty o.x_8 o.y_8).1 (reverse_graph_koordinaty o.x_8 o.y_8).2
        true) r.1.board
    let b2 := highlight_piece pos.x pos.y b1
    let b3 := r.2.foldl (fun b o =>
      light b (reverse_graph_koordinaty o.x_8 o.y_8).1 (reverse_graph_koordinaty o.x_8 o.y_8).2
        false) b2
    let lines := r.2.enum.map fun io =>
      Msg.option ((io.1 : Int) + 1) (reverse_graph_out_koordinaty io.2.x_8 io.2.y_8).2.1
        (reverse_graph_out_koordinaty io.2.x_8 io.2.y_8).2.2
    (read_vsbor move_i 1 con.numbers (con.out ++ [Msg.board_drawn] ++ lines)).bind fun v =>
      (r.2.get? (v.1 - 1).toNat).map fun o =>
        (true, player_commit_kill { r.1 with board := b3 } wh o,
          { con with numbers := v.2.1, out := v.2.2 })

/-- The plain branch of `player_move` (`killer_i == -1`) for the validated
selection `wh`: `get_valid_moves` is called twice on the function-wide
`motion`; with a move available the destinations are marked and listed, the
number of one of them is read and `Hod` is made; otherwise one line is
printed.  In both cases control reaches `becameQueen (where, lodic)` and
`return true`. -/
def player_move_plain (G : Globals) (motion : Valid_Hod) (wh : Position)
    (con : Console) : Option (Bool × Globals × Console) :=
  let sum := (get_valid_moves wh motion G.lodic).1
  let motion1 := (get_valid_moves wh motion G.lodic).2
  let motion2 := (get_valid_moves wh motion1 G.lodic).2
  if (get_valid_moves wh motion1 G.lodic).1 > 0 then
    let go_lh := reverse_graph_koordinaty motion2.lh_x motion2.lh_y
    let go_rh := reverse_graph_koordinaty motion2.rh_x motion2.rh_y
    let go_ls := reverse_graph_koordinaty motion2.ls_x motion2.ls_y
    let go_rs := reverse_graph_koordinaty motion2.rs_x motion2.rs_y
    let b1 := if motion2.l_h then light G.board go_lh.1 go_lh.2 true else G.board
    let b2 := if motion2.r_h then light b1 go_rh.1 go_rh.2 true else b1
    let b3 := if motion2.l_s then light b2 go_ls.1 go_ls.2 true else b2
    let b4 := if motion2.r_s then light b3 go_rs.1 go_rs.2 true else b3
    let off : List (Int × Int) :=
      [if motion2.l_h then go_lh else (0, 0), if motion2.r_h then go_rh else (0, 0),
        if motion2.l_s then go_ls else (0, 0), if motion2.r_s then go_rs else (0, 0)]
    let output := move_outputs motion2
    let b5 := highlight_piece wh.x wh.y b4
    let lines := (List.range sum.toNat).map fun (i : Nat) =>
      Msg.option ((i : Int) + 1)
        (reverse_graph_out_koordinaty (output.getD i (0, 0)).1 (output.getD i (0, 0)).2).2.1
        (reverse_graph_out_koordinaty (output.getD i (0, 0)).1 (output.getD i (0, 0)).2).2.2
    let kol : Int := 1 + sum
    let not_chose : Bool := decide (sum ≤ 0)
    let b6 := off.foldl (fun b o => light b o.1 o.2 not_chose) b5
    (read_vsbor (kol - 1) 1 con.numbers
        (con.out ++ [Msg.can_move_to, Msg.board_drawn] ++ lines)).bind fun v =>
      some (true,
        player_commit_move { G with board := b6 } wh
          (output.getD (v.1 - 1).toNat (0, 0)).1 (output.getD (v.1 - 1).toNat (0, 0)).2,
        { con with numbers := v.2.1, out := v.2.2 })
  else
    some (true,
      { (becameQueen G wh G.lodic).1 with lodic := (becameQueen G wh G.lodic).2 },
      { con with out := con.out ++ [Msg.cannot_move] })

/-- The input loop `while (true)` of `player_move`, one pass per result in
`pairs`: the entered pair is upper-cased and converted by `koordinaty`, the
display cell must show a piece of the player, and when `can_kill` is not
empty the cell must be one of its entries `0 .. can_kill_i` (the entry
`can_kill_i` is the zeroed pair `(0, 0)` while fewer than 12 are filled).
A refused entry prints a line and the loop goes on; an accepted one is
highlighted and handed to the capture or the plain branch, which end the
function. -/
def player_input_loop (G : Globals) (motion : Valid_Hod) (can_kill : List (Int × Int)) :
    Position → List (Option (Char × Char)) → List (Option Int) → List Msg →
    Option (Bool × Globals × Console)
  | _, [], _, _ => none
  | wh, none :: rest, numbers, out =>
    player_input_loop G motion can_kill wh rest numbers (out ++ [Msg.input_error])
  | wh, some xy :: rest, numbers, out =>
    let x := toupper xy.1
    let y := xy.2
    let k := koordinaty x y (wh.x, wh.y, wh.x_8, wh.y_8)
    let wh1 : Position :=
      { wh with x := k.2.1, y := k.2.2.1, x_8 := k.2.2.2.1, y_8 := k.2.2.2.2 }
    if k.1 = false then
      player_input_loop G motion can_kill wh1 rest numbers (out ++ [Msg.bad_coordinates])
    else
      let piece := G.board.rd wh1.y wh1.x
      if (G.player_is_white = true ∧ (piece ≠ 'O' ∧ piece ≠ 'W')) ∨
          (G.player_is_white = false ∧ (piece ≠ '0' ∧ piece ≠ 'B')) then
        player_input_loop G motion can_kill wh1 rest numbers (out ++ [Msg.not_your_piece])
      else
        let killer : Option (Int × Int) :=
          if can_kill.length > 0 then
            (can_kill ++ [(0, 0)]).find? fun e => decide (e.1 = wh1.x_8 ∧ e.2 = wh1.y_8)
          else none
        if can_kill.length > 0 ∧ killer = none then
          player_input_loop G motion can_kill wh1 rest numbers (out ++ [Msg.must_capture])
        else
          let G1 : Globals := { G with board := highlight_piece wh1.x wh1.y G.board }
          let con1 : Console := ⟨rest, numbers, out ++ [Msg.board_drawn]⟩
          match killer with
          | some e => player_move_kill G1 wh1 e con1
          | none => player_move_plain G1 motion wh1 con1

/-- `player_move (board)`: the `bool` result, the globals and the console
after the call.  The scan over the player's pieces sets `no_moves` and
`can_kill`; without any move the function returns false before reading
input.  `where` starts as an arbitrary position, every field the function
reads being written by `koordinaty` first.  The result is `none` when the
input ends before a selection is completed, and when the selected piece has
more than 10 capture outcomes (see `player_move_kill`). -/
def player_move (con : Console) (G : Globals) : Option (Bool × Globals × Console) :=
  let scan := scan_cells.foldl (player_scan_cell G) (Valid_Hod.fresh, true, [])
  if scan.2.1 then some (false, G, { con with out := con.out ++ [Msg.your_move] })
  else
    player_input_loop G scan.1 scan.2.2 ⟨0, 0, 0, 0, false⟩ con.pairs con.numbers
      (con.out ++ [Msg.your_move])

/-- One pass through the body of the loop of `play_game`: the Boolean tells
whether the loop goes on (false when a `break` is taken), followed by the
globals and the console after the pass. -/
def play_game_round (junk : Lodic) (junk_gs : GameState) (con : Console) (G : Globals) :
    Option (Bool × Globals × Console) :=
  let con1 : Console := { con with out := con.out ++ [Msg.turn G.is_player_turn] }
  if (check_game_over G.game_state).1 then
    some (false, G, { con1 with out := con1.out ++ (check_game_over G.game_state).2 })
  else
    (if G.is_player_turn then player_move con1 G
      else (computer_move junk junk_gs G).map fun r => (r.1, r.2, con1)).map fun r =>
      if r.1 = false then (false, r.2.1, r.2.2)
      else
        (true, refresh_board (switch_turn r.2.1),
          { r.2.2 with out := r.2.2.out ++ [Msg.board_drawn] })

/-- The initial position with the player playing white and to move. -/
def stateStart : Globals := stateOf true true game_state_init lodicStart
/-- Player man on A1 `(0, 7)` behind the computer men on B2 `(1, 6)` and C3
`(2, 5)`: the player's only piece has neither a step nor a capture. -/
def lodicStuck : Lodic := Grid.ofRows [
  " 0 0 0 0".toList,
  "0 0 0 0 ".toList,
  " 0 0 0 0".toList,
  "0 0 0 0 ".toList,
  " 0 0 0 0".toList,
  "0 1 0 0 ".toList,
  " 1 0 0 0".toList,
  "2 0 0 0 ".toList]

/-- Player (white) to move on `lodicStuck`. -/
def stateStuck : Globals := stateOf true true ⟨1, 2, 0, 0⟩ lodicStuck

/-! ## Machine arithmetic of the evaluator and of the coordinate mapping -/

/-- The value an `int` of the program (32 bits, two's complement) holds after
an arithmetic result `n`: `n` itself when it lies in `-2^31 .. 2^31 - 1`,
otherwise `n` reduced modulo `2^32` into that range, as the compiled program
does. -/
def wrap32 (n : Int) : Int := (n + 2147483648) % 4294967296 - 2147483648

/-- The value a `short` of the program (16 bits) holds after the assignment of
`n`. -/
def wrap16 (n : Int) : Int := (n + 32768) % 65536 - 32768

/-- `evaluate_board_pc (lodic, is_white)` in the arithmetic of the program:
the source statement by statement, every difference, product and sum being
an `int`.  `evaluate_board_pc` above is the same expression in exact
integers. -/
def evaluate_board_pc_int32 (game_state : GameState) (lodic : Lodic) (is_white : Bool) : Int :=
  let score : Int := 0
  let our_count := if is_white then game_state.count_white else game_state.count_black
  let opponent_count := if is_white then game_state.count_black else game_state.count_white
  let inc := wrap32 (wrap32 (our_count - opponent_count) * 10)
  let score := wrap32 (score + (if inc > 0 then inc else 0))
  let our_count := if is_white then game_state.count_white_king
    else game_state.count_black_king
  let opponent_count := if is_white then game_state.count_black_king
    else game_state.count_white_king
  let inc := wrap32 (wrap32 (our_count - opponent_count) * 15)
  let score := wrap32 (score + (if inc > 0 then inc else 0))
  let score := wrap32 (score + (if lodic.rd 3 4 = '1' then 1 else 0) * 2)
  let score := wrap32 (score + (if lodic.rd 3 4 = '1' then 1 else 0) * 2)
  let score := wrap32 (score + (if lodic.rd 3 4 = '1' then 1 else 0) * 2)
  let score := wrap32 (score + (if lodic.rd 3 4 = '1' then 1 else 0) * 2)
  score

/-- The value added to `score` by the first material statement of
`evaluate_board_pc` (men, weight 10) in the arithmetic of the program. -/
def men_term_int32 (game_state : GameState) (is_white : Bool) : Int :=
  let our_count := if is_white then game_state.count_white else game_state.count_black
  let opponent_count := if is_white then game_state.count_black else game_state.count_white
  let inc := wrap32 (wrap32 (our_count - opponent_count) * 10)
  if inc > 0 then inc else 0

/-- The value added to `score` by the second material statement of
`evaluate_board_pc` (kings, weight 15) in the arithmetic of the program. -/
def king_term_int32 (game_state : GameState) (is_white : Bool) : Int :=
  let our_count := if is_white then game_state.count_white_king
    else game_state.count_black_king
  let opponent_count := if is_white then game_state.count_black_king
    else game_state.count_white_king
  let inc := wrap32 (wrap32 (our_count - opponent_count) * 15)
  if inc > 0 then inc else 0

/-- The four counts lie between -40 000 000 and 40 000 000; the counts of a
game lie between 0 and 12. -/
def smallCounts (gs : GameState) : Prop :=
  (-40000000 ≤ gs.count_white ∧ gs.count_white ≤ 40000000) ∧
  (-40000000 ≤ gs.count_black ∧ gs.count_black ≤ 40000000) ∧
  (-40000000 ≤ gs.count_white_king ∧ gs.count_white_king ≤ 40000000) ∧
  (-40000000 ≤ gs.count_black_king ∧ gs.count_black_king ≤ 40000000)

instance (gs : GameState) : Decidable (smallCounts gs) := by unfold smallCounts; infer_instance

/-- The terminal nodes of the capture-chain tree rooted at `pos`, every chain
played on its own from the state of the entry: at a node without a capture
the board and counts reached, otherwise the terminal nodes below each
direction that `get_valid_kill` flags (left-up, right-up, left-down,
right-down), each direction starting from the globals with which the node
was reached and not from what a sibling direction left behind.  This is the
tree of the statements about all maximal capture chains; the walk of the
code is `captureLeaves`. -/
def chainTreeLeaves : Nat → Globals → Position → Lodic → Option (List Leaf)
  | 0, _, _, _ => none
  | fuel + 1, G, pos, lodic =>
    if (get_valid_kill G.is_player_turn pos Valid_Kill.fresh lodic).1 = 0 then
      some [⟨lodic, G.game_state⟩]
    else
      [Dir.l_h, Dir.r_h, Dir.l_s, Dir.r_s].foldl (fun acc d =>
        if (get_valid_kill G.is_player_turn pos Valid_Kill.fresh lodic).2.flag d then
          acc.bind fun ls =>
            (chainTreeLeaves fuel (bestStep G pos lodic d).1 (bestStep G pos lodic d).2.1
              (bestStep G pos lodic d).2.2).map fun sub => ls ++ sub
        else acc) (some [])

/-- Computer man on C5 `(2, 3)` inside the player men on B4 `(1, 4)`,
D4 `(3, 4)`, B2 `(1, 6)` and D2 `(3, 6)`, all other cells of the two squares
empty, and a player king on H8 `(7, 0)`: the man can capture the four men
either way round, passing C1 `(2, 7)` on row 7 and ending on C5. -/
def lodicRing : Lodic := Grid.ofRows [
  " 0 0 0 4".toList,
  "0 0 0 0 ".toList,
  " 0 0 0 0".toList,
  "0 1 0 0 ".toList,
  " 2 2 0 0".toList,
  "0 0 0 0 ".toList,
  " 2 2 0 0".toList,
  "0 0 0 0 ".toList]

/-- Computer (black) to move on `lodicRing`, display drawn from the board. -/
def stateRing : Globals := stateOf false true ⟨4, 1, 1, 0⟩ lodicRing

/-- The 64 logical cells `(y, x)`, row by row. -/
def allCells : List (Int × Int) :=
  (List.range 8).flatMap fun y => (List.range 8).map fun x => ((y : Int), (x : Int))

/-- All plain-move outcomes of all computer pieces, each played from the state
of the entry: for every cell holding a computer piece and every destination
that `get_valid_moves` flags, the board and counts that the plain-move block
of `computer_move` builds when it starts from `G` itself (`moveLeaf`). -/
def plainOutcomes (G : Globals) : List Leaf :=
  allCells.flatMap fun c =>
    if computerPiece (G.lodic.rd c.1 c.2) then
      (move_outputs (get_valid_moves (posAt c.2 c.1) Valid_Hod.fresh G.lodic).2).map fun d =>
        moveLeaf G c.2 c.1 d.2 d.1
    else []

/-- All maximal capture chains of all computer pieces, each played from the
state of the entry: the terminal nodes of the capture-chain tree
(`chainTreeLeaves`) of every cell holding a computer piece for which
`get_valid_kill` reports a capture. -/
def chainOutcomes (G : Globals) : Option (List Leaf) :=
  allCells.foldl (fun acc c =>
    if computerPiece (G.lodic.rd c.1 c.2) ∧
        (get_valid_kill G.is_player_turn (posAt c.2 c.1) Valid_Kill.fresh G.lodic).1 > 0 then
      acc.bind fun ls => (chainTreeLeaves chainFuel G (posAt c.2 c.1) G.lodic).map fun sub =>
        ls ++ sub
    else acc) (some [])

/-! # Theorems -/

/-! ## Grid lemmas -/

theorem Grid.rd_wr {h w : Nat} (g : Grid h w) (y x y' x' : Int) (c : Char) :
    (g.wr y x c).rd y' x' =
      if (y' = y ∧ x' = x) ∧ (0 ≤ y ∧ y < h) ∧ (0 ≤ x ∧ x < w) then c else g.rd y' x' := by
  unfold Grid.rd Grid.wr
  by_cases hy : 0 ≤ y' ∧ y' < h
  · by_cases hx : 0 ≤ x' ∧ x' < w
    · simp only [hy, hx, and_self, dite_true]
      have e1 : ((y'.toNat : Nat) : Int) = y' := Int.toNat_of_nonneg hy.1
      have e2 : ((x'.toNat : Nat) : Int) = x' := Int.toNat_of_nonneg hx.1
      simp only [e1, e2]
      by_cases h1 : y' = y ∧ x' = x
      · obtain ⟨rfl, rfl⟩ := h1
        simp [hy, hx]
      · simp [h1]
    · simp only [hy, hx, and_self, dite_true, dite_false]
      split
      · next h1 => exfalso; obtain ⟨⟨rfl, rfl⟩, _, h3⟩ := h1; exact hx h3
      · rfl
  · simp only [hy, dite_false]
    split
    · next h1 => exfalso; obtain ⟨⟨rfl, rfl⟩, h3, _⟩ := h1; exact hy h3
    · rfl

theorem rd_off (lodic : Lodic) (x y : Int) (h : ¬ onBoard x y) : lodic.rd y x = ' ' := by
  unfold Grid.rd
  split_ifs with h1 h2
  · exfalso; apply h; unfold onBoard; omega
  · rfl
  · rfl

theorem rd_on (lodic : Lodic) (x y : Int) (h : onBoard x y) :
    lodic.rd y x = lodic ⟨y.toNat, by unfold onBoard at h; omega⟩
      ⟨x.toNat, by unfold onBoard at h; omega⟩ := by
  unfold onBoard at h
  unfold Grid.rd
  rw [dif_pos (by omega), dif_pos (by omega)]

/-- Reading a logical board after one write. -/
theorem lodic_rd_wr (l : Lodic) (y x y' x' : Int) (c : Char) (h : onBoard x y) :
    (l.wr y x c).rd y' x' = if y' = y ∧ x' = x then c else l.rd y' x' := by
  rw [Grid.rd_wr]
  unfold onBoard at h
  by_cases h1 : y' = y ∧ x' = x
  · rw [if_pos ⟨h1, by omega, by omega⟩, if_pos h1]
  · rw [if_neg (fun hh => h1 hh.1), if_neg h1]

theorem rd_isPiece_onBoard (lodic : Lodic) (x y : Int) (h : isPiece (lodic.rd y x)) :
    onBoard x y := by
  by_contra hn
  rw [rd_off lodic x y hn] at h
  revert h
  decide

/-- Effect of one write on a cell count. -/
theorem countCells_wr (p : Char → Prop) [DecidablePred p] (l : Lodic) (y x : Int) (c : Char)
    (h : onBoard x y) :
    countCells p (l.wr y x c) + (if p (l.rd y x) then 1 else 0) =
      countCells p l + (if p c then 1 else 0) := by
  have hy : y.toNat < 8 := by unfold onBoard at h; omega
  have hx : x.toNat < 8 := by unfold onBoard at h; omega
  have ey : ((y.toNat : Nat) : Int) = y := Int.toNat_of_nonneg (by unfold onBoard at h; omega)
  have ex : ((x.toNat : Nat) : Int) = x := Int.toNat_of_nonneg (by unfold onBoard at h; omega)
  let c0 : Fin 8 × Fin 8 := (⟨y.toNat, hy⟩, ⟨x.toNat, hx⟩)
  unfold countCells
  rw [← Finset.add_sum_erase Finset.univ _ (Finset.mem_univ c0),
    ← Finset.add_sum_erase Finset.univ (fun ij : Fin 8 × Fin 8 =>
      if p (l ij.1 ij.2) then 1 else 0) (Finset.mem_univ c0)]
  have hrest : ∑ ij ∈ Finset.univ.erase c0, (if p ((l.wr y x c) ij.1 ij.2) then 1 else 0) =
      ∑ ij ∈ Finset.univ.erase c0, (if p (l ij.1 ij.2) then 1 else 0) := by
    apply Finset.sum_congr rfl
    intro ij hij
    have hne : ij ≠ c0 := Finset.ne_of_mem_erase hij
    have : ¬ (((ij.1.val : Nat) : Int) = y ∧ ((ij.2.val : Nat) : Int) = x) := by
      rintro ⟨h1, h2⟩
      apply hne
      apply Prod.ext
      · apply Fin.ext; show ij.1.val = y.toNat; omega
      · apply Fin.ext; show ij.2.val = x.toNat; omega
    simp only [Grid.wr, if_neg this]
  rw [hrest]
  have h0 : (l.wr y x c) c0.1 c0.2 = c := by
    simp only [Grid.wr, c0, ey, ex, and_self, if_true]
  have h1 : l.rd y x = l c0.1 c0.2 := rd_on l x y h
  rw [h0, h1]
  omega

theorem countCells_le (p : Char → Prop) [DecidablePred p] (l : Lodic) : countCells p l ≤ 64 := by
  unfold countCells
  calc ∑ ij : Fin 8 × Fin 8, (if p (l ij.1 ij.2) then 1 else 0)
      ≤ ∑ _ij : Fin 8 × Fin 8, 1 := Finset.sum_le_sum (fun ij _ => by split <;> omega)
    _ = 64 := by simp

/-! ## Capture generator lemmas -/

theorem dir_simp (a : Int) :
    a + -1 = a - 1 ∧ a + 2 * -1 = a - 2 ∧ a + 2 * 1 = a + 2 := by
  refine ⟨by ring, by ring, by ring⟩

/-- The markers tested by the two turn branches are the enemy markers. -/
theorem isEnemy_iff (t : Bool) (c : Char) :
    isEnemy t c ↔ (c = (if t then '1' else '2') ∨ c = (if t then '3' else '4')) := by
  cases t <;> simp [isEnemy]

theorem get_valid_kill_eq (t : Bool) (pos : Position) (v : Valid_Kill) (l : Lodic)
    (hp : isPiece (l.rd pos.y_8 pos.x_8)) :
    get_valid_kill t pos v l =
      get_valid_kill_blocks (if t then '1' else '2') (if t then '3' else '4') pos v l := by
  unfold isPiece at hp
  cases t <;> simp [get_valid_kill, hp]

theorem get_valid_kill_not_piece (t : Bool) (pos : Position) (v : Valid_Kill) (l : Lodic)
    (hp : ¬ isPiece (l.rd pos.y_8 pos.x_8)) :
    get_valid_kill t pos v l = (0, { v with
      kill_l_h := false, kill_r_h := false, kill_l_s := false, kill_r_s := false }) := by
  unfold isPiece at hp
  simp [get_valid_kill, hp]

/-- A flag of `get_valid_kill` is set exactly when the origin holds a piece and
the capture in that direction is possible. -/
theorem gvk_flag (t : Bool) (pos : Position) (v : Valid_Kill) (l : Lodic) (d : Dir) :
    (get_valid_kill t pos v l).2.flag d = true ↔
      isPiece (l.rd pos.y_8 pos.x_8) ∧ canKill t l pos.x_8 pos.y_8 d.dx d.dy := by
  by_cases hp : isPiece (l.rd pos.y_8 pos.x_8)
  · have hb := rd_isPiece_onBoard l pos.x_8 pos.y_8 hp
    unfold onBoard at hb
    rw [get_valid_kill_eq t pos v l hp]
    simp only [hp, true_and, canKill, onBoard, isEnemy_iff]
    cases d <;>
      simp only [Valid_Kill.flag, get_valid_kill_blocks, Dir.dx, Dir.dy, dir_simp,
        decide_eq_true_eq, mul_one] <;>
      constructor <;> rintro ⟨h1, h2, h3, h4⟩ <;> exact ⟨by omega, h2, by omega, h4⟩
  · rw [get_valid_kill_not_piece t pos v l hp]
    simp only [hp, false_and, iff_false]
    cases d <;> simp [Valid_Kill.flag]

/-- Landing coordinates of a set flag. -/
theorem gvk_land (t : Bool) (pos : Position) (v : Valid_Kill) (l : Lodic) (d : Dir)
    (h : (get_valid_kill t pos v l).2.flag d = true) :
    (get_valid_kill t pos v l).2.land_y d = pos.y_8 + 2 * d.dy ∧
      (get_valid_kill t pos v l).2.land_x d = pos.x_8 + 2 * d.dx := by
  have hp := ((gvk_flag t pos v l d).1 h).1
  rw [get_valid_kill_eq t pos v l hp] at h ⊢
  cases d <;>
    simp only [Valid_Kill.flag, Valid_Kill.land_y, Valid_Kill.land_x, get_valid_kill_blocks,
      Dir.dx, Dir.dy, dir_simp, mul_one] at h ⊢ <;>
    rw [if_pos h, if_pos h] <;> exact ⟨rfl, rfl⟩

/-- The count returned by `get_valid_kill` is the number of set flags. -/
theorem gvk_count (t : Bool) (pos : Position) (v : Valid_Kill) (l : Lodic) :
    (get_valid_kill t pos v l).1 = (get_valid_kill t pos v l).2.flags := by
  by_cases hp : isPiece (l.rd pos.y_8 pos.x_8)
  · rw [get_valid_kill_eq t pos v l hp]
    simp only [get_valid_kill_blocks, Valid_Kill.flags]
    ring
  · rw [get_valid_kill_not_piece t pos v l hp]
    simp [Valid_Kill.flags]

theorem flags_eq_zero_iff (v : Valid_Kill) : v.flags = 0 ↔ ∀ d : Dir, v.flag d = false := by
  unfold Valid_Kill.flags
  constructor
  · intro h d
    cases d <;> simp only [Valid_Kill.flag] <;> by_contra hc <;>
      simp only [Bool.not_eq_false] at hc <;> rw [hc] at h <;> simp only [if_true] at h <;>
      split_ifs at h <;> omega
  · intro h
    have h1 := h .l_h
    have h2 := h .r_h
    have h3 := h .l_s
    have h4 := h .r_s
    simp only [Valid_Kill.flag] at h1 h2 h3 h4
    simp [h1, h2, h3, h4]

theorem flags_nonneg (v : Valid_Kill) : 0 ≤ v.flags := by
  unfold Valid_Kill.flags
  split_ifs <;> omega

/-- The result of `get_valid_kill` depends on the position only through its
logical coordinates, and its flags and count not on the previous `velian`. -/
theorem gvk_congr (t : Bool) (p q : Position) (v w : Valid_Kill) (l : Lodic)
    (hx : p.x_8 = q.x_8) (hy : p.y_8 = q.y_8) :
    (get_valid_kill t p v l).1 = (get_valid_kill t q w l).1 ∧
      ∀ d, (get_valid_kill t p v l).2.flag d = (get_valid_kill t q w l).2.flag d := by
  have hf : ∀ d, (get_valid_kill t p v l).2.flag d = (get_valid_kill t q w l).2.flag d := by
    intro d
    rw [Bool.eq_iff_iff, gvk_flag, gvk_flag, hx, hy]
  refine ⟨?_, hf⟩
  rw [gvk_count, gvk_count]
  have h1 := hf .l_h
  have h2 := hf .r_h
  have h3 := hf .l_s
  have h4 := hf .r_s
  simp only [Valid_Kill.flag] at h1 h2 h3 h4
  simp only [Valid_Kill.flags, h1, h2, h3, h4]

/-! ## Capture-chain explorer lemmas -/

theorem kill_block_globals (G : Globals) (pos : Position) (lodic : Lodic) (ky kx ny nx : Int) :
    ({ (kill_block G pos lodic ky kx ny nx).1 with game_state := G.game_state } : Globals) = G ∧
    (kill_block G pos lodic ky kx ny nx).1.is_player_turn = G.is_player_turn ∧
    (kill_block G pos lodic ky kx ny nx).1.player_is_white = G.player_is_white := by
  simp [kill_block]

/-- A direction block of `calculate_kill_moves` in terms of the appended
outcomes of its recursive call. -/
theorem kill_branch_eq (fuel : Nat) (G : Globals) (pos : Position) (lodic : Lodic)
    (d : Dir) (buf : List Outcome)
    (ih : ∀ (G : Globals) (pos : Position) (lodic : Lodic) (buf : List Outcome),
      calculate_kill_moves fuel G pos lodic buf =
        (chainNews fuel G pos lodic).map fun n => (G, buf ++ n)) :
    kill_branch (calculate_kill_moves fuel)
        ((get_valid_kill G.is_player_turn pos Valid_Kill.fresh lodic).2.flag d)
        (pos.y_8 + d.dy) (pos.x_8 + d.dx)
        ((get_valid_kill G.is_player_turn pos Valid_Kill.fresh lodic).2.land_y d)
        ((get_valid_kill G.is_player_turn pos Valid_Kill.fresh lodic).2.land_x d)
        pos lodic G.game_state (G, buf) =
      (if (get_valid_kill G.is_player_turn pos Valid_Kill.fresh lodic).2.flag d then
          chainNews fuel (killStep G pos lodic d).1 (killStep G pos lodic d).2.1
            (killStep G pos lodic d).2.2
        else some []).map fun n => (G, buf ++ n) := by
  unfold kill_branch
  by_cases hf : (get_valid_kill G.is_player_turn pos Valid_Kill.fresh lodic).2.flag d = true
  · obtain ⟨hy, hx⟩ := gvk_land _ _ _ _ _ hf
    simp only [hf, if_true, hy, hx, ih]
    unfold killStep
    simp only [Option.map_map]
    rfl
  · simp only [hf, Bool.false_eq_true, if_false, Option.map_some', List.append_nil]

theorem calculate_kill_moves_eq (fuel : Nat) :
    ∀ (G : Globals) (pos : Position) (lodic : Lodic) (buf : List Outcome),
      calculate_kill_moves fuel G pos lodic buf =
        (chainNews fuel G pos lodic).map fun n => (G, buf ++ n) := by
  induction fuel with
  | zero => intro G pos lodic buf; rfl
  | succ fuel ih =>
    intro G pos lodic buf
    by_cases h0 : (get_valid_kill G.is_player_turn pos Valid_Kill.fresh lodic).1 = 0
    · simp only [calculate_kill_moves, chainNews, h0, if_true, Option.map_some']
    · have e1 := kill_branch_eq fuel G pos lodic .l_h
      have e2 := kill_branch_eq fuel G pos lodic .r_h
      have e3 := kill_branch_eq fuel G pos lodic .l_s
      have e4 := kill_branch_eq fuel G pos lodic .r_s
      simp only [Dir.dx, Dir.dy, Valid_Kill.flag, Valid_Kill.land_y, Valid_Kill.land_x,
        ← sub_eq_add_neg] at e1 e2 e3 e4
      simp only [calculate_kill_moves, chainNews, h0, if_false, Valid_Kill.flag]
      rw [e1 buf ih]
      cases h1 : (if (get_valid_kill G.is_player_turn pos Valid_Kill.fresh lodic).2.kill_l_h = true
          then chainNews fuel (killStep G pos lodic .l_h).1 (killStep G pos lodic .l_h).2.1
            (killStep G pos lodic .l_h).2.2 else some []) with
      | none => rfl
      | some n1 =>
        simp only [Option.map_some', Option.some_bind]
        rw [e2 _ ih]
        cases h2 : (if (get_valid_kill G.is_player_turn pos Valid_Kill.fresh lodic).2.kill_r_h = true
            then chainNews fuel (killStep G pos lodic .r_h).1 (killStep G pos lodic .r_h).2.1
              (killStep G pos lodic .r_h).2.2 else some []) with
        | none => rfl
        | some n2 =>
          simp only [Option.map_some', Option.some_bind]
          rw [e3 _ ih]
          cases h3 : (if (get_valid_kill G.is_player_turn pos Valid_Kill.fresh lodic).2.kill_l_s = true
              then chainNews fuel (killStep G pos lodic .l_s).1 (killStep G pos lodic .l_s).2.1
                (killStep G pos lodic .l_s).2.2 else some []) with
          | none => rfl
          | some n3 =>
            simp only [Option.map_some', Option.some_bind]
            rw [e4 _ ih]
            cases h4 : (if (get_valid_kill G.is_player_turn pos Valid_Kill.fresh lodic).2.kill_r_s = true
                then chainNews fuel (killStep G pos lodic .r_s).1 (killStep G pos lodic .r_s).2.1
                  (killStep G pos lodic .r_s).2.2 else some []) with
            | none => rfl
            | some n4 =>
              simp only [Option.map_some', Option.some_bind, List.append_assoc]

theorem chainNews_succ (fuel : Nat) (G : Globals) (pos : Position) (lodic : Lodic) :
    chainNews (fuel + 1) G pos lodic =
      if (get_valid_kill G.is_player_turn pos Valid_Kill.fresh lodic).1 = 0 then
        some [⟨pos.x_8, pos.y_8, lodic, G.game_state⟩]
      else
        (subNews fuel G pos lodic .l_h).bind fun n1 =>
          (subNews fuel G pos lodic .r_h).bind fun n2 =>
            (subNews fuel G pos lodic .l_s).bind fun n3 =>
              (subNews fuel G pos lodic .r_s).bind fun n4 => some (n1 ++ n2 ++ n3 ++ n4) := rfl

/-- At a node the appended outcomes are the concatenation of the four blocks'. -/
theorem chainNews_node (fuel : Nat) (G : Globals) (pos : Position) (lodic : Lodic)
    (n : List Outcome)
    (h0 : (get_valid_kill G.is_player_turn pos Valid_Kill.fresh lodic).1 ≠ 0) :
    chainNews (fuel + 1) G pos lodic = some n ↔
      ∃ n1 n2 n3 n4, subNews fuel G pos lodic .l_h = some n1 ∧
        subNews fuel G pos lodic .r_h = some n2 ∧ subNews fuel G pos lodic .l_s = some n3 ∧
        subNews fuel G pos lodic .r_s = some n4 ∧ n = n1 ++ n2 ++ n3 ++ n4 := by
  rw [chainNews_succ, if_neg h0]
  constructor
  · intro h
    cases h1 : subNews fuel G pos lodic .l_h with
    | none => rw [h1] at h; simp at h
    | some n1 =>
      cases h2 : subNews fuel G pos lodic .r_h with
      | none => rw [h1, h2] at h; simp at h
      | some n2 =>
        cases h3 : subNews fuel G pos lodic .l_s with
        | none => rw [h1, h2, h3] at h; simp at h
        | some n3 =>
          cases h4 : subNews fuel G pos lodic .r_s with
          | none => rw [h1, h2, h3, h4] at h; simp at h
          | some n4 =>
            rw [h1, h2, h3, h4] at h
            simp only [Option.some_bind, Option.some.injEq] at h
            exact ⟨n1, n2, n3, n4, rfl, rfl, rfl, rfl, h.symm⟩
  · rintro ⟨n1, n2, n3, n4, h1, h2, h3, h4, rfl⟩
    rw [h1, h2, h3, h4]
    rfl

theorem chainNews_leaf (fuel : Nat) (G : Globals) (pos : Position) (lodic : Lodic)
    (h0 : (get_valid_kill G.is_player_turn pos Valid_Kill.fresh lodic).1 = 0) :
    chainNews (fuel + 1) G pos lodic = some [⟨pos.x_8, pos.y_8, lodic, G.game_state⟩] := by
  rw [chainNews_succ, if_pos h0]

theorem killStep_turn (G : Globals) (pos : Position) (lodic : Lodic) (d : Dir) :
    (killStep G pos lodic d).1.is_player_turn = G.is_player_turn ∧
      (killStep G pos lodic d).1.player_is_white = G.player_is_white ∧
      (killStep G pos lodic d).2.1.x_8 = pos.x_8 + 2 * d.dx ∧
      (killStep G pos lodic d).2.1.y_8 = pos.y_8 + 2 * d.dy := by
  simp [killStep, kill_block]

/-- An outcome at a node comes from the block of a set flag. -/
theorem chainNews_node_mem (fuel : Nat) (G : Globals) (pos : Position) (lodic : Lodic)
    (n : List Outcome)
    (h0 : (get_valid_kill G.is_player_turn pos Valid_Kill.fresh lodic).1 ≠ 0)
    (h : chainNews (fuel + 1) G pos lodic = some n) (o : Outcome) (ho : o ∈ n) :
    ∃ d nd, (get_valid_kill G.is_player_turn pos Valid_Kill.fresh lodic).2.flag d = true ∧
      chainNews fuel (killStep G pos lodic d).1 (killStep G pos lodic d).2.1
        (killStep G pos lodic d).2.2 = some nd ∧ o ∈ nd := by
  obtain ⟨n1, n2, n3, n4, h1, h2, h3, h4, rfl⟩ := (chainNews_node fuel G pos lodic n h0).1 h
  have key : ∀ d nd, subNews fuel G pos lodic d = some nd → o ∈ nd →
      ∃ d nd, (get_valid_kill G.is_player_turn pos Valid_Kill.fresh lodic).2.flag d = true ∧
        chainNews fuel (killStep G pos lodic d).1 (killStep G pos lodic d).2.1
          (killStep G pos lodic d).2.2 = some nd ∧ o ∈ nd := by
    intro d nd hs hm
    unfold subNews at hs
    by_cases hf : (get_valid_kill G.is_player_turn pos Valid_Kill.fresh lodic).2.flag d = true
    · rw [if_pos hf] at hs
      exact ⟨d, nd, hf, hs, hm⟩
    · rw [if_neg hf] at hs
      simp only [Option.some.injEq] at hs
      subst hs
      simp at hm
  simp only [List.mem_append] at ho
  rcases ho with ((ho | ho) | ho) | ho
  · exact key _ _ h1 ho
  · exact key _ _ h2 ho
  · exact key _ _ h3 ho
  · exact key _ _ h4 ho

/-- Induction over the outcomes of a chain exploration. -/
theorem chainNews_forall (P : Globals → Position → Lodic → Outcome → Prop)
    (leaf : ∀ (G : Globals) (pos : Position) (lodic : Lodic),
      (get_valid_kill G.is_player_turn pos Valid_Kill.fresh lodic).1 = 0 →
      P G pos lodic ⟨pos.x_8, pos.y_8, lodic, G.game_state⟩)
    (step : ∀ (G : Globals) (pos : Position) (lodic : Lodic) (d : Dir) (o : Outcome),
      (get_valid_kill G.is_player_turn pos Valid_Kill.fresh lodic).2.flag d = true →
      P (killStep G pos lodic d).1 (killStep G pos lodic d).2.1 (killStep G pos lodic d).2.2 o →
      P G pos lodic o) (fuel : Nat) :
    ∀ (G : Globals) (pos : Position) (lodic : Lodic) (n : List Outcome),
      chainNews fuel G pos lodic = some n → ∀ o ∈ n, P G pos lodic o := by
  induction fuel with
  | zero => intro G pos lodic n h; simp [chainNews] at h
  | succ fuel ih =>
    intro G pos lodic n h o ho
    by_cases h0 : (get_valid_kill G.is_player_turn pos Valid_Kill.fresh lodic).1 = 0
    · rw [chainNews_leaf fuel G pos lodic h0] at h
      simp only [Option.some.injEq] at h
      subst h
      simp only [List.mem_singleton] at ho
      subst ho
      exact leaf G pos lodic h0
    · obtain ⟨d, nd, hf, hs, hm⟩ := chainNews_node_mem fuel G pos lodic n h0 h o ho
      exact step G pos lodic d o hf (ih _ _ _ nd hs o hm)

/-- More fuel does not change a result. -/
theorem chainNews_mono (fuel : Nat) :
    ∀ (G : Globals) (pos : Position) (lodic : Lodic) (n : List Outcome),
      chainNews fuel G pos lodic = some n → chainNews (fuel + 1) G pos lodic = some n := by
  induction fuel with
  | zero => intro G pos lodic n h; simp [chainNews] at h
  | succ fuel ih =>
    intro G pos lodic n h
    by_cases h0 : (get_valid_kill G.is_player_turn pos Valid_Kill.fresh lodic).1 = 0
    · rw [chainNews_leaf _ G pos lodic h0] at h ⊢
      exact h
    · obtain ⟨n1, n2, n3, n4, h1, h2, h3, h4, rfl⟩ :=
        (chainNews_node fuel G pos lodic n h0).1 h
      have key : ∀ d nd, subNews fuel G pos lodic d = some nd →
          subNews (fuel + 1) G pos lodic d = some nd := by
        intro d nd hs
        unfold subNews at hs ⊢
        split_ifs at hs ⊢
        · exact ih _ _ _ _ hs
        · exact hs
      exact (chainNews_node (fuel + 1) G pos lodic _ h0).2
        ⟨n1, n2, n3, n4, key _ _ h1, key _ _ h2, key _ _ h3, key _ _ h4, rfl⟩

theorem chainNews_le (fuel fuel' : Nat) (hle : fuel ≤ fuel') (G : Globals) (pos : Position)
    (lodic : Lodic) (n : List Outcome) (h : chainNews fuel G pos lodic = some n) :
    chainNews fuel' G pos lodic = some n := by
  induction hle with
  | refl => exact h
  | step _ ih => exact chainNews_mono _ G pos lodic n ih

theorem Dir.dx_cases (d : Dir) : d.dx = -1 ∨ d.dx = 1 := by cases d <;> simp [Dir.dx]

theorem Dir.dy_cases (d : Dir) : d.dy = -1 ∨ d.dy = 1 := by cases d <;> simp [Dir.dy]

theorem not_isEnemy_zero (t : Bool) : ¬ isEnemy t '0' := by cases t <;> decide

theorem not_isEnemy_space (t : Bool) : ¬ isEnemy t ' ' := by cases t <;> decide

/-- What a set flag says about the three cells of the capture. -/
theorem gvk_flag_cells (t : Bool) (pos : Position) (v : Valid_Kill) (l : Lodic) (d : Dir)
    (h : (get_valid_kill t pos v l).2.flag d = true) :
    onBoard pos.x_8 pos.y_8 ∧ isPiece (l.rd pos.y_8 pos.x_8) ∧
      onBoard (pos.x_8 + d.dx) (pos.y_8 + d.dy) ∧
      isEnemy t (l.rd (pos.y_8 + d.dy) (pos.x_8 + d.dx)) ∧
      onBoard (pos.x_8 + 2 * d.dx) (pos.y_8 + 2 * d.dy) ∧
      l.rd (pos.y_8 + 2 * d.dy) (pos.x_8 + 2 * d.dx) = '0' := by
  obtain ⟨hp, h1, h2, h3, h4⟩ := (gvk_flag t pos v l d).1 h
  exact ⟨rd_isPiece_onBoard l _ _ hp, hp, h1, h2, h3, h4⟩

/-- The board on which `calculate_kill_moves` recurses, cell by cell. -/
theorem killStep_rd (G : Globals) (pos : Position) (lodic : Lodic) (d : Dir)
    (h : (get_valid_kill G.is_player_turn pos Valid_Kill.fresh lodic).2.flag d = true)
    (y' x' : Int) :
    (killStep G pos lodic d).2.2.rd y' x' =
      if y' = pos.y_8 ∧ x' = pos.x_8 then '0'
      else if y' = pos.y_8 + 2 * d.dy ∧ x' = pos.x_8 + 2 * d.dx then lodic.rd pos.y_8 pos.x_8
      else if y' = pos.y_8 + d.dy ∧ x' = pos.x_8 + d.dx then '0'
      else lodic.rd y' x' := by
  obtain ⟨ho, _, hk, _, hn, _⟩ := gvk_flag_cells _ _ _ _ _ h
  simp only [killStep, kill_block]
  rw [lodic_rd_wr _ _ _ _ _ _ ho, lodic_rd_wr _ _ _ _ _ _ hn, lodic_rd_wr _ _ _ _ _ _ hk]

/-- Each capture step removes exactly one enemy piece from the board. -/
theorem killStep_enemyCount (G : Globals) (pos : Position) (lodic : Lodic) (d : Dir)
    (h : (get_valid_kill G.is_player_turn pos Valid_Kill.fresh lodic).2.flag d = true) :
    enemyCount G.is_player_turn (killStep G pos lodic d).2.2 + 1 =
      enemyCount G.is_player_turn lodic := by
  obtain ⟨ho, _, hk, hek, hn, hn0⟩ := gvk_flag_cells _ _ _ _ _ h
  have hdx := d.dx_cases
  have hdy := d.dy_cases
  simp only [killStep, kill_block, enemyCount]
  have c1 := countCells_wr (isEnemy G.is_player_turn) lodic _ _ '0' hk
  have c2 := countCells_wr (isEnemy G.is_player_turn)
    (lodic.wr (pos.y_8 + d.dy) (pos.x_8 + d.dx) '0') _ _ (lodic.rd pos.y_8 pos.x_8) hn
  have c3 := countCells_wr (isEnemy G.is_player_turn)
    ((lodic.wr (pos.y_8 + d.dy) (pos.x_8 + d.dx) '0').wr (pos.y_8 + 2 * d.dy)
      (pos.x_8 + 2 * d.dx) (lodic.rd pos.y_8 pos.x_8)) _ _ '0' ho
  have n1 : ¬ (pos.y_8 = pos.y_8 + 2 * d.dy ∧ pos.x_8 = pos.x_8 + 2 * d.dx) := by omega
  have n2 : ¬ (pos.y_8 = pos.y_8 + d.dy ∧ pos.x_8 = pos.x_8 + d.dx) := by omega
  have n3 : ¬ (pos.y_8 + 2 * d.dy = pos.y_8 + d.dy ∧ pos.x_8 + 2 * d.dx = pos.x_8 + d.dx) := by
    omega
  rw [lodic_rd_wr _ _ _ _ _ _ hn, lodic_rd_wr _ _ _ _ _ _ hk, if_neg n1, if_neg n2] at c3
  rw [lodic_rd_wr _ _ _ _ _ _ hk, if_neg n3, hn0] at c2
  rw [if_pos hek] at c1
  simp only [if_neg (not_isEnemy_zero _)] at c1 c2 c3
  omega

theorem enemyCount_le (t : Bool) (l : Lodic) : enemyCount t l ≤ 64 := countCells_le _ l

theorem gvk_count_ne_zero (t : Bool) (pos : Position) (v : Valid_Kill) (l : Lodic)
    (h : (get_valid_kill t pos v l).1 ≠ 0) :
    ∃ d, (get_valid_kill t pos v l).2.flag d = true := by
  by_contra hc
  apply h
  rw [gvk_count, flags_eq_zero_iff]
  intro d
  by_contra hd
  exact hc ⟨d, by simpa using hd⟩

theorem gvk_count_eq_zero (t : Bool) (pos : Position) (v : Valid_Kill) (l : Lodic)
    (h : (get_valid_kill t pos v l).1 = 0) (d : Dir) :
    (get_valid_kill t pos v l).2.flag d = false := by
  rw [gvk_count, flags_eq_zero_iff] at h
  exact h d

/-- With fuel above the number of enemy pieces the exploration returns, and
it records at least one outcome. -/
theorem chainNews_total (fuel : Nat) :
    ∀ (G : Globals) (pos : Position) (lodic : Lodic),
      enemyCount G.is_player_turn lodic < fuel →
      ∃ n, chainNews fuel G pos lodic = some n ∧ n ≠ [] := by
  induction fuel with
  | zero => intro G pos lodic h; omega
  | succ fuel ih =>
    intro G pos lodic h
    by_cases h0 : (get_valid_kill G.is_player_turn pos Valid_Kill.fresh lodic).1 = 0
    · exact ⟨_, chainNews_leaf fuel G pos lodic h0, by simp⟩
    · have key : ∀ d, ∃ nd, subNews fuel G pos lodic d = some nd ∧
          ((get_valid_kill G.is_player_turn pos Valid_Kill.fresh lodic).2.flag d = true →
            nd ≠ []) := by
        intro d
        unfold subNews
        by_cases hf : (get_valid_kill G.is_player_turn pos Valid_Kill.fresh lodic).2.flag d = true
        · rw [if_pos hf]
          have hc := killStep_enemyCount G pos lodic d hf
          have ht := (killStep_turn G pos lodic d).1
          obtain ⟨nd, hnd, hne⟩ := ih (killStep G pos lodic d).1 (killStep G pos lodic d).2.1
            (killStep G pos lodic d).2.2 (by rw [ht]; omega)
          exact ⟨nd, hnd, fun _ => hne⟩
        · rw [if_neg hf]
          exact ⟨[], rfl, fun hh => absurd hh hf⟩
      obtain ⟨n1, h1, e1⟩ := key .l_h
      obtain ⟨n2, h2, e2⟩ := key .r_h
      obtain ⟨n3, h3, e3⟩ := key .l_s
      obtain ⟨n4, h4, e4⟩ := key .r_s
      refine ⟨n1 ++ n2 ++ n3 ++ n4,
        (chainNews_node fuel G pos lodic _ h0).2 ⟨n1, n2, n3, n4, h1, h2, h3, h4, rfl⟩, ?_⟩
      obtain ⟨d, hd⟩ := gvk_count_ne_zero _ _ _ _ h0
      intro hnil
      simp only [List.append_eq_nil] at hnil
      obtain ⟨⟨⟨r1, r2⟩, r3⟩, r4⟩ := hnil
      cases d
      · exact e1 hd r1
      · exact e2 hd r2
      · exact e3 hd r3
      · exact e4 hd r4

theorem chainFuel_gt (t : Bool) (l : Lodic) : enemyCount t l < chainFuel :=
  Nat.lt_of_le_of_lt (enemyCount_le t l) (by decide)

/-- `calculate_kill_moves` with the standard bound returns, restores the
globals and appends the outcomes `chainNews` lists. -/
theorem calculate_kill_moves_some (G : Globals) (pos : Position) (lodic : Lodic)
    (buf : List Outcome) :
    ∃ news, chainNews chainFuel G pos lodic = some news ∧ news ≠ [] ∧
      calculate_kill_moves chainFuel G pos lodic buf = some (G, buf ++ news) := by
  obtain ⟨n, hn, hne⟩ := chainNews_total chainFuel G pos lodic (chainFuel_gt _ _)
  refine ⟨n, hn, hne, ?_⟩
  rw [calculate_kill_moves_eq, hn]
  rfl

/-- Every recorded outcome is terminal. -/
theorem chainNews_terminal (fuel : Nat) (G : Globals) (pos : Position) (lodic : Lodic)
    (n : List Outcome) (h : chainNews fuel G pos lodic = some n) :
    ∀ o ∈ n, ∀ (p : Position) (v : Valid_Kill), p.x_8 = o.x_8 → p.y_8 = o.y_8 →
      (get_valid_kill G.is_player_turn p v o.lodic).1 = 0 := by
  refine chainNews_forall (fun G _ _ o => ∀ (p : Position) (v : Valid_Kill),
    p.x_8 = o.x_8 → p.y_8 = o.y_8 → (get_valid_kill G.is_player_turn p v o.lodic).1 = 0)
    ?_ ?_ fuel G pos lodic n h
  · intro G pos lodic h0 p v hx hy
    rw [(gvk_congr G.is_player_turn p pos v Valid_Kill.fresh lodic hx hy).1]
    exact h0
  · intro G pos lodic d o _ ih p v hx hy
    have := ih p v hx hy
    rw [(killStep_turn G pos lodic d).1] at this
    exact this

/-- No recorded outcome has more enemy pieces than the start. -/
theorem chainNews_enemy_le (fuel : Nat) (G : Globals) (pos : Position) (lodic : Lodic)
    (n : List Outcome) (h : chainNews fuel G pos lodic = some n) :
    ∀ o ∈ n, enemyCount G.is_player_turn o.lodic ≤ enemyCount G.is_player_turn lodic := by
  refine chainNews_forall (fun G _ lodic o =>
    enemyCount G.is_player_turn o.lodic ≤ enemyCount G.is_player_turn lodic)
    ?_ ?_ fuel G pos lodic n h
  · intro G pos lodic _
    exact le_refl _
  · intro G pos lodic d o hf ih
    have hc := killStep_enemyCount G pos lodic d hf
    rw [(killStep_turn G pos lodic d).1] at ih
    omega

/-- From a cell with a capture, every recorded outcome has lost an enemy piece. -/
theorem chainNews_enemy_lt (fuel : Nat) (G : Globals) (pos : Position) (lodic : Lodic)
    (n : List Outcome) (h : chainNews fuel G pos lodic = some n)
    (h0 : (get_valid_kill G.is_player_turn pos Valid_Kill.fresh lodic).1 ≠ 0) :
    ∀ o ∈ n, enemyCount G.is_player_turn o.lodic + 1 ≤ enemyCount G.is_player_turn lodic := by
  intro o ho
  cases fuel with
  | zero => simp [chainNews] at h
  | succ fuel =>
    obtain ⟨d, nd, hf, hs, hm⟩ := chainNews_node_mem fuel G pos lodic n h0 h o ho
    have h1 := chainNews_enemy_le fuel _ _ _ nd hs o hm
    have hc := killStep_enemyCount G pos lodic d hf
    rw [(killStep_turn G pos lodic d).1] at h1
    omega

/-- The outcomes of the block of a set flag, with the standard bound. -/
theorem subNews_chainFuel (G : Globals) (pos : Position) (lodic : Lodic) (d : Dir) (nd : List Outcome)
    (hf : (get_valid_kill G.is_player_turn pos Valid_Kill.fresh lodic).2.flag d = true)
    (h : subNews 64 G pos lodic d = some nd) :
    chainNews chainFuel (killStep G pos lodic d).1 (killStep G pos lodic d).2.1
      (killStep G pos lodic d).2.2 = some nd := by
  unfold subNews at h
  rw [if_pos hf] at h
  exact chainNews_le 64 chainFuel (by decide) _ _ _ _ h


theorem gvk_flag_count_ne_zero (t : Bool) (pos : Position) (v : Valid_Kill) (l : Lodic)
    (d : Dir) (h : (get_valid_kill t pos v l).2.flag d = true) :
    (get_valid_kill t pos v l).1 ≠ 0 := by
  intro h0
  rw [gvk_count_eq_zero t pos v l h0 d] at h
  exact Bool.false_ne_true h

theorem gvk_count_nonneg (t : Bool) (pos : Position) (v : Valid_Kill) (l : Lodic) :
    0 ≤ (get_valid_kill t pos v l).1 := by
  rw [gvk_count]
  exact flags_nonneg _

/-- The block of a set flag contributes a non-empty list, that of a clear
flag the empty list. -/
theorem subNews_64 (G : Globals) (pos : Position) (lodic : Lodic) (d : Dir) (nd : List Outcome)
    (h : subNews 64 G pos lodic d = some nd) :
    ((get_valid_kill G.is_player_turn pos Valid_Kill.fresh lodic).2.flag d = true →
      chainNews chainFuel (killStep G pos lodic d).1 (killStep G pos lodic d).2.1
        (killStep G pos lodic d).2.2 = some nd ∧ nd ≠ []) ∧
    ((get_valid_kill G.is_player_turn pos Valid_Kill.fresh lodic).2.flag d = false →
      nd = []) := by
  constructor
  · intro hf
    refine ⟨subNews_chainFuel G pos lodic d nd hf h, ?_⟩
    unfold subNews at h
    rw [if_pos hf] at h
    have hc := killStep_enemyCount G pos lodic d hf
    have hle := enemyCount_le G.is_player_turn lodic
    obtain ⟨n', hn', hne⟩ := chainNews_total 64 (killStep G pos lodic d).1
      (killStep G pos lodic d).2.1 (killStep G pos lodic d).2.2
      (by rw [(killStep_turn G pos lodic d).1]; omega)
    rw [h] at hn'
    simp only [Option.some.injEq] at hn'
    subst hn'
    exact hne
  · intro hf
    unfold subNews at h
    rw [hf] at h
    simp only [Bool.false_eq_true, if_false, Option.some.injEq] at h
    exact h.symm

/-- Decomposition of the outcomes at a node, with the standard bound. -/
theorem chainNews_chainFuel_node (G : Globals) (pos : Position) (lodic : Lodic)
    (h0 : (get_valid_kill G.is_player_turn pos Valid_Kill.fresh lodic).1 ≠ 0) :
    ∃ sub : Dir → List Outcome,
      chainNews chainFuel G pos lodic = some (sub .l_h ++ sub .r_h ++ sub .l_s ++ sub .r_s) ∧
      ∀ d, ((get_valid_kill G.is_player_turn pos Valid_Kill.fresh lodic).2.flag d = true →
          chainNews chainFuel (killStep G pos lodic d).1 (killStep G pos lodic d).2.1
            (killStep G pos lodic d).2.2 = some (sub d) ∧ sub d ≠ []) ∧
        ((get_valid_kill G.is_player_turn pos Valid_Kill.fresh lodic).2.flag d = false →
          sub d = []) := by
  obtain ⟨n, hn, _⟩ := chainNews_total chainFuel G pos lodic (chainFuel_gt _ _)
  obtain ⟨n1, n2, n3, n4, h1, h2, h3, h4, rfl⟩ := (chainNews_node 64 G pos lodic n h0).1 hn
  refine ⟨fun d => match d with
    | .l_h => n1
    | .r_h => n2
    | .l_s => n3
    | .r_s => n4, hn, ?_⟩
  intro d
  cases d
  · exact subNews_64 G pos lodic _ _ h1
  · exact subNews_64 G pos lodic _ _ h2
  · exact subNews_64 G pos lodic _ _ h3
  · exact subNews_64 G pos lodic _ _ h4

theorem flags_le_of (v : Valid_Kill) (a b c e : Nat)
    (ha : v.kill_l_h = true → 1 ≤ a) (hb : v.kill_r_h = true → 1 ≤ b)
    (hc : v.kill_l_s = true → 1 ≤ c) (he : v.kill_r_s = true → 1 ≤ e) :
    v.flags ≤ ((a + b + c + e : Nat) : Int) := by
  unfold Valid_Kill.flags
  have ha' : (if v.kill_l_h = true then (1 : Int) else 0) ≤ a := by
    split
    · next h => exact_mod_cast ha h
    · omega
  have hb' : (if v.kill_r_h = true then (1 : Int) else 0) ≤ b := by
    split
    · next h => exact_mod_cast hb h
    · omega
  have hc' : (if v.kill_l_s = true then (1 : Int) else 0) ≤ c := by
    split
    · next h => exact_mod_cast hc h
    · omega
  have he' : (if v.kill_r_s = true then (1 : Int) else 0) ≤ e := by
    split
    · next h => exact_mod_cast he h
    · omega
  push_cast
  omega

theorem length_pos_of_ne_nil {α : Type} (l : List α) (h : l ≠ []) : 1 ≤ l.length := by
  cases l with
  | nil => exact absurd rfl h
  | cons a t => simp

/-! ## Claims -/

/-- C1. `get_valid_kill`, for every board, every cell holding a piece marker
`'1'..'4'` and either turn flag: each direction flag is set exactly when the
adjacent cell in that direction is on the board and holds an enemy piece and
the cell beyond is on the board and holds `'0'`; a set flag's landing is
`(x ± 2, y ± 2)` in its direction; the returned count is the number of set
flags. -/
theorem get_valid_kill_spec (t : Bool) (lodic : Lodic) (pos : Position) (velian : Valid_Kill)
    (hpiece : isPiece (lodic.rd pos.y_8 pos.x_8)) :
    ((get_valid_kill t pos velian lodic).2.kill_l_h = true ↔
        canKill t lodic pos.x_8 pos.y_8 (-1) (-1)) ∧
    ((get_valid_kill t pos velian lodic).2.kill_r_h = true ↔
        canKill t lodic pos.x_8 pos.y_8 1 (-1)) ∧
    ((get_valid_kill t pos velian lodic).2.kill_l_s = true ↔
        canKill t lodic pos.x_8 pos.y_8 (-1) 1) ∧
    ((get_valid_kill t pos velian lodic).2.kill_r_s = true ↔
        canKill t lodic pos.x_8 pos.y_8 1 1) ∧
    ((get_valid_kill t pos velian lodic).2.kill_l_h = true →
        (get_valid_kill t pos velian lodic).2.kill_lh_x = pos.x_8 - 2 ∧
        (get_valid_kill t pos velian lodic).2.kill_lh_y = pos.y_8 - 2) ∧
    ((get_valid_kill t pos velian lodic).2.kill_r_h = true →
        (get_valid_kill t pos velian lodic).2.kill_rh_x = pos.x_8 + 2 ∧
        (get_valid_kill t pos velian lodic).2.kill_rh_y = pos.y_8 - 2) ∧
    ((get_valid_kill t pos velian lodic).2.kill_l_s = true →
        (get_valid_kill t pos velian lodic).2.kill_ls_x = pos.x_8 - 2 ∧
        (get_valid_kill t pos velian lodic).2.kill_ls_y = pos.y_8 + 2) ∧
    ((get_valid_kill t pos velian lodic).2.kill_r_s = true →
        (get_valid_kill t pos velian lodic).2.kill_rs_x = pos.x_8 + 2 ∧
        (get_valid_kill t pos velian lodic).2.kill_rs_y = pos.y_8 + 2) ∧
    (get_valid_kill t pos velian lodic).1 = (get_valid_kill t pos velian lodic).2.flags := by
  have f := fun d => gvk_flag t pos velian lodic d
  have g := fun d => gvk_land t pos velian lodic d
  have f1 := f .l_h
  have f2 := f .r_h
  have f3 := f .l_s
  have f4 := f .r_s
  have g1 := g .l_h
  have g2 := g .r_h
  have g3 := g .l_s
  have g4 := g .r_s
  simp only [Valid_Kill.flag, Valid_Kill.land_x, Valid_Kill.land_y, Dir.dx, Dir.dy, hpiece,
    true_and] at f1 f2 f3 f4 g1 g2 g3 g4
  refine ⟨f1, f2, f3, f4, ?_, ?_, ?_, ?_, gvk_count t pos velian lodic⟩
  · intro h; obtain ⟨a, b⟩ := g1 h; exact ⟨by rw [b]; ring, by rw [a]; ring⟩
  · intro h; obtain ⟨a, b⟩ := g2 h; exact ⟨by rw [b]; ring, by rw [a]; ring⟩
  · intro h; obtain ⟨a, b⟩ := g3 h; exact ⟨by rw [b]; ring, by rw [a]; ring⟩
  · intro h; obtain ⟨a, b⟩ := g4 h; exact ⟨by rw [b]; ring, by rw [a]; ring⟩

/-- Witness of C1 on the fork position: the man on E3 has exactly the two
upward captures, landing on C5 and G5. -/
theorem get_valid_kill_spec_witness :
    isPiece (lodicFork.rd 5 4) ∧
    (get_valid_kill true (posAt 4 5) Valid_Kill.fresh lodicFork).1 = 2 ∧
    ((get_valid_kill true (posAt 4 5) Valid_Kill.fresh lodicFork).2.kill_l_h = true ↔
        canKill true lodicFork 4 5 (-1) (-1)) ∧
    (get_valid_kill true (posAt 4 5) Valid_Kill.fresh lodicFork).1 =
      (get_valid_kill true (posAt 4 5) Valid_Kill.fresh lodicFork).2.flags :=
  ⟨by decide, by decide,
    (get_valid_kill_spec true lodicFork (posAt 4 5) Valid_Kill.fresh (by decide)).1,
    (get_valid_kill_spec true lodicFork (posAt 4 5) Valid_Kill.fresh
      (by decide)).2.2.2.2.2.2.2.2⟩

/-- C2. `get_valid_moves`, for every board and every cell: a direction flag
is set exactly when the piece on the cell may step that way and the adjacent
destination is on the board and holds `'0'`; a set flag's destination is that
adjacent cell; the count is the number of set flags, at most 2 for a man and
at most 4 always; every flagged destination is an empty adjacent cell, so no
step jumps over or lands on a piece. -/
theorem get_valid_moves_spec (lodic : Lodic) (pos : Position) (motion : Valid_Hod) :
    ((get_valid_moves pos motion lodic).2.l_h = true ↔
        canStep lodic pos.x_8 pos.y_8 (-1) (-1)) ∧
    ((get_valid_moves pos motion lodic).2.r_h = true ↔
        canStep lodic pos.x_8 pos.y_8 1 (-1)) ∧
    ((get_valid_moves pos motion lodic).2.l_s = true ↔
        canStep lodic pos.x_8 pos.y_8 (-1) 1) ∧
    ((get_valid_moves pos motion lodic).2.r_s = true ↔
        canStep lodic pos.x_8 pos.y_8 1 1) ∧
    ((get_valid_moves pos motion lodic).2.l_h = true →
        (get_valid_moves pos motion lodic).2.lh_x = pos.x_8 - 1 ∧
        (get_valid_moves pos motion lodic).2.lh_y = pos.y_8 - 1 ∧
        lodic.rd (pos.y_8 - 1) (pos.x_8 - 1) = '0') ∧
    ((get_valid_moves pos motion lodic).2.r_h = true →
        (get_valid_moves pos motion lodic).2.rh_x = pos.x_8 + 1 ∧
        (get_valid_moves pos motion lodic).2.rh_y = pos.y_8 - 1 ∧
        lodic.rd (pos.y_8 - 1) (pos.x_8 + 1) = '0') ∧
    ((get_valid_moves pos motion lodic).2.l_s = true →
        (get_valid_moves pos motion lodic).2.ls_x = pos.x_8 - 1 ∧
        (get_valid_moves pos motion lodic).2.ls_y = pos.y_8 + 1 ∧
        lodic.rd (pos.y_8 + 1) (pos.x_8 - 1) = '0') ∧
    ((get_valid_moves pos motion lodic).2.r_s = true →
        (get_valid_moves pos motion lodic).2.rs_x = pos.x_8 + 1 ∧
        (get_valid_moves pos motion lodic).2.rs_y = pos.y_8 + 1 ∧
        lodic.rd (pos.y_8 + 1) (pos.x_8 + 1) = '0') ∧
    (get_valid_moves pos motion lodic).1 = (get_valid_moves pos motion lodic).2.flags ∧
    (get_valid_moves pos motion lodic).1 ≤ 4 ∧
    ((lodic.rd pos.y_8 pos.x_8 = '1' ∨ lodic.rd pos.y_8 pos.x_8 = '2') →
      (get_valid_moves pos motion lodic).1 ≤ 2) := by
  by_cases hp : isPiece (lodic.rd pos.y_8 pos.x_8)
  · have hb := rd_isPiece_onBoard lodic pos.x_8 pos.y_8 hp
    unfold onBoard at hb
    unfold isPiece at hp
    simp only [get_valid_moves, hp, if_true, canStep, onBoard, dir_simp, Valid_Hod.flags,
      decide_eq_true_eq]
    have e1 : (-1 : Int) < 0 := by decide
    have e2 : ¬ ((1 : Int) < 0) := by decide
    simp only [e1, e2, if_true, if_false]
    have k1 : (¬ lodic.rd pos.y_8 pos.x_8 = '1') ↔ (lodic.rd pos.y_8 pos.x_8 = '2' ∨
        lodic.rd pos.y_8 pos.x_8 = '3' ∨ lodic.rd pos.y_8 pos.x_8 = '4') := by
      rcases hp with h | h | h | h <;> rw [h] <;> decide
    have k2 : (¬ lodic.rd pos.y_8 pos.x_8 = '2') ↔ (lodic.rd pos.y_8 pos.x_8 = '1' ∨
        lodic.rd pos.y_8 pos.x_8 = '3' ∨ lodic.rd pos.y_8 pos.x_8 = '4') := by
      rcases hp with h | h | h | h <;> rw [h] <;> decide
    refine ⟨?_, ?_, ?_, ?_, ?_, ?_, ?_, ?_, ?_, ?_, ?_⟩
    · rw [k1]; constructor
      · rintro ⟨⟨h1, h2⟩, h3⟩; exact ⟨h3, by omega, h2⟩
      · rintro ⟨h3, h1, h2⟩; exact ⟨⟨by omega, h2⟩, h3⟩
    · rw [k1]; constructor
      · rintro ⟨⟨h1, h2⟩, h3⟩; exact ⟨h3, by omega, h2⟩
      · rintro ⟨h3, h1, h2⟩; exact ⟨⟨by omega, h2⟩, h3⟩
    · rw [k2]; constructor
      · rintro ⟨⟨h1, h2⟩, h3⟩; exact ⟨h3, by omega, h2⟩
      · rintro ⟨h3, h1, h2⟩; exact ⟨⟨by omega, h2⟩, h3⟩
    · rw [k2]; constructor
      · rintro ⟨⟨h1, h2⟩, h3⟩; exact ⟨h3, by omega, h2⟩
      · rintro ⟨h3, h1, h2⟩; exact ⟨⟨by omega, h2⟩, h3⟩
    · intro h; rw [if_pos h, if_pos h]; exact ⟨rfl, rfl, h.1.2⟩
    · intro h; rw [if_pos h, if_pos h]; exact ⟨rfl, rfl, h.1.2⟩
    · intro h; rw [if_pos h, if_pos h]; exact ⟨rfl, rfl, h.1.2⟩
    · intro h; rw [if_pos h, if_pos h]; exact ⟨rfl, rfl, h.1.2⟩
    · ring
    · split_ifs <;> omega
    · intro hm
      rcases hm with h | h
      · have n1 : ¬ ¬ lodic.rd pos.y_8 pos.x_8 = '1' := by simp [h]
        simp only [n1, and_false, if_false]
        split_ifs <;> omega
      · have n1 : ¬ ¬ lodic.rd pos.y_8 pos.x_8 = '2' := by simp [h]
        simp only [n1, and_false, if_false]
        split_ifs <;> omega
  · have hp' := hp
    unfold isPiece at hp'
    have q1 : ¬ (lodic.rd pos.y_8 pos.x_8 = '2' ∨ lodic.rd pos.y_8 pos.x_8 = '3' ∨
        lodic.rd pos.y_8 pos.x_8 = '4') := fun h => hp' (Or.inr h)
    have q2 : ¬ (lodic.rd pos.y_8 pos.x_8 = '1' ∨ lodic.rd pos.y_8 pos.x_8 = '3' ∨
        lodic.rd pos.y_8 pos.x_8 = '4') := by
      rintro (h | h | h)
      · exact hp' (Or.inl h)
      · exact hp' (Or.inr (Or.inr (Or.inl h)))
      · exact hp' (Or.inr (Or.inr (Or.inr h)))
    have q3 : ¬ (lodic.rd pos.y_8 pos.x_8 = '1' ∨ lodic.rd pos.y_8 pos.x_8 = '2') := by
      rintro (h | h)
      · exact hp' (Or.inl h)
      · exact hp' (Or.inr (Or.inl h))
    have e : get_valid_moves pos motion lodic =
        (0, { motion with l_h := false, r_h := false, l_s := false, r_s := false }) := by
      unfold get_valid_moves
      exact if_neg hp'
    rw [e]
    simp only [canStep, q1, q2, ite_self, false_and, Valid_Hod.flags, Bool.false_eq_true,
      false_implies, iff_self, and_self, true_and, if_false]
    refine ⟨by decide, by decide, fun h => absurd h q3⟩

/-- Witness of C2 on the initial board: the player man on A3 `(0, 5)` has
the single step to B4. -/
theorem get_valid_moves_spec_witness :
    (get_valid_moves (posAt 0 5) Valid_Hod.fresh lodicStart).1 = 1 ∧
    ((get_valid_moves (posAt 0 5) Valid_Hod.fresh lodicStart).2.r_h = true ↔
        canStep lodicStart 0 5 1 (-1)) ∧
    (get_valid_moves (posAt 0 5) Valid_Hod.fresh lodicStart).1 ≤ 2 :=
  ⟨by decide, (get_valid_moves_spec lodicStart (posAt 0 5) Valid_Hod.fresh).2.1,
    (get_valid_moves_spec lodicStart (posAt 0 5) Valid_Hod.fresh).2.2.2.2.2.2.2.2.2.2
      (by decide)⟩

/-- C4. Every outcome recorded by `calculate_kill_moves` is terminal:
`get_valid_kill` on the recorded cell and board reports zero captures.  In
particular, when the piece after its first capture in a direction `d` again
has a capture, the exploration continues from the landing cell and every
outcome of that branch has lost at least two enemy pieces. -/
theorem calculate_kill_moves_maximal (G : Globals) (pos : Position) (lodic : Lodic)
    (buf : List Outcome) :
    ∃ news, calculate_kill_moves chainFuel G pos lodic buf = some (G, buf ++ news) ∧
      news ≠ [] ∧
      (∀ o ∈ news, ∀ (p : Position) (v : Valid_Kill), p.x_8 = o.x_8 → p.y_8 = o.y_8 →
        (get_valid_kill G.is_player_turn p v o.lodic).1 = 0) ∧
      (∀ d : Dir,
        (get_valid_kill G.is_player_turn pos Valid_Kill.fresh lodic).2.flag d = true →
        0 < (get_valid_kill G.is_player_turn (killStep G pos lodic d).2.1 Valid_Kill.fresh
          (killStep G pos lodic d).2.2).1 →
        ∃ sub, calculate_kill_moves chainFuel (killStep G pos lodic d).1
            (killStep G pos lodic d).2.1 (killStep G pos lodic d).2.2 [] =
            some ((killStep G pos lodic d).1, sub) ∧ sub ≠ [] ∧
          ∀ o ∈ sub, o ∈ news ∧
            enemyCount G.is_player_turn o.lodic + 2 ≤ enemyCount G.is_player_turn lodic) := by
  obtain ⟨news, hn, hne, hc⟩ := calculate_kill_moves_some G pos lodic buf
  refine ⟨news, hc, hne, chainNews_terminal _ G pos lodic news hn, ?_⟩
  intro d hf hpos
  have h0 := gvk_flag_count_ne_zero _ _ _ _ d hf
  obtain ⟨sub, hs, hd⟩ := chainNews_chainFuel_node G pos lodic h0
  rw [hn] at hs
  simp only [Option.some.injEq] at hs
  obtain ⟨hsd, hsne⟩ := (hd d).1 hf
  refine ⟨sub d, ?_, hsne, ?_⟩
  · rw [calculate_kill_moves_eq, hsd]
    rfl
  · intro o ho
    constructor
    · rw [hs]
      cases d <;> simp [ho]
    · have ht := (killStep_turn G pos lodic d).1
      have h1 := chainNews_enemy_lt chainFuel _ _ _ (sub d) hsd
        (by rw [ht]; omega) o ho
      have h2 := killStep_enemyCount G pos lodic d hf
      rw [ht] at h1
      omega

/-- Witness of C4: on `lodicDouble` the man on C3 captures D4, continues from
E5 by capturing D6, and the single recorded outcome stands on C7 with both
computer men removed. -/
theorem calculate_kill_moves_maximal_witness :
    ∃ news, calculate_kill_moves chainFuel stateDouble (posAt 2 5) lodicDouble [] =
        some (stateDouble, [] ++ news) ∧ news ≠ [] ∧
      (∀ o ∈ news, ∀ (p : Position) (v : Valid_Kill), p.x_8 = o.x_8 → p.y_8 = o.y_8 →
        (get_valid_kill true p v o.lodic).1 = 0) ∧
      ∃ sub, calculate_kill_moves chainFuel (killStep stateDouble (posAt 2 5) lodicDouble .r_h).1
            (killStep stateDouble (posAt 2 5) lodicDouble .r_h).2.1
            (killStep stateDouble (posAt 2 5) lodicDouble .r_h).2.2 [] =
            some ((killStep stateDouble (posAt 2 5) lodicDouble .r_h).1, sub) ∧ sub ≠ [] ∧
          ∀ o ∈ sub, o ∈ news ∧ enemyCount true o.lodic + 2 ≤ enemyCount true lodicDouble := by
  obtain ⟨news, h1, h2, h3, h4⟩ :=
    calculate_kill_moves_maximal stateDouble (posAt 2 5) lodicDouble []
  exact ⟨news, h1, h2, h3, h4 .r_h (by decide) (by decide)⟩

/-- C5. From a cell with `k ≥ 1` first-step captures, `calculate_kill_moves`
appends the concatenation, in the order left-up, right-up, left-down,
right-down, of the lists obtained by exploring each valid direction from its
landing cell; each such list is non-empty, a direction without capture
contributes nothing, and at least `k` outcomes are recorded. -/
theorem calculate_kill_moves_complete (G : Globals) (pos : Position) (lodic : Lodic)
    (buf : List Outcome)
    (hk : 0 < (get_valid_kill G.is_player_turn pos Valid_Kill.fresh lodic).1) :
    ∃ sub : Dir → List Outcome,
      calculate_kill_moves chainFuel G pos lodic buf =
        some (G, buf ++ (sub .l_h ++ sub .r_h ++ sub .l_s ++ sub .r_s)) ∧
      (∀ d, ((get_valid_kill G.is_player_turn pos Valid_Kill.fresh lodic).2.flag d = true →
          calculate_kill_moves chainFuel (killStep G pos lodic d).1
            (killStep G pos lodic d).2.1 (killStep G pos lodic d).2.2 [] =
            some ((killStep G pos lodic d).1, sub d) ∧ sub d ≠ []) ∧
        ((get_valid_kill G.is_player_turn pos Valid_Kill.fresh lodic).2.flag d = false →
          sub d = [])) ∧
      (get_valid_kill G.is_player_turn pos Valid_Kill.fresh lodic).1 ≤
        ((sub .l_h ++ sub .r_h ++ sub .l_s ++ sub .r_s).length : Int) := by
  obtain ⟨sub, hs, hd⟩ := chainNews_chainFuel_node G pos lodic (by omega)
  refine ⟨sub, ?_, ?_, ?_⟩
  · rw [calculate_kill_moves_eq, hs]
    rfl
  · intro d
    refine ⟨fun hf => ⟨?_, ((hd d).1 hf).2⟩, (hd d).2⟩
    rw [calculate_kill_moves_eq, ((hd d).1 hf).1]
    rfl
  · rw [gvk_count]
    simp only [List.length_append]
    exact flags_le_of _ _ _ _ _
      (fun h => length_pos_of_ne_nil _ ((hd .l_h).1 h).2)
      (fun h => length_pos_of_ne_nil _ ((hd .r_h).1 h).2)
      (fun h => length_pos_of_ne_nil _ ((hd .l_s).1 h).2)
      (fun h => length_pos_of_ne_nil _ ((hd .r_s).1 h).2)

/-- Witness of C5: on `lodicFork` the man on E3 has two captures and both
are explored. -/
theorem calculate_kill_moves_complete_witness :
    0 < (get_valid_kill true (posAt 4 5) Valid_Kill.fresh lodicFork).1 ∧
    ∃ sub : Dir → List Outcome,
      calculate_kill_moves chainFuel stateFork (posAt 4 5) lodicFork [] =
        some (stateFork, [] ++ (sub .l_h ++ sub .r_h ++ sub .l_s ++ sub .r_s)) ∧
      (2 : Int) ≤ ((sub .l_h ++ sub .r_h ++ sub .l_s ++ sub .r_s).length : Int) := by
  refine ⟨by decide, ?_⟩
  obtain ⟨sub, h1, _, h3⟩ :=
    calculate_kill_moves_complete stateFork (posAt 4 5) lodicFork [] (by decide)
  have e : (get_valid_kill stateFork.is_player_turn (posAt 4 5) Valid_Kill.fresh
      lodicFork).1 = 2 := by decide
  rw [e] at h3
  exact ⟨sub, h1, h3⟩

/-- C6. From a cell with at least one capture, every outcome board recorded
by `calculate_kill_moves` holds strictly fewer enemy pieces (`'1'`, `'3'` on
the player's turn) than the starting board. -/
theorem calculate_kill_moves_fewer_enemies (G : Globals) (pos : Position) (lodic : Lodic)
    (buf : List Outcome)
    (hk : 0 < (get_valid_kill G.is_player_turn pos Valid_Kill.fresh lodic).1) :
    ∃ news, calculate_kill_moves chainFuel G pos lodic buf = some (G, buf ++ news) ∧
      news ≠ [] ∧
      ∀ o ∈ news, enemyCount G.is_player_turn o.lodic < enemyCount G.is_player_turn lodic := by
  obtain ⟨news, hn, hne, hc⟩ := calculate_kill_moves_some G pos lodic buf
  refine ⟨news, hc, hne, ?_⟩
  intro o ho
  have := chainNews_enemy_lt chainFuel G pos lodic news hn (by omega) o ho
  omega

/-- Witness of C6 on `lodicFork`. -/
theorem calculate_kill_moves_fewer_enemies_witness :
    0 < (get_valid_kill true (posAt 4 5) Valid_Kill.fresh lodicFork).1 ∧
    ∃ news, calculate_kill_moves chainFuel stateFork (posAt 4 5) lodicFork [] =
        some (stateFork, [] ++ news) ∧ news ≠ [] ∧
      ∀ o ∈ news, enemyCount true o.lodic < enemyCount true lodicFork :=
  ⟨by decide, calculate_kill_moves_fewer_enemies stateFork (posAt 4 5) lodicFork []
    (by decide)⟩

/-- The exact-integer evaluator in closed form:
`max(0, 10 * (own men - opponent men)) + max(0, 15 * (own kings - opponent kings))`
plus 8 when the logical cell at row 3, column 4 holds `'1'`. -/
theorem evaluate_board_pc_exact_formula (gs : GameState) (lodic : Lodic) (is_white : Bool) :
    evaluate_board_pc gs lodic is_white =
      max 0 (10 * ((if is_white then gs.count_white else gs.count_black) -
        (if is_white then gs.count_black else gs.count_white))) +
      max 0 (15 * ((if is_white then gs.count_white_king else gs.count_black_king) -
        (if is_white then gs.count_black_king else gs.count_white_king))) +
      (if lodic.rd 3 4 = '1' then 8 else 0) := by
  unfold evaluate_board_pc
  cases is_white <;> simp only [if_true, Bool.false_eq_true, if_false, max_def] <;>
    split_ifs <;> omega


theorem flags_eq_one_of (v : Valid_Kill) (d : Dir) (h : ∀ d', v.flag d' = true ↔ d' = d) :
    v.flags = 1 := by
  have h1 := h .l_h
  have h2 := h .r_h
  have h3 := h .l_s
  have h4 := h .r_s
  simp only [Valid_Kill.flag] at h1 h2 h3 h4
  unfold Valid_Kill.flags
  cases d <;> simp_all

/-- C7. Single capture: when a player man on the player's turn has exactly
one capture, over a computer man in direction `d`, and no capture from the
landing cell afterwards, `get_valid_kill` reports exactly one capture, landing
on the empty cell beyond, and `calculate_kill_moves` records exactly one
outcome: origin and captured cell hold `'0'`, the landing cell holds the man
`'2'`, every other cell is unchanged, the computer colour's man count is
lower by exactly 1 and the other three counts are unchanged. -/
theorem calculate_kill_moves_single (G : Globals) (pos : Position) (lodic : Lodic)
    (buf : List Outcome) (velian : Valid_Kill) (d : Dir)
    (hturn : G.is_player_turn = true)
    (hman : lodic.rd pos.y_8 pos.x_8 = '2')
    (hcap : canKill true lodic pos.x_8 pos.y_8 d.dx d.dy)
    (henemy : lodic.rd (pos.y_8 + d.dy) (pos.x_8 + d.dx) = '1')
    (honly : ∀ d', d' ≠ d → ¬ canKill true lodic pos.x_8 pos.y_8 d'.dx d'.dy)
    (hstop : (get_valid_kill true (killStep G pos lodic d).2.1 Valid_Kill.fresh
      (killStep G pos lodic d).2.2).1 = 0) :
    (get_valid_kill true pos velian lodic).1 = 1 ∧
    (∀ d', (get_valid_kill true pos velian lodic).2.flag d' = true ↔ d' = d) ∧
    (get_valid_kill true pos velian lodic).2.land_x d = pos.x_8 + 2 * d.dx ∧
    (get_valid_kill true pos velian lodic).2.land_y d = pos.y_8 + 2 * d.dy ∧
    lodic.rd (pos.y_8 + 2 * d.dy) (pos.x_8 + 2 * d.dx) = '0' ∧
    ∃ o, calculate_kill_moves chainFuel G pos lodic buf = some (G, buf ++ [o]) ∧
      o.x_8 = pos.x_8 + 2 * d.dx ∧ o.y_8 = pos.y_8 + 2 * d.dy ∧
      o.lodic.rd pos.y_8 pos.x_8 = '0' ∧
      o.lodic.rd (pos.y_8 + d.dy) (pos.x_8 + d.dx) = '0' ∧
      o.lodic.rd (pos.y_8 + 2 * d.dy) (pos.x_8 + 2 * d.dx) = '2' ∧
      (∀ y' x', ¬ (y' = pos.y_8 ∧ x' = pos.x_8) →
        ¬ (y' = pos.y_8 + d.dy ∧ x' = pos.x_8 + d.dx) →
        ¬ (y' = pos.y_8 + 2 * d.dy ∧ x' = pos.x_8 + 2 * d.dx) →
        o.lodic.rd y' x' = lodic.rd y' x') ∧
      o.game_state =
        (if G.player_is_white then
          { G.game_state with count_black := G.game_state.count_black - 1 }
        else { G.game_state with count_white := G.game_state.count_white - 1 }) := by
  have hp : isPiece (lodic.rd pos.y_8 pos.x_8) := by rw [hman]; decide
  have hfl : ∀ (v : Valid_Kill) (d' : Dir),
      (get_valid_kill true pos v lodic).2.flag d' = true ↔ d' = d := by
    intro v d'
    rw [gvk_flag]
    constructor
    · rintro ⟨_, hc⟩
      by_contra hne
      exact honly d' hne hc
    · rintro rfl
      exact ⟨hp, hcap⟩
  have hfd := (hfl velian d).2 rfl
  obtain ⟨hly, hlx⟩ := gvk_land true pos velian lodic d hfd
  refine ⟨by rw [gvk_count]; exact flags_eq_one_of _ d (hfl velian), hfl velian, hlx, hly,
    hcap.2.2.2, ?_⟩
  -- the exploration
  have hfG : (get_valid_kill G.is_player_turn pos Valid_Kill.fresh lodic).2.flag d = true := by
    rw [hturn]; exact (hfl _ d).2 rfl
  have h0 := gvk_flag_count_ne_zero _ _ _ _ d hfG
  obtain ⟨sub, hs, hd⟩ := chainNews_chainFuel_node G pos lodic h0
  have hleaf := chainNews_leaf 64 (killStep G pos lodic d).1 (killStep G pos lodic d).2.1
    (killStep G pos lodic d).2.2 (by rw [(killStep_turn G pos lodic d).1, hturn]; exact hstop)
  have hsd := ((hd d).1 hfG).1
  rw [show chainFuel = 64 + 1 from rfl, hleaf] at hsd
  simp only [Option.some.injEq] at hsd
  have hother : ∀ d', d' ≠ d → sub d' = [] := by
    intro d' hne
    apply (hd d').2
    rw [hturn]
    by_contra hc
    exact hne ((hfl _ d').1 (by simpa using hc))
  have hnews : sub .l_h ++ sub .r_h ++ sub .l_s ++ sub .r_s = sub d := by
    cases d
    · rw [hother .r_h (by decide), hother .l_s (by decide), hother .r_s (by decide)]; simp
    · rw [hother .l_h (by decide), hother .l_s (by decide), hother .r_s (by decide)]; simp
    · rw [hother .l_h (by decide), hother .r_h (by decide), hother .r_s (by decide)]; simp
    · rw [hother .l_h (by decide), hother .r_h (by decide), hother .l_s (by decide)]; simp
  rw [hnews, ← hsd] at hs
  refine ⟨_, by rw [calculate_kill_moves_eq, hs]; rfl, (killStep_turn G pos lodic d).2.2.1,
    (killStep_turn G pos lodic d).2.2.2, ?_, ?_, ?_, ?_, ?_⟩
  · show (killStep G pos lodic d).2.2.rd _ _ = _
    rw [killStep_rd G pos lodic d hfG, if_pos ⟨rfl, rfl⟩]
  · show (killStep G pos lodic d).2.2.rd _ _ = _
    have hdx := d.dx_cases
    have hdy := d.dy_cases
    have n1 : ¬ (pos.y_8 + d.dy = pos.y_8 ∧ pos.x_8 + d.dx = pos.x_8) := by omega
    have n2 : ¬ (pos.y_8 + d.dy = pos.y_8 + 2 * d.dy ∧ pos.x_8 + d.dx = pos.x_8 + 2 * d.dx) := by
      omega
    rw [killStep_rd G pos lodic d hfG, if_neg n1, if_neg n2, if_pos ⟨rfl, rfl⟩]
  · show (killStep G pos lodic d).2.2.rd _ _ = _
    have hdx := d.dx_cases
    have hdy := d.dy_cases
    have n1 : ¬ (pos.y_8 + 2 * d.dy = pos.y_8 ∧ pos.x_8 + 2 * d.dx = pos.x_8) := by omega
    rw [killStep_rd G pos lodic d hfG, if_neg n1, if_pos ⟨rfl, rfl⟩, hman]
  · intro y' x' n1 n2 n3
    show (killStep G pos lodic d).2.2.rd _ _ = _
    rw [killStep_rd G pos lodic d hfG, if_neg n1, if_neg n3, if_neg n2]
  · show (killStep G pos lodic d).1.game_state = _
    simp only [killStep, kill_block, henemy, if_true]
    cases G.player_is_white <;> simp

/-- Witness of C7 on `lodicSingle`: the man on C3 captures D4 and lands on E5. -/
theorem calculate_kill_moves_single_witness :
    (get_valid_kill true (posAt 2 5) Valid_Kill.fresh lodicSingle).1 = 1 ∧
    ∃ o, calculate_kill_moves chainFuel stateSingle (posAt 2 5) lodicSingle [] =
        some (stateSingle, [] ++ [o]) ∧
      o.x_8 = 4 ∧ o.y_8 = 3 ∧ o.lodic.rd 5 2 = '0' ∧ o.lodic.rd 4 3 = '0' ∧
      o.lodic.rd 3 4 = '2' ∧ o.game_state = ⟨1, 0, 0, 0⟩ := by
  obtain ⟨h1, _, _, _, _, o, h2, h3, h4, h5, h6, h7, _, h8⟩ :=
    calculate_kill_moves_single stateSingle (posAt 2 5) lodicSingle [] Valid_Kill.fresh .r_h
      (by decide) (by decide) (by decide) (by decide)
      (fun d' => by cases d' <;> decide) (by decide)
  exact ⟨h1, o, h2, h3, h4, h5, h6, h7, h8⟩


/-! ## Best-sequence search lemmas -/

/-- Invariants survive a chain of four optional steps. -/
theorem bind4_inv {α : Type} (Inv : α → Prop) (f1 f2 f3 f4 : α → Option α) (a r : α)
    (h : (((f1 a).bind f2).bind f3).bind f4 = some r)
    (h1 : ∀ x y, Inv x → f1 x = some y → Inv y) (h2 : ∀ x y, Inv x → f2 x = some y → Inv y)
    (h3 : ∀ x y, Inv x → f3 x = some y → Inv y) (h4 : ∀ x y, Inv x → f4 x = some y → Inv y)
    (ha : Inv a) : Inv r := by
  cases e1 : f1 a with
  | none => rw [e1] at h; simp at h
  | some a1 =>
    rw [e1] at h
    simp only [Option.some_bind] at h
    cases e2 : f2 a1 with
    | none => rw [e2] at h; simp at h
    | some a2 =>
      rw [e2] at h
      simp only [Option.some_bind] at h
      cases e3 : f3 a2 with
      | none => rw [e3] at h; simp at h
      | some a3 =>
        rw [e3] at h
        simp only [Option.some_bind] at h
        exact h4 _ _ (h3 _ _ (h2 _ _ (h1 _ _ ha e1) e2) e3) h

/-- Two chains of four optional steps related step by step through `φ`. -/
theorem bind4_map {α β : Type} (Inv : α → Prop) (φ : α → β)
    (f1 f2 f3 f4 : α → Option α) (g1 g2 g3 g4 : β → Option β) (a : α)
    (i1 : ∀ x y, Inv x → f1 x = some y → Inv y) (i2 : ∀ x y, Inv x → f2 x = some y → Inv y)
    (i3 : ∀ x y, Inv x → f3 x = some y → Inv y)
    (e1 : ∀ x, Inv x → g1 (φ x) = (f1 x).map φ) (e2 : ∀ x, Inv x → g2 (φ x) = (f2 x).map φ)
    (e3 : ∀ x, Inv x → g3 (φ x) = (f3 x).map φ) (e4 : ∀ x, Inv x → g4 (φ x) = (f4 x).map φ)
    (ha : Inv a) :
    (((g1 (φ a)).bind g2).bind g3).bind g4 = ((((f1 a).bind f2).bind f3).bind f4).map φ := by
  rw [e1 a ha]
  cases c1 : f1 a with
  | none => rfl
  | some a1 =>
    have k1 := i1 _ _ ha c1
    simp only [Option.map_some', Option.some_bind]
    rw [e2 a1 k1]
    cases c2 : f2 a1 with
    | none => rfl
    | some a2 =>
      have k2 := i2 _ _ k1 c2
      simp only [Option.map_some', Option.some_bind]
      rw [e3 a2 k2]
      cases c3 : f3 a2 with
      | none => rfl
      | some a3 =>
        have k3 := i3 _ _ k2 c3
        simp only [Option.map_some', Option.some_bind]
        rw [e4 a3 k3]

theorem becameQueen_flags (G : Globals) (p : Position) (l : Lodic) :
    (becameQueen G p l).1.is_player_turn = G.is_player_turn ∧
      (becameQueen G p l).1.player_is_white = G.player_is_white ∧
      (becameQueen G p l).1.lodic = G.lodic := by
  unfold becameQueen
  split_ifs <;> simp

theorem best_block_flags (G : Globals) (pos : Position) (lodic : Lodic) (ky kx ny nx : Int) :
    (best_block G pos lodic ky kx ny nx).1.is_player_turn = G.is_player_turn ∧
      (best_block G pos lodic ky kx ny nx).1.player_is_white = G.player_is_white ∧
      (best_block G pos lodic ky kx ny nx).1.lodic = G.lodic ∧
      (best_block G pos lodic ky kx ny nx).2.1.x_8 = nx ∧
      (best_block G pos lodic ky kx ny nx).2.1.y_8 = ny := by
  simp only [best_block]
  refine ⟨?_, ?_, ?_, trivial, trivial⟩
  · rw [(becameQueen_flags _ _ _).1]
  · rw [(becameQueen_flags _ _ _).2.1]
  · rw [(becameQueen_flags _ _ _).2.2]

theorem leaf_branch_flags (rec : Globals → Position → Valid_Kill → Int → Lodic →
      Option (Globals × List Leaf))
    (hrec : ∀ G pos vks n lodic r, rec G pos vks n lodic = some r → sameFlags G r.1)
    (flag : Bool) (ky kx ny nx : Int) (pos : Position) (lodic : Lodic) (gsc : GameState)
    (G0 : Globals) (x y : Globals × List Leaf)
    (hx : sameFlags G0 x.1 ∧ x.1.game_state = gsc)
    (h : leaf_branch rec flag ky kx ny nx pos lodic gsc x = some y) :
    sameFlags G0 y.1 ∧ y.1.game_state = gsc := by
  unfold leaf_branch at h
  cases flag with
  | false =>
    simp only [Bool.false_eq_true, if_false, Option.some.injEq] at h
    subst h
    exact hx
  | true =>
    simp only [if_true, Option.map_eq_some'] at h
    obtain ⟨r, hr, rfl⟩ := h
    have h1 := hrec _ _ _ _ _ _ hr
    have h2 := best_block_flags x.1 pos lodic ky kx ny nx
    unfold sameFlags at *
    simp only
    refine ⟨⟨?_, ?_, ?_⟩, trivial⟩
    · rw [h1.1, h2.1, hx.1.1]
    · rw [h1.2.1, h2.2.1, hx.1.2.1]
    · rw [h1.2.2, h2.2.2.1, hx.1.2.2]

theorem captureLeaves_flags (fuel : Nat) :
    ∀ (G : Globals) (pos : Position) (vks : Valid_Kill) (n : Int) (lodic : Lodic)
      (r : Globals × List Leaf), captureLeaves fuel G pos vks n lodic = some r →
      sameFlags G r.1 ∧ r.1.game_state = G.game_state := by
  induction fuel with
  | zero => intro G pos vks n lodic r h; simp [captureLeaves] at h
  | succ fuel ih =>
    intro G pos vks n lodic r h
    by_cases h0 : n = 0
    · simp only [captureLeaves, h0, if_true, Option.some.injEq] at h
      subst h
      exact ⟨⟨rfl, rfl, rfl⟩, rfl⟩
    · simp only [captureLeaves, h0, if_false] at h
      have hrec : ∀ G pos vks n lodic r, captureLeaves fuel G pos vks n lodic = some r →
          sameFlags G r.1 := fun G pos vks n lodic r hh => (ih G pos vks n lodic r hh).1
      exact bind4_inv (fun x : Globals × List Leaf => sameFlags G x.1 ∧ x.1.game_state = G.game_state)
        _ _ _ _ (G, []) r h
        (fun x y => leaf_branch_flags _ hrec _ _ _ _ _ _ _ _ G x y)
        (fun x y => leaf_branch_flags _ hrec _ _ _ _ _ _ _ _ G x y)
        (fun x y => leaf_branch_flags _ hrec _ _ _ _ _ _ _ _ G x y)
        (fun x y => leaf_branch_flags _ hrec _ _ _ _ _ _ _ _ G x y)
        ⟨⟨rfl, rfl, rfl⟩, rfl⟩

theorem foldl_pickBest_append (w : Bool) (best : Best) (l1 l2 : List Leaf) :
    (l1 ++ l2).foldl (pickBest w) best = l2.foldl (pickBest w) (l1.foldl (pickBest w) best) :=
  List.foldl_append _ _ _ _

/-- A direction block of `get_best_sequent_kills` in terms of the walk. -/
theorem best_branch_eq (fuel : Nat) (w : Bool) (best : Best)
    (ih : ∀ (G : Globals) (pos : Position) (vks : Valid_Kill) (n : Int) (best : Best)
      (lodic : Lodic), get_best_sequent_kills fuel G pos vks n best lodic =
        (captureLeaves fuel G pos vks n lodic).map fun r =>
          (r.1, r.2.foldl (pickBest (!G.player_is_white)) best))
    (flag : Bool) (ky kx ny nx : Int) (pos : Position) (lodic : Lodic) (gsc : GameState)
    (x : Globals × List Leaf) (hx : x.1.player_is_white = w) :
    best_branch (get_best_sequent_kills fuel) flag ky kx ny nx pos lodic gsc
        (x.1, x.2.foldl (pickBest (!w)) best) =
      (leaf_branch (captureLeaves fuel) flag ky kx ny nx pos lodic gsc x).map fun r =>
        (r.1, r.2.foldl (pickBest (!w)) best) := by
  unfold best_branch leaf_branch
  cases flag with
  | false => simp
  | true =>
    simp only [if_true, ih, Option.map_map]
    rw [(best_block_flags x.1 pos lodic ky kx ny nx).2.1, hx]
    congr 1
    funext r
    simp only [Function.comp, foldl_pickBest_append]

/-- `get_best_sequent_kills` folds `pickBest` over the terminal nodes of the
walk. -/
theorem get_best_sequent_kills_eq (fuel : Nat) :
    ∀ (G : Globals) (pos : Position) (vks : Valid_Kill) (n : Int) (best : Best)
      (lodic : Lodic), get_best_sequent_kills fuel G pos vks n best lodic =
        (captureLeaves fuel G pos vks n lodic).map fun r =>
          (r.1, r.2.foldl (pickBest (!G.player_is_white)) best) := by
  induction fuel with
  | zero => intro G pos vks n best lodic; rfl
  | succ fuel ih =>
    intro G pos vks n best lodic
    by_cases h0 : n = 0
    · simp only [get_best_sequent_kills, captureLeaves, h0, if_true, Option.map_some',
        List.foldl_cons, List.foldl_nil, pickBest, Leaf.score]
      split_ifs <;> rfl
    · simp only [get_best_sequent_kills, captureLeaves, h0, if_false]
      have hrec : ∀ G pos vks n lodic r, captureLeaves fuel G pos vks n lodic = some r →
          sameFlags G r.1 := fun G pos vks n lodic r hh =>
        (captureLeaves_flags fuel G pos vks n lodic r hh).1
      have inv : ∀ flag ky kx ny nx (x y : Globals × List Leaf),
          (sameFlags G x.1 ∧ x.1.game_state = G.game_state) →
          leaf_branch (captureLeaves fuel) flag ky kx ny nx pos lodic G.game_state x = some y →
          (sameFlags G y.1 ∧ y.1.game_state = G.game_state) :=
        fun flag ky kx ny nx x y => leaf_branch_flags _ hrec flag ky kx ny nx pos lodic _ G x y
      have key := bind4_map
        (fun x : Globals × List Leaf => sameFlags G x.1 ∧ x.1.game_state = G.game_state)
        (fun x : Globals × List Leaf => (x.1, x.2.foldl (pickBest (!G.player_is_white)) best))
        (leaf_branch (captureLeaves fuel) vks.kill_l_h
          (pos.y_8 - 1) (pos.x_8 - 1) vks.kill_lh_y vks.kill_lh_x pos lodic G.game_state)
        (leaf_branch (captureLeaves fuel) vks.kill_r_h
          (pos.y_8 - 1) (pos.x_8 + 1) vks.kill_rh_y vks.kill_rh_x pos lodic G.game_state)
        (leaf_branch (captureLeaves fuel) vks.kill_l_s
          (pos.y_8 + 1) (pos.x_8 - 1) vks.kill_ls_y vks.kill_ls_x pos lodic G.game_state)
        (leaf_branch (captureLeaves fuel) vks.kill_r_s
          (pos.y_8 + 1) (pos.x_8 + 1) vks.kill_rs_y vks.kill_rs_x pos lodic G.game_state)
        (best_branch (get_best_sequent_kills fuel) vks.kill_l_h
          (pos.y_8 - 1) (pos.x_8 - 1) vks.kill_lh_y vks.kill_lh_x pos lodic G.game_state)
        (best_branch (get_best_sequent_kills fuel) vks.kill_r_h
          (pos.y_8 - 1) (pos.x_8 + 1) vks.kill_rh_y vks.kill_rh_x pos lodic G.game_state)
        (best_branch (get_best_sequent_kills fuel) vks.kill_l_s
          (pos.y_8 + 1) (pos.x_8 - 1) vks.kill_ls_y vks.kill_ls_x pos lodic G.game_state)
        (best_branch (get_best_sequent_kills fuel) vks.kill_r_s
          (pos.y_8 + 1) (pos.x_8 + 1) vks.kill_rs_y vks.kill_rs_x pos lodic G.game_state)
        (G, []) (inv _ _ _ _ _) (inv _ _ _ _ _) (inv _ _ _ _ _)
        (fun x hx => best_branch_eq fuel _ best ih _ _ _ _ _ pos lodic _ x hx.1.2.1)
        (fun x hx => best_branch_eq fuel _ best ih _ _ _ _ _ pos lodic _ x hx.1.2.1)
        (fun x hx => best_branch_eq fuel _ best ih _ _ _ _ _ pos lodic _ x hx.1.2.1)
        (fun x hx => best_branch_eq fuel _ best ih _ _ _ _ _ pos lodic _ x hx.1.2.1)
        ⟨⟨rfl, rfl, rfl⟩, rfl⟩
      exact key


theorem captureLeaves_succ (fuel : Nat) (G : Globals) (pos : Position) (vks : Valid_Kill)
    (n : Int) (lodic : Lodic) :
    captureLeaves (fuel + 1) G pos vks n lodic =
      if n = 0 then some (G, [⟨lodic, G.game_state⟩])
      else
        (((leaf_branch (captureLeaves fuel) (vks.flag .l_h) (pos.y_8 + Dir.dy .l_h)
              (pos.x_8 + Dir.dx .l_h) (vks.land_y .l_h) (vks.land_x .l_h) pos lodic
              G.game_state (G, [])).bind
            (leaf_branch (captureLeaves fuel) (vks.flag .r_h) (pos.y_8 + Dir.dy .r_h)
              (pos.x_8 + Dir.dx .r_h) (vks.land_y .r_h) (vks.land_x .r_h) pos lodic
              G.game_state)).bind
            (leaf_branch (captureLeaves fuel) (vks.flag .l_s) (pos.y_8 + Dir.dy .l_s)
              (pos.x_8 + Dir.dx .l_s) (vks.land_y .l_s) (vks.land_x .l_s) pos lodic
              G.game_state)).bind
            (leaf_branch (captureLeaves fuel) (vks.flag .r_s) (pos.y_8 + Dir.dy .r_s)
              (pos.x_8 + Dir.dx .r_s) (vks.land_y .r_s) (vks.land_x .r_s) pos lodic
              G.game_state) := rfl

/-- The walk from `pos` with the captures `get_valid_kill` reports there. -/
theorem leaf_branch_proper (fuel : Nat) (G : Globals) (pos : Position) (lodic : Lodic) (d : Dir)
    (gsc : GameState) (x : Globals × List Leaf) (hx : x.1.is_player_turn = G.is_player_turn) :
    leaf_branch (captureLeaves fuel)
        ((get_valid_kill G.is_player_turn pos Valid_Kill.fresh lodic).2.flag d)
        (pos.y_8 + d.dy) (pos.x_8 + d.dx)
        ((get_valid_kill G.is_player_turn pos Valid_Kill.fresh lodic).2.land_y d)
        ((get_valid_kill G.is_player_turn pos Valid_Kill.fresh lodic).2.land_x d)
        pos lodic gsc x =
      if (get_valid_kill G.is_player_turn pos Valid_Kill.fresh lodic).2.flag d then
        (captureLeaves fuel (bestStep x.1 pos lodic d).1 (bestStep x.1 pos lodic d).2.1
          (get_valid_kill G.is_player_turn (bestStep x.1 pos lodic d).2.1 Valid_Kill.fresh
            (bestStep x.1 pos lodic d).2.2).2
          (get_valid_kill G.is_player_turn (bestStep x.1 pos lodic d).2.1 Valid_Kill.fresh
            (bestStep x.1 pos lodic d).2.2).1
          (bestStep x.1 pos lodic d).2.2).map
          fun r => ({ r.1 with game_state := gsc }, x.2 ++ r.2)
      else some x := by
  unfold leaf_branch
  by_cases hf : (get_valid_kill G.is_player_turn pos Valid_Kill.fresh lodic).2.flag d = true
  · obtain ⟨hy, hx'⟩ := gvk_land _ _ _ _ _ hf
    simp only [hf, if_true, hy, hx']
    unfold bestStep
    rw [(best_block_flags x.1 pos lodic _ _ _ _).1, hx]
  · simp only [hf, Bool.false_eq_true, if_false]

theorem countCells_wr_rd (p : Char → Prop) [DecidablePred p] (l : Lodic) (y x : Int) (c : Char)
    (h : onBoard x y) :
    countCells p (l.wr y x c) + (if p (l.rd y x) then 1 else 0) =
      countCells p l + (if p ((l.wr y x c).rd y x) then 1 else 0) := by
  have e : (l.wr y x c).rd y x = c := by
    rw [lodic_rd_wr _ _ _ _ _ _ h]
    exact if_pos ⟨rfl, rfl⟩
  rw [e]
  exact countCells_wr p l y x c h

theorem becameQueen_lodic_cases (G : Globals) (p : Position) (l : Lodic) :
    (becameQueen G p l).2 = l ∨ ∃ c, (becameQueen G p l).2 = l.wr p.y_8 p.x_8 c := by
  unfold becameQueen
  split_ifs
  · exact Or.inr ⟨_, rfl⟩
  · exact Or.inr ⟨_, rfl⟩
  · exact Or.inl rfl
  · exact Or.inr ⟨_, rfl⟩
  · exact Or.inr ⟨_, rfl⟩
  · exact Or.inl rfl

theorem becameQueen_count (p : Char → Prop) [DecidablePred p] (G : Globals) (q : Position)
    (l : Lodic) (h : onBoard q.x_8 q.y_8) :
    countCells p (becameQueen G q l).2 + (if p (l.rd q.y_8 q.x_8) then 1 else 0) =
      countCells p l + (if p ((becameQueen G q l).2.rd q.y_8 q.x_8) then 1 else 0) := by
  rcases becameQueen_lodic_cases G q l with h1 | ⟨c, h1⟩
  · rw [h1]
  · rw [h1]
    exact countCells_wr_rd p l _ _ c h

/-- Counting enemy pieces across one step of the computer's chain. -/
theorem bestStep_count (G : Globals) (t : Bool) (pos : Position) (lodic : Lodic) (d : Dir)
    (h : (get_valid_kill t pos Valid_Kill.fresh lodic).2.flag d = true) :
    enemyCount t (bestStep G pos lodic d).2.2 + 1 +
        (if isEnemy t (lodic.rd pos.y_8 pos.x_8) then 1 else 0) =
      enemyCount t lodic +
        (if isEnemy t ((bestStep G pos lodic d).2.2.rd (pos.y_8 + 2 * d.dy)
          (pos.x_8 + 2 * d.dx)) then 1 else 0) := by
  obtain ⟨ho, _, hk, hek, hn, hn0⟩ := gvk_flag_cells _ _ _ _ _ h
  have hdx := d.dx_cases
  have hdy := d.dy_cases
  have n1 : ¬ (pos.y_8 = pos.y_8 + d.dy ∧ pos.x_8 = pos.x_8 + d.dx) := by omega
  have n2 : ¬ (pos.y_8 + 2 * d.dy = pos.y_8 ∧ pos.x_8 + 2 * d.dx = pos.x_8) := by omega
  have n3 : ¬ (pos.y_8 + 2 * d.dy = pos.y_8 + d.dy ∧ pos.x_8 + 2 * d.dx = pos.x_8 + d.dx) := by
    omega
  simp only [bestStep, best_block, enemyCount]
  have c1 := countCells_wr (isEnemy t) lodic _ _ '0' hk
  have c2 := countCells_wr (isEnemy t) (lodic.wr (pos.y_8 + d.dy) (pos.x_8 + d.dx) '0')
    _ _ '0' ho
  have c3 := countCells_wr (isEnemy t)
    ((lodic.wr (pos.y_8 + d.dy) (pos.x_8 + d.dx) '0').wr pos.y_8 pos.x_8 '0')
    _ _ '1' hn
  have c4 := becameQueen_count (isEnemy t)
    { G with game_state :=
        if lodic.rd (pos.y_8 + d.dy) (pos.x_8 + d.dx) = '2' then
          (if G.player_is_white then
            { G.game_state with count_white := G.game_state.count_white - 1 }
          else { G.game_state with count_black := G.game_state.count_black - 1 })
        else if lodic.rd (pos.y_8 + d.dy) (pos.x_8 + d.dx) = '4' then
          (if G.player_is_white then
            { G.game_state with count_white_king := G.game_state.count_white_king - 1 }
          else { G.game_state with count_black_king := G.game_state.count_black_king - 1 })
        else G.game_state }
    { pos with
      x_8 := pos.x_8 + 2 * d.dx
      y_8 := pos.y_8 + 2 * d.dy
      x := (reverse_graph_koordinaty (pos.x_8 + 2 * d.dx) (pos.y_8 + 2 * d.dy)).1
      y := (reverse_graph_koordinaty (pos.x_8 + 2 * d.dx) (pos.y_8 + 2 * d.dy)).2 }
    (((lodic.wr (pos.y_8 + d.dy) (pos.x_8 + d.dx) '0').wr pos.y_8 pos.x_8 '0').wr
      (pos.y_8 + 2 * d.dy) (pos.x_8 + 2 * d.dx) '1') hn
  rw [if_pos hek, if_neg (not_isEnemy_zero _)] at c1
  rw [lodic_rd_wr _ _ _ _ _ _ hk, if_neg n1, if_neg (not_isEnemy_zero _)] at c2
  rw [lodic_rd_wr _ _ _ _ _ _ ho, if_neg n2, lodic_rd_wr _ _ _ _ _ _ hk, if_neg n3, hn0,
    if_neg (not_isEnemy_zero _)] at c3
  simp only [lodic_rd_wr _ _ _ _ _ _ hn, and_self, if_true] at c4
  omega


/-- A direction block of the proper walk, in terms of `properLeaves`. -/
theorem leaf_branch_properLeaves (fuel : Nat) (G : Globals) (pos : Position) (lodic : Lodic)
    (d : Dir) (gsc : GameState) (x : Globals × List Leaf)
    (hx : x.1.is_player_turn = G.is_player_turn) :
    leaf_branch (captureLeaves fuel)
        ((get_valid_kill G.is_player_turn pos Valid_Kill.fresh lodic).2.flag d)
        (pos.y_8 + d.dy) (pos.x_8 + d.dx)
        ((get_valid_kill G.is_player_turn pos Valid_Kill.fresh lodic).2.land_y d)
        ((get_valid_kill G.is_player_turn pos Valid_Kill.fresh lodic).2.land_x d)
        pos lodic gsc x =
      if (get_valid_kill G.is_player_turn pos Valid_Kill.fresh lodic).2.flag d then
        (properLeaves fuel (bestStep x.1 pos lodic d).1 (bestStep x.1 pos lodic d).2.1
          (bestStep x.1 pos lodic d).2.2).map
          fun r => ({ r.1 with game_state := gsc }, x.2 ++ r.2)
      else some x := by
  rw [leaf_branch_proper fuel G pos lodic d gsc x hx]
  unfold properLeaves
  have : (bestStep x.1 pos lodic d).1.is_player_turn = G.is_player_turn := by
    unfold bestStep
    rw [(best_block_flags x.1 pos lodic _ _ _ _).1, hx]
  rw [this]

theorem bestStep_pos (G : Globals) (pos : Position) (lodic : Lodic) (d : Dir) :
    (bestStep G pos lodic d).2.1.x_8 = pos.x_8 + 2 * d.dx ∧
      (bestStep G pos lodic d).2.1.y_8 = pos.y_8 + 2 * d.dy ∧
      (bestStep G pos lodic d).1.is_player_turn = G.is_player_turn ∧
      (bestStep G pos lodic d).1.player_is_white = G.player_is_white ∧
      (bestStep G pos lodic d).1.lodic = G.lodic := by
  have h := best_block_flags G pos lodic (pos.y_8 + d.dy) (pos.x_8 + d.dx)
    (pos.y_8 + 2 * d.dy) (pos.x_8 + 2 * d.dx)
  exact ⟨h.2.2.2.1, h.2.2.2.2, h.1, h.2.1, h.2.2.1⟩

theorem isEnemy_isPiece (t : Bool) (c : Char) (h : isEnemy t c) : isPiece c := by
  unfold isPiece
  cases t
  · rcases h with h | h
    · exact Or.inr (Or.inl h)
    · exact Or.inr (Or.inr (Or.inr h))
  · rcases h with h | h
    · exact Or.inl h
    · exact Or.inr (Or.inr (Or.inl h))

/-- A direction block of the proper walk returns when its recursive walk does. -/
theorem leaf_branch_total (fuel : Nat)
    (ih : ∀ (G : Globals) (pos : Position) (lodic : Lodic),
      enemyCount G.is_player_turn lodic + 1 ≤
        fuel + (if isEnemy G.is_player_turn (lodic.rd pos.y_8 pos.x_8) then 1 else 0) →
      ∃ r, properLeaves fuel G pos lodic = some r ∧ r.2 ≠ [])
    (G : Globals) (pos : Position) (lodic : Lodic) (d : Dir) (gsc : GameState)
    (x : Globals × List Leaf) (hx : x.1.is_player_turn = G.is_player_turn)
    (hm : enemyCount G.is_player_turn lodic + 1 ≤
      fuel + 1 + (if isEnemy G.is_player_turn (lodic.rd pos.y_8 pos.x_8) then 1 else 0)) :
    ∃ y, leaf_branch (captureLeaves fuel)
        ((get_valid_kill G.is_player_turn pos Valid_Kill.fresh lodic).2.flag d)
        (pos.y_8 + d.dy) (pos.x_8 + d.dx)
        ((get_valid_kill G.is_player_turn pos Valid_Kill.fresh lodic).2.land_y d)
        ((get_valid_kill G.is_player_turn pos Valid_Kill.fresh lodic).2.land_x d)
        pos lodic gsc x = some y ∧
      y.1.is_player_turn = G.is_player_turn ∧ (x.2 ≠ [] → y.2 ≠ []) ∧
      ((get_valid_kill G.is_player_turn pos Valid_Kill.fresh lodic).2.flag d = true →
        y.2 ≠ []) := by
  rw [leaf_branch_properLeaves fuel G pos lodic d gsc x hx]
  by_cases hf : (get_valid_kill G.is_player_turn pos Valid_Kill.fresh lodic).2.flag d = true
  · rw [if_pos hf]
    obtain ⟨px, py, pt, _, _⟩ := bestStep_pos x.1 pos lodic d
    have hc := bestStep_count x.1 G.is_player_turn pos lodic d hf
    obtain ⟨r, hr, hne⟩ := ih (bestStep x.1 pos lodic d).1 (bestStep x.1 pos lodic d).2.1
      (bestStep x.1 pos lodic d).2.2 (by rw [pt, hx, px, py]; omega)
    refine ⟨({ r.1 with game_state := gsc }, x.2 ++ r.2), by rw [hr, Option.map_some'],
      ?_, ?_, ?_⟩
    · show r.1.is_player_turn = G.is_player_turn
      rw [(captureLeaves_flags fuel _ _ _ _ _ r hr).1.1, pt, hx]
    · intro _ hc; exact hne (List.append_eq_nil.1 hc).2
    · intro _ hc; exact hne (List.append_eq_nil.1 hc).2
  · rw [if_neg hf]
    exact ⟨x, rfl, hx, fun h => h, fun h => absurd h hf⟩

/-- The proper walk returns with at least one terminal node when the bound
exceeds the number of enemy pieces other than the one on `pos`. -/
theorem properLeaves_total (fuel : Nat) :
    ∀ (G : Globals) (pos : Position) (lodic : Lodic),
      enemyCount G.is_player_turn lodic + 1 ≤
        fuel + (if isEnemy G.is_player_turn (lodic.rd pos.y_8 pos.x_8) then 1 else 0) →
      ∃ r, properLeaves fuel G pos lodic = some r ∧ r.2 ≠ [] := by
  induction fuel with
  | zero =>
    intro G pos lodic h
    exfalso
    by_cases he : isEnemy G.is_player_turn (lodic.rd pos.y_8 pos.x_8)
    · have hp : isPiece (lodic.rd pos.y_8 pos.x_8) := isEnemy_isPiece _ _ he
      -- an enemy piece on `pos` is itself counted
      have hb := rd_isPiece_onBoard lodic _ _ hp
      have c := countCells_wr (isEnemy G.is_player_turn) lodic _ _ '0' hb
      rw [if_pos he, if_neg (not_isEnemy_zero _)] at c
      rw [if_pos he] at h
      unfold enemyCount at h
      omega
    · rw [if_neg he] at h
      omega
  | succ fuel ih =>
    intro G pos lodic h
    by_cases h0 : (get_valid_kill G.is_player_turn pos Valid_Kill.fresh lodic).1 = 0
    · refine ⟨(G, [⟨lodic, G.game_state⟩]), ?_, by simp⟩
      unfold properLeaves
      rw [captureLeaves_succ, if_pos h0]
    · unfold properLeaves
      rw [captureLeaves_succ, if_neg h0]
      obtain ⟨y1, e1, t1, _, f1⟩ :=
        leaf_branch_total fuel ih G pos lodic .l_h G.game_state (G, []) rfl h
      obtain ⟨y2, e2, t2, k2, f2⟩ :=
        leaf_branch_total fuel ih G pos lodic .r_h G.game_state y1 t1 h
      obtain ⟨y3, e3, t3, k3, f3⟩ :=
        leaf_branch_total fuel ih G pos lodic .l_s G.game_state y2 t2 h
      obtain ⟨y4, e4, t4, k4, f4⟩ :=
        leaf_branch_total fuel ih G pos lodic .r_s G.game_state y3 t3 h
      rw [e1, Option.some_bind, e2, Option.some_bind, e3, Option.some_bind, e4]
      refine ⟨y4, rfl, ?_⟩
      obtain ⟨d, hd⟩ := gvk_count_ne_zero _ _ _ _ h0
      cases d
      · exact k4 (k3 (k2 (f1 hd)))
      · exact k4 (k3 (f2 hd))
      · exact k4 (f3 hd)
      · exact f4 hd

theorem properLeaves_chainFuel (G : Globals) (pos : Position) (lodic : Lodic) :
    ∃ r, properLeaves chainFuel G pos lodic = some r ∧ r.2 ≠ [] := by
  apply properLeaves_total
  have := enemyCount_le G.is_player_turn lodic
  unfold chainFuel
  omega

/-- Induction over the terminal nodes of a proper walk. -/
theorem properLeaves_forall (t : Bool) (P : Position → Lodic → Lodic → Prop)
    (leafc : ∀ (pos : Position) (lodic : Lodic),
      (get_valid_kill t pos Valid_Kill.fresh lodic).1 = 0 → P pos lodic lodic)
    (step : ∀ (G : Globals) (pos : Position) (lodic : Lodic) (d : Dir) (l' : Lodic),
      G.is_player_turn = t →
      (get_valid_kill t pos Valid_Kill.fresh lodic).2.flag d = true →
      P (bestStep G pos lodic d).2.1 (bestStep G pos lodic d).2.2 l' → P pos lodic l')
    (fuel : Nat) :
    ∀ (G : Globals) (pos : Position) (lodic : Lodic) (r : Globals × List Leaf),
      G.is_player_turn = t → properLeaves fuel G pos lodic = some r →
      ∀ lf ∈ r.2, P pos lodic lf.lodic := by
  induction fuel with
  | zero => intro G pos lodic r _ h; simp [properLeaves, captureLeaves] at h
  | succ fuel ih =>
    intro G pos lodic r ht h
    unfold properLeaves at h
    rw [captureLeaves_succ] at h
    by_cases h0 : (get_valid_kill G.is_player_turn pos Valid_Kill.fresh lodic).1 = 0
    · rw [if_pos h0] at h
      simp only [Option.some.injEq] at h
      subst h
      intro lf hlf
      simp only [List.mem_singleton] at hlf
      subst hlf
      exact leafc pos lodic (by rw [← ht]; exact h0)
    · rw [if_neg h0] at h
      have inv : ∀ (d : Dir) (x y : Globals × List Leaf),
          (x.1.is_player_turn = t ∧ ∀ lf ∈ x.2, P pos lodic lf.lodic) →
          leaf_branch (captureLeaves fuel)
            ((get_valid_kill G.is_player_turn pos Valid_Kill.fresh lodic).2.flag d)
            (pos.y_8 + d.dy) (pos.x_8 + d.dx)
            ((get_valid_kill G.is_player_turn pos Valid_Kill.fresh lodic).2.land_y d)
            ((get_valid_kill G.is_player_turn pos Valid_Kill.fresh lodic).2.land_x d)
            pos lodic G.game_state x = some y →
          (y.1.is_player_turn = t ∧ ∀ lf ∈ y.2, P pos lodic lf.lodic) := by
        intro d x y hx hb
        rw [leaf_branch_properLeaves fuel G pos lodic d _ x (by rw [hx.1, ht])] at hb
        by_cases hf : (get_valid_kill G.is_player_turn pos Valid_Kill.fresh lodic).2.flag d = true
        · rw [if_pos hf] at hb
          simp only [Option.map_eq_some'] at hb
          obtain ⟨r', hr', rfl⟩ := hb
          obtain ⟨_, _, pt, _, _⟩ := bestStep_pos x.1 pos lodic d
          have hst : (bestStep x.1 pos lodic d).1.is_player_turn = t := by rw [pt, hx.1]
          refine ⟨?_, ?_⟩
          · show r'.1.is_player_turn = t
            rw [(captureLeaves_flags fuel _ _ _ _ _ r' hr').1.1, hst]
          · intro lf hlf
            simp only [List.mem_append] at hlf
            rcases hlf with hlf | hlf
            · exact hx.2 lf hlf
            · exact step x.1 pos lodic d lf.lodic hx.1 (by rw [← ht]; exact hf)
                (ih _ _ _ r' hst hr' lf hlf)
        · rw [if_neg hf] at hb
          simp only [Option.some.injEq] at hb
          subst hb
          exact hx
      exact (bind4_inv (fun x : Globals × List Leaf =>
          x.1.is_player_turn = t ∧ ∀ lf ∈ x.2, P pos lodic lf.lodic)
        _ _ _ _ (G, []) r h (inv .l_h) (inv .r_h) (inv .l_s) (inv .r_s)
        ⟨ht, by intro lf hlf; simp at hlf⟩).2


/-- What folding `pickBest` over a list of terminal nodes yields. -/
theorem foldl_pickBest_spec (w : Bool) (L : List Leaf) :
    ∀ best : Best,
      best.mx_score ≤ (L.foldl (pickBest w) best).mx_score ∧
      (∀ lf ∈ L, lf.score w ≤ (L.foldl (pickBest w) best).mx_score) ∧
      ((L.foldl (pickBest w) best = best) ∨
        (best.mx_score < (L.foldl (pickBest w) best).mx_score ∧
          ∃ lf ∈ L, lf.score w = (L.foldl (pickBest w) best).mx_score ∧
            (L.foldl (pickBest w) best).best_lodic = lf.lodic ∧
            (L.foldl (pickBest w) best).best_game_state = lf.game_state)) := by
  induction L with
  | nil => intro best; simp
  | cons a L ih =>
    intro best
    simp only [List.foldl_cons]
    obtain ⟨h1, h2, h3⟩ := ih (pickBest w best a)
    have hp : best.mx_score ≤ (pickBest w best a).mx_score ∧
        a.score w ≤ (pickBest w best a).mx_score := by
      unfold pickBest
      split_ifs with hc
      · simp only; omega
      · omega
    refine ⟨le_trans hp.1 h1, ?_, ?_⟩
    · intro lf hlf
      simp only [List.mem_cons] at hlf
      rcases hlf with rfl | hlf
      · exact le_trans hp.2 h1
      · exact h2 lf hlf
    · by_cases hc : a.score w > best.mx_score
      · right
        have hpe : pickBest w best a = ⟨a.score w, a.lodic, a.game_state⟩ := by
          unfold pickBest; rw [if_pos hc]
        rcases h3 with h3 | ⟨h3, lf, hlf, e1, e2, e3⟩
        · rw [h3, hpe]
          exact ⟨hc, a, List.mem_cons_self _ _, rfl, rfl, rfl⟩
        · refine ⟨lt_of_le_of_lt hp.1 h3, lf, List.mem_cons_of_mem _ hlf, e1, e2, e3⟩
      · have hpe : pickBest w best a = best := by
          unfold pickBest; rw [if_neg hc]
        rw [hpe] at h3 ⊢
        rcases h3 with h3 | ⟨h3, lf, hlf, e1, e2, e3⟩
        · exact Or.inl h3
        · exact Or.inr ⟨h3, lf, List.mem_cons_of_mem _ hlf, e1, e2, e3⟩

/-- The search returns with the standard bound, and its score is the maximum
of the input score and the scores of the terminal nodes as the walk of the
code meets them (`properLeaves`, the display marks of earlier branches
included); on a strict increase the outputs are those of such a node,
otherwise they are the inputs. -/
theorem get_best_sequent_kills_walk_max (G : Globals) (pos : Position) (lodic : Lodic) (best : Best) :
    ∃ (G' : Globals) (leaves : List Leaf) (b' : Best),
      properLeaves chainFuel G pos lodic = some (G', leaves) ∧ leaves ≠ [] ∧
      get_best_sequent_kills chainFuel G pos
        (get_valid_kill G.is_player_turn pos Valid_Kill.fresh lodic).2
        (get_valid_kill G.is_player_turn pos Valid_Kill.fresh lodic).1 best lodic =
        some (G', b') ∧
      best.mx_score ≤ b'.mx_score ∧
      (∀ lf ∈ leaves, lf.score (!G.player_is_white) ≤ b'.mx_score) ∧
      (b'.mx_score = best.mx_score ∨
        ∃ lf ∈ leaves, lf.score (!G.player_is_white) = b'.mx_score) ∧
      (best.mx_score < b'.mx_score →
        ∃ lf ∈ leaves, lf.score (!G.player_is_white) = b'.mx_score ∧
          b'.best_lodic = lf.lodic ∧ b'.best_game_state = lf.game_state) ∧
      (¬ best.mx_score < b'.mx_score →
        b'.best_lodic = best.best_lodic ∧ b'.best_game_state = best.best_game_state) := by
  obtain ⟨r, hr, hne⟩ := properLeaves_chainFuel G pos lodic
  obtain ⟨h1, h2, h3⟩ := foldl_pickBest_spec (!G.player_is_white) r.2 best
  refine ⟨r.1, r.2, r.2.foldl (pickBest (!G.player_is_white)) best, hr, hne, ?_, h1, h2,
    ?_, ?_, ?_⟩
  · rw [get_best_sequent_kills_eq]
    unfold properLeaves at hr
    rw [hr]
    rfl
  · rcases h3 with h3 | ⟨_, lf, hlf, e1, _⟩
    · exact Or.inl (by rw [h3])
    · exact Or.inr ⟨lf, hlf, e1⟩
  · intro hlt
    rcases h3 with h3 | ⟨_, lf, hlf, e1, e2, e3⟩
    · rw [h3] at hlt; exact absurd hlt (lt_irrefl _)
    · exact ⟨lf, hlf, e1, e2, e3⟩
  · intro hnlt
    rcases h3 with h3 | ⟨h3, _⟩
    · rw [h3]; exact ⟨rfl, rfl⟩
    · exact absurd h3 hnlt


/-! ## Move selector lemmas -/

theorem evaluate_board_pc_nonneg (gs : GameState) (lodic : Lodic) (w : Bool) :
    0 ≤ evaluate_board_pc gs lodic w := by
  unfold evaluate_board_pc
  cases w <;> simp only [if_true, Bool.false_eq_true, if_false] <;> split_ifs <;> omega

theorem Leaf.score_nonneg (w : Bool) (lf : Leaf) : 0 ≤ lf.score w :=
  evaluate_board_pc_nonneg _ _ _

theorem pickBest_pos (w : Bool) (b : Best) (lf : Leaf) (h : lf.score w > b.mx_score) :
    pickBest w b lf = ⟨lf.score w, lf.lodic, lf.game_state⟩ := by
  unfold pickBest
  rw [if_pos h]

theorem pickBest_neg (w : Bool) (b : Best) (lf : Leaf) (h : ¬ lf.score w > b.mx_score) :
    pickBest w b lf = b := by
  unfold pickBest
  rw [if_neg h]

/-- Folding from a lower start and comparing afterwards is folding from the
higher start. -/
theorem foldl_pickBest_start (w : Bool) (L : List Leaf) :
    ∀ b1 b2 : Best, b1.mx_score ≤ b2.mx_score →
      L.foldl (pickBest w) b2 =
        if (L.foldl (pickBest w) b1).mx_score > b2.mx_score then L.foldl (pickBest w) b1
        else b2 := by
  induction L with
  | nil =>
    intro b1 b2 h
    simp only [List.foldl_nil]
    rw [if_neg (by omega)]
  | cons a L ih =>
    intro b1 b2 h
    simp only [List.foldl_cons]
    by_cases hc : a.score w > b2.mx_score
    · have e2 : pickBest w b2 a = ⟨a.score w, a.lodic, a.game_state⟩ := by
        unfold pickBest; rw [if_pos hc]
      have e1 : pickBest w b1 a = ⟨a.score w, a.lodic, a.game_state⟩ := by
        unfold pickBest; rw [if_pos (by omega)]
      rw [e1, e2]
      have := (foldl_pickBest_spec w L ⟨a.score w, a.lodic, a.game_state⟩).1
      simp only at this
      rw [if_pos (by omega)]
    · have e2 : pickBest w b2 a = b2 := by
        unfold pickBest; rw [if_neg hc]
      rw [e2]
      apply ih
      unfold pickBest
      split_ifs
      · simp only; omega
      · exact h

theorem any_capture_false_filter (L : List Candidate)
    (h : L.any (fun c => c.capture) = false) : L.filter (fun c => c.capture) = [] := by
  rw [List.filter_eq_nil_iff]
  intro c hc
  rw [List.any_eq_false] at h
  exact h c hc

theorem searchOf_plain (w : Bool) (junk : Lodic) (jgs gs0 : GameState) (L : List Candidate)
    (h : L.any (fun c => c.capture) = false) :
    searchOf w junk jgs gs0 L =
      { mx_score := ((L.map (fun c => c.leaf)).foldl (pickBest w) ⟨-1, junk, gs0⟩).mx_score
        best_lodic := ((L.map (fun c => c.leaf)).foldl (pickBest w) ⟨-1, junk, gs0⟩).best_lodic
        best_gs :=
          ((L.map (fun c => c.leaf)).foldl (pickBest w) ⟨-1, junk, gs0⟩).best_game_state
        has_to_kill := false
        no_moves := L.isEmpty } := by
  unfold searchOf
  rw [if_neg (by rw [h]; exact Bool.false_ne_true)]

theorem searchOf_capture (w : Bool) (junk : Lodic) (jgs gs0 : GameState) (L : List Candidate)
    (h : L.any (fun c => c.capture) = true) :
    searchOf w junk jgs gs0 L =
      { mx_score := (((L.filter (fun c => c.capture)).map (fun c => c.leaf)).foldl
          (pickBest w) ⟨-1, junk, jgs⟩).mx_score
        best_lodic := (((L.filter (fun c => c.capture)).map (fun c => c.leaf)).foldl
          (pickBest w) ⟨-1, junk, jgs⟩).best_lodic
        best_gs := (((L.filter (fun c => c.capture)).map (fun c => c.leaf)).foldl
          (pickBest w) ⟨-1, junk, jgs⟩).best_game_state
        has_to_kill := true
        no_moves := false } := by
  unfold searchOf
  rw [if_pos h]

theorem isEmpty_append_singleton {α : Type} (L : List α) (a : α) :
    (L ++ [a]).isEmpty = false := by
  cases L <;> rfl

/-- The running best after one more plain candidate. -/
theorem searchOf_snoc_plain (w : Bool) (junk : Lodic) (jgs gs0 : GameState)
    (L : List Candidate) (lf : Leaf) (h : L.any (fun c => c.capture) = false) :
    searchOf w junk jgs gs0 (L ++ [{ capture := false, leaf := lf }]) =
      if lf.score w > (searchOf w junk jgs gs0 L).mx_score then
        { searchOf w junk jgs gs0 L with
          mx_score := lf.score w, best_lodic := lf.lodic, best_gs := lf.game_state,
          no_moves := false }
      else searchOf w junk jgs gs0 L := by
  have hany : (L ++ [({ capture := false, leaf := lf } : Candidate)]).any
      (fun c => c.capture) = false := by
    simp only [List.any_append, h, List.any_cons, List.any_nil, Bool.or_false]
  rw [searchOf_plain _ _ _ _ _ hany, searchOf_plain _ _ _ _ _ h]
  simp only [List.map_append, List.map_cons, List.map_nil, List.foldl_append, List.foldl_cons,
    List.foldl_nil, isEmpty_append_singleton]
  by_cases hc : lf.score w >
      ((L.map (fun c => c.leaf)).foldl (pickBest w) ⟨-1, junk, gs0⟩).mx_score
  · rw [if_pos hc, pickBest_pos _ _ _ hc]
  · rw [if_neg hc, pickBest_neg _ _ _ hc]
    congr 1
    cases L with
    | nil =>
      exfalso
      apply hc
      simp only [List.map_nil, List.foldl_nil]
      have := lf.score_nonneg w
      omega
    | cons a t => rfl

/-- A plain-move block of `computer_move` in terms of the candidate list. -/
theorem move_block_sim (junk : Lodic) (jgs gs0 : GameState) (x y ny nx : Int)
    (G : Globals) (L : List Candidate) (h : L.any (fun c => c.capture) = false) :
    move_block x y ny nx (G, searchOf (!G.player_is_white) junk jgs gs0 L) =
      ((move_candidate x y ny nx (G, L)).1,
        searchOf (!G.player_is_white) junk jgs gs0 (move_candidate x y ny nx (G, L)).2) ∧
    (move_candidate x y ny nx (G, L)).2.any (fun c => c.capture) = false ∧
    (move_candidate x y ny nx (G, L)).1.player_is_white = G.player_is_white := by
  have hany : (move_candidate x y ny nx (G, L)).2.any (fun c => c.capture) = false := by
    simp only [move_candidate, List.any_append, h, List.any_cons, List.any_nil, Bool.or_false]
  refine ⟨?_, hany, ?_⟩
  · simp only [move_block, move_candidate]
    rw [searchOf_snoc_plain _ _ _ _ _ _ h]
    rfl
  · simp only [move_candidate]
    exact (becameQueen_flags _ _ _).2.1


theorem searchOf_htk (w : Bool) (junk : Lodic) (jgs gs0 : GameState) (L : List Candidate) :
    (searchOf w junk jgs gs0 L).has_to_kill = L.any (fun c => c.capture) := by
  cases h : L.any (fun c => c.capture)
  · rw [searchOf_plain _ _ _ _ _ h]
  · rw [searchOf_capture _ _ _ _ _ h]

/-- A conditional plain-move block in terms of the candidate list. -/
theorem cond_move_sim (w : Bool) (junk : Lodic) (jgs gs0 : GameState) (x y ny nx : Int)
    (flag : Bool) (cs : Globals × List Candidate) (hw : w = !cs.1.player_is_white)
    (h : cs.2.any (fun c => c.capture) = false) :
    (if flag = true then move_block x y ny nx (cs.1, searchOf w junk jgs gs0 cs.2)
      else (cs.1, searchOf w junk jgs gs0 cs.2)) =
      ((if flag = true then move_candidate x y ny nx cs else cs).1,
        searchOf w junk jgs gs0 (if flag = true then move_candidate x y ny nx cs else cs).2) ∧
    (if flag = true then move_candidate x y ny nx cs else cs).2.any (fun c => c.capture) = false ∧
    w = !(if flag = true then move_candidate x y ny nx cs else cs).1.player_is_white := by
  cases flag with
  | false => simp only [Bool.false_eq_true, if_false]; exact ⟨trivial, h, hw⟩
  | true =>
    simp only [if_true]
    obtain ⟨e1, e2, e3⟩ := move_block_sim junk jgs gs0 x y ny nx cs.1 cs.2 h
    subst hw
    exact ⟨e1, e2, by rw [e3]⟩

theorem properLeaves_ne_nil (G : Globals) (pos : Position) (lodic : Lodic)
    (r : Globals × List Leaf) (h : properLeaves chainFuel G pos lodic = some r) : r.2 ≠ [] := by
  obtain ⟨r', hr', hne⟩ := properLeaves_chainFuel G pos lodic
  rw [h] at hr'
  simp only [Option.some.injEq] at hr'
  subst hr'
  exact hne

/-- The running best after the terminal nodes of one more capturing piece. -/
theorem searchOf_append_capture (w : Bool) (junk : Lodic) (jgs gs0 : GameState)
    (L : List Candidate) (leaves : List Leaf) (hne : leaves ≠ []) :
    searchOf w junk jgs gs0 (L ++ leaves.map fun lf => { capture := true, leaf := lf }) =
      { (if (leaves.foldl (pickBest w) ⟨-1, junk, jgs⟩).mx_score >
              (searchOf w junk jgs gs0 L).mx_score ∨
            (searchOf w junk jgs gs0 L).has_to_kill = false then
          { searchOf w junk jgs gs0 L with
            mx_score := (leaves.foldl (pickBest w) ⟨-1, junk, jgs⟩).mx_score
            best_lodic := (leaves.foldl (pickBest w) ⟨-1, junk, jgs⟩).best_lodic
            best_gs := (leaves.foldl (pickBest w) ⟨-1, junk, jgs⟩).best_game_state
            no_moves := false }
        else searchOf w junk jgs gs0 L) with has_to_kill := true } := by
  have hany : (L ++ leaves.map fun lf => ({ capture := true, leaf := lf } : Candidate)).any
      (fun c => c.capture) = true := by
    cases leaves with
    | nil => exact absurd rfl hne
    | cons a t => simp
  have hmap : ∀ t : List Leaf,
      ((t.map fun lf => ({ capture := true, leaf := lf } : Candidate)).filter
        (fun c => c.capture)).map (fun c => c.leaf) = t := by
    intro t
    induction t with
    | nil => rfl
    | cons a t ih =>
      simp only [List.map_cons, List.filter_cons, if_true, List.map_cons, ih]
  have hfil : ((L ++ leaves.map fun lf => ({ capture := true, leaf := lf } : Candidate)).filter
      (fun c => c.capture)).map (fun c => c.leaf) =
      (L.filter (fun c => c.capture)).map (fun c => c.leaf) ++ leaves := by
    rw [List.filter_append, List.map_append, hmap]
  rw [searchOf_capture _ _ _ _ _ hany, hfil, List.foldl_append]
  cases hL : L.any (fun c => c.capture)
  · rw [searchOf_plain _ _ _ _ _ hL, any_capture_false_filter L hL]
    simp only [List.map_nil, List.foldl_nil, or_true, if_true]
  · rw [searchOf_capture _ _ _ _ _ hL]
    simp only [Bool.true_eq_false, or_false]
    have hle := (foldl_pickBest_spec w ((L.filter (fun c => c.capture)).map (fun c => c.leaf))
      ⟨-1, junk, jgs⟩).1
    rw [foldl_pickBest_start w leaves ⟨-1, junk, jgs⟩ _ hle]
    split_ifs <;> rfl


/-- The loop body of `computer_move` in terms of the candidate list. -/
theorem computer_move_cell_sim (w : Bool) (junk : Lodic) (jgs gs0 : GameState)
    (cs : Globals × List Candidate) (cell : Int × Int) (hw : w = !cs.1.player_is_white) :
    computer_move_cell junk jgs (cs.1, searchOf w junk jgs gs0 cs.2) cell =
      (cell_candidates cs cell).map fun cs' => (cs'.1, searchOf w junk jgs gs0 cs'.2) := by
  unfold computer_move_cell cell_candidates
  simp only
  by_cases hpc : cs.1.lodic.rd cell.1 cell.2 ≠ '1' ∧ cs.1.lodic.rd cell.1 cell.2 ≠ '3'
  · rw [if_pos hpc, if_pos hpc]
    rfl
  · rw [if_neg hpc, if_neg hpc]
    by_cases hk : (get_valid_kill cs.1.is_player_turn
        ⟨(reverse_graph_koordinaty cell.2 cell.1).1, (reverse_graph_koordinaty cell.2 cell.1).2,
          cell.2, cell.1, false⟩ Valid_Kill.fresh cs.1.lodic).1 > 0
    · rw [if_pos hk, if_pos hk, get_best_sequent_kills_eq]
      show Option.map _ (Option.map _ (properLeaves chainFuel cs.1 _ cs.1.lodic)) = _
      cases hr : properLeaves chainFuel cs.1
          ⟨(reverse_graph_koordinaty cell.2 cell.1).1, (reverse_graph_koordinaty cell.2 cell.1).2,
            cell.2, cell.1, false⟩ cs.1.lodic with
      | none => rfl
      | some r =>
        simp only [Option.map_some']
        rw [searchOf_append_capture w junk jgs gs0 cs.2 r.2 (properLeaves_ne_nil _ _ _ r hr),
          ← hw]
    · rw [if_neg hk, if_neg hk, searchOf_htk]
      by_cases hany : cs.2.any (fun c => c.capture) = true
      · rw [if_pos hany, if_pos hany]
        rfl
      · rw [if_neg hany, if_neg hany]
        by_cases hm : (get_valid_moves
            ⟨(reverse_graph_koordinaty cell.2 cell.1).1, (reverse_graph_koordinaty cell.2 cell.1).2,
              cell.2, cell.1, false⟩ Valid_Hod.fresh cs.1.lodic).1 = 0
        · rw [if_pos hm, if_pos hm]
          rfl
        · rw [if_neg hm, if_neg hm]
          have h0 : cs.2.any (fun c => c.capture) = false := by simpa using hany
          simp only [Option.map_some', Option.some.injEq]
          obtain ⟨a1, a2, a3⟩ := cond_move_sim w junk jgs gs0 cell.2 cell.1
            (get_valid_moves ⟨(reverse_graph_koordinaty cell.2 cell.1).1,
              (reverse_graph_koordinaty cell.2 cell.1).2, cell.2, cell.1, false⟩
              Valid_Hod.fresh cs.1.lodic).2.lh_y
            (get_valid_moves ⟨(reverse_graph_koordinaty cell.2 cell.1).1,
              (reverse_graph_koordinaty cell.2 cell.1).2, cell.2, cell.1, false⟩
              Valid_Hod.fresh cs.1.lodic).2.lh_x
            (get_valid_moves ⟨(reverse_graph_koordinaty cell.2 cell.1).1,
              (reverse_graph_koordinaty cell.2 cell.1).2, cell.2, cell.1, false⟩
              Valid_Hod.fresh cs.1.lodic).2.l_h cs hw h0
          rw [a1]
          obtain ⟨b1, b2, b3⟩ := cond_move_sim w junk jgs gs0 cell.2 cell.1
            (get_valid_moves ⟨(reverse_graph_koordinaty cell.2 cell.1).1,
              (reverse_graph_koordinaty cell.2 cell.1).2, cell.2, cell.1, false⟩
              Valid_Hod.fresh cs.1.lodic).2.rh_y
            (get_valid_moves ⟨(reverse_graph_koordinaty cell.2 cell.1).1,
              (reverse_graph_koordinaty cell.2 cell.1).2, cell.2, cell.1, false⟩
              Valid_Hod.fresh cs.1.lodic).2.rh_x
            (get_valid_moves ⟨(reverse_graph_koordinaty cell.2 cell.1).1,
              (reverse_graph_koordinaty cell.2 cell.1).2, cell.2, cell.1, false⟩
              Valid_Hod.fresh cs.1.lodic).2.r_h _ a3 a2
          rw [b1]
          obtain ⟨c1, c2, c3⟩ := cond_move_sim w junk jgs gs0 cell.2 cell.1
            (get_valid_moves ⟨(reverse_graph_koordinaty cell.2 cell.1).1,
              (reverse_graph_koordinaty cell.2 cell.1).2, cell.2, cell.1, false⟩
              Valid_Hod.fresh cs.1.lodic).2.ls_y
            (get_valid_moves ⟨(reverse_graph_koordinaty cell.2 cell.1).1,
              (reverse_graph_koordinaty cell.2 cell.1).2, cell.2, cell.1, false⟩
              Valid_Hod.fresh cs.1.lodic).2.ls_x
            (get_valid_moves ⟨(reverse_graph_koordinaty cell.2 cell.1).1,
              (reverse_graph_koordinaty cell.2 cell.1).2, cell.2, cell.1, false⟩
              Valid_Hod.fresh cs.1.lodic).2.l_s _ b3 b2
          rw [c1]
          obtain ⟨d1, _, _⟩ := cond_move_sim w junk jgs gs0 cell.2 cell.1
            (get_valid_moves ⟨(reverse_graph_koordinaty cell.2 cell.1).1,
              (reverse_graph_koordinaty cell.2 cell.1).2, cell.2, cell.1, false⟩
              Valid_Hod.fresh cs.1.lodic).2.rs_y
            (get_valid_moves ⟨(reverse_graph_koordinaty cell.2 cell.1).1,
              (reverse_graph_koordinaty cell.2 cell.1).2, cell.2, cell.1, false⟩
              Valid_Hod.fresh cs.1.lodic).2.rs_x
            (get_valid_moves ⟨(reverse_graph_koordinaty cell.2 cell.1).1,
              (reverse_graph_koordinaty cell.2 cell.1).2, cell.2, cell.1, false⟩
              Valid_Hod.fresh cs.1.lodic).2.r_s _ c3 c2
          rw [d1]


theorem becameQueen_rd_false (G : Globals) (p : Position) (l : Lodic)
    (ht : G.is_player_turn = false) (hb : onBoard p.x_8 p.y_8) (h1 : l.rd p.y_8 p.x_8 = '1') :
    (becameQueen G p l).2.rd p.y_8 p.x_8 = '1' ∨ (becameQueen G p l).2.rd p.y_8 p.x_8 = '3' := by
  unfold becameQueen
  simp only [ht, Bool.false_eq_true, and_false, false_and, if_false]
  split_ifs
  · right; rw [lodic_rd_wr _ _ _ _ _ _ hb]; exact if_pos ⟨rfl, rfl⟩
  · left; exact h1
  · right; rw [lodic_rd_wr _ _ _ _ _ _ hb]; exact if_pos ⟨rfl, rfl⟩
  · left; exact h1

/-- On the computer's turn the landing cell of a step holds a computer piece. -/
theorem bestStep_landing_false (G : Globals) (pos : Position) (lodic : Lodic) (d : Dir)
    (ht : G.is_player_turn = false)
    (h : (get_valid_kill false pos Valid_Kill.fresh lodic).2.flag d = true) :
    (bestStep G pos lodic d).2.2.rd (pos.y_8 + 2 * d.dy) (pos.x_8 + 2 * d.dx) = '1' ∨
      (bestStep G pos lodic d).2.2.rd (pos.y_8 + 2 * d.dy) (pos.x_8 + 2 * d.dx) = '3' := by
  obtain ⟨_, _, _, _, hn, _⟩ := gvk_flag_cells _ _ _ _ _ h
  simp only [bestStep, best_block]
  refine becameQueen_rd_false _
    { pos with
      x_8 := pos.x_8 + 2 * d.dx
      y_8 := pos.y_8 + 2 * d.dy
      x := (reverse_graph_koordinaty (pos.x_8 + 2 * d.dx) (pos.y_8 + 2 * d.dy)).1
      y := (reverse_graph_koordinaty (pos.x_8 + 2 * d.dx) (pos.y_8 + 2 * d.dy)).2 } _ ?_ ?_ ?_
  · exact ht
  · exact hn
  · rw [lodic_rd_wr _ _ _ _ _ _ hn]
    exact if_pos ⟨rfl, rfl⟩

/-- On the computer's turn each step of a chain removes a player piece. -/
theorem bestStep_enemy_lt (G : Globals) (pos : Position) (lodic : Lodic) (d : Dir)
    (ht : G.is_player_turn = false)
    (h : (get_valid_kill false pos Valid_Kill.fresh lodic).2.flag d = true) :
    enemyCount false (bestStep G pos lodic d).2.2 + 1 ≤ enemyCount false lodic := by
  have hc := bestStep_count G false pos lodic d h
  have hl := bestStep_landing_false G pos lodic d ht h
  have hne : ¬ isEnemy false ((bestStep G pos lodic d).2.2.rd (pos.y_8 + 2 * d.dy)
      (pos.x_8 + 2 * d.dx)) := by
    rcases hl with hl | hl <;> rw [hl] <;> decide
  rw [if_neg hne] at hc
  omega

/-- On the computer's turn every terminal node of a chain from a cell with a
capture has fewer player pieces than the start. -/
theorem properLeaves_enemy_lt (fuel : Nat) (G : Globals) (pos : Position) (lodic : Lodic)
    (r : Globals × List Leaf) (ht : G.is_player_turn = false)
    (h : properLeaves fuel G pos lodic = some r)
    (h0 : (get_valid_kill false pos Valid_Kill.fresh lodic).1 ≠ 0) :
    ∀ lf ∈ r.2, enemyCount false lf.lodic + 1 ≤ enemyCount false lodic := by
  intro lf hlf
  have key := properLeaves_forall false
    (fun pos lodic l' => ((get_valid_kill false pos Valid_Kill.fresh lodic).1 ≠ 0 →
      enemyCount false l' + 1 ≤ enemyCount false lodic) ∧
      enemyCount false l' ≤ enemyCount false lodic)
    (fun pos lodic h0 => ⟨fun hn => absurd h0 hn, le_refl _⟩)
    (fun G pos lodic d l' ht hf hP => by
      have := bestStep_enemy_lt G pos lodic d ht hf
      exact ⟨fun _ => by omega, by omega⟩)
    fuel G pos lodic r ht h lf hlf
  exact key.1 h0


theorem move_candidate_spec (G0 : Globals) (x y ny nx : Int) (cs : Globals × List Candidate)
    (h : sameFlags G0 cs.1 ∧ cs.1.game_state = G0.game_state) :
    (sameFlags G0 (move_candidate x y ny nx cs).1 ∧
      (move_candidate x y ny nx cs).1.game_state = G0.game_state) ∧
    ∃ c, (move_candidate x y ny nx cs).2 = cs.2 ++ [c] ∧ c.capture = false := by
  obtain ⟨⟨h1, h2, h3⟩, h4⟩ := h
  simp only [move_candidate]
  refine ⟨⟨⟨?_, ?_, ?_⟩, h4⟩, _, rfl, rfl⟩
  · show (becameQueen _ _ _).1.is_player_turn = _
    rw [(becameQueen_flags _ _ _).1, h1]
  · show (becameQueen _ _ _).1.player_is_white = _
    rw [(becameQueen_flags _ _ _).2.1, h2]
  · show (becameQueen _ _ _).1.lodic = _
    rw [(becameQueen_flags _ _ _).2.2, h3]

theorem cond_move_candidate_spec (G0 : Globals) (x y ny nx : Int) (flag : Bool)
    (cs : Globals × List Candidate) (base : List Candidate)
    (h : (sameFlags G0 cs.1 ∧ cs.1.game_state = G0.game_state) ∧
      ∃ extra, cs.2 = base ++ extra ∧ ∀ c ∈ extra, c.capture = false) :
    (sameFlags G0 (if flag = true then move_candidate x y ny nx cs else cs).1 ∧
      (if flag = true then move_candidate x y ny nx cs else cs).1.game_state = G0.game_state) ∧
    ∃ extra, (if flag = true then move_candidate x y ny nx cs else cs).2 = base ++ extra ∧
      ∀ c ∈ extra, c.capture = false := by
  cases flag with
  | false => simpa using h
  | true =>
    simp only [if_true]
    obtain ⟨h1, extra, h2, h3⟩ := h
    obtain ⟨k1, c, k2, k3⟩ := move_candidate_spec G0 x y ny nx cs h1
    refine ⟨k1, extra ++ [c], by rw [k2, h2, List.append_assoc], ?_⟩
    intro c' hc'
    simp only [List.mem_append, List.mem_singleton] at hc'
    rcases hc' with hc' | rfl
    · exact h3 c' hc'
    · exact k3

/-- What one cell contributes to the candidate list. -/
theorem cell_candidates_spec (G0 : Globals) (cs : Globals × List Candidate) (cell : Int × Int)
    (h : sameFlags G0 cs.1 ∧ cs.1.game_state = G0.game_state) :
    ∃ cs' extra, cell_candidates cs cell = some cs' ∧
      (sameFlags G0 cs'.1 ∧ cs'.1.game_state = G0.game_state) ∧ cs'.2 = cs.2 ++ extra ∧
      (∀ c ∈ extra, c.capture = true →
        (get_valid_kill G0.is_player_turn (posAt cell.2 cell.1) Valid_Kill.fresh G0.lodic).1 ≠ 0 ∧
        ∃ G1 r, G1.is_player_turn = G0.is_player_turn ∧
          properLeaves chainFuel G1 (posAt cell.2 cell.1) G0.lodic = some r ∧ c.leaf ∈ r.2) ∧
      (((G0.lodic.rd cell.1 cell.2 = '1' ∨ G0.lodic.rd cell.1 cell.2 = '3') ∧
          0 < (get_valid_kill G0.is_player_turn (posAt cell.2 cell.1) Valid_Kill.fresh
            G0.lodic).1) →
        extra.any (fun c => c.capture) = true) := by
  obtain ⟨⟨h1, h2, h3⟩, h4⟩ := h
  unfold cell_candidates
  simp only
  rw [h3, h1]
  by_cases hpc : G0.lodic.rd cell.1 cell.2 ≠ '1' ∧ G0.lodic.rd cell.1 cell.2 ≠ '3'
  · rw [if_pos hpc]
    refine ⟨cs, [], rfl, ⟨⟨h1, h2, h3⟩, h4⟩, by simp, by simp, ?_⟩
    rintro ⟨hp, _⟩
    rcases hp with hp | hp
    · exact absurd hp hpc.1
    · exact absurd hp hpc.2
  · rw [if_neg hpc]
    by_cases hk : (get_valid_kill G0.is_player_turn (posAt cell.2 cell.1) Valid_Kill.fresh
        G0.lodic).1 > 0
    · have hk' : (get_valid_kill G0.is_player_turn
          ⟨(reverse_graph_koordinaty cell.2 cell.1).1, (reverse_graph_koordinaty cell.2 cell.1).2,
            cell.2, cell.1, false⟩ Valid_Kill.fresh G0.lodic).1 > 0 := hk
      rw [if_pos hk']
      obtain ⟨r, hr, hne⟩ := properLeaves_chainFuel cs.1 (posAt cell.2 cell.1) G0.lodic
      have hfl := captureLeaves_flags chainFuel _ _ _ _ _ r hr
      refine ⟨(r.1, cs.2 ++ r.2.map fun lf => { capture := true, leaf := lf }),
        r.2.map fun lf => { capture := true, leaf := lf }, ?_, ?_, rfl, ?_, ?_⟩
      · show Option.map _ (properLeaves chainFuel cs.1 (posAt cell.2 cell.1) G0.lodic) = _
        rw [hr]
        rfl
      · obtain ⟨⟨f1, f2, f3⟩, f4⟩ := hfl
        exact ⟨⟨by rw [f1, h1], by rw [f2, h2], by rw [f3, h3]⟩, by rw [f4, h4]⟩
      · intro c hc _
        simp only [List.mem_map] at hc
        obtain ⟨lf, hlf, rfl⟩ := hc
        exact ⟨by omega, cs.1, r, h1, hr, hlf⟩
      · intro _
        cases hr2 : r.2 with
        | nil => exact absurd hr2 hne
        | cons a t => simp
    · have hk' : ¬ (get_valid_kill G0.is_player_turn
          ⟨(reverse_graph_koordinaty cell.2 cell.1).1, (reverse_graph_koordinaty cell.2 cell.1).2,
            cell.2, cell.1, false⟩ Valid_Kill.fresh G0.lodic).1 > 0 := hk
      rw [if_neg hk']
      by_cases hany : cs.2.any (fun c => c.capture) = true
      · rw [if_pos hany]
        refine ⟨cs, [], rfl, ⟨⟨h1, h2, h3⟩, h4⟩, by simp, by simp, ?_⟩
        rintro ⟨_, hc⟩
        exact absurd hc hk
      rw [if_neg hany]
      by_cases hm : (get_valid_moves
          ⟨(reverse_graph_koordinaty cell.2 cell.1).1, (reverse_graph_koordinaty cell.2 cell.1).2,
            cell.2, cell.1, false⟩ Valid_Hod.fresh G0.lodic).1 = 0
      · rw [if_pos hm]
        refine ⟨cs, [], rfl, ⟨⟨h1, h2, h3⟩, h4⟩, by simp, by simp, ?_⟩
        rintro ⟨_, hc⟩
        exact absurd hc hk
      rw [if_neg hm]
      · have s0 : (sameFlags G0 cs.1 ∧ cs.1.game_state = G0.game_state) ∧
            ∃ extra, cs.2 = cs.2 ++ extra ∧ ∀ c ∈ extra, c.capture = false :=
          ⟨⟨⟨h1, h2, h3⟩, h4⟩, [], by simp, by simp⟩
        have s1 := cond_move_candidate_spec G0 cell.2 cell.1
          (get_valid_moves ⟨(reverse_graph_koordinaty cell.2 cell.1).1,
            (reverse_graph_koordinaty cell.2 cell.1).2, cell.2, cell.1, false⟩
            Valid_Hod.fresh G0.lodic).2.lh_y
          (get_valid_moves ⟨(reverse_graph_koordinaty cell.2 cell.1).1,
            (reverse_graph_koordinaty cell.2 cell.1).2, cell.2, cell.1, false⟩
            Valid_Hod.fresh G0.lodic).2.lh_x
          (get_valid_moves ⟨(reverse_graph_koordinaty cell.2 cell.1).1,
            (reverse_graph_koordinaty cell.2 cell.1).2, cell.2, cell.1, false⟩
            Valid_Hod.fresh G0.lodic).2.l_h cs cs.2 s0
        have s2 := cond_move_candidate_spec G0 cell.2 cell.1
          (get_valid_moves ⟨(reverse_graph_koordinaty cell.2 cell.1).1,
            (reverse_graph_koordinaty cell.2 cell.1).2, cell.2, cell.1, false⟩
            Valid_Hod.fresh G0.lodic).2.rh_y
          (get_valid_moves ⟨(reverse_graph_koordinaty cell.2 cell.1).1,
            (reverse_graph_koordinaty cell.2 cell.1).2, cell.2, cell.1, false⟩
            Valid_Hod.fresh G0.lodic).2.rh_x
          (get_valid_moves ⟨(reverse_graph_koordinaty cell.2 cell.1).1,
            (reverse_graph_koordinaty cell.2 cell.1).2, cell.2, cell.1, false⟩
            Valid_Hod.fresh G0.lodic).2.r_h _ cs.2 s1
        have s3 := cond_move_candidate_spec G0 cell.2 cell.1
          (get_valid_moves ⟨(reverse_graph_koordinaty cell.2 cell.1).1,
            (reverse_graph_koordinaty cell.2 cell.1).2, cell.2, cell.1, false⟩
            Valid_Hod.fresh G0.lodic).2.ls_y
          (get_valid_moves ⟨(reverse_graph_koordinaty cell.2 cell.1).1,
            (reverse_graph_koordinaty cell.2 cell.1).2, cell.2, cell.1, false⟩
            Valid_Hod.fresh G0.lodic).2.ls_x
          (get_valid_moves ⟨(reverse_graph_koordinaty cell.2 cell.1).1,
            (reverse_graph_koordinaty cell.2 cell.1).2, cell.2, cell.1, false⟩
            Valid_Hod.fresh G0.lodic).2.l_s _ cs.2 s2
        have s4 := cond_move_candidate_spec G0 cell.2 cell.1
          (get_valid_moves ⟨(reverse_graph_koordinaty cell.2 cell.1).1,
            (reverse_graph_koordinaty cell.2 cell.1).2, cell.2, cell.1, false⟩
            Valid_Hod.fresh G0.lodic).2.rs_y
          (get_valid_moves ⟨(reverse_graph_koordinaty cell.2 cell.1).1,
            (reverse_graph_koordinaty cell.2 cell.1).2, cell.2, cell.1, false⟩
            Valid_Hod.fresh G0.lodic).2.rs_x
          (get_valid_moves ⟨(reverse_graph_koordinaty cell.2 cell.1).1,
            (reverse_graph_koordinaty cell.2 cell.1).2, cell.2, cell.1, false⟩
            Valid_Hod.fresh G0.lodic).2.r_s _ cs.2 s3
        obtain ⟨k1, extra, k2, k3⟩ := s4
        refine ⟨_, extra, rfl, k1, k2, ?_, ?_⟩
        · intro c hc ht
          rw [k3 c hc] at ht
          exact absurd ht Bool.false_ne_true
        · rintro ⟨_, hc⟩
          exact absurd hc hk


/-- What a list of cells contributes to the candidate list. -/
theorem candidates_loop_spec (G0 : Globals) (cells : List (Int × Int)) :
    ∀ cs : Globals × List Candidate,
      (sameFlags G0 cs.1 ∧ cs.1.game_state = G0.game_state) →
      ∃ cs' extra, candidates_loop cells cs = some cs' ∧
        (sameFlags G0 cs'.1 ∧ cs'.1.game_state = G0.game_state) ∧ cs'.2 = cs.2 ++ extra ∧
        (∀ c ∈ extra, c.capture = true → ∃ cell ∈ cells,
          (get_valid_kill G0.is_player_turn (posAt cell.2 cell.1) Valid_Kill.fresh
            G0.lodic).1 ≠ 0 ∧
          ∃ G1 r, G1.is_player_turn = G0.is_player_turn ∧
            properLeaves chainFuel G1 (posAt cell.2 cell.1) G0.lodic = some r ∧ c.leaf ∈ r.2) ∧
        (∀ cell ∈ cells,
          ((G0.lodic.rd cell.1 cell.2 = '1' ∨ G0.lodic.rd cell.1 cell.2 = '3') ∧
            0 < (get_valid_kill G0.is_player_turn (posAt cell.2 cell.1) Valid_Kill.fresh
              G0.lodic).1) →
          extra.any (fun c => c.capture) = true) := by
  induction cells with
  | nil =>
    intro cs h
    exact ⟨cs, [], rfl, h, by simp, by simp, by simp⟩
  | cons cell rest ih =>
    intro cs h
    obtain ⟨cs1, e1, a1, a2, a3, a4, a5⟩ := cell_candidates_spec G0 cs cell h
    obtain ⟨cs2, e2, b1, b2, b3, b4, b5⟩ := ih cs1 a2
    refine ⟨cs2, e1 ++ e2, ?_, b2, by rw [b3, a3, List.append_assoc], ?_, ?_⟩
    · simp only [candidates_loop, a1, Option.some_bind, b1]
    · intro c hc ht
      simp only [List.mem_append] at hc
      rcases hc with hc | hc
      · exact ⟨cell, List.mem_cons_self _ _, a4 c hc ht⟩
      · obtain ⟨cell', hm, hrest⟩ := b4 c hc ht
        exact ⟨cell', List.mem_cons_of_mem _ hm, hrest⟩
    · intro cell' hm hp
      simp only [List.any_append, Bool.or_eq_true]
      simp only [List.mem_cons] at hm
      rcases hm with rfl | hm
      · exact Or.inl (a5 hp)
      · exact Or.inr (b5 cell' hm hp)

/-- The scan loop of `computer_move` in terms of the candidate list. -/
theorem computer_move_loop_sim (w : Bool) (junk : Lodic) (jgs gs0 : GameState)
    (cells : List (Int × Int)) :
    ∀ cs : Globals × List Candidate, w = !cs.1.player_is_white →
      computer_move_loop junk jgs cells (cs.1, searchOf w junk jgs gs0 cs.2) =
        (candidates_loop cells cs).map fun cs' => (cs'.1, searchOf w junk jgs gs0 cs'.2) := by
  induction cells with
  | nil => intro cs _; rfl
  | cons cell rest ih =>
    intro cs hw
    simp only [computer_move_loop, candidates_loop]
    rw [computer_move_cell_sim w junk jgs gs0 cs cell hw]
    obtain ⟨cs1, _, a1, a2, _⟩ := cell_candidates_spec cs.1 cs cell ⟨⟨rfl, rfl, rfl⟩, rfl⟩
    rw [a1]
    simp only [Option.map_some', Option.some_bind]
    exact ih cs1 (by rw [hw, a2.1.2.1])

/-- `computer_move` commits the running best folded over the applicable
candidates. -/
theorem computer_move_eq (junk : Lodic) (jgs : GameState) (G : Globals) :
    computer_move junk jgs G =
      (computer_candidates G).map fun cs =>
        (!(searchOf (!G.player_is_white) junk jgs G.game_state cs.2).no_moves,
          { cs.1 with
            lodic := (searchOf (!G.player_is_white) junk jgs G.game_state cs.2).best_lodic
            game_state := (searchOf (!G.player_is_white) junk jgs G.game_state cs.2).best_gs }) := by
  unfold computer_move computer_candidates
  have h0 : (⟨-1, junk, G.game_state, false, true⟩ : Search) =
      searchOf (!G.player_is_white) junk jgs G.game_state [] := rfl
  rw [h0]
  have := computer_move_loop_sim (!G.player_is_white) junk jgs G.game_state scan_cells (G, []) rfl
  rw [this, Option.map_map]
  rfl

/-- The first maximum: the fold over a non-empty list from the score `-1`
ends on a member of the list that no member beats. -/
theorem foldl_pickBest_mem (w : Bool) (L : List Leaf) (junk : Lodic) (gs : GameState)
    (hne : L ≠ []) :
    ∃ lf ∈ L, (L.foldl (pickBest w) ⟨-1, junk, gs⟩).best_lodic = lf.lodic ∧
      (L.foldl (pickBest w) ⟨-1, junk, gs⟩).best_game_state = lf.game_state ∧
      (L.foldl (pickBest w) ⟨-1, junk, gs⟩).mx_score = lf.score w ∧
      ∀ lf' ∈ L, lf'.score w ≤ lf.score w := by
  obtain ⟨_, h2, h3⟩ := foldl_pickBest_spec w L ⟨-1, junk, gs⟩
  rcases h3 with h3 | ⟨_, lf, hlf, e1, e2, e3⟩
  · exfalso
    cases L with
    | nil => exact hne rfl
    | cons a t =>
      have := h2 a (List.mem_cons_self _ _)
      rw [h3] at this
      have := a.score_nonneg w
      simp only at *
      omega
  · exact ⟨lf, hlf, e2, e3, e1.symm, fun lf' hlf' => by rw [e1]; exact h2 lf' hlf'⟩


theorem mem_scan_cells (x y : Int) (h : onBoard x y) (hp : (x + y) % 2 = 1) :
    (y, x) ∈ scan_cells := by
  obtain ⟨h1, h2, h3, h4⟩ := h
  interval_cases x <;> interval_cases y <;> first | omega | decide

theorem filter_capture_ne_nil (L : List Candidate) (h : L.any (fun c => c.capture) = true) :
    (L.filter (fun c => c.capture)).map (fun c => c.leaf) ≠ [] := by
  intro hnil
  rw [List.map_eq_nil_iff, List.filter_eq_nil_iff] at hnil
  rw [List.any_eq_true] at h
  obtain ⟨c, hc, hcap⟩ := h
  exact hnil c hc hcap

/-- What `computer_move` commits, in terms of the applicable candidates. -/
theorem computer_move_commit (junk : Lodic) (jgs : GameState) (G : Globals) :
    ∃ (Gs : Globals) (cands : List Candidate) (ok : Bool) (G' : Globals),
      computer_candidates G = some (Gs, cands) ∧
      computer_move junk jgs G = some (ok, G') ∧
      (ok = true ↔ applicable cands ≠ []) ∧
      (ok = true → ∃ c ∈ applicable cands,
        G'.lodic = c.leaf.lodic ∧ G'.game_state = c.leaf.game_state ∧
        evaluate_board_pc G'.game_state G'.lodic (!G.player_is_white) =
          c.leaf.score (!G.player_is_white) ∧
        ∀ c' ∈ applicable cands,
          c'.leaf.score (!G.player_is_white) ≤ c.leaf.score (!G.player_is_white)) := by
  obtain ⟨cs, extra, h1, _, h3, _, _⟩ :=
    candidates_loop_spec G scan_cells (G, []) ⟨⟨rfl, rfl, rfl⟩, rfl⟩
  have hcm := computer_move_eq junk jgs G
  unfold computer_candidates at hcm ⊢
  rw [h1] at hcm
  simp only [Option.map_some'] at hcm
  refine ⟨cs.1, cs.2, _, _, h1, hcm, ?_, ?_⟩
  · unfold applicable
    cases hany : cs.2.any (fun c => c.capture)
    · rw [searchOf_plain _ _ _ _ _ hany]
      simp only [Bool.false_eq_true, if_false]
      cases cs.2 <;> simp
    · rw [searchOf_capture _ _ _ _ _ hany]
      simp only [if_true, Bool.not_false, true_iff]
      intro hnil
      exact filter_capture_ne_nil cs.2 hany (by rw [hnil]; rfl)
  · unfold applicable
    cases hany : cs.2.any (fun c => c.capture)
    · rw [searchOf_plain _ _ _ _ _ hany]
      simp only [Bool.false_eq_true, if_false]
      intro hok
      have hne : cs.2.map (fun c => c.leaf) ≠ [] := by
        intro hnil
        rw [List.map_eq_nil_iff] at hnil
        rw [hnil] at hok
        simp at hok
      obtain ⟨lf, hlf, e1, e2, _, e4⟩ :=
        foldl_pickBest_mem (!G.player_is_white) _ junk G.game_state hne
      rw [List.mem_map] at hlf
      obtain ⟨c, hc, rfl⟩ := hlf
      refine ⟨c, hc, e1, e2, ?_, ?_⟩
      · simp only [e1, e2]; rfl
      · intro c' hc'
        exact e4 c'.leaf (List.mem_map_of_mem _ hc')
    · rw [searchOf_capture _ _ _ _ _ hany]
      simp only [if_true]
      intro _
      obtain ⟨lf, hlf, e1, e2, _, e4⟩ :=
        foldl_pickBest_mem (!G.player_is_white) _ junk jgs (filter_capture_ne_nil cs.2 hany)
      rw [List.mem_map] at hlf
      obtain ⟨c, hc, rfl⟩ := hlf
      refine ⟨c, hc, e1, e2, ?_, ?_⟩
      · simp only [e1, e2]; rfl
      · intro c' hc'
        exact e4 c'.leaf (List.mem_map_of_mem _ hc')


/-- With a capture available to a scanned computer piece, `computer_move`
commits a capture candidate, which has fewer player pieces. -/
theorem computer_move_capture (junk : Lodic) (jgs : GameState) (G : Globals) (cell : Int × Int)
    (hturn : G.is_player_turn = false) (hcell : cell ∈ scan_cells)
    (hpiece : G.lodic.rd cell.1 cell.2 = '1' ∨ G.lodic.rd cell.1 cell.2 = '3')
    (hcap : 0 < (get_valid_kill false (posAt cell.2 cell.1) Valid_Kill.fresh G.lodic).1) :
    ∃ (Gs : Globals) (cands : List Candidate) (G' : Globals),
      computer_candidates G = some (Gs, cands) ∧
      computer_move junk jgs G = some (true, G') ∧
      (∃ c ∈ cands, c.capture = true ∧ G'.lodic = c.leaf.lodic ∧
        G'.game_state = c.leaf.game_state) ∧
      enemyCount false G'.lodic < enemyCount false G.lodic := by
  obtain ⟨cs, extra, h1, _, h3, h4, h5⟩ :=
    candidates_loop_spec G scan_cells (G, []) ⟨⟨rfl, rfl, rfl⟩, rfl⟩
  have hex : cs.2 = extra := by rw [h3]; rfl
  have hany : cs.2.any (fun c => c.capture) = true := by
    rw [hex]
    exact h5 cell hcell ⟨hpiece, by rw [hturn]; exact hcap⟩
  have hcm := computer_move_eq junk jgs G
  unfold computer_candidates at hcm ⊢
  rw [h1] at hcm
  simp only [Option.map_some'] at hcm
  rw [searchOf_capture _ _ _ _ _ hany] at hcm
  obtain ⟨lf, hlf, e1, e2, _, _⟩ :=
    foldl_pickBest_mem (!G.player_is_white) _ junk jgs (filter_capture_ne_nil cs.2 hany)
  rw [List.mem_map] at hlf
  obtain ⟨c, hc, rfl⟩ := hlf
  rw [List.mem_filter] at hc
  obtain ⟨hc1, hc2⟩ := hc
  obtain ⟨cell', _, hne, G1, r, ht1, hr, hmem⟩ := h4 c (by rw [← hex]; exact hc1) hc2
  rw [hturn] at hne ht1
  have hlt := properLeaves_enemy_lt chainFuel G1 _ G.lodic r ht1 hr hne c.leaf hmem
  rw [e1, e2] at hcm
  simp only [Bool.not_false] at hcm
  refine ⟨cs.1, cs.2, { cs.1 with lodic := c.leaf.lodic, game_state := c.leaf.game_state },
    h1, hcm, ⟨c, hc1, hc2, rfl, rfl⟩, ?_⟩
  show enemyCount false c.leaf.lodic < enemyCount false G.lodic
  omega

/-! ## Evaluator and promotion claims -/

theorem evaluate_board_pc_terms (gs : GameState) (lodic : Lodic) (w : Bool) :
    evaluate_board_pc gs lodic w = men_term gs w + king_term gs w + bonus_term lodic := by
  unfold evaluate_board_pc men_term king_term bonus_term
  simp only []
  omega

theorem men_term_nonneg (gs : GameState) (w : Bool) : 0 ≤ men_term gs w := by
  unfold men_term
  simp only []
  split_ifs <;> omega

theorem king_term_nonneg (gs : GameState) (w : Bool) : 0 ≤ king_term gs w := by
  unfold king_term
  simp only []
  split_ifs <;> omega

theorem men_term_mono (gs : GameState) (w : Bool) (own own' : Int) (h : own ≤ own') :
    men_term (withMen w own gs) w ≤ men_term (withMen w own' gs) w := by
  unfold men_term withMen
  cases w <;> simp only [if_true, Bool.false_eq_true, if_false] <;> split_ifs <;> omega

theorem king_term_withMen (gs : GameState) (w : Bool) (n : Int) :
    king_term (withMen w n gs) w = king_term gs w := by
  unfold king_term withMen
  cases w <;> rfl

/-- The exact-integer evaluator is non-decreasing in the own man count. -/
theorem evaluate_board_pc_exact_mono (gs : GameState) (lodic : Lodic) (is_white : Bool)
    (own own' : Int) (h : own ≤ own') :
    evaluate_board_pc (withMen is_white own gs) lodic is_white ≤
      evaluate_board_pc (withMen is_white own' gs) lodic is_white := by
  rw [evaluate_board_pc_terms, evaluate_board_pc_terms, king_term_withMen, king_term_withMen]
  have := men_term_mono gs is_white own own' h
  omega

theorem bonus_term_nonneg (lodic : Lodic) : 0 ≤ bonus_term lodic := by
  unfold bonus_term
  split_ifs <;> omega

theorem applicable_ne_nil (cands : List Candidate) (h : cands ≠ []) : applicable cands ≠ [] := by
  unfold applicable
  cases hany : cands.any (fun c => c.capture)
  · simpa using h
  · simp only [if_true]
    intro hnil
    exact filter_capture_ne_nil cands hany (by rw [hnil]; rfl)

theorem applicable_subset (cands : List Candidate) : ∀ c ∈ applicable cands, c ∈ cands := by
  intro c hc
  unfold applicable at hc
  split_ifs at hc
  · exact List.mem_of_mem_filter hc
  · exact hc

/-- The first plain-move block met with the initial running best `-1`
replaces it. -/
theorem move_block_first (x y ny nx : Int) (st : Globals × Search) (h : st.2.mx_score = -1) :
    (move_block x y ny nx st).2.no_moves = false ∧
    0 ≤ (move_block x y ny nx st).2.mx_score ∧
    (move_block x y ny nx st).2.mx_score =
      evaluate_board_pc (move_block x y ny nx st).2.best_gs
        (move_block x y ny nx st).2.best_lodic (!st.1.player_is_white) := by
  unfold move_block
  simp only []
  have hpos : ∀ s : Int, 0 ≤ s → s > st.2.mx_score := fun s hs => by rw [h]; omega
  rw [if_pos (hpos _ (evaluate_board_pc_nonneg _ _ _))]
  exact ⟨rfl, evaluate_board_pc_nonneg _ _ _, rfl⟩

theorem board_rd_wr_self (b : Board) (y x : Int) (c : Char) (h : inDisplay x y) :
    (b.wr y x c).rd y x = c := by
  unfold inDisplay at h
  rw [Grid.rd_wr, if_pos]
  refine ⟨⟨rfl, rfl⟩, ⟨h.2.2.1, ?_⟩, ⟨h.1, ?_⟩⟩
  · push_cast; omega
  · push_cast; omega

/-- Off the far rank of the side to move `becameQueen` changes nothing. -/
theorem becameQueen_not_far (G : Globals) (pos : Position) (lodic : Lodic)
    (h : pos.y_8 ≠ farRank G.is_player_turn) : becameQueen G pos lodic = (G, lodic) := by
  unfold farRank at h
  unfold becameQueen
  cases ht : G.is_player_turn <;> rw [ht] at h <;>
    simp only [Bool.false_eq_true, if_false, if_true] at h <;>
    simp [h]

/-- With the display cell already showing the king of the side to move
`becameQueen` changes nothing. -/
theorem becameQueen_shown (G : Globals) (pos : Position) (lodic : Lodic)
    (h : G.board.rd pos.y pos.x = kingShown (moverWhite G)) :
    becameQueen G pos lodic = (G, lodic) := by
  unfold kingShown moverWhite at h
  unfold becameQueen
  cases ht : G.is_player_turn <;> cases hw : G.player_is_white <;> rw [ht, hw] at h <;>
    simp at h <;> simp [h]

/-- On the far rank of the side to move, with the display cell not showing
its king, `becameQueen` promotes whatever the logical cell holds. -/
theorem becameQueen_promote (G : Globals) (pos : Position) (lodic : Lodic)
    (hf : pos.y_8 = farRank G.is_player_turn)
    (h : G.board.rd pos.y pos.x ≠ kingShown (moverWhite G)) :
    becameQueen G pos lodic =
      ({ G with
          board := G.board.wr pos.y pos.x (kingShown (moverWhite G))
          game_state := promoteCounts (moverWhite G) G.game_state },
        lodic.wr pos.y_8 pos.x_8 (moverKing G.is_player_turn)) := by
  unfold kingShown moverWhite at h
  unfold farRank at hf
  unfold becameQueen kingShown moverWhite promoteCounts moverKing
  cases ht : G.is_player_turn <;> cases hw : G.player_is_white <;> rw [ht, hw] at h <;>
    rw [ht] at hf <;> simp at h hf <;> simp [h, hf]

/-- C16. Promotion is idempotent: for every state (logical board, display
grid, counts, turn and colour flags) and every position whose display
coordinates address a cell of the display grid, applying `becameQueen` twice
to the same position yields exactly the same logical board, display grid and
counts (the same globals and the same board argument) as applying it once. -/
theorem becameQueen_idempotent (G : Globals) (pos : Position) (lodic : Lodic)
    (h : inDisplay pos.x pos.y) :
    becameQueen (becameQueen G pos lodic).1 pos (becameQueen G pos lodic).2 =
      becameQueen G pos lodic := by
  by_cases hf : pos.y_8 = farRank G.is_player_turn
  · by_cases hs : G.board.rd pos.y pos.x = kingShown (moverWhite G)
    · rw [becameQueen_shown G pos lodic hs, becameQueen_shown G pos lodic hs]
    · rw [becameQueen_promote G pos lodic hf hs]
      exact becameQueen_shown _ pos _ (board_rd_wr_self _ _ _ _ h)
  · rw [becameQueen_not_far G pos lodic hf, becameQueen_not_far G pos lodic hf]

/-- Witness of C16 on `stateFar`: the first application promotes the man on C1
(counts `1/1/0/0` become `1/0/0/1`), the second changes nothing. -/
theorem becameQueen_idempotent_witness :
    inDisplay (posAt 2 7).x (posAt 2 7).y ∧
    (becameQueen stateFar (posAt 2 7) lodicFar).1.game_state = ⟨1, 0, 0, 1⟩ ∧
    (becameQueen stateFar (posAt 2 7) lodicFar).2.rd 7 2 = '3' ∧
    becameQueen (becameQueen stateFar (posAt 2 7) lodicFar).1 (posAt 2 7)
        (becameQueen stateFar (posAt 2 7) lodicFar).2 =
      becameQueen stateFar (posAt 2 7) lodicFar :=
  ⟨by decide, by decide, by decide,
    becameQueen_idempotent stateFar (posAt 2 7) lodicFar (by decide)⟩

/-- C17. Promotion postcondition of `becameQueen`.  If the position is on the
far rank of the side to move (row 0 on the player's turn, row 7 on the
computer's), its logical cell holds that side's man and its display cell does
not yet show that side's king marker, then afterwards the logical cell holds
that side's king (`'4'` for the player, `'3'` for the computer), the mover's
colour has its king count incremented and its man count decremented, the two
counts of the other colour are unchanged and every other logical cell is
unchanged.  If the position is not on the mover's far rank, the logical
board, the display grid and all four counts are unchanged. -/
theorem becameQueen_post (G : Globals) (pos : Position) (lodic : Lodic) :
    (pos.y_8 = farRank G.is_player_turn →
      lodic.rd pos.y_8 pos.x_8 = moverMan G.is_player_turn →
      G.board.rd pos.y pos.x ≠ kingShown (moverWhite G) →
      (becameQueen G pos lodic).2.rd pos.y_8 pos.x_8 = moverKing G.is_player_turn ∧
      kingsOf (moverWhite G) (becameQueen G pos lodic).1.game_state =
        kingsOf (moverWhite G) G.game_state + 1 ∧
      menOf (moverWhite G) (becameQueen G pos lodic).1.game_state =
        menOf (moverWhite G) G.game_state - 1 ∧
      kingsOf (!moverWhite G) (becameQueen G pos lodic).1.game_state =
        kingsOf (!moverWhite G) G.game_state ∧
      menOf (!moverWhite G) (becameQueen G pos lodic).1.game_state =
        menOf (!moverWhite G) G.game_state ∧
      ∀ x y : Int, ¬ (y = pos.y_8 ∧ x = pos.x_8) →
        (becameQueen G pos lodic).2.rd y x = lodic.rd y x) ∧
    (pos.y_8 ≠ farRank G.is_player_turn → becameQueen G pos lodic = (G, lodic)) := by
  refine ⟨fun hf hm hs => ?_, becameQueen_not_far G pos lodic⟩
  have hb : onBoard pos.x_8 pos.y_8 := by
    apply rd_isPiece_onBoard lodic
    rw [hm]
    unfold moverMan isPiece
    cases G.is_player_turn <;> simp
  rw [becameQueen_promote G pos lodic hf hs]
  refine ⟨?_, ?_, ?_, ?_, ?_, ?_⟩
  · show (lodic.wr pos.y_8 pos.x_8 _).rd pos.y_8 pos.x_8 = _
    rw [lodic_rd_wr _ _ _ _ _ _ hb]
    exact if_pos ⟨rfl, rfl⟩
  · unfold kingsOf promoteCounts
    cases moverWhite G <;> simp
  · unfold menOf promoteCounts
    cases moverWhite G <;> simp
  · unfold kingsOf promoteCounts
    cases moverWhite G <;> simp
  · unfold menOf promoteCounts
    cases moverWhite G <;> simp
  · intro x y hne
    show (lodic.wr pos.y_8 pos.x_8 _).rd y x = _
    rw [lodic_rd_wr _ _ _ _ _ _ hb]
    exact if_neg hne

/-- Witness of C17 on `stateFar`: the computer (black) man on C1, row 7, is
promoted. -/
theorem becameQueen_post_witness :
    (posAt 2 7).y_8 = farRank stateFar.is_player_turn ∧
    lodicFar.rd (posAt 2 7).y_8 (posAt 2 7).x_8 = moverMan stateFar.is_player_turn ∧
    stateFar.board.rd (posAt 2 7).y (posAt 2 7).x ≠ kingShown (moverWhite stateFar) ∧
    (becameQueen stateFar (posAt 2 7) lodicFar).2.rd 7 2 = '3' ∧
    (becameQueen stateFar (posAt 2 7) lodicFar).1.game_state = ⟨1, 0, 0, 1⟩ ∧
    ((becameQueen stateFar (posAt 2 7) lodicFar).2.rd (posAt 2 7).y_8 (posAt 2 7).x_8 =
        moverKing stateFar.is_player_turn ∧
      kingsOf (moverWhite stateFar) (becameQueen stateFar (posAt 2 7) lodicFar).1.game_state =
        kingsOf (moverWhite stateFar) stateFar.game_state + 1 ∧
      menOf (moverWhite stateFar) (becameQueen stateFar (posAt 2 7) lodicFar).1.game_state =
        menOf (moverWhite stateFar) stateFar.game_state - 1 ∧
      kingsOf (!moverWhite stateFar) (becameQueen stateFar (posAt 2 7) lodicFar).1.game_state =
        kingsOf (!moverWhite stateFar) stateFar.game_state ∧
      menOf (!moverWhite stateFar) (becameQueen stateFar (posAt 2 7) lodicFar).1.game_state =
        menOf (!moverWhite stateFar) stateFar.game_state ∧
      ∀ x y : Int, ¬ (y = (posAt 2 7).y_8 ∧ x = (posAt 2 7).x_8) →
        (becameQueen stateFar (posAt 2 7) lodicFar).2.rd y x = lodicFar.rd y x) :=
  ⟨by decide, by decide, by decide, by decide, by decide,
    (becameQueen_post stateFar (posAt 2 7) lodicFar).1 (by decide) (by decide) (by decide)⟩

/-- C19 at a concrete state: on `stateCrown` the player's king steps from C7
to B8 on row 0 (`Hod`); the display cell of B8 still shows `'*'`, and
`becameQueen` on B8, whose logical cell holds the king `'4'`, changes the
counts from `1/1/1/0` to `0/1/2/0` while the logical board is unchanged: it
still holds one player man and one player king. -/
theorem becameQueen_king_recounted :
    displayAgrees stateCrown ∧
    (get_valid_moves (posAt 2 1) Valid_Hod.fresh stateCrown.lodic).2.l_h = true ∧
    (Hod stateCrown (posAt 2 1) 1 0).1.lodic.rd 0 1 = '4' ∧
    (Hod stateCrown (posAt 2 1) 1 0).1.board.rd (posAt 1 0).y (posAt 1 0).x = '*' ∧
    (Hod stateCrown (posAt 2 1) 1 0).1.game_state = ⟨1, 1, 1, 0⟩ ∧
    (becameQueen (Hod stateCrown (posAt 2 1) 1 0).1 (posAt 1 0)
      (Hod stateCrown (posAt 2 1) 1 0).1.lodic).1.game_state = ⟨0, 1, 2, 0⟩ ∧
    (becameQueen (Hod stateCrown (posAt 2 1) 1 0).1 (posAt 1 0)
      (Hod stateCrown (posAt 2 1) 1 0).1.lodic).2 = (Hod stateCrown (posAt 2 1) 1 0).1.lodic ∧
    (player_commit_move stateCrown (posAt 2 1) 1 0).game_state = ⟨0, 1, 2, 0⟩ ∧
    countCells (fun c => c = '2') (player_commit_move stateCrown (posAt 2 1) 1 0).lodic = 1 ∧
    countCells (fun c => c = '4') (player_commit_move stateCrown (posAt 2 1) 1 0).lodic = 1 :=
  ⟨by decide, by decide, by decide, by decide, by decide, by decide, by decide, by decide,
    by decide, by decide⟩

/-! ## Census and promotion of the committed move at concrete states -/

/-- C15 at concrete states.  On `stateKing` (per-rank census true, display
drawn from the board) the computer's only piece is the king on C5;
`computer_move` commits its step to B6 with the marker `'1'` at the landing
and the counts unchanged, so the board then holds one `'1'` and no `'3'`
against a man count 0 and a king count 1 of the computer's colour.  On
`stateCrown` the player's king steps from C7 to B8 and `becameQueen` counts
it a second time; the per-rank census fails after both commits. -/
theorem computer_move_king_census :
    displayAgrees stateKing ∧ rankCensus stateKing ∧
    stateKing.is_player_turn = false ∧
    (computer_move junkLodic junkCounts stateKing).map
      (fun r => (r.1, r.2.game_state, r.2.lodic.rd 3 2, r.2.lodic.rd 2 1,
        countCells (fun c => c = '1') r.2.lodic, countCells (fun c => c = '3') r.2.lodic)) =
      some (true, ⟨1, 0, 0, 1⟩, '0', '1', 1, 0) ∧
    displayAgrees stateCrown ∧ rankCensus stateCrown ∧
    ¬ rankCensus (player_commit_move stateCrown (posAt 2 1) 1 0) :=
  ⟨by decide, by decide, by decide, by decide, by decide, by decide, by decide⟩

set_option maxHeartbeats 4000000 in
/-- What `computer_move` commits on `stateLast`. -/
theorem computer_move_stateLast :
    (computer_move junkLodic junkCounts stateLast).map
      (fun r => (r.1, r.2.lodic.rd 6 1, r.2.lodic.rd 6 3, r.2.lodic.rd 7 2, r.2.game_state)) =
      some (true, '1', '0', '1', ⟨0, 2, 1, 0⟩) := by
  decide

/-- C18 at a concrete state.  On `stateLast` (computer to move, display drawn
from the board) the men on B2 and D2 can both step to C1 on row 7.  The
candidate B2-C1 is examined first and marks the display cell of C1; when the
candidate D2-C1 is examined its man is not promoted, it scores 20 against 10
for the promoted candidates and is committed: the committed board holds the
man `'1'` on C1 and the committed counts are the counts before the call. -/
theorem computer_move_man_unpromoted :
    displayAgrees stateLast ∧ stateLast.is_player_turn = false ∧
    stateLast.game_state = ⟨0, 2, 1, 0⟩ ∧
    lodicLast.rd 6 3 = '1' ∧ lodicLast.rd 7 2 = '0' ∧
    (computer_move junkLodic junkCounts stateLast).map
      (fun r => (r.1, r.2.lodic.rd 6 1, r.2.lodic.rd 6 3, r.2.lodic.rd 7 2, r.2.game_state)) =
      some (true, '1', '0', '1', ⟨0, 2, 1, 0⟩) :=
  ⟨by decide, by decide, by decide, by decide, by decide, computer_move_stateLast⟩

/-- C20 at a concrete state.  On `statePass` (player to move) the man on B6
captures C7 and lands on D8, row 0, from where `get_valid_kill` reports the
capture of E7; the single outcome `calculate_kill_moves` records ends on F6
with the moving piece still the man `'2'` and the player's colour counts
unchanged (1 man, 0 kings), and the commit in `player_move` leaves it so. -/
theorem calculate_kill_moves_no_promotion :
    statePass.is_player_turn = true ∧ statePass.game_state = ⟨1, 2, 0, 0⟩ ∧
    lodicPass.rd 2 1 = '2' ∧
    (get_valid_kill true (posAt 1 2) Valid_Kill.fresh lodicPass).2.kill_r_h = true ∧
    (killStep statePass (posAt 1 2) lodicPass .r_h).2.1.y_8 = 0 ∧
    (get_valid_kill true (killStep statePass (posAt 1 2) lodicPass .r_h).2.1 Valid_Kill.fresh
      (killStep statePass (posAt 1 2) lodicPass .r_h).2.2).1 = 1 ∧
    (calculate_kill_moves chainFuel statePass (posAt 1 2) lodicPass []).map
      (fun r => r.2.map fun o => (o.x_8, o.y_8, o.lodic.rd 2 5, o.game_state)) =
      some [(5, 2, '2', ⟨1, 0, 0, 0⟩)] ∧
    (calculate_kill_moves chainFuel statePass (posAt 1 2) lodicPass []).map
      (fun r => r.2.map fun o =>
        ((player_commit_kill r.1 (posAt 1 2) o).lodic.rd 2 5,
          (player_commit_kill r.1 (posAt 1 2) o).game_state)) =
      some [('2', ⟨1, 0, 0, 0⟩)] :=
  ⟨by decide, by decide, by decide, by decide, by decide, by decide, by decide, by decide⟩

/-! ## Move generator lemmas -/

theorem gvm_count (pos : Position) (m : Valid_Hod) (l : Lodic) :
    (get_valid_moves pos m l).1 = (get_valid_moves pos m l).2.flags := by
  unfold get_valid_moves Valid_Hod.flags
  simp only []
  split_ifs <;> simp_all

/-- The cells behind a flag of `get_valid_moves`. -/
theorem gvm_flag_cells (pos : Position) (m : Valid_Hod) (l : Lodic) (d : Dir)
    (h : (get_valid_moves pos m l).2.flag d = true) :
    onBoard pos.x_8 pos.y_8 ∧ isPiece (l.rd pos.y_8 pos.x_8) ∧
      onBoard (pos.x_8 + d.dx) (pos.y_8 + d.dy) ∧
      l.rd (pos.y_8 + d.dy) (pos.x_8 + d.dx) = '0' ∧
      (get_valid_moves pos m l).2.dest_x d = pos.x_8 + d.dx ∧
      (get_valid_moves pos m l).2.dest_y d = pos.y_8 + d.dy := by
  by_cases hp : isPiece (l.rd pos.y_8 pos.x_8)
  · have hb := rd_isPiece_onBoard l pos.x_8 pos.y_8 hp
    refine ⟨hb, hp, ?_⟩
    unfold onBoard at hb ⊢
    unfold isPiece at hp
    cases d <;>
      simp only [get_valid_moves, hp, if_true, Valid_Hod.flag, Valid_Hod.dest_x,
        Valid_Hod.dest_y, Dir.dx, Dir.dy, dir_simp, decide_eq_true_eq] at h ⊢ <;>
      rw [if_pos h, if_pos h] <;>
      obtain ⟨⟨⟨h1, h2⟩, h3⟩, _⟩ := h <;>
      exact ⟨⟨by omega, by omega, by omega, by omega⟩, h3, by omega, by omega⟩
  · exfalso
    have e : get_valid_moves pos m l =
        (0, { m with l_h := false, r_h := false, l_s := false, r_s := false }) := by
      unfold get_valid_moves
      exact if_neg hp
    rw [e] at h
    cases d <;> simp [Valid_Hod.flag] at h

theorem hod_flags_ne_zero (m : Valid_Hod) (h : m.flags ≠ 0) : ∃ d, m.flag d = true := by
  unfold Valid_Hod.flags at h
  by_contra hn
  push_neg at hn
  have h1 := hn .l_h
  have h2 := hn .r_h
  have h3 := hn .l_s
  have h4 := hn .r_s
  simp only [Valid_Hod.flag, Bool.not_eq_true] at h1 h2 h3 h4
  simp [h1, h2, h3, h4] at h

/-! ## Candidates of the scan, cell by cell -/

theorem move_candidate_eq (x y ny nx : Int) (st : Globals × List Candidate) :
    move_candidate x y ny nx st =
      ({ (becameQueen st.1 (posAt nx ny) ((st.1.lodic.wr y x '0').wr ny nx '1')).1 with
          game_state := st.1.game_state },
        st.2 ++ [⟨false, moveLeaf st.1 x y ny nx⟩]) := rfl

/-- One conditional plain-move block: the invariant of the globals, a
property `Q` of the candidates added so far and the condition `P` under which
none has been added. -/
theorem cond_move_candidate_gen (G0 : Globals) (Q : Candidate → Prop) (P : Prop)
    (x y ny nx : Int) (flag : Bool) (cs : Globals × List Candidate) (base : List Candidate)
    (hQ : flag = true → ∀ G1 : Globals, sameFlags G0 G1 → G1.game_state = G0.game_state →
      Q ⟨false, moveLeaf G1 x y ny nx⟩)
    (h : (sameFlags G0 cs.1 ∧ cs.1.game_state = G0.game_state) ∧
      ∃ extra, cs.2 = base ++ extra ∧ (∀ c ∈ extra, Q c) ∧ (extra = [] ↔ P)) :
    (sameFlags G0 (if flag = true then move_candidate x y ny nx cs else cs).1 ∧
      (if flag = true then move_candidate x y ny nx cs else cs).1.game_state =
        G0.game_state) ∧
    ∃ extra, (if flag = true then move_candidate x y ny nx cs else cs).2 = base ++ extra ∧
      (∀ c ∈ extra, Q c) ∧ (extra = [] ↔ (P ∧ flag = false)) := by
  cases flag with
  | false =>
    obtain ⟨h1, extra, h2, h3, h4⟩ := h
    exact ⟨h1, extra, h2, h3, by simpa using h4⟩
  | true =>
    simp only [if_true]
    obtain ⟨h1, extra, h2, h3, _⟩ := h
    obtain ⟨k1, _⟩ := move_candidate_spec G0 x y ny nx cs h1
    refine ⟨k1, extra ++ [⟨false, moveLeaf cs.1 x y ny nx⟩], ?_, ?_, by simp⟩
    · rw [move_candidate_eq, h2, List.append_assoc]
    · intro c hc
      simp only [List.mem_append, List.mem_singleton] at hc
      rcases hc with hc | rfl
      · exact h3 c hc
      · exact hQ rfl cs.1 h1.1 h1.2

theorem cell_candidates_eq (st : Globals × List Candidate) (cell : Int × Int) :
    cell_candidates st cell =
      if st.1.lodic.rd cell.1 cell.2 ≠ '1' ∧ st.1.lodic.rd cell.1 cell.2 ≠ '3' then some st
      else if (get_valid_kill st.1.is_player_turn (posAt cell.2 cell.1) Valid_Kill.fresh
          st.1.lodic).1 > 0 then
        (properLeaves chainFuel st.1 (posAt cell.2 cell.1) st.1.lodic).map fun r =>
          (r.1, st.2 ++ r.2.map fun lf => { capture := true, leaf := lf })
      else if st.2.any (fun c => c.capture) then some st
      else if (get_valid_moves (posAt cell.2 cell.1) Valid_Hod.fresh st.1.lodic).1 = 0 then
        some st
      else
        some (plain_candidates cell.2 cell.1
          (get_valid_moves (posAt cell.2 cell.1) Valid_Hod.fresh st.1.lodic).2 st) := rfl

/-- The four plain-move blocks of one piece. -/
theorem plain_candidates_gen (G0 : Globals) (Q : Candidate → Prop) (x y : Int)
    (vhs : Valid_Hod) (cs : Globals × List Candidate)
    (hQ : ∀ d, vhs.flag d = true → ∀ G1 : Globals, sameFlags G0 G1 →
      G1.game_state = G0.game_state →
      Q ⟨false, moveLeaf G1 x y (vhs.dest_y d) (vhs.dest_x d)⟩)
    (h : sameFlags G0 cs.1 ∧ cs.1.game_state = G0.game_state) :
    (sameFlags G0 (plain_candidates x y vhs cs).1 ∧
      (plain_candidates x y vhs cs).1.game_state = G0.game_state) ∧
    ∃ extra, (plain_candidates x y vhs cs).2 = cs.2 ++ extra ∧
      (∀ c ∈ extra, Q c) ∧ (extra = [] ↔ vhs.flags = 0) := by
  have s0 : (sameFlags G0 cs.1 ∧ cs.1.game_state = G0.game_state) ∧
      ∃ extra, cs.2 = cs.2 ++ extra ∧ (∀ c ∈ extra, Q c) ∧ (extra = [] ↔ True) :=
    ⟨h, [], by simp, by simp, by simp⟩
  have s1 := cond_move_candidate_gen G0 Q True x y vhs.lh_y vhs.lh_x vhs.l_h cs cs.2
    (hQ .l_h) s0
  have s2 := cond_move_candidate_gen G0 Q _ x y vhs.rh_y vhs.rh_x vhs.r_h _ cs.2
    (hQ .r_h) s1
  have s3 := cond_move_candidate_gen G0 Q _ x y vhs.ls_y vhs.ls_x vhs.l_s _ cs.2
    (hQ .l_s) s2
  have s4 := cond_move_candidate_gen G0 Q _ x y vhs.rs_y vhs.rs_x vhs.r_s _ cs.2
    (hQ .r_s) s3
  obtain ⟨k1, extra, k2, k3, k4⟩ := s4
  refine ⟨k1, extra, k2, k3, ?_⟩
  rw [k4]
  unfold Valid_Hod.flags
  cases vhs.l_h <;> cases vhs.r_h <;> cases vhs.l_s <;> cases vhs.r_s <;> simp

/-- What one cell of the scan contributes to the candidate list: every
candidate added satisfies `Q`, provided `Q` holds of the terminal nodes of the
capture walk from the cell and of its plain-move outcomes; and the condition
under which nothing is added. -/
theorem cell_candidates_gen (G0 : Globals) (Q : Candidate → Prop)
    (cs : Globals × List Candidate) (cell : Int × Int)
    (hcap : (G0.lodic.rd cell.1 cell.2 = '1' ∨ G0.lodic.rd cell.1 cell.2 = '3') →
      ∀ (G1 : Globals) (r : Globals × List Leaf), sameFlags G0 G1 →
      G1.game_state = G0.game_state →
      properLeaves chainFuel G1 (posAt cell.2 cell.1) G0.lodic = some r →
      ∀ lf ∈ r.2, Q ⟨true, lf⟩)
    (hmove : (G0.lodic.rd cell.1 cell.2 = '1' ∨ G0.lodic.rd cell.1 cell.2 = '3') →
      ∀ d, (get_valid_moves (posAt cell.2 cell.1) Valid_Hod.fresh G0.lodic).2.flag d = true →
      ∀ G1 : Globals, sameFlags G0 G1 → G1.game_state = G0.game_state →
      Q ⟨false, moveLeaf G1 cell.2 cell.1
        ((get_valid_moves (posAt cell.2 cell.1) Valid_Hod.fresh G0.lodic).2.dest_y d)
        ((get_valid_moves (posAt cell.2 cell.1) Valid_Hod.fresh G0.lodic).2.dest_x d)⟩)
    (h : sameFlags G0 cs.1 ∧ cs.1.game_state = G0.game_state) :
    ∃ cs' extra, cell_candidates cs cell = some cs' ∧
      (sameFlags G0 cs'.1 ∧ cs'.1.game_state = G0.game_state) ∧ cs'.2 = cs.2 ++ extra ∧
      (∀ c ∈ extra, Q c) ∧
      (cs.2 = [] → (extra = [] ↔ ¬ hasAction G0 cell)) := by
  obtain ⟨⟨h1, h2, h3⟩, h4⟩ := h
  rw [cell_candidates_eq, h3, h1]
  unfold hasAction
  by_cases hpc : G0.lodic.rd cell.1 cell.2 ≠ '1' ∧ G0.lodic.rd cell.1 cell.2 ≠ '3'
  · rw [if_pos hpc]
    refine ⟨cs, [], rfl, ⟨⟨h1, h2, h3⟩, h4⟩, by simp, by simp, ?_⟩
    intro _
    simp only [true_iff]
    rintro ⟨hp, _⟩
    rcases hp with hp | hp
    · exact hpc.1 hp
    · exact hpc.2 hp
  · rw [if_neg hpc]
    have hp : G0.lodic.rd cell.1 cell.2 = '1' ∨ G0.lodic.rd cell.1 cell.2 = '3' := by
      by_contra hn
      push_neg at hn
      exact hpc hn
    by_cases hk : (get_valid_kill G0.is_player_turn (posAt cell.2 cell.1) Valid_Kill.fresh
        G0.lodic).1 > 0
    · rw [if_pos hk]
      obtain ⟨r, hr, hne⟩ := properLeaves_chainFuel cs.1 (posAt cell.2 cell.1) G0.lodic
      have hfl := captureLeaves_flags chainFuel _ _ _ _ _ r hr
      refine ⟨(r.1, cs.2 ++ r.2.map fun lf => { capture := true, leaf := lf }),
        r.2.map fun lf => { capture := true, leaf := lf }, ?_, ?_, rfl, ?_, ?_⟩
      · rw [hr]
        rfl
      · obtain ⟨⟨f1, f2, f3⟩, f4⟩ := hfl
        exact ⟨⟨by rw [f1, h1], by rw [f2, h2], by rw [f3, h3]⟩, by rw [f4, h4]⟩
      · intro c hc
        simp only [List.mem_map] at hc
        obtain ⟨lf, hlf, rfl⟩ := hc
        exact hcap hp cs.1 r ⟨h1, h2, h3⟩ h4 hr lf hlf
      · intro _
        constructor
        · intro he
          rw [List.map_eq_nil_iff] at he
          exact absurd he hne
        · intro hn
          exact absurd ⟨hp, Or.inl (by omega)⟩ hn
    · rw [if_neg hk]
      have hk0 : (get_valid_kill G0.is_player_turn (posAt cell.2 cell.1) Valid_Kill.fresh
          G0.lodic).1 = 0 := by
        have := gvk_count_nonneg G0.is_player_turn (posAt cell.2 cell.1) Valid_Kill.fresh
          G0.lodic
        omega
      by_cases hany : cs.2.any (fun c => c.capture) = true
      · rw [if_pos hany]
        refine ⟨cs, [], rfl, ⟨⟨h1, h2, h3⟩, h4⟩, by simp, by simp, ?_⟩
        intro hnil
        rw [hnil] at hany
        simp at hany
      rw [if_neg hany]
      by_cases hm : (get_valid_moves (posAt cell.2 cell.1) Valid_Hod.fresh G0.lodic).1 = 0
      · rw [if_pos hm]
        refine ⟨cs, [], rfl, ⟨⟨h1, h2, h3⟩, h4⟩, by simp, by simp, ?_⟩
        intro _
        simp only [true_iff]
        rintro ⟨_, hc | hc⟩
        · exact hc hk0
        · exact hc hm
      rw [if_neg hm]
      obtain ⟨k1, extra, k2, k3, k4⟩ := plain_candidates_gen G0 Q cell.2 cell.1
        (get_valid_moves (posAt cell.2 cell.1) Valid_Hod.fresh G0.lodic).2 cs (hmove hp)
        ⟨⟨h1, h2, h3⟩, h4⟩
      refine ⟨_, extra, rfl, k1, k2, k3, ?_⟩
      intro _
      rw [k4, ← gvm_count]
      constructor
      · intro he
        exact absurd he hm
      · intro hn
        exact absurd ⟨hp, Or.inr hm⟩ hn

/-- What a list of cells contributes to the candidate list. -/
theorem candidates_loop_gen (G0 : Globals) (Q : Candidate → Prop) (cells : List (Int × Int))
    (hcap : ∀ cell ∈ cells,
      (G0.lodic.rd cell.1 cell.2 = '1' ∨ G0.lodic.rd cell.1 cell.2 = '3') →
      ∀ (G1 : Globals) (r : Globals × List Leaf), sameFlags G0 G1 →
      G1.game_state = G0.game_state →
      properLeaves chainFuel G1 (posAt cell.2 cell.1) G0.lodic = some r →
      ∀ lf ∈ r.2, Q ⟨true, lf⟩)
    (hmove : ∀ cell ∈ cells,
      (G0.lodic.rd cell.1 cell.2 = '1' ∨ G0.lodic.rd cell.1 cell.2 = '3') →
      ∀ d, (get_valid_moves (posAt cell.2 cell.1) Valid_Hod.fresh G0.lodic).2.flag d = true →
      ∀ G1 : Globals, sameFlags G0 G1 → G1.game_state = G0.game_state →
      Q ⟨false, moveLeaf G1 cell.2 cell.1
        ((get_valid_moves (posAt cell.2 cell.1) Valid_Hod.fresh G0.lodic).2.dest_y d)
        ((get_valid_moves (posAt cell.2 cell.1) Valid_Hod.fresh G0.lodic).2.dest_x d)⟩) :
    ∀ cs : Globals × List Candidate,
      (sameFlags G0 cs.1 ∧ cs.1.game_state = G0.game_state) →
      ∃ cs' extra, candidates_loop cells cs = some cs' ∧
        (sameFlags G0 cs'.1 ∧ cs'.1.game_state = G0.game_state) ∧ cs'.2 = cs.2 ++ extra ∧
        (∀ c ∈ extra, Q c) ∧
        (cs.2 = [] → (extra = [] ↔ ∀ cell ∈ cells, ¬ hasAction G0 cell)) := by
  induction cells with
  | nil =>
    intro cs h
    exact ⟨cs, [], rfl, h, by simp, by simp, by simp⟩
  | cons cell rest ih =>
    intro cs h
    obtain ⟨cs1, e1, a1, a2, a3, a4, a5⟩ := cell_candidates_gen G0 Q cs cell
      (hcap cell (List.mem_cons_self _ _)) (hmove cell (List.mem_cons_self _ _)) h
    obtain ⟨cs2, e2, b1, b2, b3, b4, b5⟩ := ih
      (fun c hc => hcap c (List.mem_cons_of_mem _ hc))
      (fun c hc => hmove c (List.mem_cons_of_mem _ hc)) cs1 a2
    refine ⟨cs2, e1 ++ e2, ?_, b2, by rw [b3, a3, List.append_assoc], ?_, ?_⟩
    · simp only [candidates_loop, a1, Option.some_bind, b1]
    · intro c hc
      rcases List.mem_append.mp hc with hc | hc
      · exact a4 c hc
      · exact b4 c hc
    · intro hnil
      have a5' := a5 hnil
      rw [List.append_eq_nil, List.forall_mem_cons, a5']
      by_cases hact : hasAction G0 cell
      · simp [hact]
      · have hcs1 : cs1.2 = [] := by rw [a3, hnil, a5'.mpr hact]; rfl
        simp only [hact, not_false_eq_true, true_and]
        exact b5 hcs1

theorem scan_cells_mem (cell : Int × Int) (h : cell ∈ scan_cells) :
    onBoard cell.2 cell.1 ∧ (cell.2 + cell.1) % 2 = 1 := by
  revert cell
  decide

/-- The scan generates no candidate exactly when no computer piece on a
scanned cell has an action. -/
theorem computer_candidates_nil (G : Globals) :
    ∃ cs, computer_candidates G = some cs ∧
      (cs.2 = [] ↔ ∀ cell ∈ scan_cells, ¬ hasAction G cell) := by
  obtain ⟨cs, extra, h1, _, h3, _, h5⟩ :=
    candidates_loop_gen G (fun _ => True) scan_cells
      (fun _ _ _ _ _ _ _ _ _ _ => trivial) (fun _ _ _ _ _ _ _ _ => trivial)
      (G, []) ⟨⟨rfl, rfl, rfl⟩, rfl⟩
  refine ⟨cs, h1, ?_⟩
  rw [h3]
  exact h5 rfl

/-- When `computer_move` finds no candidate it reports failure and leaves the
counts as they were; otherwise it reports success. -/
theorem computer_move_ok (junk : Lodic) (jgs : GameState) (G : Globals) :
    ∃ (cs : Globals × List Candidate) (ok : Bool) (G' : Globals),
      computer_candidates G = some cs ∧ computer_move junk jgs G = some (ok, G') ∧
      (ok = false ↔ cs.2 = []) ∧ (ok = false → G'.game_state = G.game_state) := by
  obtain ⟨cs, h1, _⟩ := computer_candidates_nil G
  have hcm := computer_move_eq junk jgs G
  rw [h1] at hcm
  simp only [Option.map_some'] at hcm
  refine ⟨cs, _, _, h1, hcm, ?_, ?_⟩
  · cases hany : cs.2.any (fun c => c.capture)
    · rw [searchOf_plain _ _ _ _ _ hany]
      cases cs.2 <;> simp
    · rw [searchOf_capture _ _ _ _ _ hany]
      simp only [Bool.not_false, Bool.true_eq_false, false_iff]
      intro hnil
      rw [hnil] at hany
      simp at hany
  · cases hany : cs.2.any (fun c => c.capture)
    · rw [searchOf_plain _ _ _ _ _ hany]
      intro hok
      have hnil : cs.2 = [] := by
        cases hc : cs.2 with
        | nil => rfl
        | cons a t => rw [hc] at hok; simp at hok
      simp only [hnil, List.map_nil, List.foldl_nil]
    · rw [searchOf_capture _ _ _ _ _ hany]
      intro hok
      simp at hok

/-- `computer_move` returns false if and only if no computer piece on a cell
the scan visits (column + row odd) has a capture or a plain move; when it
returns false the counts are those before the call. -/
theorem computer_move_no_move_scan (junk : Lodic) (junk_gs : GameState) (G : Globals) :
    ∃ (ok : Bool) (G' : Globals), computer_move junk junk_gs G = some (ok, G') ∧
      (ok = false ↔ ∀ x y : Int, onBoard x y → (x + y) % 2 = 1 →
        (G.lodic.rd y x = '1' ∨ G.lodic.rd y x = '3') →
        (get_valid_kill G.is_player_turn (posAt x y) Valid_Kill.fresh G.lodic).1 = 0 ∧
        (get_valid_moves (posAt x y) Valid_Hod.fresh G.lodic).1 = 0) ∧
      (ok = false → G'.game_state = G.game_state) := by
  obtain ⟨cs, ok, G', h1, h2, h3, h4⟩ := computer_move_ok junk junk_gs G
  obtain ⟨cs', k1, k2⟩ := computer_candidates_nil G
  rw [h1] at k1
  cases k1
  refine ⟨ok, G', h2, ?_, h4⟩
  rw [h3, k2]
  constructor
  · intro h x y hb hp hpc
    have := h (y, x) (mem_scan_cells x y hb hp)
    unfold hasAction at this
    by_contra hn
    apply this
    refine ⟨hpc, ?_⟩
    by_contra hn2
    push_neg at hn2
    exact hn hn2
  · intro h cell hc hact
    obtain ⟨hb, hp⟩ := scan_cells_mem cell hc
    obtain ⟨hpc, hact⟩ := hact
    obtain ⟨e1, e2⟩ := h cell.2 cell.1 hb hp hpc
    rcases hact with hact | hact
    · exact hact e1
    · exact hact e2

/-! ## Per-side census lemmas -/

theorem not_computerPiece_zero : ¬ computerPiece '0' := by decide

theorem not_playerPiece_zero : ¬ playerPiece '0' := by decide

theorem computerPiece_not_player (c : Char) (h : computerPiece c) : ¬ playerPiece c := by
  unfold computerPiece at h
  unfold playerPiece
  rcases h with h | h <;> rw [h] <;> decide

theorem playerPiece_not_computer (c : Char) (h : playerPiece c) : ¬ computerPiece c :=
  fun hc => computerPiece_not_player c hc h

theorem computerPiece_isPiece (c : Char) (h : computerPiece c) : isPiece c := by
  unfold isPiece
  rcases h with h | h
  · exact Or.inl h
  · exact Or.inr (Or.inr (Or.inl h))

theorem playerPiece_isPiece (c : Char) (h : playerPiece c) : isPiece c := by
  unfold isPiece
  rcases h with h | h
  · exact Or.inr (Or.inl h)
  · exact Or.inr (Or.inr (Or.inr h))

/-- `becameQueen` leaves the total of each colour unchanged. -/
theorem becameQueen_total (G : Globals) (pos : Position) (lodic : Lodic) (c : Bool) :
    menOf c (becameQueen G pos lodic).1.game_state +
        kingsOf c (becameQueen G pos lodic).1.game_state =
      menOf c G.game_state + kingsOf c G.game_state := by
  unfold becameQueen menOf kingsOf
  split_ifs <;> simp only [] <;> omega

/-- After `becameQueen` the cell holds what it held or the king of the side
to move. -/
theorem becameQueen_rd_self (G : Globals) (pos : Position) (lodic : Lodic)
    (hb : onBoard pos.x_8 pos.y_8) :
    (becameQueen G pos lodic).2.rd pos.y_8 pos.x_8 = lodic.rd pos.y_8 pos.x_8 ∨
      (becameQueen G pos lodic).2.rd pos.y_8 pos.x_8 = moverKing G.is_player_turn := by
  by_cases hf : pos.y_8 = farRank G.is_player_turn
  · by_cases hs : G.board.rd pos.y pos.x = kingShown (moverWhite G)
    · rw [becameQueen_shown G pos lodic hs]
      exact Or.inl rfl
    · rw [becameQueen_promote G pos lodic hf hs]
      right
      show (lodic.wr pos.y_8 pos.x_8 _).rd pos.y_8 pos.x_8 = _
      rw [lodic_rd_wr _ _ _ _ _ _ hb]
      exact if_pos ⟨rfl, rfl⟩
  · rw [becameQueen_not_far G pos lodic hf]
    exact Or.inl rfl

theorem moverPiece_moverKing (t : Bool) : moverPiece t (moverKing t) := by
  cases t <;> decide

/-- `becameQueen` on a cell holding a piece of the side to move keeps the
number of pieces of each side on the board, and the cell still holds a piece
of the side to move. -/
theorem becameQueen_side (G : Globals) (pos : Position) (lodic : Lodic)
    (hm : moverPiece G.is_player_turn (lodic.rd pos.y_8 pos.x_8)) :
    countCells computerPiece (becameQueen G pos lodic).2 = countCells computerPiece lodic ∧
    countCells playerPiece (becameQueen G pos lodic).2 = countCells playerPiece lodic ∧
    moverPiece G.is_player_turn ((becameQueen G pos lodic).2.rd pos.y_8 pos.x_8) := by
  have hp : isPiece (lodic.rd pos.y_8 pos.x_8) := by
    unfold moverPiece at hm
    split_ifs at hm
    · exact playerPiece_isPiece _ hm
    · exact computerPiece_isPiece _ hm
  have hb := rd_isPiece_onBoard lodic pos.x_8 pos.y_8 hp
  have hm' : moverPiece G.is_player_turn ((becameQueen G pos lodic).2.rd pos.y_8 pos.x_8) := by
    rcases becameQueen_rd_self G pos lodic hb with h | h
    · rw [h]; exact hm
    · rw [h]; exact moverPiece_moverKing _
  have c1 := becameQueen_count computerPiece G pos lodic hb
  have c2 := becameQueen_count playerPiece G pos lodic hb
  refine ⟨?_, ?_, hm'⟩
  · unfold moverPiece at hm hm'
    cases ht : G.is_player_turn <;> rw [ht] at hm hm' <;>
      simp only [Bool.false_eq_true, if_false, if_true] at hm hm'
    · rw [if_pos hm, if_pos hm'] at c1
      omega
    · rw [if_neg (playerPiece_not_computer _ hm), if_neg (playerPiece_not_computer _ hm')] at c1
      omega
  · unfold moverPiece at hm hm'
    cases ht : G.is_player_turn <;> rw [ht] at hm hm' <;>
      simp only [Bool.false_eq_true, if_false, if_true] at hm hm'
    · rw [if_neg (computerPiece_not_player _ hm), if_neg (computerPiece_not_player _ hm')] at c2
      omega
    · rw [if_pos hm, if_pos hm'] at c2
      omega

/-- `becameQueen` on a cell holding a piece of the side to move preserves the
per-side census. -/
theorem becameQueen_sideCensus (G : Globals) (pos : Position) (lodic : Lodic)
    (hm : moverPiece G.is_player_turn (lodic.rd pos.y_8 pos.x_8))
    (h : sideCensusAt G.player_is_white G.game_state lodic) :
    sideCensusAt G.player_is_white (becameQueen G pos lodic).1.game_state
        (becameQueen G pos lodic).2 ∧
      moverPiece G.is_player_turn ((becameQueen G pos lodic).2.rd pos.y_8 pos.x_8) := by
  obtain ⟨a1, a2, a3⟩ := becameQueen_side G pos lodic hm
  refine ⟨?_, a3⟩
  unfold sideCensusAt at h ⊢
  rw [a1, a2, becameQueen_total, becameQueen_total]
  exact h

/-- Counting the cells of a marker class across one step of the computer's
chain: the captured cell and the origin leave, the landing enters. -/
theorem bestStep_countCells (p : Char → Prop) [DecidablePred p] (hp0 : ¬ p '0')
    (G : Globals) (t : Bool) (pos : Position) (lodic : Lodic) (d : Dir)
    (h : (get_valid_kill t pos Valid_Kill.fresh lodic).2.flag d = true) :
    countCells p (bestStep G pos lodic d).2.2 +
        (if p (lodic.rd (pos.y_8 + d.dy) (pos.x_8 + d.dx)) then 1 else 0) +
        (if p (lodic.rd pos.y_8 pos.x_8) then 1 else 0) =
      countCells p lodic +
        (if p ((bestStep G pos lodic d).2.2.rd (pos.y_8 + 2 * d.dy)
          (pos.x_8 + 2 * d.dx)) then 1 else 0) := by
  obtain ⟨ho, _, hk, _, hn, hn0⟩ := gvk_flag_cells _ _ _ _ _ h
  have hdx := d.dx_cases
  have hdy := d.dy_cases
  have n1 : ¬ (pos.y_8 = pos.y_8 + d.dy ∧ pos.x_8 = pos.x_8 + d.dx) := by omega
  have n2 : ¬ (pos.y_8 + 2 * d.dy = pos.y_8 ∧ pos.x_8 + 2 * d.dx = pos.x_8) := by omega
  have n3 : ¬ (pos.y_8 + 2 * d.dy = pos.y_8 + d.dy ∧ pos.x_8 + 2 * d.dx = pos.x_8 + d.dx) := by
    omega
  simp only [bestStep, best_block]
  have c1 := countCells_wr p lodic _ _ '0' hk
  have c2 := countCells_wr p (lodic.wr (pos.y_8 + d.dy) (pos.x_8 + d.dx) '0')
    _ _ '0' ho
  have c3 := countCells_wr p
    ((lodic.wr (pos.y_8 + d.dy) (pos.x_8 + d.dx) '0').wr pos.y_8 pos.x_8 '0')
    _ _ '1' hn
  have c4 := becameQueen_count p
    { G with game_state :=
        if lodic.rd (pos.y_8 + d.dy) (pos.x_8 + d.dx) = '2' then
          (if G.player_is_white then
            { G.game_state with count_white := G.game_state.count_white - 1 }
          else { G.game_state with count_black := G.game_state.count_black - 1 })
        else if lodic.rd (pos.y_8 + d.dy) (pos.x_8 + d.dx) = '4' then
          (if G.player_is_white then
            { G.game_state with count_white_king := G.game_state.count_white_king - 1 }
          else { G.game_state with count_black_king := G.game_state.count_black_king - 1 })
        else G.game_state }
    { pos with
      x_8 := pos.x_8 + 2 * d.dx
      y_8 := pos.y_8 + 2 * d.dy
      x := (reverse_graph_koordinaty (pos.x_8 + 2 * d.dx) (pos.y_8 + 2 * d.dy)).1
      y := (reverse_graph_koordinaty (pos.x_8 + 2 * d.dx) (pos.y_8 + 2 * d.dy)).2 }
    (((lodic.wr (pos.y_8 + d.dy) (pos.x_8 + d.dx) '0').wr pos.y_8 pos.x_8 '0').wr
      (pos.y_8 + 2 * d.dy) (pos.x_8 + 2 * d.dx) '1') hn
  rw [if_neg hp0] at c1
  rw [lodic_rd_wr _ _ _ _ _ _ hk, if_neg n1, if_neg hp0] at c2
  rw [lodic_rd_wr _ _ _ _ _ _ ho, if_neg n2, lodic_rd_wr _ _ _ _ _ _ hk, if_neg n3, hn0,
    if_neg hp0] at c3
  simp only [lodic_rd_wr _ _ _ _ _ _ hn, and_self, if_true] at c4
  omega

/-- The counts in which a step of the computer's chain recurses: the total of
the player's colour is one less, the total of the computer's colour is
unchanged. -/
theorem bestStep_totals (G : Globals) (pos : Position) (lodic : Lodic) (d : Dir)
    (hk : playerPiece (lodic.rd (pos.y_8 + d.dy) (pos.x_8 + d.dx))) :
    menOf G.player_is_white (bestStep G pos lodic d).1.game_state +
        kingsOf G.player_is_white (bestStep G pos lodic d).1.game_state =
      menOf G.player_is_white G.game_state + kingsOf G.player_is_white G.game_state - 1 ∧
    menOf (!G.player_is_white) (bestStep G pos lodic d).1.game_state +
        kingsOf (!G.player_is_white) (bestStep G pos lodic d).1.game_state =
      menOf (!G.player_is_white) G.game_state + kingsOf (!G.player_is_white) G.game_state := by
  simp only [bestStep, best_block]
  rw [becameQueen_total, becameQueen_total]
  unfold playerPiece at hk
  unfold menOf kingsOf
  rcases hk with hk | hk <;> rw [hk] <;> cases G.player_is_white <;> simp <;> omega

/-- One step of the computer's chain preserves the per-side census and leaves
a computer piece on the landing cell. -/
theorem bestStep_sideCensus (G : Globals) (pos : Position) (lodic : Lodic) (d : Dir)
    (ht : G.is_player_turn = false)
    (hf : (get_valid_kill false pos Valid_Kill.fresh lodic).2.flag d = true)
    (h : sideCensusAt G.player_is_white G.game_state lodic ∧
      computerPiece (lodic.rd pos.y_8 pos.x_8)) :
    sideCensusAt G.player_is_white (bestStep G pos lodic d).1.game_state
        (bestStep G pos lodic d).2.2 ∧
      computerPiece ((bestStep G pos lodic d).2.2.rd (bestStep G pos lodic d).2.1.y_8
        (bestStep G pos lodic d).2.1.x_8) := by
  obtain ⟨hc, ho⟩ := h
  obtain ⟨_, _, _, hek, _, _⟩ := gvk_flag_cells _ _ _ _ _ hf
  have hkp : playerPiece (lodic.rd (pos.y_8 + d.dy) (pos.x_8 + d.dx)) := hek
  have hl := bestStep_landing_false G pos lodic d ht hf
  have hl' : computerPiece ((bestStep G pos lodic d).2.2.rd (pos.y_8 + 2 * d.dy)
      (pos.x_8 + 2 * d.dx)) := hl
  have c1 := bestStep_countCells computerPiece not_computerPiece_zero G false pos lodic d hf
  have c2 := bestStep_countCells playerPiece not_playerPiece_zero G false pos lodic d hf
  rw [if_neg (playerPiece_not_computer _ hkp), if_pos ho, if_pos hl'] at c1
  rw [if_pos hkp, if_neg (computerPiece_not_player _ ho),
    if_neg (computerPiece_not_player _ hl')] at c2
  obtain ⟨t1, t2⟩ := bestStep_totals G pos lodic d hkp
  obtain ⟨p1, p2, _⟩ := bestStep_pos G pos lodic d
  refine ⟨?_, by rw [p1, p2]; exact hl'⟩
  unfold sideCensusAt at hc ⊢
  rw [t1, t2]
  omega

/-- Forward induction over a proper walk: a property of counts, cell and
board that holds at the start and is preserved by every step holds, with some
end cell, of every terminal node. -/
theorem properLeaves_invariant (t w : Bool) (P : GameState → Position → Lodic → Prop)
    (step : ∀ (G : Globals) (pos : Position) (lodic : Lodic) (d : Dir),
      G.is_player_turn = t → G.player_is_white = w →
      (get_valid_kill t pos Valid_Kill.fresh lodic).2.flag d = true →
      P G.game_state pos lodic →
      P (bestStep G pos lodic d).1.game_state (bestStep G pos lodic d).2.1
        (bestStep G pos lodic d).2.2)
    (fuel : Nat) :
    ∀ (G : Globals) (pos : Position) (lodic : Lodic) (r : Globals × List Leaf),
      G.is_player_turn = t → G.player_is_white = w → P G.game_state pos lodic →
      properLeaves fuel G pos lodic = some r →
      ∀ lf ∈ r.2, ∃ pos', P lf.game_state pos' lf.lodic := by
  induction fuel with
  | zero => intro G pos lodic r _ _ _ h; simp [properLeaves, captureLeaves] at h
  | succ fuel ih =>
    intro G pos lodic r ht hw hP h
    unfold properLeaves at h
    rw [captureLeaves_succ] at h
    by_cases h0 : (get_valid_kill G.is_player_turn pos Valid_Kill.fresh lodic).1 = 0
    · rw [if_pos h0] at h
      simp only [Option.some.injEq] at h
      subst h
      intro lf hlf
      simp only [List.mem_singleton] at hlf
      subst hlf
      exact ⟨pos, hP⟩
    · rw [if_neg h0] at h
      have inv : ∀ (d : Dir) (x y : Globals × List Leaf),
          ((x.1.is_player_turn = t ∧ x.1.player_is_white = w ∧
              x.1.game_state = G.game_state) ∧
            ∀ lf ∈ x.2, ∃ pos', P lf.game_state pos' lf.lodic) →
          leaf_branch (captureLeaves fuel)
            ((get_valid_kill G.is_player_turn pos Valid_Kill.fresh lodic).2.flag d)
            (pos.y_8 + d.dy) (pos.x_8 + d.dx)
            ((get_valid_kill G.is_player_turn pos Valid_Kill.fresh lodic).2.land_y d)
            ((get_valid_kill G.is_player_turn pos Valid_Kill.fresh lodic).2.land_x d)
            pos lodic G.game_state x = some y →
          ((y.1.is_player_turn = t ∧ y.1.player_is_white = w ∧
              y.1.game_state = G.game_state) ∧
            ∀ lf ∈ y.2, ∃ pos', P lf.game_state pos' lf.lodic) := by
        intro d x y hx hb
        rw [leaf_branch_properLeaves fuel G pos lodic d _ x (by rw [hx.1.1, ht])] at hb
        by_cases hf : (get_valid_kill G.is_player_turn pos Valid_Kill.fresh lodic).2.flag d = true
        · rw [if_pos hf] at hb
          simp only [Option.map_eq_some'] at hb
          obtain ⟨r', hr', rfl⟩ := hb
          obtain ⟨_, _, pt, pw, _⟩ := bestStep_pos x.1 pos lodic d
          have hst : (bestStep x.1 pos lodic d).1.is_player_turn = t := by rw [pt, hx.1.1]
          have hsw : (bestStep x.1 pos lodic d).1.player_is_white = w := by rw [pw, hx.1.2.1]
          have hfl := captureLeaves_flags fuel _ _ _ _ _ r' hr'
          refine ⟨⟨?_, ?_, rfl⟩, ?_⟩
          · show r'.1.is_player_turn = t
            rw [hfl.1.1, hst]
          · show r'.1.player_is_white = w
            rw [hfl.1.2.1, hsw]
          · intro lf hlf
            simp only [List.mem_append] at hlf
            rcases hlf with hlf | hlf
            · exact hx.2 lf hlf
            · have hP' : P x.1.game_state pos lodic := by rw [hx.1.2.2]; exact hP
              exact ih _ _ _ r' hst hsw
                (step x.1 pos lodic d hx.1.1 hx.1.2.1 (by rw [← ht]; exact hf) hP') hr' lf hlf
        · rw [if_neg hf] at hb
          simp only [Option.some.injEq] at hb
          subst hb
          exact hx
      exact (bind4_inv (fun x : Globals × List Leaf =>
          (x.1.is_player_turn = t ∧ x.1.player_is_white = w ∧
              x.1.game_state = G.game_state) ∧
            ∀ lf ∈ x.2, ∃ pos', P lf.game_state pos' lf.lodic)
        _ _ _ _ (G, []) r h (inv .l_h) (inv .r_h) (inv .l_s) (inv .r_s)
        ⟨⟨ht, hw, rfl⟩, by intro lf hlf; simp at hlf⟩).2

/-- Every terminal node of a capture walk of the computer satisfies the
per-side census when the start does. -/
theorem properLeaves_sideCensus (G : Globals) (pos : Position) (lodic : Lodic)
    (r : Globals × List Leaf) (ht : G.is_player_turn = false)
    (hc : sideCensusAt G.player_is_white G.game_state lodic)
    (hp : computerPiece (lodic.rd pos.y_8 pos.x_8))
    (h : properLeaves chainFuel G pos lodic = some r) :
    ∀ lf ∈ r.2, sideCensusAt G.player_is_white lf.game_state lf.lodic := by
  intro lf hlf
  obtain ⟨_, hP, _⟩ := properLeaves_invariant false G.player_is_white
    (fun gs pos lodic => sideCensusAt G.player_is_white gs lodic ∧
      computerPiece (lodic.rd pos.y_8 pos.x_8))
    (fun G' pos lodic d ht' hw' hf hP => by
      have := bestStep_sideCensus G' pos lodic d ht' hf (by rw [hw']; exact hP)
      rw [hw'] at this
      exact this)
    chainFuel G pos lodic r ht rfl ⟨hc, hp⟩ h lf hlf
  exact hP

/-- The outcome of a plain move of a computer piece satisfies the per-side
census when the state before does. -/
theorem moveLeaf_sideCensus (G : Globals) (x y : Int) (d : Dir)
    (ht : G.is_player_turn = false) (hp : computerPiece (G.lodic.rd y x))
    (hf : (get_valid_moves (posAt x y) Valid_Hod.fresh G.lodic).2.flag d = true)
    (h : sideCensusAt G.player_is_white G.game_state G.lodic) :
    sideCensusAt G.player_is_white
      (moveLeaf G x y ((get_valid_moves (posAt x y) Valid_Hod.fresh G.lodic).2.dest_y d)
        ((get_valid_moves (posAt x y) Valid_Hod.fresh G.lodic).2.dest_x d)).game_state
      (moveLeaf G x y ((get_valid_moves (posAt x y) Valid_Hod.fresh G.lodic).2.dest_y d)
        ((get_valid_moves (posAt x y) Valid_Hod.fresh G.lodic).2.dest_x d)).lodic := by
  obtain ⟨ho, _, hn, hn0, ex, ey⟩ := gvm_flag_cells _ _ _ _ hf
  rw [ex, ey]
  have ho' : onBoard x y := ho
  have hn' : onBoard (x + d.dx) (y + d.dy) := hn
  have hn0' : G.lodic.rd (y + d.dy) (x + d.dx) = '0' := hn0
  show sideCensusAt G.player_is_white
    (becameQueen G (posAt (x + d.dx) (y + d.dy))
      ((G.lodic.wr y x '0').wr (y + d.dy) (x + d.dx) '1')).1.game_state
    (becameQueen G (posAt (x + d.dx) (y + d.dy))
      ((G.lodic.wr y x '0').wr (y + d.dy) (x + d.dx) '1')).2
  have hdx := d.dx_cases
  have hdy := d.dy_cases
  have n1 : ¬ (y + d.dy = y ∧ x + d.dx = x) := by omega
  have e1 : ((G.lodic.wr y x '0').wr (y + d.dy) (x + d.dx) '1').rd (y + d.dy) (x + d.dx) = '1' := by
    rw [lodic_rd_wr _ _ _ _ _ _ hn']
    exact if_pos ⟨rfl, rfl⟩
  refine (becameQueen_sideCensus G (posAt (x + d.dx) (y + d.dy)) _ ?_ ?_).1
  · rw [ht]
    show computerPiece (((G.lodic.wr y x '0').wr (y + d.dy) (x + d.dx) '1').rd (y + d.dy)
      (x + d.dx))
    rw [e1]
    decide
  · have c1 := countCells_wr computerPiece G.lodic y x '0' ho'
    have c2 := countCells_wr computerPiece (G.lodic.wr y x '0') (y + d.dy) (x + d.dx) '1' hn'
    have c3 := countCells_wr playerPiece G.lodic y x '0' ho'
    have c4 := countCells_wr playerPiece (G.lodic.wr y x '0') (y + d.dy) (x + d.dx) '1' hn'
    have q1 : computerPiece '1' := by decide
    have q2 : ¬ playerPiece '1' := by decide
    rw [if_pos hp, if_neg not_computerPiece_zero] at c1
    rw [lodic_rd_wr _ _ _ _ _ _ ho', if_neg n1, hn0', if_neg not_computerPiece_zero,
      if_pos q1] at c2
    rw [if_neg (computerPiece_not_player _ hp), if_neg not_playerPiece_zero] at c3
    rw [lodic_rd_wr _ _ _ _ _ _ ho', if_neg n1, hn0', if_neg not_playerPiece_zero,
      if_neg q2] at c4
    unfold sideCensusAt at h ⊢
    omega

/-- A successful `computer_move` on the computer's turn preserves the per-side
census. -/
theorem computer_move_sideCensus (junk : Lodic) (jgs : GameState) (G : Globals)
    (ht : G.is_player_turn = false) (h : sideCensus G) :
    ∃ (ok : Bool) (G' : Globals), computer_move junk jgs G = some (ok, G') ∧
      (ok = true → sideCensus G') := by
  obtain ⟨cs, extra, h1, h2, h3, h4, _⟩ :=
    candidates_loop_gen G
      (fun c => sideCensusAt G.player_is_white c.leaf.game_state c.leaf.lodic) scan_cells
      (fun cell _ hp G1 r hs hg hr lf hlf => by
        have := properLeaves_sideCensus G1 (posAt cell.2 cell.1) G.lodic r (by rw [hs.1, ht])
          (by rw [hs.2.1, hg]; exact h) hp hr lf hlf
        rw [hs.2.1] at this
        exact this)
      (fun cell _ hp d hf G1 hs hg => by
        have := moveLeaf_sideCensus G1 cell.2 cell.1 d (by rw [hs.1, ht])
          (by rw [hs.2.2]; exact hp) (by rw [hs.2.2]; exact hf)
          (by rw [hs.2.1, hs.2.2, hg]; exact h)
        rw [hs.2.1, hs.2.2] at this
        exact this)
      (G, []) ⟨⟨rfl, rfl, rfl⟩, rfl⟩
  obtain ⟨Gs, cands, ok, G', c1, c2, _, c4⟩ := computer_move_commit junk jgs G
  have hcm := computer_move_eq junk jgs G
  unfold computer_candidates at c1 hcm
  rw [h1] at c1 hcm
  simp only [Option.map_some'] at hcm
  rw [c2] at hcm
  simp only [Option.some.injEq, Prod.mk.injEq] at c1 hcm
  refine ⟨ok, G', c2, fun hok => ?_⟩
  obtain ⟨c, hc, e1, e2, _⟩ := c4 hok
  have hw : G'.player_is_white = G.player_is_white := by
    rw [hcm.2]
    exact h2.1.2.1
  have hcin : c ∈ extra := by
    have := applicable_subset cands c hc
    have e : cands = extra := by
      have := congrArg Prod.snd c1
      simp only [h3, List.nil_append] at this
      exact this.symm
    rw [e] at this
    exact this
  have := h4 c hcin
  unfold sideCensus
  rw [hw, e1, e2]
  exact this

/-- Counting the cells of a marker class across one step of the player's
chain. -/
theorem killStep_countCells (p : Char → Prop) [DecidablePred p] (hp0 : ¬ p '0')
    (G : Globals) (pos : Position) (lodic : Lodic) (d : Dir)
    (h : (get_valid_kill G.is_player_turn pos Valid_Kill.fresh lodic).2.flag d = true) :
    countCells p (killStep G pos lodic d).2.2 +
        (if p (lodic.rd (pos.y_8 + d.dy) (pos.x_8 + d.dx)) then 1 else 0) =
      countCells p lodic := by
  obtain ⟨ho, _, hk, _, hn, hn0⟩ := gvk_flag_cells _ _ _ _ _ h
  have hdx := d.dx_cases
  have hdy := d.dy_cases
  simp only [killStep, kill_block]
  have c1 := countCells_wr p lodic _ _ '0' hk
  have c2 := countCells_wr p
    (lodic.wr (pos.y_8 + d.dy) (pos.x_8 + d.dx) '0') _ _ (lodic.rd pos.y_8 pos.x_8) hn
  have c3 := countCells_wr p
    ((lodic.wr (pos.y_8 + d.dy) (pos.x_8 + d.dx) '0').wr (pos.y_8 + 2 * d.dy)
      (pos.x_8 + 2 * d.dx) (lodic.rd pos.y_8 pos.x_8)) _ _ '0' ho
  have n1 : ¬ (pos.y_8 = pos.y_8 + 2 * d.dy ∧ pos.x_8 = pos.x_8 + 2 * d.dx) := by omega
  have n2 : ¬ (pos.y_8 = pos.y_8 + d.dy ∧ pos.x_8 = pos.x_8 + d.dx) := by omega
  have n3 : ¬ (pos.y_8 + 2 * d.dy = pos.y_8 + d.dy ∧ pos.x_8 + 2 * d.dx = pos.x_8 + d.dx) := by
    omega
  rw [lodic_rd_wr _ _ _ _ _ _ hn, lodic_rd_wr _ _ _ _ _ _ hk, if_neg n1, if_neg n2] at c3
  rw [lodic_rd_wr _ _ _ _ _ _ hk, if_neg n3, hn0] at c2
  simp only [if_neg hp0] at c1 c2 c3
  omega

/-- The counts in which a step of the player's chain recurses: the total of
the computer's colour is one less, the total of the player's colour is
unchanged. -/
theorem killStep_totals (G : Globals) (pos : Position) (lodic : Lodic) (d : Dir)
    (hk : computerPiece (lodic.rd (pos.y_8 + d.dy) (pos.x_8 + d.dx))) :
    menOf (!G.player_is_white) (killStep G pos lodic d).1.game_state +
        kingsOf (!G.player_is_white) (killStep G pos lodic d).1.game_state =
      menOf (!G.player_is_white) G.game_state + kingsOf (!G.player_is_white) G.game_state - 1 ∧
    menOf G.player_is_white (killStep G pos lodic d).1.game_state +
        kingsOf G.player_is_white (killStep G pos lodic d).1.game_state =
      menOf G.player_is_white G.game_state + kingsOf G.player_is_white G.game_state := by
  simp only [killStep, kill_block]
  unfold computerPiece at hk
  unfold menOf kingsOf
  rcases hk with hk | hk <;> rw [hk] <;> cases G.player_is_white <;> simp <;> omega

/-- One step of the player's chain preserves the per-side census and leaves
the moving piece on the landing cell. -/
theorem killStep_sideCensus (G : Globals) (pos : Position) (lodic : Lodic) (d : Dir)
    (ht : G.is_player_turn = true)
    (hf : (get_valid_kill true pos Valid_Kill.fresh lodic).2.flag d = true)
    (h : sideCensusAt G.player_is_white G.game_state lodic ∧
      playerPiece (lodic.rd pos.y_8 pos.x_8)) :
    sideCensusAt G.player_is_white (killStep G pos lodic d).1.game_state
        (killStep G pos lodic d).2.2 ∧
      playerPiece ((killStep G pos lodic d).2.2.rd (killStep G pos lodic d).2.1.y_8
        (killStep G pos lodic d).2.1.x_8) := by
  obtain ⟨hc, ho⟩ := h
  have hf' : (get_valid_kill G.is_player_turn pos Valid_Kill.fresh lodic).2.flag d = true := by
    rw [ht]; exact hf
  obtain ⟨_, _, _, hek, _, _⟩ := gvk_flag_cells _ _ _ _ _ hf
  have hkc : computerPiece (lodic.rd (pos.y_8 + d.dy) (pos.x_8 + d.dx)) := hek
  have c1 := killStep_countCells computerPiece not_computerPiece_zero G pos lodic d hf'
  have c2 := killStep_countCells playerPiece not_playerPiece_zero G pos lodic d hf'
  rw [if_pos hkc] at c1
  rw [if_neg (computerPiece_not_player _ hkc)] at c2
  obtain ⟨t1, t2⟩ := killStep_totals G pos lodic d hkc
  obtain ⟨_, _, p1, p2⟩ := killStep_turn G pos lodic d
  have hdx := d.dx_cases
  have hdy := d.dy_cases
  have n1 : ¬ (pos.y_8 + 2 * d.dy = pos.y_8 ∧ pos.x_8 + 2 * d.dx = pos.x_8) := by omega
  refine ⟨?_, ?_⟩
  · unfold sideCensusAt at hc ⊢
    rw [t1, t2]
    omega
  · rw [p1, p2, killStep_rd G pos lodic d hf', if_neg n1, if_pos ⟨rfl, rfl⟩]
    exact ho

/-- The commit of a plain move of a player piece preserves the per-side
census. -/
theorem player_commit_move_sideCensus (G : Globals) (pos : Position) (d : Dir)
    (ht : G.is_player_turn = true) (hp : playerPiece (G.lodic.rd pos.y_8 pos.x_8))
    (hf : (get_valid_moves pos Valid_Hod.fresh G.lodic).2.flag d = true)
    (h : sideCensus G) :
    sideCensus (player_commit_move G pos
      ((get_valid_moves pos Valid_Hod.fresh G.lodic).2.dest_x d)
      ((get_valid_moves pos Valid_Hod.fresh G.lodic).2.dest_y d)) := by
  obtain ⟨ho, _, hn, hn0, ex, ey⟩ := gvm_flag_cells _ _ _ _ hf
  rw [ex, ey]
  have hdx := d.dx_cases
  have hdy := d.dy_cases
  have n1 : ¬ (pos.y_8 + d.dy = pos.y_8 ∧ pos.x_8 + d.dx = pos.x_8) := by omega
  have e1 : ((G.lodic.wr pos.y_8 pos.x_8 '0').wr (pos.y_8 + d.dy) (pos.x_8 + d.dx)
      (G.lodic.rd pos.y_8 pos.x_8)).rd (pos.y_8 + d.dy) (pos.x_8 + d.dx) =
      G.lodic.rd pos.y_8 pos.x_8 := by
    rw [lodic_rd_wr _ _ _ _ _ _ hn]
    exact if_pos ⟨rfl, rfl⟩
  have hq := becameQueen_sideCensus (Hod G pos (pos.x_8 + d.dx) (pos.y_8 + d.dy)).1
    { (Hod G pos (pos.x_8 + d.dx) (pos.y_8 + d.dy)).2 with
      x := (reverse_graph_koordinaty (pos.x_8 + d.dx) (pos.y_8 + d.dy)).1
      y := (reverse_graph_koordinaty (pos.x_8 + d.dx) (pos.y_8 + d.dy)).2 }
    (Hod G pos (pos.x_8 + d.dx) (pos.y_8 + d.dy)).1.lodic
    (by
      show moverPiece G.is_player_turn
        (((G.lodic.wr pos.y_8 pos.x_8 '0').wr (pos.y_8 + d.dy) (pos.x_8 + d.dx)
          (G.lodic.rd pos.y_8 pos.x_8)).rd (pos.y_8 + d.dy) (pos.x_8 + d.dx))
      rw [ht, e1]
      exact hp)
    (by
      show sideCensusAt G.player_is_white G.game_state
        ((G.lodic.wr pos.y_8 pos.x_8 '0').wr (pos.y_8 + d.dy) (pos.x_8 + d.dx)
          (G.lodic.rd pos.y_8 pos.x_8))
      have c1 := countCells_wr computerPiece G.lodic pos.y_8 pos.x_8 '0' ho
      have c2 := countCells_wr computerPiece (G.lodic.wr pos.y_8 pos.x_8 '0') (pos.y_8 + d.dy)
        (pos.x_8 + d.dx) (G.lodic.rd pos.y_8 pos.x_8) hn
      have c3 := countCells_wr playerPiece G.lodic pos.y_8 pos.x_8 '0' ho
      have c4 := countCells_wr playerPiece (G.lodic.wr pos.y_8 pos.x_8 '0') (pos.y_8 + d.dy)
        (pos.x_8 + d.dx) (G.lodic.rd pos.y_8 pos.x_8) hn
      rw [if_neg (playerPiece_not_computer _ hp), if_neg not_computerPiece_zero] at c1
      rw [lodic_rd_wr _ _ _ _ _ _ ho, if_neg n1, hn0, if_neg not_computerPiece_zero,
        if_neg (playerPiece_not_computer _ hp)] at c2
      rw [if_pos hp, if_neg not_playerPiece_zero] at c3
      rw [lodic_rd_wr _ _ _ _ _ _ ho, if_neg n1, hn0, if_neg not_playerPiece_zero,
        if_pos hp] at c4
      unfold sideCensus sideCensusAt at h
      unfold sideCensusAt
      omega)
  unfold sideCensus player_commit_move
  simp only []
  rw [(becameQueen_flags _ _ _).2.1]
  exact hq.1

/-- Every outcome of the player's capture chain satisfies the per-side census
and holds the moving piece on its end cell, when the start does. -/
theorem chainNews_sideCensus (w : Bool) (fuel : Nat) (G : Globals) (pos : Position)
    (lodic : Lodic) (news : List Outcome) (h : chainNews fuel G pos lodic = some news)
    (ht : G.is_player_turn = true) (hw : G.player_is_white = w)
    (hc : sideCensusAt w G.game_state lodic) (hp : playerPiece (lodic.rd pos.y_8 pos.x_8)) :
    ∀ o ∈ news, sideCensusAt w o.game_state o.lodic ∧ playerPiece (o.lodic.rd o.y_8 o.x_8) := by
  intro o ho
  refine chainNews_forall
    (fun G pos lodic o => G.is_player_turn = true → G.player_is_white = w →
      sideCensusAt w G.game_state lodic → playerPiece (lodic.rd pos.y_8 pos.x_8) →
      sideCensusAt w o.game_state o.lodic ∧ playerPiece (o.lodic.rd o.y_8 o.x_8))
    ?_ ?_ fuel G pos lodic news h o ho ht hw hc hp
  · intro G pos lodic _ _ _ hc hp
    exact ⟨hc, hp⟩
  · intro G pos lodic d o hf ih ht hw hc hp
    obtain ⟨t1, t2, _, _⟩ := killStep_turn G pos lodic d
    have hf' : (get_valid_kill true pos Valid_Kill.fresh lodic).2.flag d = true := by
      rw [ht] at hf; exact hf
    have hs := killStep_sideCensus G pos lodic d ht hf' ⟨by rw [hw]; exact hc, hp⟩
    rw [hw] at hs
    exact ih (by rw [t1, ht]) (by rw [t2, hw]) hs.1 hs.2

/-- The commit of a capture chain of a player piece preserves the per-side
census, whichever outcome is chosen. -/
theorem player_commit_kill_sideCensus (G : Globals) (pos where' : Position)
    (ht : G.is_player_turn = true) (hp : playerPiece (G.lodic.rd pos.y_8 pos.x_8))
    (h : sideCensus G) :
    ∃ news, calculate_kill_moves chainFuel G pos G.lodic [] = some (G, news) ∧ news ≠ [] ∧
      ∀ o ∈ news, sideCensus (player_commit_kill G where' o) := by
  obtain ⟨news, h1, h2, h3⟩ := calculate_kill_moves_some G pos G.lodic []
  refine ⟨news, by simpa using h3, h2, ?_⟩
  intro o ho
  obtain ⟨oc, op⟩ := chainNews_sideCensus G.player_is_white chainFuel G pos G.lodic news h1 ht
    rfl h hp o ho
  have hq := becameQueen_sideCensus
    ({ G with lodic := o.lodic, game_state := o.game_state } : Globals)
    { where' with
      x_8 := o.x_8
      y_8 := o.y_8
      x := (reverse_graph_koordinaty o.x_8 o.y_8).1
      y := (reverse_graph_koordinaty o.x_8 o.y_8).2 }
    o.lodic
    (by
      show moverPiece G.is_player_turn (o.lodic.rd o.y_8 o.x_8)
      rw [ht]
      exact op)
    oc
  unfold sideCensus player_commit_kill
  simp only []
  rw [(becameQueen_flags _ _ _).2.1]
  exact hq.1

theorem lodicStart_census :
    countCells (fun c => c = '1') lodicStart = 12 ∧
    countCells (fun c => c = '2') lodicStart = 12 ∧
    countCells computerPiece lodicStart = 12 ∧ countCells playerPiece lodicStart = 12 := by
  decide

theorem mem_move_outputs (m : Valid_Hod) (hod : Int × Int) (h : hod ∈ move_outputs m) :
    ∃ d, m.flag d = true ∧ hod = (m.dest_x d, m.dest_y d) := by
  unfold move_outputs at h
  simp only [List.mem_append] at h
  rcases h with ((h | h) | h) | h
  · by_cases hf : m.l_h = true
    · rw [if_pos hf] at h
      exact ⟨.l_h, hf, by simpa using h⟩
    · rw [if_neg hf] at h
      simp at h
  · by_cases hf : m.r_h = true
    · rw [if_pos hf] at h
      exact ⟨.r_h, hf, by simpa using h⟩
    · rw [if_neg hf] at h
      simp at h
  · by_cases hf : m.l_s = true
    · rw [if_pos hf] at h
      exact ⟨.l_s, hf, by simpa using h⟩
    · rw [if_neg hf] at h
      simp at h
  · by_cases hf : m.r_s = true
    · rw [if_pos hf] at h
      exact ⟨.r_s, hf, by simpa using h⟩
    · rw [if_neg hf] at h
      simp at h

/-- C14. Per-side census invariant: for each side, the number of that side's
pieces found by scanning the logical board (men plus kings) equals the men
count plus the king count of that side's colour in the counts struct.  It
holds in the initial state (12 cells `'1'`, 12 cells `'2'`, counts
`12/12/0/0`) and is preserved by every committed move: a successful
`computer_move` on the computer's turn (which returns), the player's plain
move of one of their pieces to a destination offered by `get_valid_moves`
(`Hod` followed by `becameQueen`), and the player's capture chain from one of
their pieces (any outcome `calculate_kill_moves` records, which returns at
least one, followed by `becameQueen`). -/
theorem side_census_invariant :
    (countCells (fun c => c = '1') lodicStart = 12 ∧
      countCells (fun c => c = '2') lodicStart = 12 ∧
      ∀ G : Globals, G.lodic = lodicStart → G.game_state = game_state_init → sideCensus G) ∧
    (∀ (junk : Lodic) (junk_gs : GameState) (G : Globals),
      G.is_player_turn = false → sideCensus G →
      ∃ (ok : Bool) (G' : Globals), computer_move junk junk_gs G = some (ok, G') ∧
        (ok = true → sideCensus G')) ∧
    (∀ (G : Globals) (pos : Position) (hod : Int × Int),
      G.is_player_turn = true → sideCensus G →
      playerPiece (G.lodic.rd pos.y_8 pos.x_8) →
      hod ∈ move_outputs (get_valid_moves pos Valid_Hod.fresh G.lodic).2 →
      sideCensus (player_commit_move G pos hod.1 hod.2)) ∧
    (∀ (G : Globals) (pos where' : Position),
      G.is_player_turn = true → sideCensus G →
      playerPiece (G.lodic.rd pos.y_8 pos.x_8) →
      ∃ news, calculate_kill_moves chainFuel G pos G.lodic [] = some (G, news) ∧ news ≠ [] ∧
        ∀ o ∈ news, sideCensus (player_commit_kill G where' o)) := by
  refine ⟨⟨lodicStart_census.1, lodicStart_census.2.1, ?_⟩, ?_, ?_, ?_⟩
  · intro G hl hg
    unfold sideCensus sideCensusAt
    rw [hl, hg, lodicStart_census.2.2.1, lodicStart_census.2.2.2]
    cases G.player_is_white <;> decide
  · intro junk jgs G ht h
    exact computer_move_sideCensus junk jgs G ht h
  · intro G pos hod ht h hp hm
    obtain ⟨d, hf, rfl⟩ := mem_move_outputs _ hod hm
    exact player_commit_move_sideCensus G pos d ht hp hf h
  · intro G pos where' ht h hp
    exact player_commit_kill_sideCensus G pos where' ht hp h

/-- Witness of C14: the census holds on `stateComp`, `stateCrown` and
`statePass`; the computer's double capture on `stateComp`, the player's king
step C7-B8 on `stateCrown` and the player's double capture on `statePass` are
committed and preserve it. -/
theorem side_census_invariant_witness :
    sideCensus stateComp ∧
    (computer_move junkLodic junkCounts stateComp).map (fun r => r.1) = some true ∧
    (∃ (ok : Bool) (G' : Globals),
      computer_move junkLodic junkCounts stateComp = some (ok, G') ∧
      (ok = true → sideCensus G')) ∧
    sideCensus stateCrown ∧
    ((1 : Int), (0 : Int)) ∈
      move_outputs (get_valid_moves (posAt 2 1) Valid_Hod.fresh stateCrown.lodic).2 ∧
    sideCensus (player_commit_move stateCrown (posAt 2 1) 1 0) ∧
    sideCensus statePass ∧
    ∃ news, calculate_kill_moves chainFuel statePass (posAt 1 2) statePass.lodic [] =
        some (statePass, news) ∧ news ≠ [] ∧
      ∀ o ∈ news, sideCensus (player_commit_kill statePass (posAt 1 2) o) :=
  ⟨by decide, by decide,
    side_census_invariant.2.1 junkLodic junkCounts stateComp (by decide) (by decide),
    by decide, by decide,
    side_census_invariant.2.2.1 stateCrown (posAt 2 1) (1, 0) (by decide) (by decide)
      (by decide) (by decide),
    by decide,
    side_census_invariant.2.2.2 statePass (posAt 1 2) (posAt 1 2) (by decide) (by decide)
      (by decide)⟩

/-! ## Coordinate mapping claims -/

theorem char_mem_of_range (lo hi : Nat) (c : Char) (h1 : lo ≤ c.toNat) (h2 : c.toNat ≤ hi) :
    ∃ n, lo ≤ n ∧ n ≤ hi ∧ c = Char.ofNat n :=
  ⟨c.toNat, h1, h2, (Char.ofNat_toNat c).symm⟩

/-- `koordinaty` on an accepted pair. -/
theorem koordinaty_ok (x y : Char) (out : Int × Int × Int × Int)
    (h : ¬ (x < 'A' ∨ x > 'H' ∨ y < '1' ∨ y > '8')) :
    koordinaty x y out =
      (true, (4 * (((x.toNat : Nat) : Int) - 65) + 2, 2 * (8 - (((y.toNat : Nat) : Int) - 48)) + 1,
        ((x.toNat : Nat) : Int) - 65, 8 - (((y.toNat : Nat) : Int) - 48))) := by
  unfold koordinaty
  rw [if_neg h]
  have hA : 'A'.toNat = 65 := rfl
  have h0 : '0'.toNat = 48 := rfl
  simp only [reverse_graph_koordinaty, hA, h0, Nat.cast_ofNat, Prod.mk.injEq, true_and,
    and_true]
  exact ⟨by ring, by ring⟩

/-- `koordinaty` on a rejected pair: false, outputs as passed in. -/
theorem koordinaty_fail (x y : Char) (out : Int × Int × Int × Int)
    (h : x < 'A' ∨ x > 'H' ∨ y < '1' ∨ y > '8') : koordinaty x y out = (false, out) := by
  unfold koordinaty
  rw [if_pos h]

theorem char_range_iff (x y : Char) :
    ¬ (x < 'A' ∨ x > 'H' ∨ y < '1' ∨ y > '8') ↔
      (65 ≤ x.toNat ∧ x.toNat ≤ 72) ∧ (49 ≤ y.toNat ∧ y.toNat ≤ 56) := by
  have e1 : x < 'A' ↔ x.toNat < 65 := Iff.rfl
  have e2 : x > 'H' ↔ 72 < x.toNat := Iff.rfl
  have e3 : y < '1' ↔ y.toNat < 49 := Iff.rfl
  have e4 : y > '8' ↔ 56 < y.toNat := Iff.rfl
  rw [e1, e2, e3, e4]
  omega

/-- C24. The coordinate mappings are mutually inverse bijections.  For every
letter `c` in `'A'..'H'` and digit `d` in `'1'..'8'`, `koordinaty (c, d)`
succeeds with the logical cell `(c - 'A', 8 - (d - '0'))`, which lies in
`0..7 x 0..7`, and the display coordinates `(4 * col + 2, 2 * row + 1)`, and
`reverse_graph_out_koordinaty` on that cell returns `(c, d)`.  Conversely for
every logical cell `(i, j)` in `0..7 x 0..7`, `koordinaty` applied to the
result of `reverse_graph_out_koordinaty (i, j)` returns `(i, j)`.  The
logical-to-display map `reverse_graph_koordinaty` is injective and sends every
logical cell of the board inside the 18 x 35 display grid. -/
theorem koordinaty_inverse :
    (∀ (c d : Char) (out : Int × Int × Int × Int),
      'A' ≤ c → c ≤ 'H' → '1' ≤ d → d ≤ '8' →
      ∃ col row : Int,
        col = ((c.toNat : Nat) : Int) - (('A'.toNat : Nat) : Int) ∧
        row = 8 - (((d.toNat : Nat) : Int) - (('0'.toNat : Nat) : Int)) ∧
        onBoard col row ∧
        koordinaty c d out = (true, (4 * col + 2, 2 * row + 1, col, row)) ∧
        reverse_graph_out_koordinaty col row = (true, c, d)) ∧
    (∀ (i j : Int) (out : Int × Int × Int × Int), onBoard i j →
      koordinaty (reverse_graph_out_koordinaty i j).2.1 (reverse_graph_out_koordinaty i j).2.2
          out =
        (true, ((reverse_graph_koordinaty i j).1, (reverse_graph_koordinaty i j).2, i, j))) ∧
    (∀ i j i' j' : Int, reverse_graph_koordinaty i j = reverse_graph_koordinaty i' j' →
      i = i' ∧ j = j') ∧
    (∀ i j : Int, onBoard i j →
      0 ≤ (reverse_graph_koordinaty i j).1 ∧ (reverse_graph_koordinaty i j).1 < 35 ∧
      0 ≤ (reverse_graph_koordinaty i j).2 ∧ (reverse_graph_koordinaty i j).2 < 18) := by
  refine ⟨?_, ?_, ?_, ?_⟩
  · intro c d out h1 h2 h3 h4
    have hc1 : 65 ≤ c.toNat := h1
    have hc2 : c.toNat ≤ 72 := h2
    have hd1 : 49 ≤ d.toNat := h3
    have hd2 : d.toNat ≤ 56 := h4
    have hA : 'A'.toNat = 65 := rfl
    have h0 : '0'.toNat = 48 := rfl
    have h8 : '8'.toNat = 56 := rfl
    refine ⟨_, _, rfl, rfl, ?_, ?_, ?_⟩
    · rw [hA, h0]
      unfold onBoard
      push_cast
      omega
    · rw [koordinaty_ok c d out ((char_range_iff c d).mpr ⟨⟨hc1, hc2⟩, hd1, hd2⟩), hA, h0]
      rfl
    · unfold reverse_graph_out_koordinaty
      rw [hA, h0, h8]
      have e1 : ((((65 : Nat) : Int) + (((c.toNat : Nat) : Int) - ((65 : Nat) : Int))) % 256).toNat
          = c.toNat := by
        push_cast
        omega
      have e2 : ((((56 : Nat) : Int) - (8 - (((d.toNat : Nat) : Int) - ((48 : Nat) : Int)))) %
          256).toNat = d.toNat := by
        push_cast
        omega
      rw [e1, e2, Char.ofNat_toNat, Char.ofNat_toNat]
  · intro i j out hb
    obtain ⟨h1, h2, h3, h4⟩ := hb
    interval_cases i <;> interval_cases j <;>
      exact (koordinaty_ok _ _ out (by decide)).trans (by decide)
  · intro i j i' j' h
    unfold reverse_graph_koordinaty at h
    simp only [Prod.mk.injEq] at h
    omega
  · intro i j hb
    unfold onBoard at hb
    unfold reverse_graph_koordinaty
    simp only
    omega

/-- Witness of C24: B3 is the logical cell `(1, 5)`, shown at display column 6
and row 11, and the cell `(1, 5)` is written B3. -/
theorem koordinaty_inverse_witness :
    koordinaty 'B' '3' (0, 0, 0, 0) = (true, (6, 11, 1, 5)) ∧
    reverse_graph_out_koordinaty 1 5 = (true, 'B', '3') ∧
    ∃ col row : Int,
      col = ((('B'.toNat : Nat) : Int)) - (('A'.toNat : Nat) : Int) ∧
      row = 8 - (((('3'.toNat : Nat) : Int)) - (('0'.toNat : Nat) : Int)) ∧
      onBoard col row ∧
      koordinaty 'B' '3' (0, 0, 0, 0) = (true, (4 * col + 2, 2 * row + 1, col, row)) ∧
      reverse_graph_out_koordinaty col row = (true, 'B', '3') :=
  ⟨by decide, by decide,
    koordinaty_inverse.1 'B' '3' (0, 0, 0, 0) (by decide) (by decide) (by decide) (by decide)⟩

/-- C25. Notation validation: for every pair of characters `(x, y)`,
`koordinaty` applied to `(toupper (x), y)`, as `player_move` calls it,
succeeds if and only if the upper-cased letter is in `'A'..'H'` and the digit
is in `'1'..'8'`; the lower-case letters `'a'..'h'` are therefore accepted
like `'A'..'H'`; on failure it returns false and its four output coordinates
are the values passed in. -/
theorem koordinaty_validation (x y : Char) (out : Int × Int × Int × Int) :
    ((koordinaty (toupper x) y out).1 = true ↔
      ('A' ≤ toupper x ∧ toupper x ≤ 'H') ∧ ('1' ≤ y ∧ y ≤ '8')) ∧
    (('a' ≤ x ∧ x ≤ 'h') → ('1' ≤ y ∧ y ≤ '8') →
      (koordinaty (toupper x) y out).1 = true ∧
      (koordinaty (toupper x) y out).2 =
        (koordinaty (Char.ofNat (x.toNat - 32)) y out).2 ∧
      'A' ≤ Char.ofNat (x.toNat - 32) ∧ Char.ofNat (x.toNat - 32) ≤ 'H') ∧
    ((koordinaty (toupper x) y out).1 = false → (koordinaty (toupper x) y out).2 = out) := by
  have key : ¬ (toupper x < 'A' ∨ toupper x > 'H' ∨ y < '1' ∨ y > '8') ↔
      ('A' ≤ toupper x ∧ toupper x ≤ 'H') ∧ ('1' ≤ y ∧ y ≤ '8') := char_range_iff _ _
  refine ⟨?_, ?_, ?_⟩
  · rw [← key]
    by_cases h : toupper x < 'A' ∨ toupper x > 'H' ∨ y < '1' ∨ y > '8'
    · rw [koordinaty_fail _ _ _ h]
      simp [h]
    · rw [koordinaty_ok _ _ _ h]
      simp [h]
  · rintro ⟨h1, h2⟩ hy
    have hx1 : 97 ≤ x.toNat := h1
    have hx2 : x.toNat ≤ 104 := h2
    have hup : toupper x = Char.ofNat (x.toNat - 32) := by
      unfold toupper
      rw [if_pos]
      refine ⟨h1, ?_⟩
      show x.toNat ≤ 122
      omega
    obtain ⟨n, hn1, hn2, hn⟩ := char_mem_of_range 97 104 x hx1 hx2
    have hr : 'A' ≤ Char.ofNat (x.toNat - 32) ∧ Char.ofNat (x.toNat - 32) ≤ 'H' := by
      rw [hn]
      interval_cases n <;> decide
    rw [hup]
    refine ⟨?_, rfl, hr⟩
    rw [koordinaty_ok _ _ out ((char_range_iff _ _).mpr ⟨hr, hy⟩)]
  · intro h
    by_cases hc : toupper x < 'A' ∨ toupper x > 'H' ∨ y < '1' ∨ y > '8'
    · rw [koordinaty_fail _ _ _ hc]
    · rw [koordinaty_ok _ _ _ hc] at h
      simp at h

/-- Witness of C25: `b3` is accepted as B3, `i3` and `b9` are rejected with
the outputs untouched. -/
theorem koordinaty_validation_witness :
    koordinaty (toupper 'b') '3' (0, 0, 0, 0) = (true, (6, 11, 1, 5)) ∧
    koordinaty (toupper 'i') '3' (7, 7, 7, 7) = (false, (7, 7, 7, 7)) ∧
    koordinaty (toupper 'b') '9' (7, 7, 7, 7) = (false, (7, 7, 7, 7)) ∧
    ((koordinaty (toupper 'i') '3' (7, 7, 7, 7)).1 = false →
      (koordinaty (toupper 'i') '3' (7, 7, 7, 7)).2 = (7, 7, 7, 7)) :=
  ⟨by decide, by decide, by decide, (koordinaty_validation 'i' '3' (7, 7, 7, 7)).2.2⟩

/-! ## Rank independence of captures and playable cells -/

/-- The capture blocks read the board only at the eight cells around the
origin. -/
theorem gvk_blocks_congr (man king : Char) (pos : Position) (v : Valid_Kill) (l l' : Lodic)
    (h : ∀ y x : Int, ¬ (y = pos.y_8 ∧ x = pos.x_8) → l'.rd y x = l.rd y x) :
    get_valid_kill_blocks man king pos v l' = get_valid_kill_blocks man king pos v l := by
  unfold get_valid_kill_blocks
  rw [h (pos.y_8 + 1) (pos.x_8 - 1) (by omega), h (pos.y_8 + 2) (pos.x_8 - 2) (by omega),
    h (pos.y_8 + 1) (pos.x_8 + 1) (by omega), h (pos.y_8 + 2) (pos.x_8 + 2) (by omega),
    h (pos.y_8 - 1) (pos.x_8 - 1) (by omega), h (pos.y_8 - 2) (pos.x_8 - 2) (by omega),
    h (pos.y_8 - 1) (pos.x_8 + 1) (by omega), h (pos.y_8 - 2) (pos.x_8 + 2) (by omega)]

/-- Replacing the piece on the origin cell by another piece marker does not
change the result of `get_valid_kill`. -/
theorem gvk_wr_origin (t : Bool) (pos : Position) (v : Valid_Kill) (lodic : Lodic) (c : Char)
    (hp : isPiece (lodic.rd pos.y_8 pos.x_8)) (hc : isPiece c) :
    get_valid_kill t pos v (lodic.wr pos.y_8 pos.x_8 c) = get_valid_kill t pos v lodic := by
  have hb := rd_isPiece_onBoard lodic pos.x_8 pos.y_8 hp
  have hc' : isPiece ((lodic.wr pos.y_8 pos.x_8 c).rd pos.y_8 pos.x_8) := by
    rw [lodic_rd_wr _ _ _ _ _ _ hb, if_pos ⟨rfl, rfl⟩]
    exact hc
  rw [get_valid_kill_eq t pos v _ hc', get_valid_kill_eq t pos v _ hp]
  apply gvk_blocks_congr
  intro y x hne
  rw [lodic_rd_wr _ _ _ _ _ _ hb, if_neg hne]

/-- C27. Capture eligibility does not depend on rank: for every board, cell
holding a piece and turn flag, `get_valid_kill` returns the same result (the
four flags, the landing coordinates and the count) when the marker on the
origin cell is replaced by another piece marker, in particular when a man is
changed to the king of the same side or a king to the man. -/
theorem get_valid_kill_rank_free (t : Bool) (pos : Position) (v : Valid_Kill) (lodic : Lodic)
    (c : Char) (hp : isPiece (lodic.rd pos.y_8 pos.x_8)) (hc : isPiece c) :
    get_valid_kill t pos v (lodic.wr pos.y_8 pos.x_8 c) = get_valid_kill t pos v lodic ∧
    (get_valid_kill t pos v (lodic.wr pos.y_8 pos.x_8 c)).1 =
      (get_valid_kill t pos v lodic).1 ∧
    ∀ d, (get_valid_kill t pos v (lodic.wr pos.y_8 pos.x_8 c)).2.flag d =
        (get_valid_kill t pos v lodic).2.flag d ∧
      (get_valid_kill t pos v (lodic.wr pos.y_8 pos.x_8 c)).2.land_x d =
        (get_valid_kill t pos v lodic).2.land_x d ∧
      (get_valid_kill t pos v (lodic.wr pos.y_8 pos.x_8 c)).2.land_y d =
        (get_valid_kill t pos v lodic).2.land_y d := by
  have e := gvk_wr_origin t pos v lodic c hp hc
  rw [e]
  exact ⟨rfl, rfl, fun _ => ⟨rfl, rfl, rfl⟩⟩

/-- Witness of C27 on `lodicFork`: the player man on E3 has the two captures
over D4 and F4, and so has a king put in its place. -/
theorem get_valid_kill_rank_free_witness :
    isPiece (lodicFork.rd (posAt 4 5).y_8 (posAt 4 5).x_8) ∧ isPiece '4' ∧
    (get_valid_kill true (posAt 4 5) Valid_Kill.fresh lodicFork).1 = 2 ∧
    (get_valid_kill true (posAt 4 5) Valid_Kill.fresh (lodicFork.wr 5 4 '4')).1 = 2 ∧
    get_valid_kill true (posAt 4 5) Valid_Kill.fresh
        (lodicFork.wr (posAt 4 5).y_8 (posAt 4 5).x_8 '4') =
      get_valid_kill true (posAt 4 5) Valid_Kill.fresh lodicFork :=
  ⟨by decide, by decide, by decide, by decide,
    (get_valid_kill_rank_free true (posAt 4 5) Valid_Kill.fresh lodicFork '4' (by decide)
      (by decide)).1⟩

theorem allPlayable_rd (lodic : Lodic) (h : allPlayable lodic) (x y : Int)
    (hp : isPiece (lodic.rd y x)) : (x + y) % 2 = 1 := by
  have hb := rd_isPiece_onBoard lodic x y hp
  rw [rd_on lodic x y hb] at hp
  have := h _ _ hp
  unfold onBoard at hb
  simp only at this
  omega

theorem allPlayable_of_rd (lodic : Lodic)
    (h : ∀ x y : Int, isPiece (lodic.rd y x) → (x + y) % 2 = 1) : allPlayable lodic := by
  intro i j hp
  have hb : onBoard (j.val : Int) (i.val : Int) := by
    unfold onBoard
    have := i.isLt
    have := j.isLt
    omega
  have e : lodic.rd (i.val : Int) (j.val : Int) = lodic i j := by
    rw [rd_on lodic _ _ hb]
    rfl
  have := h (j.val : Int) (i.val : Int) (by rw [e]; exact hp)
  omega

/-- A write keeps the pieces on playable cells when the cell written is
playable or the marker written is no piece. -/
theorem allPlayable_wr (lodic : Lodic) (y x : Int) (c : Char) (h : allPlayable lodic)
    (hc : isPiece c → (x + y) % 2 = 1) : allPlayable (lodic.wr y x c) := by
  apply allPlayable_of_rd
  intro x' y' hp
  rw [Grid.rd_wr] at hp
  split_ifs at hp with h1
  · obtain ⟨⟨rfl, rfl⟩, _⟩ := h1
    exact hc hp
  · exact allPlayable_rd lodic h x' y' hp

theorem not_isPiece_zero : ¬ isPiece '0' := by decide

theorem allPlayable_becameQueen (G : Globals) (pos : Position) (lodic : Lodic)
    (h : allPlayable lodic) (hp : (pos.x_8 + pos.y_8) % 2 = 1) :
    allPlayable (becameQueen G pos lodic).2 := by
  rcases becameQueen_lodic_cases G pos lodic with e | ⟨c, e⟩
  · rw [e]; exact h
  · rw [e]; exact allPlayable_wr lodic _ _ c h (fun _ => hp)

theorem bestStep_allPlayable (G : Globals) (t : Bool) (pos : Position) (lodic : Lodic) (d : Dir)
    (hf : (get_valid_kill t pos Valid_Kill.fresh lodic).2.flag d = true)
    (h : allPlayable lodic) : allPlayable (bestStep G pos lodic d).2.2 := by
  obtain ⟨_, hp, _, _, _, _⟩ := gvk_flag_cells _ _ _ _ _ hf
  have hpar := allPlayable_rd lodic h _ _ hp
  have hdx := d.dx_cases
  have hdy := d.dy_cases
  simp only [bestStep, best_block]
  apply allPlayable_becameQueen
  · apply allPlayable_wr
    · apply allPlayable_wr
      · apply allPlayable_wr _ _ _ _ h
        intro h0; exact absurd h0 not_isPiece_zero
      · intro h0; exact absurd h0 not_isPiece_zero
    · intro _
      omega
  · show (pos.x_8 + 2 * d.dx + (pos.y_8 + 2 * d.dy)) % 2 = 1
    omega

theorem moveLeaf_allPlayable (G : Globals) (x y : Int) (d : Dir)
    (hf : (get_valid_moves (posAt x y) Valid_Hod.fresh G.lodic).2.flag d = true)
    (h : allPlayable G.lodic) :
    allPlayable
      (moveLeaf G x y ((get_valid_moves (posAt x y) Valid_Hod.fresh G.lodic).2.dest_y d)
        ((get_valid_moves (posAt x y) Valid_Hod.fresh G.lodic).2.dest_x d)).lodic := by
  obtain ⟨_, hp, _, _, ex, ey⟩ := gvm_flag_cells _ _ _ _ hf
  rw [ex, ey]
  have hpar : (x + y) % 2 = 1 := allPlayable_rd G.lodic h _ _ hp
  have hdx := d.dx_cases
  have hdy := d.dy_cases
  show allPlayable (becameQueen G (posAt (x + d.dx) (y + d.dy))
    ((G.lodic.wr y x '0').wr (y + d.dy) (x + d.dx) '1')).2
  apply allPlayable_becameQueen
  · apply allPlayable_wr
    · apply allPlayable_wr _ _ _ _ h
      intro h0; exact absurd h0 not_isPiece_zero
    · intro _
      omega
  · show (x + d.dx + (y + d.dy)) % 2 = 1
    omega

/-- A successful `computer_move` keeps every piece on a playable cell. -/
theorem computer_move_allPlayable (junk : Lodic) (jgs : GameState) (G : Globals)
    (h : allPlayable G.lodic) :
    ∃ (ok : Bool) (G' : Globals), computer_move junk jgs G = some (ok, G') ∧
      (ok = true → allPlayable G'.lodic) := by
  obtain ⟨cs, extra, h1, _, h3, h4, _⟩ :=
    candidates_loop_gen G (fun c => allPlayable c.leaf.lodic) scan_cells
      (fun cell _ _ G1 r _ _ hr lf hlf => by
        obtain ⟨_, hP⟩ := properLeaves_invariant G1.is_player_turn G1.player_is_white
          (fun _ _ l => allPlayable l)
          (fun G' pos lodic d _ _ hf hP => bestStep_allPlayable G' _ pos lodic d hf hP)
          chainFuel G1 (posAt cell.2 cell.1) G.lodic r rfl rfl h hr lf hlf
        exact hP)
      (fun cell _ _ d hf G1 hs _ => by
        have := moveLeaf_allPlayable G1 cell.2 cell.1 d (by rw [hs.2.2]; exact hf)
          (by rw [hs.2.2]; exact h)
        rw [hs.2.2] at this
        exact this)
      (G, []) ⟨⟨rfl, rfl, rfl⟩, rfl⟩
  obtain ⟨Gs, cands, ok, G', c1, c2, _, c4⟩ := computer_move_commit junk jgs G
  unfold computer_candidates at c1
  rw [h1] at c1
  simp only [Option.some.injEq] at c1
  refine ⟨ok, G', c2, fun hok => ?_⟩
  obtain ⟨c, hc, e1, _⟩ := c4 hok
  have hcin : c ∈ extra := by
    have := applicable_subset cands c hc
    have e : cands = extra := by
      have := congrArg Prod.snd c1
      simp only [h3, List.nil_append] at this
      exact this.symm
    rw [e] at this
    exact this
  rw [e1]
  exact h4 c hcin

theorem killStep_allPlayable (G : Globals) (pos : Position) (lodic : Lodic) (d : Dir)
    (hf : (get_valid_kill G.is_player_turn pos Valid_Kill.fresh lodic).2.flag d = true)
    (h : allPlayable lodic) :
    allPlayable (killStep G pos lodic d).2.2 ∧
      (killStep G pos lodic d).2.2.rd (killStep G pos lodic d).2.1.y_8
        (killStep G pos lodic d).2.1.x_8 = lodic.rd pos.y_8 pos.x_8 := by
  obtain ⟨_, hp, _, _, _, _⟩ := gvk_flag_cells _ _ _ _ _ hf
  have hpar := allPlayable_rd lodic h _ _ hp
  have hdx := d.dx_cases
  have hdy := d.dy_cases
  obtain ⟨_, _, p1, p2⟩ := killStep_turn G pos lodic d
  have n1 : ¬ (pos.y_8 + 2 * d.dy = pos.y_8 ∧ pos.x_8 + 2 * d.dx = pos.x_8) := by omega
  refine ⟨?_, ?_⟩
  · simp only [killStep, kill_block]
    apply allPlayable_wr
    · apply allPlayable_wr
      · apply allPlayable_wr _ _ _ _ h
        intro h0; exact absurd h0 not_isPiece_zero
      · intro _
        omega
    · intro h0; exact absurd h0 not_isPiece_zero
  · rw [p1, p2, killStep_rd G pos lodic d hf, if_neg n1, if_pos ⟨rfl, rfl⟩]

theorem chainNews_allPlayable (fuel : Nat) (G : Globals) (pos : Position)
    (lodic : Lodic) (news : List Outcome) (h : chainNews fuel G pos lodic = some news)
    (hc : allPlayable lodic) (hp : isPiece (lodic.rd pos.y_8 pos.x_8)) :
    ∀ o ∈ news, allPlayable o.lodic ∧ isPiece (o.lodic.rd o.y_8 o.x_8) := by
  intro o ho
  refine chainNews_forall
    (fun _ pos lodic o => allPlayable lodic → isPiece (lodic.rd pos.y_8 pos.x_8) →
      allPlayable o.lodic ∧ isPiece (o.lodic.rd o.y_8 o.x_8))
    ?_ ?_ fuel G pos lodic news h o ho hc hp
  · intro G pos lodic _ hc hp
    exact ⟨hc, hp⟩
  · intro G pos lodic d o hf ih hc hp
    obtain ⟨a1, a2⟩ := killStep_allPlayable G pos lodic d hf hc
    exact ih a1 (by rw [a2]; exact hp)

theorem player_commit_move_allPlayable (G : Globals) (pos : Position) (d : Dir)
    (hf : (get_valid_moves pos Valid_Hod.fresh G.lodic).2.flag d = true)
    (h : allPlayable G.lodic) :
    allPlayable (player_commit_move G pos
      ((get_valid_moves pos Valid_Hod.fresh G.lodic).2.dest_x d)
      ((get_valid_moves pos Valid_Hod.fresh G.lodic).2.dest_y d)).lodic := by
  obtain ⟨_, hp, _, _, ex, ey⟩ := gvm_flag_cells _ _ _ _ hf
  rw [ex, ey]
  have hpar := allPlayable_rd G.lodic h _ _ hp
  have hdx := d.dx_cases
  have hdy := d.dy_cases
  simp only [player_commit_move, Hod]
  apply allPlayable_becameQueen
  · apply allPlayable_wr
    · apply allPlayable_wr _ _ _ _ h
      intro h0; exact absurd h0 not_isPiece_zero
    · intro _
      omega
  · show (pos.x_8 + d.dx + (pos.y_8 + d.dy)) % 2 = 1
    omega

theorem player_commit_kill_allPlayable (G : Globals) (pos where' : Position)
    (hp : isPiece (G.lodic.rd pos.y_8 pos.x_8)) (h : allPlayable G.lodic) :
    ∃ news, calculate_kill_moves chainFuel G pos G.lodic [] = some (G, news) ∧ news ≠ [] ∧
      ∀ o ∈ news, allPlayable (player_commit_kill G where' o).lodic := by
  obtain ⟨news, h1, h2, h3⟩ := calculate_kill_moves_some G pos G.lodic []
  refine ⟨news, by simpa using h3, h2, ?_⟩
  intro o ho
  obtain ⟨oc, op⟩ := chainNews_allPlayable chainFuel G pos G.lodic news h1 h hp o ho
  simp only [player_commit_kill]
  apply allPlayable_becameQueen _ _ _ oc
  exact allPlayable_rd o.lodic oc _ _ op

/-- C23. Playable-cell invariant.  In the initial logical board every piece
stands on a cell with column + row odd.  From a cell with column + row odd,
every destination produced by `get_valid_moves` and every landing produced by
`get_valid_kill` again has column + row odd and lies within `0..7` in both
coordinates.  Every committed move preserves the invariant: a successful
`computer_move` (which returns), the player's plain move to a destination
offered by `get_valid_moves`, and the player's capture chain from a cell
holding a piece (any outcome recorded by `calculate_kill_moves`), each with
its `becameQueen`; so pieces only ever occupy playable cells. -/
theorem playable_cells_invariant :
    allPlayable lodicStart ∧
    (∀ (pos : Position) (motion : Valid_Hod) (lodic : Lodic) (d : Dir),
      (pos.x_8 + pos.y_8) % 2 = 1 → (get_valid_moves pos motion lodic).2.flag d = true →
      onBoard ((get_valid_moves pos motion lodic).2.dest_x d)
        ((get_valid_moves pos motion lodic).2.dest_y d) ∧
      ((get_valid_moves pos motion lodic).2.dest_x d +
        (get_valid_moves pos motion lodic).2.dest_y d) % 2 = 1) ∧
    (∀ (t : Bool) (pos : Position) (velian : Valid_Kill) (lodic : Lodic) (d : Dir),
      (pos.x_8 + pos.y_8) % 2 = 1 → (get_valid_kill t pos velian lodic).2.flag d = true →
      onBoard ((get_valid_kill t pos velian lodic).2.land_x d)
        ((get_valid_kill t pos velian lodic).2.land_y d) ∧
      ((get_valid_kill t pos velian lodic).2.land_x d +
        (get_valid_kill t pos velian lodic).2.land_y d) % 2 = 1) ∧
    (∀ (junk : Lodic) (junk_gs : GameState) (G : Globals), allPlayable G.lodic →
      ∃ (ok : Bool) (G' : Globals), computer_move junk junk_gs G = some (ok, G') ∧
        (ok = true → allPlayable G'.lodic)) ∧
    (∀ (G : Globals) (pos : Position) (hod : Int × Int), allPlayable G.lodic →
      hod ∈ move_outputs (get_valid_moves pos Valid_Hod.fresh G.lodic).2 →
      allPlayable (player_commit_move G pos hod.1 hod.2).lodic) ∧
    (∀ (G : Globals) (pos where' : Position), allPlayable G.lodic →
      isPiece (G.lodic.rd pos.y_8 pos.x_8) →
      ∃ news, calculate_kill_moves chainFuel G pos G.lodic [] = some (G, news) ∧ news ≠ [] ∧
        ∀ o ∈ news, allPlayable (player_commit_kill G where' o).lodic) := by
  refine ⟨by decide, ?_, ?_, ?_, ?_, ?_⟩
  · intro pos m lodic d hpar hf
    obtain ⟨_, _, hn, _, ex, ey⟩ := gvm_flag_cells _ _ _ _ hf
    rw [ex, ey]
    have hdx := d.dx_cases
    have hdy := d.dy_cases
    exact ⟨hn, by omega⟩
  · intro t pos v lodic d hpar hf
    obtain ⟨_, _, _, _, hn, _⟩ := gvk_flag_cells _ _ _ _ _ hf
    obtain ⟨ey, ex⟩ := gvk_land _ _ _ _ _ hf
    rw [ex, ey]
    have hdx := d.dx_cases
    have hdy := d.dy_cases
    exact ⟨hn, by omega⟩
  · intro junk jgs G h
    exact computer_move_allPlayable junk jgs G h
  · intro G pos hod h hm
    obtain ⟨d, hf, rfl⟩ := mem_move_outputs _ hod hm
    exact player_commit_move_allPlayable G pos d hf h
  · intro G pos where' h hp
    exact player_commit_kill_allPlayable G pos where' hp h

/-- Witness of C23: on the initial board the player man on A3 `(0, 5)` steps
to B4 `(1, 4)`, the board after the commit keeps the invariant; on
`lodicSingle` the capture from C3 `(2, 5)` lands on E5 `(4, 3)`. -/
theorem playable_cells_invariant_witness :
    allPlayable lodicStart ∧
    ((1 : Int), (4 : Int)) ∈
      move_outputs (get_valid_moves (posAt 0 5) Valid_Hod.fresh lodicStart).2 ∧
    allPlayable (player_commit_move (stateOf true true game_state_init lodicStart)
      (posAt 0 5) 1 4).lodic ∧
    (onBoard ((get_valid_kill true (posAt 2 5) Valid_Kill.fresh lodicSingle).2.land_x .r_h)
        ((get_valid_kill true (posAt 2 5) Valid_Kill.fresh lodicSingle).2.land_y .r_h) ∧
      ((get_valid_kill true (posAt 2 5) Valid_Kill.fresh lodicSingle).2.land_x .r_h +
        (get_valid_kill true (posAt 2 5) Valid_Kill.fresh lodicSingle).2.land_y .r_h) % 2
        = 1) :=
  ⟨by decide, by decide,
    playable_cells_invariant.2.2.2.2.1 (stateOf true true game_state_init lodicStart)
      (posAt 0 5) (1, 4) (by decide) (by decide),
    playable_cells_invariant.2.2.1 true (posAt 2 5) Valid_Kill.fresh lodicSingle .r_h
      (by decide) (by decide)⟩

/-! ## Per-rank counts of the player's chain and recursion depth -/

/-- The counts in which a step of the player's chain recurses, rank by rank. -/
theorem killStep_ranks (G : Globals) (pos : Position) (lodic : Lodic) (d : Dir) :
    menOf (!G.player_is_white) (killStep G pos lodic d).1.game_state =
        menOf (!G.player_is_white) G.game_state -
          (if lodic.rd (pos.y_8 + d.dy) (pos.x_8 + d.dx) = '1' then 1 else 0) ∧
    kingsOf (!G.player_is_white) (killStep G pos lodic d).1.game_state =
        kingsOf (!G.player_is_white) G.game_state -
          (if lodic.rd (pos.y_8 + d.dy) (pos.x_8 + d.dx) = '3' then 1 else 0) ∧
    menOf G.player_is_white (killStep G pos lodic d).1.game_state =
        menOf G.player_is_white G.game_state ∧
    kingsOf G.player_is_white (killStep G pos lodic d).1.game_state =
        kingsOf G.player_is_white G.game_state := by
  simp only [killStep, kill_block]
  unfold menOf kingsOf
  by_cases h1 : lodic.rd (pos.y_8 + d.dy) (pos.x_8 + d.dx) = '1'
  · have h3 : ¬ lodic.rd (pos.y_8 + d.dy) (pos.x_8 + d.dx) = '3' := by rw [h1]; decide
    rw [if_pos h1, if_pos h1, if_neg h3]
    cases G.player_is_white <;> simp
  · by_cases h3 : lodic.rd (pos.y_8 + d.dy) (pos.x_8 + d.dx) = '3'
    · rw [if_neg h1, if_neg h1, if_pos h3, if_pos h3]
      cases G.player_is_white <;> simp
    · rw [if_neg h1, if_neg h1, if_neg h3, if_neg h3]
      cases G.player_is_white <;> simp

/-- Relation between the start of a chain and one of its outcomes, rank by
rank. -/
theorem chainNews_ranks (w : Bool) (fuel : Nat) (G : Globals) (pos : Position)
    (lodic : Lodic) (news : List Outcome) (h : chainNews fuel G pos lodic = some news)
    (hw : G.player_is_white = w) :
    ∀ o ∈ news,
      menOf (!w) o.game_state + (countCells (fun c => c = '1') lodic : Int) =
        menOf (!w) G.game_state + (countCells (fun c => c = '1') o.lodic : Int) ∧
      kingsOf (!w) o.game_state + (countCells (fun c => c = '3') lodic : Int) =
        kingsOf (!w) G.game_state + (countCells (fun c => c = '3') o.lodic : Int) ∧
      menOf w o.game_state = menOf w G.game_state ∧
      kingsOf w o.game_state = kingsOf w G.game_state ∧
      (G.is_player_turn = true →
        countCells (fun c => c = '2') o.lodic = countCells (fun c => c = '2') lodic ∧
        countCells (fun c => c = '4') o.lodic = countCells (fun c => c = '4') lodic) := by
  intro o ho
  refine chainNews_forall
    (fun G pos lodic o => G.player_is_white = w →
      menOf (!w) o.game_state + (countCells (fun c => c = '1') lodic : Int) =
        menOf (!w) G.game_state + (countCells (fun c => c = '1') o.lodic : Int) ∧
      kingsOf (!w) o.game_state + (countCells (fun c => c = '3') lodic : Int) =
        kingsOf (!w) G.game_state + (countCells (fun c => c = '3') o.lodic : Int) ∧
      menOf w o.game_state = menOf w G.game_state ∧
      kingsOf w o.game_state = kingsOf w G.game_state ∧
      (G.is_player_turn = true →
        countCells (fun c => c = '2') o.lodic = countCells (fun c => c = '2') lodic ∧
        countCells (fun c => c = '4') o.lodic = countCells (fun c => c = '4') lodic))
    ?_ ?_ fuel G pos lodic news h o ho hw
  · intro G pos lodic _ _
    exact ⟨rfl, rfl, rfl, rfl, fun _ => ⟨rfl, rfl⟩⟩
  · intro G pos lodic d o hf ih hw
    obtain ⟨t1, t2, _, _⟩ := killStep_turn G pos lodic d
    obtain ⟨a1, a2, a3, a4, a5⟩ := ih (by rw [t2, hw])
    obtain ⟨r1, r2, r3, r4⟩ := killStep_ranks G pos lodic d
    rw [hw] at r1 r2 r3 r4
    have c1 := killStep_countCells (fun c => c = '1') (by decide) G pos lodic d hf
    have c3 := killStep_countCells (fun c => c = '3') (by decide) G pos lodic d hf
    have c2 := killStep_countCells (fun c => c = '2') (by decide) G pos lodic d hf
    have c4 := killStep_countCells (fun c => c = '4') (by decide) G pos lodic d hf
    simp only at c1 c2 c3 c4
    refine ⟨?_, ?_, by rw [a3, r3], by rw [a4, r4], ?_⟩
    · rw [r1] at a1
      split_ifs at a1 c1 <;> omega
    · rw [r2] at a2
      split_ifs at a2 c3 <;> omega
    · intro ht
      obtain ⟨b2, b4⟩ := a5 (by rw [t1, ht])
      obtain ⟨_, _, _, hek, _, _⟩ := gvk_flag_cells _ _ _ _ _ hf
      rw [ht] at hek
      have hek' : lodic.rd (pos.y_8 + d.dy) (pos.x_8 + d.dx) = '1' ∨
          lodic.rd (pos.y_8 + d.dy) (pos.x_8 + d.dx) = '3' := hek
      have n2 : ¬ lodic.rd (pos.y_8 + d.dy) (pos.x_8 + d.dx) = '2' := by
        rcases hek' with e | e <;> rw [e] <;> decide
      have n4 : ¬ lodic.rd (pos.y_8 + d.dy) (pos.x_8 + d.dx) = '4' := by
        rcases hek' with e | e <;> rw [e] <;> decide
      rw [if_neg n2] at c2
      rw [if_neg n4] at c4
      exact ⟨by omega, by omega⟩

/-- No marker other than `'0'` becomes more frequent along a chain. -/
theorem chainNews_count_le (p : Char → Prop) [DecidablePred p] (hp0 : ¬ p '0') (fuel : Nat)
    (G : Globals) (pos : Position) (lodic : Lodic) (news : List Outcome)
    (h : chainNews fuel G pos lodic = some news) :
    ∀ o ∈ news, countCells p o.lodic ≤ countCells p lodic := by
  intro o ho
  refine chainNews_forall (fun _ _ lodic o => countCells p o.lodic ≤ countCells p lodic)
    ?_ ?_ fuel G pos lodic news h o ho
  · intro _ _ lodic _
    exact le_refl _
  · intro G pos lodic d o hf ih
    have c := killStep_countCells p hp0 G pos lodic d hf
    have ih' : countCells p o.lodic ≤ countCells p (killStep G pos lodic d).2.2 := ih
    omega

/-- C30. The player's chain explorer keeps the per-rank census: for every
board and counts on the player's turn, `calculate_kill_moves` returns, and in
every outcome it records the computer colour's man count is lower than at the
start by exactly the number of `'1'` cells removed from the board and its king
count by exactly the number of `'3'` cells removed (computer colour = black
when the player is white, white otherwise), the player's colour counts are
unchanged, and the number of `'2'` cells and of `'4'` cells on the board is
unchanged. -/
theorem calculate_kill_moves_rank_census (G : Globals) (pos : Position) (lodic : Lodic)
    (buf : List Outcome) (ht : G.is_player_turn = true) :
    ∃ news, calculate_kill_moves chainFuel G pos lodic buf = some (G, buf ++ news) ∧
      news ≠ [] ∧
      ∀ o ∈ news,
        menOf (!G.player_is_white) o.game_state =
          menOf (!G.player_is_white) G.game_state -
            ((countCells (fun c => c = '1') lodic : Int) -
              (countCells (fun c => c = '1') o.lodic : Int)) ∧
        kingsOf (!G.player_is_white) o.game_state =
          kingsOf (!G.player_is_white) G.game_state -
            ((countCells (fun c => c = '3') lodic : Int) -
              (countCells (fun c => c = '3') o.lodic : Int)) ∧
        countCells (fun c => c = '1') o.lodic ≤ countCells (fun c => c = '1') lodic ∧
        countCells (fun c => c = '3') o.lodic ≤ countCells (fun c => c = '3') lodic ∧
        menOf G.player_is_white o.game_state = menOf G.player_is_white G.game_state ∧
        kingsOf G.player_is_white o.game_state = kingsOf G.player_is_white G.game_state ∧
        countCells (fun c => c = '2') o.lodic = countCells (fun c => c = '2') lodic ∧
        countCells (fun c => c = '4') o.lodic = countCells (fun c => c = '4') lodic := by
  obtain ⟨news, h1, h2, h3⟩ := calculate_kill_moves_some G pos lodic buf
  refine ⟨news, h3, h2, ?_⟩
  intro o ho
  obtain ⟨a1, a2, a3, a4, a5⟩ := chainNews_ranks G.player_is_white chainFuel G pos lodic news h1
    rfl o ho
  obtain ⟨b2, b4⟩ := a5 ht
  have l1 := chainNews_count_le (fun c => c = '1') (by decide) chainFuel G pos lodic news h1 o ho
  have l3 := chainNews_count_le (fun c => c = '3') (by decide) chainFuel G pos lodic news h1 o ho
  refine ⟨by omega, by omega, l1, l3, a3, a4, b2, b4⟩

/-- Witness of C30 on `lodicDouble`: the chain from C3 removes the two
computer men, and the single outcome has the black man count 2 lowered to 0
with the player's counts unchanged. -/
theorem calculate_kill_moves_rank_census_witness :
    stateDouble.is_player_turn = true ∧
    (calculate_kill_moves chainFuel stateDouble (posAt 2 5) lodicDouble []).map
      (fun r => r.2.map fun o => (o.game_state, countCells (fun c => c = '1') o.lodic)) =
      some [(⟨1, 0, 0, 0⟩, 0)] ∧
    ∃ news, calculate_kill_moves chainFuel stateDouble (posAt 2 5) lodicDouble [] =
        some (stateDouble, [] ++ news) ∧
      news ≠ [] ∧
      ∀ o ∈ news,
        menOf (!stateDouble.player_is_white) o.game_state =
          menOf (!stateDouble.player_is_white) stateDouble.game_state -
            ((countCells (fun c => c = '1') lodicDouble : Int) -
              (countCells (fun c => c = '1') o.lodic : Int)) ∧
        kingsOf (!stateDouble.player_is_white) o.game_state =
          kingsOf (!stateDouble.player_is_white) stateDouble.game_state -
            ((countCells (fun c => c = '3') lodicDouble : Int) -
              (countCells (fun c => c = '3') o.lodic : Int)) ∧
        countCells (fun c => c = '1') o.lodic ≤ countCells (fun c => c = '1') lodicDouble ∧
        countCells (fun c => c = '3') o.lodic ≤ countCells (fun c => c = '3') lodicDouble ∧
        menOf stateDouble.player_is_white o.game_state =
          menOf stateDouble.player_is_white stateDouble.game_state ∧
        kingsOf stateDouble.player_is_white o.game_state =
          kingsOf stateDouble.player_is_white stateDouble.game_state ∧
        countCells (fun c => c = '2') o.lodic = countCells (fun c => c = '2') lodicDouble ∧
        countCells (fun c => c = '4') o.lodic = countCells (fun c => c = '4') lodicDouble :=
  ⟨by decide, by decide,
    calculate_kill_moves_rank_census stateDouble (posAt 2 5) lodicDouble [] (by decide)⟩

/-- On the computer's turn a step of the chain of a computer piece removes
exactly one player piece. -/
theorem bestStep_enemy_eq (G : Globals) (pos : Position) (lodic : Lodic) (d : Dir)
    (ht : G.is_player_turn = false) (hp : computerPiece (lodic.rd pos.y_8 pos.x_8))
    (hf : (get_valid_kill false pos Valid_Kill.fresh lodic).2.flag d = true) :
    enemyCount false (bestStep G pos lodic d).2.2 + 1 = enemyCount false lodic ∧
      computerPiece ((bestStep G pos lodic d).2.2.rd (bestStep G pos lodic d).2.1.y_8
        (bestStep G pos lodic d).2.1.x_8) := by
  have hc := bestStep_count G false pos lodic d hf
  have hl := bestStep_landing_false G pos lodic d ht hf
  have hl' : computerPiece ((bestStep G pos lodic d).2.2.rd (pos.y_8 + 2 * d.dy)
      (pos.x_8 + 2 * d.dx)) := hl
  have n1 : ¬ isEnemy false (lodic.rd pos.y_8 pos.x_8) := computerPiece_not_player _ hp
  have n2 : ¬ isEnemy false ((bestStep G pos lodic d).2.2.rd (pos.y_8 + 2 * d.dy)
      (pos.x_8 + 2 * d.dx)) := computerPiece_not_player _ hl'
  rw [if_neg n1, if_neg n2] at hc
  obtain ⟨p1, p2, _⟩ := bestStep_pos G pos lodic d
  refine ⟨by omega, ?_⟩
  rw [p1, p2]
  exact hl'

/-- `get_best_sequent_kills` from a computer piece on the computer's turn
returns within a recursion bound of one more than the number of player
pieces. -/
theorem get_best_sequent_kills_depth (fuel : Nat) (G : Globals) (pos : Position)
    (lodic : Lodic) (best : Best) (ht : G.is_player_turn = false)
    (hp : computerPiece (lodic.rd pos.y_8 pos.x_8))
    (hfuel : enemyCount false lodic + 1 ≤ fuel) :
    ∃ r, get_best_sequent_kills fuel G pos
        (get_valid_kill false pos Valid_Kill.fresh lodic).2
        (get_valid_kill false pos Valid_Kill.fresh lodic).1 best lodic = some r := by
  have n1 : ¬ isEnemy G.is_player_turn (lodic.rd pos.y_8 pos.x_8) := by
    rw [ht]
    exact computerPiece_not_player _ hp
  obtain ⟨r, hr, _⟩ := properLeaves_total fuel G pos lodic (by
    rw [if_neg n1, ht]
    omega)
  unfold properLeaves at hr
  rw [ht] at hr
  rw [get_best_sequent_kills_eq, hr]
  exact ⟨_, rfl⟩

/-- `calculate_kill_moves` returns within a recursion bound of one more than
the number of enemy pieces. -/
theorem calculate_kill_moves_depth (fuel : Nat) (G : Globals) (pos : Position)
    (lodic : Lodic) (buf : List Outcome)
    (hfuel : enemyCount G.is_player_turn lodic + 1 ≤ fuel) :
    ∃ news, calculate_kill_moves fuel G pos lodic buf = some (G, buf ++ news) ∧ news ≠ [] := by
  obtain ⟨n, hn, hne⟩ := chainNews_total fuel G pos lodic (by omega)
  rw [calculate_kill_moves_eq, hn]
  exact ⟨n, rfl, hne⟩

/-- C28. The capture-chain recursions terminate on every 8x8 board.  Each
recursive call of `calculate_kill_moves` is made on a board with exactly one
enemy piece fewer, and so is each recursive call of `get_best_sequent_kills`
in a chain of a computer piece on the computer's turn (the landing cell again
holding a computer piece).  The recursion depth therefore never exceeds the
number of enemy pieces on the starting board: both functions return when
their nesting is limited to that number (recursion bound one more), in
particular to 12 when the board holds at most 12 enemy pieces. -/
theorem chain_recursion_depth :
    (∀ (G : Globals) (pos : Position) (lodic : Lodic) (d : Dir),
      (get_valid_kill G.is_player_turn pos Valid_Kill.fresh lodic).2.flag d = true →
      enemyCount G.is_player_turn (killStep G pos lodic d).2.2 + 1 =
        enemyCount G.is_player_turn lodic) ∧
    (∀ (G : Globals) (pos : Position) (lodic : Lodic) (buf : List Outcome),
      ∃ news, calculate_kill_moves (enemyCount G.is_player_turn lodic + 1) G pos lodic buf =
        some (G, buf ++ news) ∧ news ≠ []) ∧
    (∀ (G : Globals) (pos : Position) (lodic : Lodic) (buf : List Outcome),
      enemyCount G.is_player_turn lodic ≤ 12 →
      ∃ news, calculate_kill_moves 13 G pos lodic buf = some (G, buf ++ news) ∧ news ≠ []) ∧
    (∀ (G : Globals) (pos : Position) (lodic : Lodic) (d : Dir),
      G.is_player_turn = false → computerPiece (lodic.rd pos.y_8 pos.x_8) →
      (get_valid_kill false pos Valid_Kill.fresh lodic).2.flag d = true →
      enemyCount false (bestStep G pos lodic d).2.2 + 1 = enemyCount false lodic ∧
      computerPiece ((bestStep G pos lodic d).2.2.rd (bestStep G pos lodic d).2.1.y_8
        (bestStep G pos lodic d).2.1.x_8)) ∧
    (∀ (G : Globals) (pos : Position) (lodic : Lodic) (best : Best),
      G.is_player_turn = false → computerPiece (lodic.rd pos.y_8 pos.x_8) →
      ∃ r, get_best_sequent_kills (enemyCount false lodic + 1) G pos
        (get_valid_kill false pos Valid_Kill.fresh lodic).2
        (get_valid_kill false pos Valid_Kill.fresh lodic).1 best lodic = some r) ∧
    (∀ (G : Globals) (pos : Position) (lodic : Lodic) (best : Best),
      G.is_player_turn = false → computerPiece (lodic.rd pos.y_8 pos.x_8) →
      enemyCount false lodic ≤ 12 →
      ∃ r, get_best_sequent_kills 13 G pos
        (get_valid_kill false pos Valid_Kill.fresh lodic).2
        (get_valid_kill false pos Valid_Kill.fresh lodic).1 best lodic = some r) := by
  refine ⟨?_, ?_, ?_, ?_, ?_, ?_⟩
  · intro G pos lodic d hf
    exact killStep_enemyCount G pos lodic d hf
  · intro G pos lodic buf
    exact calculate_kill_moves_depth _ G pos lodic buf (le_refl _)
  · intro G pos lodic buf h12
    exact calculate_kill_moves_depth 13 G pos lodic buf (by omega)
  · intro G pos lodic d ht hp hf
    exact bestStep_enemy_eq G pos lodic d ht hp hf
  · intro G pos lodic best ht hp
    exact get_best_sequent_kills_depth _ G pos lodic best ht hp (le_refl _)
  · intro G pos lodic best ht hp h12
    exact get_best_sequent_kills_depth 13 G pos lodic best ht hp (by omega)

/-- Witness of C28: on `lodicDouble` (two enemy pieces) the player's chain from
C3 returns with nesting 2; on `lodicComp` (two player pieces) the computer's
search from D6 returns with nesting 2. -/
theorem chain_recursion_depth_witness :
    enemyCount true lodicDouble = 2 ∧
    (calculate_kill_moves 3 stateDouble (posAt 2 5) lodicDouble []).map
      (fun r => r.2.length) = some 1 ∧
    (calculate_kill_moves 2 stateDouble (posAt 2 5) lodicDouble []).map
      (fun r => r.2.length) = none ∧
    (∃ news, calculate_kill_moves (enemyCount stateDouble.is_player_turn lodicDouble + 1)
        stateDouble (posAt 2 5) lodicDouble [] = some (stateDouble, [] ++ news) ∧ news ≠ []) ∧
    enemyCount false lodicComp = 2 ∧
    ∃ r, get_best_sequent_kills (enemyCount false lodicComp + 1) stateComp (posAt 3 2)
      (get_valid_kill false (posAt 3 2) Valid_Kill.fresh lodicComp).2
      (get_valid_kill false (posAt 3 2) Valid_Kill.fresh lodicComp).1
      ⟨-1, junkLodic, junkCounts⟩ lodicComp = some r :=
  ⟨by decide, by decide, by decide,
    chain_recursion_depth.2.1 stateDouble (posAt 2 5) lodicDouble [],
    by decide,
    chain_recursion_depth.2.2.2.2.1 stateComp (posAt 3 2) lodicComp ⟨-1, junkLodic, junkCounts⟩
      (by decide) (by decide)⟩

/-! ## Number of outcomes of the player's chain -/

theorem Dir.opp_dx (d : Dir) : d.opp.dx = - d.dx := by cases d <;> rfl

theorem Dir.opp_dy (d : Dir) : d.opp.dy = - d.dy := by cases d <;> rfl

/-- After a capture in direction `d` no capture is available back in the
opposite direction: the cell just jumped over is empty. -/
theorem killStep_opp (G : Globals) (pos : Position) (lodic : Lodic) (d : Dir)
    (hf : (get_valid_kill G.is_player_turn pos Valid_Kill.fresh lodic).2.flag d = true) :
    (get_valid_kill G.is_player_turn (killStep G pos lodic d).2.1 Valid_Kill.fresh
      (killStep G pos lodic d).2.2).2.flag d.opp = false := by
  by_contra hn
  rw [Bool.not_eq_false] at hn
  obtain ⟨_, _, _, hek, _, _⟩ := gvk_flag_cells _ _ _ _ _ hn
  obtain ⟨_, _, p1, p2⟩ := killStep_turn G pos lodic d
  rw [p1, p2, Dir.opp_dx, Dir.opp_dy, killStep_rd G pos lodic d hf] at hek
  have hdx := d.dx_cases
  have hdy := d.dy_cases
  have n1 : ¬ (pos.y_8 + 2 * d.dy + -d.dy = pos.y_8 ∧ pos.x_8 + 2 * d.dx + -d.dx = pos.x_8) := by
    omega
  have n2 : ¬ (pos.y_8 + 2 * d.dy + -d.dy = pos.y_8 + 2 * d.dy ∧
      pos.x_8 + 2 * d.dx + -d.dx = pos.x_8 + 2 * d.dx) := by omega
  have n3 : pos.y_8 + 2 * d.dy + -d.dy = pos.y_8 + d.dy ∧
      pos.x_8 + 2 * d.dx + -d.dx = pos.x_8 + d.dx := by omega
  rw [if_neg n1, if_neg n2, if_pos n3] at hek
  exact not_isEnemy_zero _ hek

theorem subNews_eq (fuel : Nat) (G : Globals) (pos : Position) (lodic : Lodic) (d : Dir) :
    subNews fuel G pos lodic d =
      if (get_valid_kill G.is_player_turn pos Valid_Kill.fresh lodic).2.flag d then
        chainNews fuel (killStep G pos lodic d).1 (killStep G pos lodic d).2.1
          (killStep G pos lodic d).2.2
      else some [] := rfl

/-- Below the first capture every node has at most three capture directions,
so the outcomes under it number at most `3 ^ k` for `k` enemy pieces. -/
theorem chainNews_length_inner (fuel : Nat) :
    ∀ (G : Globals) (pos : Position) (lodic : Lodic) (news : List Outcome),
      chainNews fuel G pos lodic = some news →
      (∃ d, (get_valid_kill G.is_player_turn pos Valid_Kill.fresh lodic).2.flag d = false) →
      news.length ≤ 3 ^ enemyCount G.is_player_turn lodic := by
  induction fuel with
  | zero => intro G pos lodic news h; simp [chainNews] at h
  | succ fuel ih =>
    intro G pos lodic news h hblk
    by_cases h0 : (get_valid_kill G.is_player_turn pos Valid_Kill.fresh lodic).1 = 0
    · rw [chainNews_leaf fuel G pos lodic h0] at h
      simp only [Option.some.injEq] at h
      subst h
      exact Nat.one_le_pow _ _ (by decide)
    · obtain ⟨n1, n2, n3, n4, s1, s2, s3, s4, rfl⟩ := (chainNews_node fuel G pos lodic news h0).mp h
      have sub : ∀ (d : Dir) (nd : List Outcome), subNews fuel G pos lodic d = some nd →
          (get_valid_kill G.is_player_turn pos Valid_Kill.fresh lodic).2.flag d = true ∧
            1 ≤ enemyCount G.is_player_turn lodic ∧
            nd.length ≤ 3 ^ (enemyCount G.is_player_turn lodic - 1) ∨
          (get_valid_kill G.is_player_turn pos Valid_Kill.fresh lodic).2.flag d = false ∧
            nd.length = 0 := by
        intro d nd hs
        rw [subNews_eq] at hs
        by_cases hf : (get_valid_kill G.is_player_turn pos Valid_Kill.fresh lodic).2.flag d = true
        · rw [if_pos hf] at hs
          left
          have hc := killStep_enemyCount G pos lodic d hf
          obtain ⟨t1, _, _, _⟩ := killStep_turn G pos lodic d
          have := ih _ _ _ nd hs ⟨d.opp, by rw [t1]; exact killStep_opp G pos lodic d hf⟩
          rw [t1] at this
          have e : enemyCount G.is_player_turn lodic - 1 =
              enemyCount G.is_player_turn (killStep G pos lodic d).2.2 := by omega
          rw [e]
          exact ⟨hf, by omega, this⟩
        · rw [if_neg hf] at hs
          simp only [Option.some.injEq] at hs
          subst hs
          right
          exact ⟨by simpa using hf, rfl⟩
      obtain ⟨d0, hd0⟩ := hblk
      have b1 := sub .l_h n1 s1
      have b2 := sub .r_h n2 s2
      have b3 := sub .l_s n3 s3
      have b4 := sub .r_s n4 s4
      obtain ⟨dk, hdk⟩ := gvk_count_ne_zero _ _ _ _ h0
      have hpos : 1 ≤ enemyCount G.is_player_turn lodic := by
        have := killStep_enemyCount G pos lodic dk hdk
        omega
      have hpow : 3 ^ enemyCount G.is_player_turn lodic =
          3 * 3 ^ (enemyCount G.is_player_turn lodic - 1) := by
        conv_lhs => rw [← Nat.sub_add_cancel hpos]
        rw [pow_succ]
        ring
      rw [hpow]
      simp only [List.length_append]
      cases d0 <;> rcases b1 with ⟨f1, _, b1⟩ | ⟨f1, b1⟩ <;>
        rcases b2 with ⟨f2, _, b2⟩ | ⟨f2, b2⟩ <;>
        rcases b3 with ⟨f3, _, b3⟩ | ⟨f3, b3⟩ <;>
        rcases b4 with ⟨f4, _, b4⟩ | ⟨f4, b4⟩ <;>
        first
          | omega
          | (exfalso; rw [hd0] at f1; exact Bool.false_ne_true f1)
          | (exfalso; rw [hd0] at f2; exact Bool.false_ne_true f2)
          | (exfalso; rw [hd0] at f3; exact Bool.false_ne_true f3)
          | (exfalso; rw [hd0] at f4; exact Bool.false_ne_true f4)

/-- The outcomes of a chain number at most `4 * 3 ^ (k - 1)` for `k` enemy
pieces on the board. -/
theorem chainNews_length (fuel : Nat) (G : Globals) (pos : Position) (lodic : Lodic)
    (news : List Outcome) (h : chainNews fuel G pos lodic = some news) :
    news.length ≤ 4 * 3 ^ (enemyCount G.is_player_turn lodic - 1) := by
  cases fuel with
  | zero => simp [chainNews] at h
  | succ fuel =>
    by_cases h0 : (get_valid_kill G.is_player_turn pos Valid_Kill.fresh lodic).1 = 0
    · rw [chainNews_leaf fuel G pos lodic h0] at h
      simp only [Option.some.injEq] at h
      subst h
      have := Nat.one_le_pow (enemyCount G.is_player_turn lodic - 1) 3 (by decide)
      simp only [List.length_singleton]
      omega
    · obtain ⟨n1, n2, n3, n4, s1, s2, s3, s4, rfl⟩ := (chainNews_node fuel G pos lodic news h0).mp h
      have sub : ∀ (d : Dir) (nd : List Outcome), subNews fuel G pos lodic d = some nd →
          nd.length ≤ 3 ^ (enemyCount G.is_player_turn lodic - 1) := by
        intro d nd hs
        rw [subNews_eq] at hs
        by_cases hf : (get_valid_kill G.is_player_turn pos Valid_Kill.fresh lodic).2.flag d = true
        · rw [if_pos hf] at hs
          have hc := killStep_enemyCount G pos lodic d hf
          obtain ⟨t1, _, _, _⟩ := killStep_turn G pos lodic d
          have := chainNews_length_inner fuel _ _ _ nd hs
            ⟨d.opp, by rw [t1]; exact killStep_opp G pos lodic d hf⟩
          rw [t1] at this
          have e : enemyCount G.is_player_turn lodic - 1 =
              enemyCount G.is_player_turn (killStep G pos lodic d).2.2 := by omega
          rw [e]
          exact this
        · rw [if_neg hf] at hs
          simp only [Option.some.injEq] at hs
          subst hs
          exact Nat.zero_le _
      have b1 := sub .l_h n1 s1
      have b2 := sub .r_h n2 s2
      have b3 := sub .l_s n3 s3
      have b4 := sub .r_s n4 s4
      simp only [List.length_append]
      omega

/-- The number of outcomes recorded on `lodicNet`. -/
theorem calculate_kill_moves_stateNet :
    (calculate_kill_moves chainFuel stateNet (posAt 2 3) lodicNet []).map
      (fun r => r.2.length) = some 16 := by
  decide

/-- The number of outcomes `calculate_kill_moves` records for one piece is at
least 1 and at most `4 * 3 ^ (k - 1)`, `k` being the number of enemy pieces on
the board. -/
theorem calculate_kill_moves_outcomes_le (G : Globals) (pos : Position) (lodic : Lodic)
    (buf : List Outcome) :
    ∃ news, calculate_kill_moves chainFuel G pos lodic buf = some (G, buf ++ news) ∧
      1 ≤ news.length ∧
      news.length ≤ 4 * 3 ^ (enemyCount G.is_player_turn lodic - 1) ∧
      (enemyCount G.is_player_turn lodic ≤ 12 → news.length ≤ 4 * 3 ^ 11) := by
  obtain ⟨news, h1, h2, h3⟩ := calculate_kill_moves_some G pos lodic buf
  have hl := chainNews_length chainFuel G pos lodic news h1
  refine ⟨news, h3, length_pos_of_ne_nil news h2, hl, fun h12 => ?_⟩
  have : 3 ^ (enemyCount G.is_player_turn lodic - 1) ≤ 3 ^ 11 :=
    Nat.pow_le_pow_right (by decide) (by omega)
  omega

/-! ## Roll-back of the speculative search and order of the candidates -/

/-- One direction block of the proper walk: the globals it starts from carry
the entry counts, and what it adds to the list of terminal nodes. -/
theorem leaf_branch_step (fuel : Nat) (G : Globals) (pos : Position) (lodic : Lodic) (d : Dir)
    (x y : Globals × List Leaf)
    (hx : sameFlags G x.1 ∧ x.1.game_state = G.game_state)
    (hb : leaf_branch (captureLeaves fuel)
      ((get_valid_kill G.is_player_turn pos Valid_Kill.fresh lodic).2.flag d)
      (pos.y_8 + d.dy) (pos.x_8 + d.dx)
      ((get_valid_kill G.is_player_turn pos Valid_Kill.fresh lodic).2.land_y d)
      ((get_valid_kill G.is_player_turn pos Valid_Kill.fresh lodic).2.land_x d)
      pos lodic G.game_state x = some y) :
    (sameFlags G y.1 ∧ y.1.game_state = G.game_state) ∧
    ∃ sub, y.2 = x.2 ++ sub ∧
      ((get_valid_kill G.is_player_turn pos Valid_Kill.fresh lodic).2.flag d = true →
        ∃ r', properLeaves fuel (bestStep x.1 pos lodic d).1 (bestStep x.1 pos lodic d).2.1
          (bestStep x.1 pos lodic d).2.2 = some r' ∧ sub = r'.2) ∧
      ((get_valid_kill G.is_player_turn pos Valid_Kill.fresh lodic).2.flag d = false →
        sub = []) := by
  have hrec : ∀ G pos vks n lodic r, captureLeaves fuel G pos vks n lodic = some r →
      sameFlags G r.1 := fun G pos vks n lodic r hh =>
    (captureLeaves_flags fuel G pos vks n lodic r hh).1
  refine ⟨leaf_branch_flags _ hrec _ _ _ _ _ _ _ _ G x y hx hb, ?_⟩
  rw [leaf_branch_properLeaves fuel G pos lodic d _ x hx.1.1] at hb
  by_cases hf : (get_valid_kill G.is_player_turn pos Valid_Kill.fresh lodic).2.flag d = true
  · rw [if_pos hf] at hb
    simp only [Option.map_eq_some'] at hb
    obtain ⟨r', hr', rfl⟩ := hb
    exact ⟨r'.2, rfl, fun _ => ⟨r', hr', rfl⟩, fun hn => by rw [hf] at hn; cases hn⟩
  · rw [if_neg hf] at hb
    simp only [Option.some.injEq] at hb
    subst hb
    exact ⟨[], by simp, fun h => absurd h hf, fun _ => rfl⟩

theorem bind4_split {α : Type} (f1 f2 f3 f4 : α → Option α) (a r : α)
    (h : (((f1 a).bind f2).bind f3).bind f4 = some r) :
    ∃ a1 a2 a3, f1 a = some a1 ∧ f2 a1 = some a2 ∧ f3 a2 = some a3 ∧ f4 a3 = some r := by
  cases e1 : f1 a with
  | none => rw [e1] at h; simp at h
  | some a1 =>
    rw [e1] at h
    simp only [Option.some_bind] at h
    cases e2 : f2 a1 with
    | none => rw [e2] at h; simp at h
    | some a2 =>
      rw [e2] at h
      simp only [Option.some_bind] at h
      cases e3 : f3 a2 with
      | none => rw [e3] at h; simp at h
      | some a3 =>
        rw [e3] at h
        simp only [Option.some_bind] at h
        exact ⟨a1, a2, a3, rfl, e2, e3, h⟩

/-- At a node of the proper walk the terminal nodes are those of the four
direction blocks, in the order left-up, right-up, left-down, right-down; the
block of each direction starts from globals that carry the counts and the
board of the entry. -/
theorem properLeaves_node (fuel : Nat) (G : Globals) (pos : Position) (lodic : Lodic)
    (r : Globals × List Leaf)
    (h0 : (get_valid_kill G.is_player_turn pos Valid_Kill.fresh lodic).1 ≠ 0)
    (h : properLeaves (fuel + 1) G pos lodic = some r) :
    ∃ (Gd : Dir → Globals) (sub : Dir → List Leaf),
      r.2 = sub .l_h ++ sub .r_h ++ sub .l_s ++ sub .r_s ∧
      ∀ d, (sameFlags G (Gd d) ∧ (Gd d).game_state = G.game_state) ∧
        ((get_valid_kill G.is_player_turn pos Valid_Kill.fresh lodic).2.flag d = true →
          ∃ r', properLeaves fuel (bestStep (Gd d) pos lodic d).1
            (bestStep (Gd d) pos lodic d).2.1 (bestStep (Gd d) pos lodic d).2.2 = some r' ∧
            sub d = r'.2) ∧
        ((get_valid_kill G.is_player_turn pos Valid_Kill.fresh lodic).2.flag d = false →
          sub d = []) := by
  unfold properLeaves at h
  rw [captureLeaves_succ, if_neg h0] at h
  obtain ⟨a1, a2, a3, e1, e2, e3, e4⟩ := bind4_split _ _ _ _ _ _ h
  have i0 : sameFlags G (G, ([] : List Leaf)).1 ∧ (G, ([] : List Leaf)).1.game_state =
      G.game_state := ⟨⟨rfl, rfl, rfl⟩, rfl⟩
  obtain ⟨i1, s1, q1, p1, z1⟩ := leaf_branch_step fuel G pos lodic .l_h _ _ i0 e1
  obtain ⟨i2, s2, q2, p2, z2⟩ := leaf_branch_step fuel G pos lodic .r_h _ _ i1 e2
  obtain ⟨i3, s3, q3, p3, z3⟩ := leaf_branch_step fuel G pos lodic .l_s _ _ i2 e3
  obtain ⟨_, s4, q4, p4, z4⟩ := leaf_branch_step fuel G pos lodic .r_s _ _ i3 e4
  refine ⟨fun d => match d with
      | .l_h => G
      | .r_h => a1.1
      | .l_s => a2.1
      | .r_s => a3.1,
    fun d => match d with
      | .l_h => s1
      | .r_h => s2
      | .l_s => s3
      | .r_s => s4, ?_, ?_⟩
  · simp only [q4, q3, q2, q1, List.nil_append]
  · intro d
    cases d
    · exact ⟨i0, p1, z1⟩
    · exact ⟨i1, p2, z2⟩
    · exact ⟨i2, p3, z3⟩
    · exact ⟨i3, p4, z4⟩

/-- `get_best_sequent_kills` returns the globals with the counts, the board
and the flags of the entry. -/
theorem get_best_sequent_kills_globals (fuel : Nat) (G : Globals) (pos : Position)
    (vks : Valid_Kill) (n : Int) (best : Best) (lodic : Lodic) (r : Globals × Best)
    (h : get_best_sequent_kills fuel G pos vks n best lodic = some r) :
    r.1.game_state = G.game_state ∧ r.1.lodic = G.lodic ∧
      r.1.is_player_turn = G.is_player_turn ∧ r.1.player_is_white = G.player_is_white := by
  rw [get_best_sequent_kills_eq] at h
  simp only [Option.map_eq_some'] at h
  obtain ⟨r', hr', rfl⟩ := h
  obtain ⟨⟨f1, f2, f3⟩, f4⟩ := captureLeaves_flags fuel _ _ _ _ _ r' hr'
  exact ⟨f4, f3, f1, f2⟩

/-- C22. Speculative search rolls back.  When `calculate_kill_moves` returns
the globals are those of the entry (counts and global board included), and it
returns on every board and starting cell; the recursion of each capture
direction starts from the entry globals with the counts of the entry, changed
only by the decrement for the captured piece.  When `get_best_sequent_kills`
returns, the global counts and the global board are those of the entry; it
returns on every board and starting cell, and at a node the block of each
capture direction starts from globals with the counts and board of the entry.
Both functions write boards only into local copies, which is why the board
argument is passed by value here. -/
theorem speculative_search_rolls_back :
    (∀ (fuel : Nat) (G : Globals) (pos : Position) (lodic : Lodic) (buf : List Outcome)
        (r : Globals × List Outcome),
      calculate_kill_moves fuel G pos lodic buf = some r → r.1 = G) ∧
    (∀ (G : Globals) (pos : Position) (lodic : Lodic) (buf : List Outcome),
      ∃ news, calculate_kill_moves chainFuel G pos lodic buf = some (G, buf ++ news) ∧
        ∀ d, (get_valid_kill G.is_player_turn pos Valid_Kill.fresh lodic).2.flag d = true →
          ({ (killStep G pos lodic d).1 with game_state := G.game_state } : Globals) = G ∧
          ∃ sub, calculate_kill_moves chainFuel (killStep G pos lodic d).1
            (killStep G pos lodic d).2.1 (killStep G pos lodic d).2.2 [] =
            some ((killStep G pos lodic d).1, sub)) ∧
    (∀ (fuel : Nat) (G : Globals) (pos : Position) (vks : Valid_Kill) (n : Int) (best : Best)
        (lodic : Lodic) (r : Globals × Best),
      get_best_sequent_kills fuel G pos vks n best lodic = some r →
      r.1.game_state = G.game_state ∧ r.1.lodic = G.lodic) ∧
    (∀ (G : Globals) (pos : Position) (lodic : Lodic) (best : Best),
      ∃ r leaves, get_best_sequent_kills chainFuel G pos
          (get_valid_kill G.is_player_turn pos Valid_Kill.fresh lodic).2
          (get_valid_kill G.is_player_turn pos Valid_Kill.fresh lodic).1 best lodic = some r ∧
        r.1.game_state = G.game_state ∧ r.1.lodic = G.lodic ∧
        properLeaves chainFuel G pos lodic = some (r.1, leaves) ∧
        r.2 = leaves.foldl (pickBest (!G.player_is_white)) best ∧
        ((get_valid_kill G.is_player_turn pos Valid_Kill.fresh lodic).1 ≠ 0 →
          ∃ (Gd : Dir → Globals) (sub : Dir → List Leaf),
            leaves = sub .l_h ++ sub .r_h ++ sub .l_s ++ sub .r_s ∧
            ∀ d, ((Gd d).game_state = G.game_state ∧ (Gd d).lodic = G.lodic) ∧
              ((get_valid_kill G.is_player_turn pos Valid_Kill.fresh lodic).2.flag d = true →
                ∃ r', properLeaves 64 (bestStep (Gd d) pos lodic d).1
                  (bestStep (Gd d) pos lodic d).2.1 (bestStep (Gd d) pos lodic d).2.2 =
                    some r' ∧ sub d = r'.2) ∧
              ((get_valid_kill G.is_player_turn pos Valid_Kill.fresh lodic).2.flag d = false →
                sub d = []))) := by
  refine ⟨?_, ?_, ?_, ?_⟩
  · intro fuel G pos lodic buf r h
    rw [calculate_kill_moves_eq] at h
    simp only [Option.map_eq_some'] at h
    obtain ⟨n, _, rfl⟩ := h
    rfl
  · intro G pos lodic buf
    obtain ⟨news, _, _, h3⟩ := calculate_kill_moves_some G pos lodic buf
    refine ⟨news, h3, fun d _ => ⟨(kill_block_globals G pos lodic _ _ _ _).1, ?_⟩⟩
    obtain ⟨sub, _, _, h4⟩ := calculate_kill_moves_some (killStep G pos lodic d).1
      (killStep G pos lodic d).2.1 (killStep G pos lodic d).2.2 []
    exact ⟨sub, by simpa using h4⟩
  · intro fuel G pos vks n best lodic r h
    obtain ⟨h1, h2, _, _⟩ := get_best_sequent_kills_globals fuel G pos vks n best lodic r h
    exact ⟨h1, h2⟩
  · intro G pos lodic best
    obtain ⟨r, hr, _⟩ := properLeaves_chainFuel G pos lodic
    have hg : get_best_sequent_kills chainFuel G pos
        (get_valid_kill G.is_player_turn pos Valid_Kill.fresh lodic).2
        (get_valid_kill G.is_player_turn pos Valid_Kill.fresh lodic).1 best lodic =
        some (r.1, r.2.foldl (pickBest (!G.player_is_white)) best) := by
      rw [get_best_sequent_kills_eq]
      unfold properLeaves at hr
      rw [hr]
      rfl
    obtain ⟨g1, g2, _, _⟩ := get_best_sequent_kills_globals _ _ _ _ _ _ _ _ hg
    refine ⟨_, r.2, hg, g1, g2, hr, rfl, fun h0 => ?_⟩
    obtain ⟨Gd, sub, e, hd⟩ := properLeaves_node 64 G pos lodic r h0 hr
    refine ⟨Gd, sub, e, fun d => ?_⟩
    obtain ⟨⟨⟨_, _, a3⟩, a4⟩, a5, a6⟩ := hd d
    exact ⟨⟨a4, a3⟩, a5, a6⟩

/-- Witness of C22: on `stateDouble` the player's chain from C3 returns the
globals of the entry, and on `stateComp` the computer's search from D6
returns them with counts `2/1/0/0` as at entry although its single terminal
node has counts `0/1/0/0`. -/
theorem speculative_search_rolls_back_witness :
    (calculate_kill_moves chainFuel stateDouble (posAt 2 5) lodicDouble []).map
      (fun r => (r.1.game_state, r.2.map fun o => o.game_state)) =
      some (⟨1, 2, 0, 0⟩, [⟨1, 0, 0, 0⟩]) ∧
    (get_best_sequent_kills chainFuel stateComp (posAt 3 2)
      (get_valid_kill false (posAt 3 2) Valid_Kill.fresh lodicComp).2
      (get_valid_kill false (posAt 3 2) Valid_Kill.fresh lodicComp).1
      ⟨-1, junkLodic, junkCounts⟩ lodicComp).map
      (fun r => (r.1.game_state, r.2.best_game_state)) =
      some (⟨2, 1, 0, 0⟩, ⟨0, 1, 0, 0⟩) ∧
    (∀ r, calculate_kill_moves chainFuel stateDouble (posAt 2 5) lodicDouble [] = some r →
      r.1 = stateDouble) ∧
    (∀ r, get_best_sequent_kills chainFuel stateComp (posAt 3 2)
      (get_valid_kill false (posAt 3 2) Valid_Kill.fresh lodicComp).2
      (get_valid_kill false (posAt 3 2) Valid_Kill.fresh lodicComp).1
      ⟨-1, junkLodic, junkCounts⟩ lodicComp = some r →
      r.1.game_state = stateComp.game_state ∧ r.1.lodic = stateComp.lodic) :=
  ⟨by decide, by decide,
    fun r h => speculative_search_rolls_back.1 chainFuel stateDouble (posAt 2 5) lodicDouble []
      r h,
    fun r h => speculative_search_rolls_back.2.2.1 chainFuel stateComp (posAt 3 2) _ _ _
      lodicComp r h⟩

/-- C21 at concrete states.  On `stateKing` the computer's only piece is the
king `'3'` on C5; `computer_move` commits its step to B6 and the landing cell
holds the man `'1'`.  On `stateKingTake` the king on D6 captures the man on
E5; the landing cell F4 of the committed board holds `'1'`, and no `'3'` is
left on either board. -/
theorem computer_move_king_demoted :
    stateKing.is_player_turn = false ∧ stateKing.lodic.rd 3 2 = '3' ∧
    (computer_move junkLodic junkCounts stateKing).map
      (fun r => (r.1, r.2.lodic.rd 3 2, r.2.lodic.rd 2 1,
        countCells (fun c => c = '3') r.2.lodic)) = some (true, '0', '1', 0) ∧
    stateKingTake.is_player_turn = false ∧ stateKingTake.lodic.rd 2 3 = '3' ∧
    (computer_move junkLodic junkCounts stateKingTake).map
      (fun r => (r.1, r.2.lodic.rd 2 3, r.2.lodic.rd 3 4, r.2.lodic.rd 4 5,
        countCells (fun c => c = '3') r.2.lodic, r.2.game_state)) =
      some (true, '0', '0', '1', 0, ⟨0, 0, 0, 1⟩) :=
  ⟨by decide, by decide, by decide, by decide, by decide, by decide⟩
/-! ## Game over, the player's move and the evaluator's reads -/

/-- The result of `check_game_over` in its three cases. -/
theorem check_game_over_cases (gs : GameState) :
    (gs.count_white + gs.count_white_king = 0 → check_game_over gs = (true, [Msg.black_won])) ∧
    (gs.count_white + gs.count_white_king ≠ 0 → gs.count_black + gs.count_black_king = 0 →
      check_game_over gs = (true, [Msg.white_won])) ∧
    (gs.count_white + gs.count_white_king ≠ 0 → gs.count_black + gs.count_black_king ≠ 0 →
      check_game_over gs = (false, [])) := by
  unfold check_game_over
  refine ⟨fun h => ?_, fun h1 h2 => ?_, fun h1 h2 => ?_⟩
  · rw [if_pos h]
  · rw [if_neg h1, if_pos h2]
  · rw [if_neg h1, if_neg h2]

/-- C31. `check_game_over` returns true if and only if the white men and
white kings of the counts struct sum to 0 or the black men and black kings
sum to 0.  It announces a black win when the white total is 0 (also when both
totals are 0) and a white win when only the black total is 0, and prints
nothing otherwise.  It never reports game over because of immobilization: it
reads the counts only, and with both totals non-zero it returns false
whatever the board, for instance on `stateFar`, where the computer to move
has no move (`computer_move` returns false), and on `stateStuck`, where the
player to move has none (`player_move` returns false); the pass of
`play_game` then leaves the loop without a winner being announced. -/
theorem check_game_over_material :
    (∀ gs : GameState, (check_game_over gs).1 = true ↔
      (gs.count_white + gs.count_white_king = 0 ∨
        gs.count_black + gs.count_black_king = 0)) ∧
    (∀ gs : GameState, gs.count_white + gs.count_white_king = 0 →
      check_game_over gs = (true, [Msg.black_won])) ∧
    (∀ gs : GameState, gs.count_white + gs.count_white_king ≠ 0 →
      gs.count_black + gs.count_black_king = 0 →
      check_game_over gs = (true, [Msg.white_won])) ∧
    (∀ G : Globals, G.game_state.count_white + G.game_state.count_white_king ≠ 0 →
      G.game_state.count_black + G.game_state.count_black_king ≠ 0 →
      check_game_over G.game_state = (false, [])) ∧
    ((computer_move junkLodic junkCounts stateFar).map (fun r => r.1) = some false ∧
      check_game_over stateFar.game_state = (false, []) ∧
      (play_game_round junkLodic junkCounts ⟨[], [], []⟩ stateFar).map
        (fun r => (r.1, r.2.2.out)) = some (false, [Msg.turn false])) ∧
    ((player_move ⟨[], [], []⟩ stateStuck).map (fun r => r.1) = some false ∧
      check_game_over stateStuck.game_state = (false, []) ∧
      (play_game_round junkLodic junkCounts ⟨[], [], []⟩ stateStuck).map
        (fun r => (r.1, r.2.2.out)) = some (false, [Msg.turn true, Msg.your_move])) := by
  refine ⟨fun gs => ?_, fun gs h => (check_game_over_cases gs).1 h,
    fun gs h1 h2 => (check_game_over_cases gs).2.1 h1 h2,
    fun G h1 h2 => (check_game_over_cases G.game_state).2.2 h1 h2,
    ⟨by decide, by decide, by decide⟩, ⟨by decide, by decide, by decide⟩⟩
  by_cases h1 : gs.count_white + gs.count_white_king = 0
  · rw [(check_game_over_cases gs).1 h1]
    exact ⟨fun _ => Or.inl h1, fun _ => rfl⟩
  · by_cases h2 : gs.count_black + gs.count_black_king = 0
    · rw [(check_game_over_cases gs).2.1 h1 h2]
      exact ⟨fun _ => Or.inr h2, fun _ => rfl⟩
    · rw [(check_game_over_cases gs).2.2 h1 h2]
      constructor
      · intro h
        exact absurd h (by decide)
      · rintro (h | h)
        · exact absurd h h1
        · exact absurd h h2

/-- Witness of C31: with no white piece left (5 black men) and with no piece
left at all a black win is announced, with 3 white men and a white king
against no black piece a white win, and with one man each nothing. -/
theorem check_game_over_material_witness :
    check_game_over ⟨0, 5, 0, 0⟩ = (true, [Msg.black_won]) ∧
    check_game_over ⟨0, 0, 0, 0⟩ = (true, [Msg.black_won]) ∧
    check_game_over ⟨3, 0, 1, 0⟩ = (true, [Msg.white_won]) ∧
    check_game_over stateFar.game_state = (false, []) :=
  ⟨check_game_over_material.2.1 ⟨0, 5, 0, 0⟩ (by decide),
    check_game_over_material.2.1 ⟨0, 0, 0, 0⟩ (by decide),
    check_game_over_material.2.2.1 ⟨3, 0, 1, 0⟩ (by decide) (by decide),
    check_game_over_material.2.2.2.1 stateFar (by decide) (by decide)⟩

/-- The count returned by `get_valid_moves` does not depend on the previous
contents of `motion`. -/
theorem gvm_count_motion (pos : Position) (m m' : Valid_Hod) (l : Lodic) :
    (get_valid_moves pos m l).1 = (get_valid_moves pos m' l).1 := by
  unfold get_valid_moves
  simp only []
  split_ifs <;> rfl

/-- The plain branch of `player_move` on a piece without a plain move: one
line is printed and the function returns true after `becameQueen`, without
reading a number and without a move. -/
theorem player_move_plain_no_move (G : Globals) (motion : Valid_Hod) (wh : Position)
    (con : Console) (h : (get_valid_moves wh Valid_Hod.fresh G.lodic).1 = 0) :
    player_move_plain G motion wh con =
      some (true,
        { (becameQueen G wh G.lodic).1 with lodic := (becameQueen G wh G.lodic).2 },
        { con with out := con.out ++ [Msg.cannot_move] }) := by
  have h1 : ¬ (get_valid_moves wh (get_valid_moves wh motion G.lodic).2 G.lodic).1 > 0 := by
    rw [gvm_count_motion wh _ Valid_Hod.fresh]
    omega
  unfold player_move_plain
  simp only []
  rw [if_neg h1]

/-- One pass of the input loop of `player_move` when no capture is available
(`can_kill` empty), the entered pair is valid notation, the display shows a
piece of the player on that cell and the piece has no plain move: the loop
ends and the function returns true, the rest of the input unread. -/
theorem player_input_loop_no_move (G : Globals) (motion : Valid_Hod) (wh : Position)
    (x y : Char) (rest : List (Option (Char × Char))) (numbers : List (Option Int))
    (out : List Msg) (o : Int × Int × Int × Int)
    (hk : koordinaty (toupper x) y (wh.x, wh.y, wh.x_8, wh.y_8) = (true, o))
    (hown : ¬ ((G.player_is_white = true ∧
        (G.board.rd o.2.1 o.1 ≠ 'O' ∧ G.board.rd o.2.1 o.1 ≠ 'W')) ∨
      (G.player_is_white = false ∧
        (G.board.rd o.2.1 o.1 ≠ '0' ∧ G.board.rd o.2.1 o.1 ≠ 'B'))))
    (hm : (get_valid_moves ⟨o.1, o.2.1, o.2.2.1, o.2.2.2, wh.damka⟩ Valid_Hod.fresh
      G.lodic).1 = 0) :
    player_input_loop G motion [] wh (some (x, y) :: rest) numbers out =
      some (true,
        { (becameQueen { G with board := highlight_piece o.1 o.2.1 G.board }
              ⟨o.1, o.2.1, o.2.2.1, o.2.2.2, wh.damka⟩ G.lodic).1 with
          lodic := (becameQueen { G with board := highlight_piece o.1 o.2.1 G.board }
              ⟨o.1, o.2.1, o.2.2.1, o.2.2.2, wh.damka⟩ G.lodic).2 },
        ⟨rest, numbers, out ++ [Msg.board_drawn] ++ [Msg.cannot_move]⟩) := by
  rw [player_input_loop]
  simp only [hk]
  rw [if_neg (by decide), if_neg hown]
  simp only [List.length_nil, gt_iff_lt, lt_self_iff_false, if_false, false_and]
  exact player_move_plain_no_move _ motion _ _ hm

/-- The body of the scan of `player_move` in terms of `posAt`. -/
theorem player_scan_cell_eq (G : Globals) (st : Valid_Hod × Bool × List (Int × Int))
    (cell : Int × Int) :
    player_scan_cell G st cell =
      if playerPiece (G.lodic.rd cell.1 cell.2) then
        (if (get_valid_kill G.is_player_turn (posAt cell.2 cell.1) Valid_Kill.fresh
            G.lodic).1 > 0 then
          ((get_valid_moves (posAt cell.2 cell.1) st.1 G.lodic).2, false,
            st.2.2 ++ [(cell.2, cell.1)])
        else
          ((get_valid_moves (posAt cell.2 cell.1) st.1 G.lodic).2,
            (if (get_valid_moves (posAt cell.2 cell.1) Valid_Hod.fresh G.lodic).1 > 0 then false
              else st.2.1),
            st.2.2))
      else st := by
  unfold player_scan_cell playerPiece
  simp only []
  by_cases hp : G.lodic.rd cell.1 cell.2 = '2' ∨ G.lodic.rd cell.1 cell.2 = '4'
  · rw [if_pos hp, if_neg (by
      intro hh
      rcases hp with hp | hp
      · exact hh.1 hp
      · exact hh.2 hp)]
    rw [gvm_count_motion _ st.1 Valid_Hod.fresh]
    rfl
  · rw [if_neg hp, if_pos (by
      constructor
      · exact fun hh => hp (Or.inl hh)
      · exact fun hh => hp (Or.inr hh))]

/-- The scan of `player_move` when no player piece on a scanned cell has a
capture: `can_kill` stays as it was, and `no_moves` ends false exactly when
it was false or some player piece on a scanned cell has a plain move. -/
theorem player_scan_no_capture (G : Globals) (cells : List (Int × Int))
    (hcap : ∀ cell ∈ cells, playerPiece (G.lodic.rd cell.1 cell.2) →
      (get_valid_kill G.is_player_turn (posAt cell.2 cell.1) Valid_Kill.fresh G.lodic).1 = 0)
    (st : Valid_Hod × Bool × List (Int × Int)) :
    (cells.foldl (player_scan_cell G) st).2.2 = st.2.2 ∧
    ((cells.foldl (player_scan_cell G) st).2.1 = false ↔
      (st.2.1 = false ∨ ∃ cell ∈ cells, playerPiece (G.lodic.rd cell.1 cell.2) ∧
        (get_valid_moves (posAt cell.2 cell.1) Valid_Hod.fresh G.lodic).1 > 0)) := by
  induction cells generalizing st with
  | nil => simp
  | cons c rest ih =>
    have ih1 := ih (fun cell hc => hcap cell (List.mem_cons_of_mem _ hc))
      (player_scan_cell G st c)
    rw [List.foldl_cons]
    refine ⟨ih1.1.trans ?_, ih1.2.trans ?_⟩
    · rw [player_scan_cell_eq]
      by_cases hp : playerPiece (G.lodic.rd c.1 c.2)
      · rw [if_pos hp, if_neg (by rw [hcap c (List.mem_cons_self _ _) hp]; decide)]
      · rw [if_neg hp]
    · rw [player_scan_cell_eq]
      by_cases hp : playerPiece (G.lodic.rd c.1 c.2)
      · rw [if_pos hp, if_neg (by rw [hcap c (List.mem_cons_self _ _) hp]; decide)]
        by_cases hm : (get_valid_moves (posAt c.2 c.1) Valid_Hod.fresh G.lodic).1 > 0
        · rw [if_pos hm]
          simp only [true_or, true_iff]
          exact Or.inr ⟨c, List.mem_cons_self _ _, hp, hm⟩
        · rw [if_neg hm]
          constructor
          · rintro (h | ⟨cell, hc, h1, h2⟩)
            · exact Or.inl h
            · exact Or.inr ⟨cell, List.mem_cons_of_mem _ hc, h1, h2⟩
          · rintro (h | ⟨cell, hc, h1, h2⟩)
            · exact Or.inl h
            · rcases List.mem_cons.mp hc with rfl | hc
              · exact absurd h2 hm
              · exact Or.inr ⟨cell, hc, h1, h2⟩
      · rw [if_neg hp]
        constructor
        · rintro (h | ⟨cell, hc, h1, h2⟩)
          · exact Or.inl h
          · exact Or.inr ⟨cell, List.mem_cons_of_mem _ hc, h1, h2⟩
        · rintro (h | ⟨cell, hc, h1, h2⟩)
          · exact Or.inl h
          · rcases List.mem_cons.mp hc with rfl | hc
            · exact absurd h1 hp
            · exact Or.inr ⟨cell, hc, h1, h2⟩

/-- `player_move` when no player piece has a capture, some player piece has a
plain move, and the first entry is valid notation of a cell off row 0 whose
display cell shows a piece of the player that has no plain move: it returns
true with the board, the counts and the turn flag of the entry. -/
theorem player_move_no_move (G : Globals) (x y : Char)
    (rest : List (Option (Char × Char))) (numbers : List (Option Int)) (out : List Msg)
    (o : Int × Int × Int × Int)
    (ht : G.is_player_turn = true)
    (hcap : ∀ cell ∈ scan_cells, playerPiece (G.lodic.rd cell.1 cell.2) →
      (get_valid_kill G.is_player_turn (posAt cell.2 cell.1) Valid_Kill.fresh G.lodic).1 = 0)
    (hmove : ∃ cell ∈ scan_cells, playerPiece (G.lodic.rd cell.1 cell.2) ∧
      (get_valid_moves (posAt cell.2 cell.1) Valid_Hod.fresh G.lodic).1 > 0)
    (hk : koordinaty (toupper x) y (0, 0, 0, 0) = (true, o))
    (hown : (G.player_is_white = true ∧
        (G.board.rd o.2.1 o.1 = 'O' ∨ G.board.rd o.2.1 o.1 = 'W')) ∨
      (G.player_is_white = false ∧
        (G.board.rd o.2.1 o.1 = '0' ∨ G.board.rd o.2.1 o.1 = 'B')))
    (hm : (get_valid_moves ⟨o.1, o.2.1, o.2.2.1, o.2.2.2, false⟩ Valid_Hod.fresh
      G.lodic).1 = 0)
    (hrow : o.2.2.2 ≠ 0) :
    ∃ G', player_move ⟨some (x, y) :: rest, numbers, out⟩ G =
        some (true, G',
          ⟨rest, numbers, out ++ [Msg.your_move, Msg.board_drawn, Msg.cannot_move]⟩) ∧
      G'.lodic = G.lodic ∧ G'.game_state = G.game_state ∧
      G'.is_player_turn = G.is_player_turn := by
  obtain ⟨s1, s2⟩ := player_scan_no_capture G scan_cells hcap (Valid_Hod.fresh, true, [])
  have s3 := s2.mpr (Or.inr hmove)
  have hown' : ¬ ((G.player_is_white = true ∧
        (G.board.rd o.2.1 o.1 ≠ 'O' ∧ G.board.rd o.2.1 o.1 ≠ 'W')) ∨
      (G.player_is_white = false ∧
        (G.board.rd o.2.1 o.1 ≠ '0' ∧ G.board.rd o.2.1 o.1 ≠ 'B'))) := by
    rintro (⟨hw, h1, h2⟩ | ⟨hw, h1, h2⟩)
    · rcases hown with ⟨_, h | h⟩ | ⟨hw', _⟩
      · exact h1 h
      · exact h2 h
      · rw [hw] at hw'
        exact absurd hw' (by decide)
    · rcases hown with ⟨hw', _⟩ | ⟨_, h | h⟩
      · rw [hw] at hw'
        exact absurd hw' (by decide)
      · exact h1 h
      · exact h2 h
  have hloop := player_input_loop_no_move G
    (scan_cells.foldl (player_scan_cell G) (Valid_Hod.fresh, true, [])).1
    ⟨0, 0, 0, 0, false⟩ x y rest numbers (out ++ [Msg.your_move]) o hk hown' hm
  have hq := becameQueen_not_far { G with board := highlight_piece o.1 o.2.1 G.board }
    ⟨o.1, o.2.1, o.2.2.1, o.2.2.2, false⟩ G.lodic (by
      unfold farRank
      simp only [ht, if_true]
      exact hrow)
  refine ⟨{ G with board := highlight_piece o.1 o.2.1 G.board }, ?_, rfl, rfl, rfl⟩
  unfold player_move
  simp only []
  rw [s3, s1]
  simp only [Bool.false_eq_true, if_false]
  rw [hloop, hq]
  simp only [List.append_assoc, List.cons_append, List.nil_append]

/-- C32 does not hold for the code.  Whenever it is the player's turn, no
player piece on a scanned cell has a capture, some player piece has a plain
move, and the player enters the notation of a cell off row 0 whose display
cell shows a piece of the player and whose piece has no plain move,
`player_move` prints the line of the branch without a move and returns true
at once instead of reading a new selection: the logical board, the counts
and the turn flag are those of the entry and the rest of the input is left
unread. -/
theorem player_move_passes_without_move (G : Globals) (x y : Char)
    (rest : List (Option (Char × Char))) (numbers : List (Option Int)) (out : List Msg)
    (o : Int × Int × Int × Int)
    (ht : G.is_player_turn = true)
    (hcap : ∀ cell ∈ scan_cells, playerPiece (G.lodic.rd cell.1 cell.2) →
      (get_valid_kill G.is_player_turn (posAt cell.2 cell.1) Valid_Kill.fresh G.lodic).1 = 0)
    (hmove : ∃ cell ∈ scan_cells, playerPiece (G.lodic.rd cell.1 cell.2) ∧
      (get_valid_moves (posAt cell.2 cell.1) Valid_Hod.fresh G.lodic).1 > 0)
    (hk : koordinaty (toupper x) y (0, 0, 0, 0) = (true, o))
    (hown : (G.player_is_white = true ∧
        (G.board.rd o.2.1 o.1 = 'O' ∨ G.board.rd o.2.1 o.1 = 'W')) ∨
      (G.player_is_white = false ∧
        (G.board.rd o.2.1 o.1 = '0' ∨ G.board.rd o.2.1 o.1 = 'B')))
    (hm : (get_valid_moves ⟨o.1, o.2.1, o.2.2.1, o.2.2.2, false⟩ Valid_Hod.fresh
      G.lodic).1 = 0)
    (hrow : o.2.2.2 ≠ 0) :
    ∃ G', player_move ⟨some (x, y) :: rest, numbers, out⟩ G =
        some (true, G',
          ⟨rest, numbers, out ++ [Msg.your_move, Msg.board_drawn, Msg.cannot_move]⟩) ∧
      G'.lodic = G.lodic ∧ G'.game_state = G.game_state ∧
      G'.is_player_turn = G.is_player_turn :=
  player_move_no_move G x y rest numbers out o ht hcap hmove hk hown hm hrow

/-- The failing input of C32.  On the initial position, the player (white) to
move, no player piece has a capture and the man on A1, logical cell `(0, 7)`,
has no plain move.  When the player enters `a1`, `player_move` returns true
with the board and counts of the entry, the next input (`c3`, `1`) unread,
and the pass of `play_game` hands the turn to the computer.  A refused
selection of the sibling tests (`b8`, not a piece of the player) is followed
by a new read instead, here of `c3`, whose step to B4 is then made. -/
theorem player_move_passes_without_move_witness :
    (stateStart.lodic.rd 7 0 = '2' ∧ stateStart.board.rd 15 2 = 'O' ∧
      stateStart.game_state = ⟨12, 12, 0, 0⟩) ∧
    (∃ G', player_move ⟨[some ('a', '1'), some ('c', '3')], [some 1], []⟩ stateStart =
        some (true, G',
          ⟨[some ('c', '3')], [some 1],
            [] ++ [Msg.your_move, Msg.board_drawn, Msg.cannot_move]⟩) ∧
      G'.lodic = stateStart.lodic ∧ G'.game_state = stateStart.game_state ∧
      G'.is_player_turn = stateStart.is_player_turn) ∧
    (play_game_round junkLodic junkCounts ⟨[some ('a', '1'), some ('c', '3')], [some 1], []⟩
        stateStart).map
      (fun r => (r.1, decide (r.2.1.lodic = stateStart.lodic), r.2.1.game_state,
        r.2.1.is_player_turn, r.2.2)) =
      some (true, true, ⟨12, 12, 0, 0⟩, false,
        ⟨[some ('c', '3')], [some 1],
          [Msg.turn true, Msg.your_move, Msg.board_drawn, Msg.cannot_move,
            Msg.board_drawn]⟩) ∧
    (player_move ⟨[some ('b', '8'), some ('c', '3')], [some 1], []⟩ stateStart).map
      (fun r => (r.1, r.2.1.lodic.rd 5 2, r.2.1.lodic.rd 4 1, r.2.2)) =
      some (true, '0', '2',
        ⟨[], [],
          [Msg.your_move, Msg.not_your_piece, Msg.board_drawn, Msg.can_move_to,
            Msg.board_drawn, Msg.option 1 'B' '4', Msg.option 2 'D' '4', Msg.ask_number]⟩) :=
  ⟨⟨by decide, by decide, by decide⟩,
    player_move_passes_without_move stateStart 'a' '1' [some ('c', '3')] [some 1] []
      (2, 15, 0, 7) (by decide) (by decide) ⟨(5, 0), by decide, by decide, by decide⟩
      (by decide) (by decide) (by decide) (by decide),
    by decide, by decide⟩

/-- C33. `evaluate_board_pc` reads the board only at row 3, column 4: two
boards that agree on that cell get the same score under the same counts and
perspective.  The score is the two material terms plus 8 when that cell holds
`'1'` and plus 0 otherwise, whichever perspective flag is passed; compared
with the same board with that cell emptied, the score is higher by 8 exactly
when the cell holds `'1'`. -/
theorem evaluate_board_pc_one_cell (gs : GameState) (lodic lodic' : Lodic) (is_white : Bool)
    (h : lodic.rd 3 4 = lodic'.rd 3 4) :
    evaluate_board_pc gs lodic is_white = evaluate_board_pc gs lodic' is_white ∧
    lodic.rd 3 4 = lodic 3 4 ∧
    evaluate_board_pc gs lodic is_white =
      men_term gs is_white + king_term gs is_white + (if lodic.rd 3 4 = '1' then 8 else 0) ∧
    evaluate_board_pc gs lodic is_white - evaluate_board_pc gs (lodic.wr 3 4 '0') is_white =
      (if lodic.rd 3 4 = '1' then 8 else 0) ∧
    (evaluate_board_pc gs lodic is_white >
      evaluate_board_pc gs (lodic.wr 3 4 '0') is_white ↔ lodic.rd 3 4 = '1') := by
  have hform : ∀ l : Lodic, evaluate_board_pc gs l is_white =
      men_term gs is_white + king_term gs is_white + (if l.rd 3 4 = '1' then 8 else 0) := by
    intro l
    rw [evaluate_board_pc_terms]
    unfold bonus_term
    split_ifs <;> ring
  have hz : (lodic.wr 3 4 '0').rd 3 4 = '0' := by
    rw [lodic_rd_wr lodic 3 4 3 4 '0' (by decide)]
    simp
  refine ⟨?_, rfl, hform lodic, ?_, ?_⟩
  · rw [hform lodic, hform lodic', h]
  · rw [hform lodic, hform (lodic.wr 3 4 '0'), hz]
    simp
  · rw [hform lodic, hform (lodic.wr 3 4 '0'), hz]
    by_cases hc : lodic.rd 3 4 = '1'
    · simp [hc]
    · simp [hc]

/-- Witness of C33: the initial board and `lodicSingle` both hold `'0'` on
row 3, column 4 and score alike; with `'1'` written there both score 8 more. -/
theorem evaluate_board_pc_one_cell_witness :
    evaluate_board_pc ⟨12, 12, 0, 0⟩ lodicStart false =
      evaluate_board_pc ⟨12, 12, 0, 0⟩ lodicSingle false ∧
    evaluate_board_pc ⟨12, 12, 0, 0⟩ (lodicStart.wr 3 4 '1') true = 8 ∧
    evaluate_board_pc ⟨12, 12, 0, 0⟩ (lodicStart.wr 3 4 '1') true =
      evaluate_board_pc ⟨12, 12, 0, 0⟩ (lodicSingle.wr 3 4 '1') true :=
  ⟨(evaluate_board_pc_one_cell ⟨12, 12, 0, 0⟩ lodicStart lodicSingle false (by decide)).1,
    by decide,
    (evaluate_board_pc_one_cell ⟨12, 12, 0, 0⟩ (lodicStart.wr 3 4 '1')
      (lodicSingle.wr 3 4 '1') true (by decide)).1⟩
/-! ## The evaluator in the arithmetic of the program -/

/-- A value in the range of `int` is held unchanged. -/
theorem wrap32_of_range (n : Int) (h : -2147483648 ≤ n ∧ n ≤ 2147483647) : wrap32 n = n := by
  unfold wrap32
  omega

/-- A value in the range of `short` is held unchanged. -/
theorem wrap16_of_range (n : Int) (h : -32768 ≤ n ∧ n ≤ 32767) : wrap16 n = n := by
  unfold wrap16
  omega

/-- The men term of the program is the exact men term while the counts are
small. -/
theorem men_term_int32_eq (gs : GameState) (w : Bool) (h : smallCounts gs) :
    men_term_int32 gs w = men_term gs w := by
  obtain ⟨h1, h2, h3, h4⟩ := h
  unfold men_term_int32 men_term
  cases w <;> simp only [if_true, Bool.false_eq_true, if_false]
  · rw [wrap32_of_range (gs.count_black - gs.count_white) (by omega),
      wrap32_of_range ((gs.count_black - gs.count_white) * 10) (by omega)]
  · rw [wrap32_of_range (gs.count_white - gs.count_black) (by omega),
      wrap32_of_range ((gs.count_white - gs.count_black) * 10) (by omega)]

/-- The king term of the program is the exact king term while the counts are
small. -/
theorem king_term_int32_eq (gs : GameState) (w : Bool) (h : smallCounts gs) :
    king_term_int32 gs w = king_term gs w := by
  obtain ⟨h1, h2, h3, h4⟩ := h
  unfold king_term_int32 king_term
  cases w <;> simp only [if_true, Bool.false_eq_true, if_false]
  · rw [wrap32_of_range (gs.count_black_king - gs.count_white_king) (by omega),
      wrap32_of_range ((gs.count_black_king - gs.count_white_king) * 15) (by omega)]
  · rw [wrap32_of_range (gs.count_white_king - gs.count_black_king) (by omega),
      wrap32_of_range ((gs.count_white_king - gs.count_black_king) * 15) (by omega)]

/-- The evaluator of the program in terms of its two material terms. -/
theorem evaluate_board_pc_int32_terms (gs : GameState) (lodic : Lodic) (w : Bool) :
    evaluate_board_pc_int32 gs lodic w =
      wrap32 (wrap32 (wrap32 (wrap32 (wrap32 (wrap32 (0 + men_term_int32 gs w) +
        king_term_int32 gs w) + (if lodic.rd 3 4 = '1' then 1 else 0) * 2) +
        (if lodic.rd 3 4 = '1' then 1 else 0) * 2) +
        (if lodic.rd 3 4 = '1' then 1 else 0) * 2) +
        (if lodic.rd 3 4 = '1' then 1 else 0) * 2) := rfl

theorem men_term_le (gs : GameState) (w : Bool) (h : smallCounts gs) :
    men_term gs w ≤ 800000000 := by
  obtain ⟨h1, h2, h3, h4⟩ := h
  unfold men_term
  cases w <;> simp only [if_true, Bool.false_eq_true, if_false] <;> split_ifs <;> omega

theorem king_term_le (gs : GameState) (w : Bool) (h : smallCounts gs) :
    king_term gs w ≤ 1200000000 := by
  obtain ⟨h1, h2, h3, h4⟩ := h
  unfold king_term
  cases w <;> simp only [if_true, Bool.false_eq_true, if_false] <;> split_ifs <;> omega

/-- While the four counts are small no intermediate value of the evaluator
leaves the range of `int`: the program computes the exact value. -/
theorem evaluate_board_pc_int32_eq (gs : GameState) (lodic : Lodic) (w : Bool)
    (h : smallCounts gs) :
    evaluate_board_pc_int32 gs lodic w = evaluate_board_pc gs lodic w := by
  have hm := men_term_le gs w h
  have hk := king_term_le gs w h
  have hm0 := men_term_nonneg gs w
  have hk0 := king_term_nonneg gs w
  rw [evaluate_board_pc_int32_terms, evaluate_board_pc_terms, men_term_int32_eq gs w h,
    king_term_int32_eq gs w h]
  unfold bonus_term
  by_cases hc : lodic.rd 3 4 = '1'
  · simp only [hc, if_true]
    rw [wrap32_of_range (0 + men_term gs w) (by omega),
      wrap32_of_range (0 + men_term gs w + king_term gs w) (by omega),
      wrap32_of_range (0 + men_term gs w + king_term gs w + 1 * 2) (by omega),
      wrap32_of_range (0 + men_term gs w + king_term gs w + 1 * 2 + 1 * 2) (by omega),
      wrap32_of_range (0 + men_term gs w + king_term gs w + 1 * 2 + 1 * 2 + 1 * 2) (by omega),
      wrap32_of_range (0 + men_term gs w + king_term gs w + 1 * 2 + 1 * 2 + 1 * 2 + 1 * 2)
        (by omega)]
    omega
  · simp only [hc, if_false]
    rw [wrap32_of_range (0 + men_term gs w) (by omega),
      wrap32_of_range (0 + men_term gs w + king_term gs w) (by omega),
      wrap32_of_range (0 + men_term gs w + king_term gs w + 0 * 2) (by omega),
      wrap32_of_range (0 + men_term gs w + king_term gs w + 0 * 2 + 0 * 2) (by omega),
      wrap32_of_range (0 + men_term gs w + king_term gs w + 0 * 2 + 0 * 2 + 0 * 2) (by omega),
      wrap32_of_range (0 + men_term gs w + king_term gs w + 0 * 2 + 0 * 2 + 0 * 2 + 0 * 2)
        (by omega)]
    omega

theorem men_term_int32_nonneg (gs : GameState) (w : Bool) : 0 ≤ men_term_int32 gs w := by
  unfold men_term_int32
  simp only []
  split_ifs <;> omega

theorem king_term_int32_nonneg (gs : GameState) (w : Bool) : 0 ≤ king_term_int32 gs w := by
  unfold king_term_int32
  simp only []
  split_ifs <;> omega

theorem smallCounts_withMen (gs : GameState) (w : Bool) (n : Int) (h : smallCounts gs)
    (hn : -40000000 ≤ n ∧ n ≤ 40000000) : smallCounts (withMen w n gs) := by
  obtain ⟨h1, h2, h3, h4⟩ := h
  unfold withMen smallCounts
  cases w <;> simp only [if_true, Bool.false_eq_true, if_false]
  · exact ⟨h1, hn, h3, h4⟩
  · exact ⟨hn, h2, h3, h4⟩

/-- On board cells, and for all `i_x` in `-8192 .. 8191` and `i_y` in
`-16384 .. 16383`, the `short` results that `reverse_graph_koordinaty` stores
are the exact values. -/
theorem reverse_graph_koordinaty_short (i_x i_y : Int)
    (hx : -8192 ≤ i_x ∧ i_x ≤ 8191) (hy : -16384 ≤ i_y ∧ i_y ≤ 16383) :
    (wrap16 (reverse_graph_koordinaty i_x i_y).1, wrap16 (reverse_graph_koordinaty i_x i_y).2) =
      reverse_graph_koordinaty i_x i_y := by
  unfold reverse_graph_koordinaty
  simp only
  rw [wrap16_of_range _ (by omega), wrap16_of_range _ (by omega)]
/-! ## The move selector on the boards of the program -/

/-- C3. Mandatory capture for the computer: on the computer's turn, on every
board of the program (pieces on playable cells only, the invariant
`allPlayable` of C23), if at least one computer piece (`'1'` or `'3'`) has a
capture available according to `get_valid_kill`, then `computer_move` reports
success and the board it commits is the end of a capture chain, never a
plain-move outcome: the committed board and counts are those of a capture
candidate and the board holds strictly fewer player pieces than before the
call. -/
theorem computer_move_mandatory_capture (junk : Lodic) (jgs : GameState) (G : Globals)
    (x y : Int) (hturn : G.is_player_turn = false) (hall : allPlayable G.lodic)
    (hpiece : G.lodic.rd y x = '1' ∨ G.lodic.rd y x = '3')
    (hcap : 0 < (get_valid_kill false (posAt x y) Valid_Kill.fresh G.lodic).1) :
    ∃ (Gs : Globals) (cands : List Candidate) (G' : Globals),
      computer_candidates G = some (Gs, cands) ∧
      computer_move junk jgs G = some (true, G') ∧
      (∃ c ∈ cands, c.capture = true ∧ G'.lodic = c.leaf.lodic ∧
        G'.game_state = c.leaf.game_state) ∧
      enemyCount false G'.lodic < enemyCount false G.lodic := by
  have hp : isPiece (G.lodic.rd y x) := by
    unfold isPiece
    rcases hpiece with h | h
    · exact Or.inl h
    · exact Or.inr (Or.inr (Or.inl h))
  exact computer_move_capture junk jgs G (y, x) hturn
    (mem_scan_cells x y (rd_isPiece_onBoard G.lodic x y hp) (allPlayable_rd G.lodic hall x y hp))
    hpiece hcap

/-- Witness of C3 on `lodicComp`: the computer man on D6 must capture. -/
theorem computer_move_mandatory_capture_witness :
    allPlayable stateComp.lodic ∧
    ∃ (Gs : Globals) (cands : List Candidate) (G' : Globals),
      computer_candidates stateComp = some (Gs, cands) ∧
      computer_move junkLodic junkCounts stateComp = some (true, G') ∧
      (∃ c ∈ cands, c.capture = true ∧ G'.lodic = c.leaf.lodic ∧
        G'.game_state = c.leaf.game_state) ∧
      enemyCount false G'.lodic < enemyCount false stateComp.lodic :=
  ⟨by decide,
    computer_move_mandatory_capture junkLodic junkCounts stateComp 3 2 (by decide) (by decide)
      (by decide) (by decide)⟩

/-- C13. On every board of the program (pieces on playable cells only, the
invariant `allPlayable` of C23) `computer_move` returns the no-move signal
(false) if and only if no computer piece (`'1'` or `'3'`) on the board has a
capture (`get_valid_kill` count 0) or a plain move (`get_valid_moves` count
0); when it returns false the four piece counts are exactly those before the
call. -/
theorem computer_move_no_move (junk : Lodic) (junk_gs : GameState) (G : Globals)
    (hall : allPlayable G.lodic) :
    ∃ (ok : Bool) (G' : Globals), computer_move junk junk_gs G = some (ok, G') ∧
      (ok = false ↔ ∀ x y : Int, (G.lodic.rd y x = '1' ∨ G.lodic.rd y x = '3') →
        (get_valid_kill G.is_player_turn (posAt x y) Valid_Kill.fresh G.lodic).1 = 0 ∧
        (get_valid_moves (posAt x y) Valid_Hod.fresh G.lodic).1 = 0) ∧
      (ok = false → G'.game_state = G.game_state) := by
  obtain ⟨ok, G', h1, h2, h3⟩ := computer_move_no_move_scan junk junk_gs G
  refine ⟨ok, G', h1, h2.trans ?_, h3⟩
  constructor
  · intro h x y hpc
    have hp : isPiece (G.lodic.rd y x) := by
      unfold isPiece
      rcases hpc with h | h
      · exact Or.inl h
      · exact Or.inr (Or.inr (Or.inl h))
    exact h x y (rd_isPiece_onBoard G.lodic x y hp) (allPlayable_rd G.lodic hall x y hp) hpc
  · intro h x y _ _ hpc
    exact h x y hpc

/-- Witness of C13 on `stateFar`: the only computer piece, the man on C1 on
row 7, has neither a capture nor a plain move; `computer_move` returns false
and the counts stay `1/1/0/0`. -/
theorem computer_move_no_move_witness :
    allPlayable stateFar.lodic ∧
    (computer_move junkLodic junkCounts stateFar).map (fun r => (r.1, r.2.game_state)) =
      some (false, ⟨1, 1, 0, 0⟩) ∧
    ∃ (ok : Bool) (G' : Globals), computer_move junkLodic junkCounts stateFar = some (ok, G') ∧
      (ok = false ↔ ∀ x y : Int,
        (stateFar.lodic.rd y x = '1' ∨ stateFar.lodic.rd y x = '3') →
        (get_valid_kill stateFar.is_player_turn (posAt x y) Valid_Kill.fresh
          stateFar.lodic).1 = 0 ∧
        (get_valid_moves (posAt x y) Valid_Hod.fresh stateFar.lodic).1 = 0) ∧
      (ok = false → G'.game_state = stateFar.game_state) :=
  ⟨by decide, by decide, computer_move_no_move junkLodic junkCounts stateFar (by decide)⟩

set_option maxHeartbeats 4000000 in
/-- The evaluation of what `computer_move` commits on `stateLast`. -/
theorem computer_move_stateLast_score :
    (computer_move junkLodic junkCounts stateLast).map
      (fun r => (r.1, r.2.game_state,
        evaluate_board_pc r.2.game_state r.2.lodic (!r.2.player_is_white))) =
      some (true, ⟨0, 2, 1, 0⟩, 20) := by
  decide

set_option maxHeartbeats 4000000 in
/-- The evaluation of what `computer_move` commits on `stateRing`. -/
theorem computer_move_stateRing_score :
    (computer_move junkLodic junkCounts stateRing).map
      (fun r => (r.1, r.2.game_state,
        evaluate_board_pc r.2.game_state r.2.lodic (!r.2.player_is_white))) =
      some (true, ⟨0, 1, 1, 0⟩, 10) := by
  decide

set_option maxHeartbeats 4000000 in
/-- What `get_best_sequent_kills` returns on `stateRing` from the man on C5. -/
theorem get_best_sequent_kills_stateRing :
    (get_best_sequent_kills chainFuel stateRing (posAt 2 3)
      (get_valid_kill false (posAt 2 3) Valid_Kill.fresh lodicRing).2
      (get_valid_kill false (posAt 2 3) Valid_Kill.fresh lodicRing).1
      ⟨-1, junkLodic, junkCounts⟩ lodicRing).map
      (fun r => (r.2.mx_score, r.2.best_game_state)) = some (10, ⟨0, 1, 1, 0⟩) := by
  decide

set_option maxHeartbeats 4000000 in
/-- The terminal nodes of the capture-chain tree on `stateRing`. -/
theorem chainTreeLeaves_stateRing :
    (chainTreeLeaves chainFuel stateRing (posAt 2 3) lodicRing).map
      (fun ls => ls.map fun l => (l.score false, l.game_state)) =
      some [(0, ⟨0, 0, 1, 1⟩), (0, ⟨0, 0, 1, 1⟩)] := by
  decide

/-- C8 at concrete states.  `stateLast` (computer to move, display drawn from
the board, counts and board in agreement) has no capture for any computer
piece, and the four plain-move outcomes of its two men, each played from the
state of the entry, all evaluate to 10; `computer_move` commits an outcome
that evaluates to 20, the unpromoted man of C18, which is none of them.  On
`stateRing` a capture exists, the two maximal capture chains played from the
state of the entry both evaluate to 0, and `computer_move` commits an outcome
that evaluates to 10. -/
theorem computer_move_not_best :
    (stateLast.is_player_turn = false ∧ displayAgrees stateLast ∧ rankCensus stateLast ∧
      allPlayable stateLast.lodic) ∧
    (∀ c ∈ allCells, computerPiece (stateLast.lodic.rd c.1 c.2) →
      (get_valid_kill false (posAt c.2 c.1) Valid_Kill.fresh stateLast.lodic).1 = 0) ∧
    (plainOutcomes stateLast).map (fun l => (l.score false, l.game_state)) =
      [(10, ⟨0, 1, 1, 1⟩), (10, ⟨0, 1, 1, 1⟩), (10, ⟨0, 1, 1, 1⟩), (10, ⟨0, 1, 1, 1⟩)] ∧
    (computer_move junkLodic junkCounts stateLast).map
      (fun r => (r.1, r.2.game_state,
        evaluate_board_pc r.2.game_state r.2.lodic (!r.2.player_is_white))) =
      some (true, ⟨0, 2, 1, 0⟩, 20) ∧
    (stateRing.is_player_turn = false ∧ displayAgrees stateRing ∧ rankCensus stateRing ∧
      allPlayable stateRing.lodic) ∧
    (chainOutcomes stateRing).map (fun ls => ls.map fun l => (l.score false, l.game_state)) =
      some [(0, ⟨0, 0, 1, 1⟩), (0, ⟨0, 0, 1, 1⟩)] ∧
    (computer_move junkLodic junkCounts stateRing).map
      (fun r => (r.1, r.2.game_state,
        evaluate_board_pc r.2.game_state r.2.lodic (!r.2.player_is_white))) =
      some (true, ⟨0, 1, 1, 0⟩, 10) :=
  ⟨⟨by decide, by decide, by decide, by decide⟩, by decide, by decide,
    computer_move_stateLast_score,
    ⟨by decide, by decide, by decide, by decide⟩, by decide, computer_move_stateRing_score⟩

/-- C9 at a concrete state.  On `stateRing` (computer to move, display drawn
from the board, counts and board in agreement) the man on C5 has two maximal
capture chains, round the four player men either way; played from the state
of the entry each passes C1 on row 7, is promoted there and ends with counts
`0/0/1/1` and evaluation 0.  `get_best_sequent_kills`, started with running
score `-1`, returns score 10 with counts `0/1/1/0`: in its second chain the
display cell of C1 still shows the king of the first and the man is not
promoted.  The returned score is not the maximum over the terminal nodes of
the tree, and the returned counts are those of none of them. -/
theorem get_best_sequent_kills_not_max :
    (stateRing.is_player_turn = false ∧ displayAgrees stateRing ∧ rankCensus stateRing ∧
      allPlayable stateRing.lodic ∧ stateRing.lodic.rd 3 2 = '1') ∧
    (chainTreeLeaves chainFuel stateRing (posAt 2 3) lodicRing).map
      (fun ls => ls.map fun l => (l.score false, l.game_state)) =
      some [(0, ⟨0, 0, 1, 1⟩), (0, ⟨0, 0, 1, 1⟩)] ∧
    (properLeaves chainFuel stateRing (posAt 2 3) lodicRing).map
      (fun r => r.2.map fun l => (l.score false, l.game_state)) =
      some [(0, ⟨0, 0, 1, 1⟩), (10, ⟨0, 1, 1, 0⟩)] ∧
    (get_best_sequent_kills chainFuel stateRing (posAt 2 3)
      (get_valid_kill false (posAt 2 3) Valid_Kill.fresh lodicRing).2
      (get_valid_kill false (posAt 2 3) Valid_Kill.fresh lodicRing).1
      ⟨-1, junkLodic, junkCounts⟩ lodicRing).map
      (fun r => (r.2.mx_score, r.2.best_game_state)) = some (10, ⟨0, 1, 1, 0⟩) :=
  ⟨⟨by decide, by decide, by decide, by decide, by decide⟩, chainTreeLeaves_stateRing,
    by decide, get_best_sequent_kills_stateRing⟩

/-! ## The evaluator on bounded counts -/

/-- C10 (amended). For every board, either perspective and every four counts
between -40 000 000 and 40 000 000, `evaluate_board_pc` as the program
computes it (32-bit `int`) returns exactly
`max(0, 10 * (own men - opponent men)) + max(0, 15 * (own kings - opponent kings))`
plus 8 when the logical cell at row 3, column 4 holds `'1'` (plus 0
otherwise), own and opponent being selected by the perspective flag. -/
theorem evaluate_board_pc_formula (gs : GameState) (lodic : Lodic) (is_white : Bool)
    (h : smallCounts gs) :
    evaluate_board_pc_int32 gs lodic is_white =
      max 0 (10 * ((if is_white then gs.count_white else gs.count_black) -
        (if is_white then gs.count_black else gs.count_white))) +
      max 0 (15 * ((if is_white then gs.count_white_king else gs.count_black_king) -
        (if is_white then gs.count_black_king else gs.count_white_king))) +
      (if lodic.rd 3 4 = '1' then 8 else 0) := by
  rw [evaluate_board_pc_int32_eq gs lodic is_white h]
  exact evaluate_board_pc_exact_formula gs lodic is_white

/-- Witness of C10 (amended): 5 black men against 2 white men and 1 black
king against none, from the black perspective, on the initial board. -/
theorem evaluate_board_pc_formula_witness :
    smallCounts ⟨2, 5, 0, 1⟩ ∧
    evaluate_board_pc_int32 ⟨2, 5, 0, 1⟩ lodicStart false = 45 ∧
    evaluate_board_pc_int32 ⟨2, 5, 0, 1⟩ lodicStart false =
      max 0 (10 * ((if false then (2 : Int) else 5) - (if false then (5 : Int) else 2))) +
      max 0 (15 * ((if false then (0 : Int) else 1) - (if false then (1 : Int) else 0))) +
      (if lodicStart.rd 3 4 = '1' then 8 else 0) :=
  ⟨by decide, by decide, evaluate_board_pc_formula ⟨2, 5, 0, 1⟩ lodicStart false (by decide)⟩

/-- Counterexample to C10 as stated: with 200 000 000 black men and
133 333 333 black kings against no white piece the two material terms are
2 000 000 000 and 1 999 999 995, their sum does not fit an `int`, and the
program returns -294 967 301 where the formula gives 3 999 999 995. -/
theorem evaluate_board_pc_formula_counterexample :
    evaluate_board_pc_int32 ⟨0, 200000000, 0, 133333333⟩ lodicStart false = -294967301 ∧
    max 0 (10 * ((200000000 : Int) - 0)) + max 0 (15 * ((133333333 : Int) - 0)) +
      (if lodicStart.rd 3 4 = '1' then 8 else 0) = 3999999995 ∧
    ¬ (evaluate_board_pc_int32 ⟨0, 200000000, 0, 133333333⟩ lodicStart false =
      max 0 (10 * ((200000000 : Int) - 0)) + max 0 (15 * ((133333333 : Int) - 0)) +
        (if lodicStart.rd 3 4 = '1' then 8 else 0)) := by
  refine ⟨by decide, by decide, by decide⟩

/-- C11 (amended). Evaluation monotonicity on counts between -40 000 000 and
40 000 000: with the board, both king counts and the opponent's man count
held fixed, `evaluate_board_pc` as the program computes it is non-decreasing
in the own man count: for every pair `own ≤ own'` in that range the score
with own man count `own` is at most the score with own man count `own'`. -/
theorem evaluate_board_pc_mono (gs : GameState) (lodic : Lodic) (is_white : Bool)
    (own own' : Int) (hgs : smallCounts gs) (hlo : -40000000 ≤ own) (h : own ≤ own')
    (hhi : own' ≤ 40000000) :
    evaluate_board_pc_int32 (withMen is_white own gs) lodic is_white ≤
      evaluate_board_pc_int32 (withMen is_white own' gs) lodic is_white := by
  rw [evaluate_board_pc_int32_eq _ lodic is_white
      (smallCounts_withMen gs is_white own hgs ⟨hlo, by omega⟩),
    evaluate_board_pc_int32_eq _ lodic is_white
      (smallCounts_withMen gs is_white own' hgs ⟨by omega, hhi⟩)]
  exact evaluate_board_pc_exact_mono gs lodic is_white own own' h

/-- Witness of C11 (amended): against 3 opponent men, 2 own men score 0 and 5
own men score 20. -/
theorem evaluate_board_pc_mono_witness :
    evaluate_board_pc_int32 (withMen true 2 ⟨0, 3, 1, 1⟩) lodicStart true = 0 ∧
    evaluate_board_pc_int32 (withMen true 5 ⟨0, 3, 1, 1⟩) lodicStart true = 20 ∧
    evaluate_board_pc_int32 (withMen true 2 ⟨0, 3, 1, 1⟩) lodicStart true ≤
      evaluate_board_pc_int32 (withMen true 5 ⟨0, 3, 1, 1⟩) lodicStart true :=
  ⟨by decide, by decide,
    evaluate_board_pc_mono ⟨0, 3, 1, 1⟩ lodicStart true 2 5 (by decide) (by decide) (by decide)
      (by decide)⟩

/-- Counterexample to C11 as stated: against no opponent man and with no
kings, 214 748 364 own men score 2 147 483 640, and one man more makes the
product exceed the range of `int` and the score 0. -/
theorem evaluate_board_pc_mono_counterexample :
    (214748364 : Int) ≤ 214748365 ∧
    evaluate_board_pc_int32 (withMen true 214748364 ⟨0, 0, 0, 0⟩) lodicStart true =
      2147483640 ∧
    evaluate_board_pc_int32 (withMen true 214748365 ⟨0, 0, 0, 0⟩) lodicStart true = 0 ∧
    ¬ (evaluate_board_pc_int32 (withMen true 214748364 ⟨0, 0, 0, 0⟩) lodicStart true ≤
      evaluate_board_pc_int32 (withMen true 214748365 ⟨0, 0, 0, 0⟩) lodicStart true) := by
  refine ⟨by decide, by decide, by decide, by decide⟩

/-- The plain-move block of `computer_move` scores the outcome `moveLeaf`. -/
theorem move_block_first_leaf (x y ny nx : Int) (st : Globals × Search)
    (h : st.2.mx_score = -1) :
    (move_block x y ny nx st).2.no_moves = false ∧
    (move_block x y ny nx st).2.best_gs = (moveLeaf st.1 x y ny nx).game_state ∧
    (move_block x y ny nx st).2.best_lodic = (moveLeaf st.1 x y ny nx).lodic ∧
    (move_block x y ny nx st).2.mx_score =
      evaluate_board_pc (moveLeaf st.1 x y ny nx).game_state (moveLeaf st.1 x y ny nx).lodic
        (!st.1.player_is_white) := by
  unfold move_block
  simp only []
  have hpos : ∀ s : Int, 0 ≤ s → s > st.2.mx_score := fun s hs => by rw [h]; omega
  rw [if_pos (hpos _ (evaluate_board_pc_nonneg _ _ _))]
  exact ⟨rfl, rfl, rfl, rfl⟩

/-- C12 (amended). For every board, every perspective and every four counts
between -40 000 000 and 40 000 000 (a material deficit in men, in kings or in
both included) `evaluate_board_pc` as the program computes it never returns a
negative score; it is then the sum of its two material terms and the
positional bonus, and each of the two material terms is at least 0 on its
own, for all counts whatever.  Consequently every outcome with counts in that
range scores more than the initial running best `-1` of `computer_move`: a
plain-move block met with running best `-1` whose outcome has such counts
replaces the running best by that outcome and clears `no_moves`. -/
theorem evaluate_board_pc_never_negative :
    (∀ (gs : GameState) (lodic : Lodic) (is_white : Bool), smallCounts gs →
      0 ≤ evaluate_board_pc_int32 gs lodic is_white ∧
      -1 < evaluate_board_pc_int32 gs lodic is_white ∧
      evaluate_board_pc_int32 gs lodic is_white =
        men_term_int32 gs is_white + king_term_int32 gs is_white + bonus_term lodic) ∧
    (∀ (gs : GameState) (is_white : Bool),
      0 ≤ men_term_int32 gs is_white ∧ 0 ≤ king_term_int32 gs is_white) ∧
    (∀ (x y ny nx : Int) (st : Globals × Search), st.2.mx_score = -1 →
      smallCounts (moveLeaf st.1 x y ny nx).game_state →
      (move_block x y ny nx st).2.no_moves = false ∧
      (move_block x y ny nx st).2.best_gs = (moveLeaf st.1 x y ny nx).game_state ∧
      (move_block x y ny nx st).2.best_lodic = (moveLeaf st.1 x y ny nx).lodic ∧
      (move_block x y ny nx st).2.mx_score =
        evaluate_board_pc_int32 (moveLeaf st.1 x y ny nx).game_state
          (moveLeaf st.1 x y ny nx).lodic (!st.1.player_is_white) ∧
      -1 < (move_block x y ny nx st).2.mx_score) := by
  refine ⟨fun gs lodic w h => ?_, fun gs w =>
    ⟨men_term_int32_nonneg gs w, king_term_int32_nonneg gs w⟩, ?_⟩
  · have h0 := evaluate_board_pc_nonneg gs lodic w
    rw [evaluate_board_pc_int32_eq gs lodic w h, men_term_int32_eq gs w h,
      king_term_int32_eq gs w h]
    exact ⟨h0, by omega, evaluate_board_pc_terms gs lodic w⟩
  · intro x y ny nx st h hs
    obtain ⟨h1, h2, h3, h4⟩ := move_block_first_leaf x y ny nx st h
    have h0 := evaluate_board_pc_nonneg (moveLeaf st.1 x y ny nx).game_state
      (moveLeaf st.1 x y ny nx).lodic (!st.1.player_is_white)
    refine ⟨h1, h2, h3, ?_, by omega⟩
    rw [evaluate_board_pc_int32_eq _ _ _ hs]
    exact h4

/-- Witness of C12 (amended): with 2 own men against 5 and 0 own kings
against 1 both material terms are 0 and the score is 0. -/
theorem evaluate_board_pc_never_negative_witness :
    smallCounts ⟨2, 5, 0, 1⟩ ∧
    evaluate_board_pc_int32 ⟨2, 5, 0, 1⟩ lodicStart true = 0 ∧
    men_term_int32 ⟨2, 5, 0, 1⟩ true = 0 ∧ king_term_int32 ⟨2, 5, 0, 1⟩ true = 0 ∧
    (0 ≤ evaluate_board_pc_int32 ⟨2, 5, 0, 1⟩ lodicStart true ∧
      -1 < evaluate_board_pc_int32 ⟨2, 5, 0, 1⟩ lodicStart true ∧
      evaluate_board_pc_int32 ⟨2, 5, 0, 1⟩ lodicStart true =
        men_term_int32 ⟨2, 5, 0, 1⟩ true + king_term_int32 ⟨2, 5, 0, 1⟩ true +
          bonus_term lodicStart) :=
  ⟨by decide, by decide, by decide, by decide,
    evaluate_board_pc_never_negative.1 ⟨2, 5, 0, 1⟩ lodicStart true (by decide)⟩

/-- Counterexample to C12 as stated: with 200 000 000 black men and
133 333 333 black kings against no white piece both material terms are
positive, their sum does not fit an `int`, and the program returns the
negative score -294 967 301, which does not beat the running best `-1`. -/
theorem evaluate_board_pc_never_negative_counterexample :
    men_term_int32 ⟨0, 200000000, 0, 133333333⟩ false = 2000000000 ∧
    king_term_int32 ⟨0, 200000000, 0, 133333333⟩ false = 1999999995 ∧
    evaluate_board_pc_int32 ⟨0, 200000000, 0, 133333333⟩ lodicStart false = -294967301 ∧
    ¬ (0 ≤ evaluate_board_pc_int32 ⟨0, 200000000, 0, 133333333⟩ lodicStart false) ∧
    ¬ (evaluate_board_pc_int32 ⟨0, 200000000, 0, 133333333⟩ lodicStart false > -1) := by
  refine ⟨by decide, by decide, by decide, by decide, by decide⟩

/-! ## Capacity of the buffers of the player's move -/

/-- With more than 10 recorded outcomes the capture branch of `player_move`
has no defined result. -/
theorem player_move_kill_overflow (G : Globals) (wh : Position) (killer : Int × Int)
    (con : Console) (n : Nat)
    (h : (calculate_kill_moves chainFuel G (posAt killer.1 killer.2) G.lodic []).map
      (fun r => r.2.length) = some n) (hn : 10 < n) :
    player_move_kill G wh killer con = none := by
  simp only [Option.map_eq_some'] at h
  obtain ⟨r, hr, hl⟩ := h
  unfold player_move_kill
  simp only []
  unfold posAt at hr
  rw [hr]
  simp only [Option.some_bind]
  rw [if_pos (by omega)]

/-- C29 at a concrete state.  On `stateNet` (player to move, display drawn
from the board, counts and board in agreement) the board holds 9 enemy
pieces, no more than 12, and `calculate_kill_moves` records 16 outcomes for
the player man on C5: more than 12, and more than the 10 entries of the
arrays that `player_move` passes in.  Nothing limits the writes, so when the
player selects C5 `player_move` writes past its arrays and has no defined
result, whatever number is entered next. -/
theorem calculate_kill_moves_buffer_overflow :
    (stateNet.is_player_turn = true ∧ displayAgrees stateNet ∧ rankCensus stateNet ∧
      allPlayable stateNet.lodic ∧ stateNet.lodic.rd 3 2 = '2') ∧
    enemyCount true lodicNet = 9 ∧
    (calculate_kill_moves chainFuel stateNet (posAt 2 3) lodicNet []).map
      (fun r => r.2.length) = some 16 ∧
    (∀ (wh : Position) (con : Console), player_move_kill stateNet wh (2, 3) con = none) ∧
    (player_move ⟨[some ('c', '5')], [some 1], []⟩ stateNet).map (fun r => r.1) = none ∧
    (player_move ⟨[some ('c', '5')], [some 16], []⟩ stateNet).map (fun r => r.1) = none :=
  ⟨⟨by decide, by decide, by decide, by decide, by decide⟩, by decide,
    calculate_kill_moves_stateNet,
    fun wh con => player_move_kill_overflow stateNet wh (2, 3) con 16
      calculate_kill_moves_stateNet (by decide),
    by decide, by decide⟩


end Shashki
